import Mathlib

/-!
# AliHLTGlobalTrackMerger: matrix kernel, fusion and gating

Shallow embedding of `src/HLT/global/AliHLTGlobalTrackMerger.cxx`.

Modelling conventions.
* `Double_t` is read twice.  In the first embedding it is a linear ordered field `F`
  together with a square root function `sqrt : F → F` (the C library `sqrt`); the
  theorems instantiate `F := ℝ` and `sqrt := Real.sqrt`, i.e. they are statements in
  exact real arithmetic, without rounding, infinities or NaN.  In the second embedding
  (namespace `IEEE`) it is the type `Double` of IEEE 754 binary64 numbers, with every
  operation rounded to nearest; it is used to run the numerical kernel and the gate
  as the compiled code does.
* A `Double_t*` array is a function `Nat → F`; a pointer into the array is the
  `Nat` offset from its base.  Writing `*p = v` is `Function.update A p v`.
* `Int_t` loop counters and sizes are `Nat` (no overflow for the sizes used,
  `N = 5` in the callers); `NDF` is an `Int` kept in the 32-bit range by `wrapInt_t`.
* Every C loop is a `whileLoop` (or `doWhileLoop`) with the very test and body of
  the source.  Loops carry a fuel bound: running out of fuel is `none`, so that
  termination is a theorem and not a consequence of the encoding.
-/

namespace AliHLTGlobalTrackMerger

variable {F : Type} [LinearOrderedField F]

/-! ## Loop combinators -/

/-- C loop `while (cond) body` (also `for (...; cond; incr) body`, with the
increment appended to the body).  `none` when `fuel` tests were not enough. -/
def whileLoop {σ : Type} (cond : σ → Bool) (body : σ → Option σ) : Nat → σ → Option σ
  | 0, _ => none
  | fuel + 1, s => if cond s then (body s).bind (whileLoop cond body fuel) else some s

/-- C loop `do body while (test)`, where the test may have a side effect (such as
`(ij++) != ii`): `test` returns the truth value and the state after the test. -/
def doWhileLoop {σ : Type} (body : σ → Option σ) (test : σ → Bool × σ) : Nat → σ → Option σ
  | 0, _ => none
  | fuel + 1, s =>
    (body s).bind fun s1 =>
      if (test s1).1 then doWhileLoop body test fuel (test s1).2 else some (test s1).2

/-! ## Packed symmetric matrices -/

/-- Modelled from the spec: `IndexS` is declared inline in the class header, which is
not part of the sources at hand.  It is the packed lower-triangular index of the
unordered pair `i, j` in the layout `{c00, c10, c11, c20, c21, c22, ...}` documented
in the comment of `SmoothTracks`. -/
def IndexS (i j : Nat) : Nat :=
  if i ≥ j then ((i + 1) * i) / 2 + j else ((j + 1) * j) / 2 + i

/-- The constant `ZERO = 1.E-20` of `InvertS`. -/
def ZERO : F := 1 / 10 ^ 20

/-- The `Int_t` value left by an operation whose exact result is `x`: the 32-bit two's
complement register wraps around. -/
def wrapInt_t (x : Int) : Int := (x + 2147483648) % 4294967296 - 2147483648

/-! ## `InvertS`

The function is embedded block by block; each loop body (with the increment of its
`for` header) is a definition of its own, named after what the block does. -/

/-- Lines 439-443, body and increment of `for( Int_t step=1; step<=N-j; ik+=++step )`:
the entry of column `j` in row `j+step` is reduced by the dot product of the two rows
and scaled by `x = 1/sqrt(pivot)`.  State `(step, ik, A)`. -/
def InvertS.scaleStep (fuel j1 jj : Nat) (x : F) :
    Nat × Nat × (Nat → F) → Option (Nat × Nat × (Nat → F))
  | (step, ik, A) =>
    -- Double_t sum = 0;  for( Double_t *jk=j1; jk!=jj; sum += *(jk++) * *(ik++) );
    (whileLoop
      (fun ((jk, _, _) : Nat × Nat × F) => jk != jj)
      (fun (jk, ik, sum) => some (jk + 1, ik + 1, sum + A jk * A ik))
      fuel (j1, ik, 0)).bind fun (_, ik, sum) =>
    -- *ik = (*ik - sum) * x; // ik == Aij
    let A := Function.update A ik ((A ik - sum) * x)
    -- ik+=++step
    some (step + 1, ik + (step + 1), A)

/-- Lines 427-449, body and increment of `for( Int_t j=1; j<=N; j1+=j++, jj+=j )`:
one column of the Cholesky factorisation.  State `(j, j1, jj, A, ret)`. -/
def InvertS.factorStep (fuel : Nat) (sqrt : F → F) (N : Nat) :
    Nat × Nat × Nat × (Nat → F) × Bool → Option (Nat × Nat × Nat × (Nat → F) × Bool)
  | (j, j1, jj, A, ret) =>
    -- Double_t *ik = j1, x = 0;  while( ik!=jj ){ x -= (*ik) * (*ik); ik++; }
    (whileLoop
      (fun ((ik, _) : Nat × F) => ik != jj)
      (fun (ik, x) => some (ik + 1, x - A ik * A ik))
      fuel (j1, 0)).bind fun (ik, x) =>
    -- x += *ik;
    let x := x + A ik
    (if x > ZERO then
      -- x = sqrt(x); *ik = x; ik++; x = 1 / x;
      let x := sqrt x
      let A := Function.update A ik x
      let ik := ik + 1
      let x := 1 / x
      -- for( Int_t step=1; step<=N-j; ik+=++step ){ ... }
      (whileLoop
        (fun ((step, _, _) : Nat × Nat × (Nat → F)) => decide (step ≤ N - j))
        (InvertS.scaleStep fuel j1 jj x)
        fuel (1, ik, A)).bind fun (_, _, A) => some (A, ret)
    else
      -- Double_t *ji=jj;  for( Int_t i=j; i<N; i++ ) *(ji+=i) = 0.;  ret = 1;
      (whileLoop
        (fun ((i, _, _) : Nat × Nat × (Nat → F)) => decide (i < N))
        (fun (i, ji, A) => some (i + 1, ji + i, Function.update A (ji + i) 0))
        fuel (j, jj, A)).bind fun (_, _, A) => some (A, true)).bind fun (A, ret) =>
    -- j1+=j++, jj+=j
    some (j + 1, j1 + j, jj + (j + 1), A, ret)

/-- First block of `InvertS` (lines 425-450): in-place Cholesky factorisation
`A -> L` with `A = L x L^T`, started with the flag `ret0`. -/
def InvertS.factor (fuel : Nat) (sqrt : F → F) (N : Nat) (A0 : Nat → F) (ret0 : Bool) :
    Option ((Nat → F) × Bool) :=
  -- Double_t *j1 = A, *jj = A;  for( Int_t j=1; j<=N; j1+=j++, jj+=j ){ ... }
  (whileLoop
    (fun ((j, _, _, _, _) : Nat × Nat × Nat × (Nat → F) × Bool) => decide (j ≤ N))
    (InvertS.factorStep fuel sqrt N)
    fuel (1, 0, 0, A0, ret0)).bind fun (_, _, _, A, ret) => some (A, ret)

/-- Lines 466-472, body and increment of `for( Int_t j=1; j<i; jj+=++j, ij++ )`: entry
`j` of row `i` of the inverse of the triangular factor; `x = -1/A_ii`.
State `(j, jj, ij, A)`. -/
def InvertS.invertEntry (fuel ii : Nat) (x : F) :
    Nat × Nat × Nat × (Nat → F) → Option (Nat × Nat × Nat × (Nat → F))
  | (j, jj, ij, A) =>
    -- Double_t *ik = ij, *kj = jj, sum = 0.;
    -- for( Int_t k=j; ik!=ii; kj+=k++, ik++ ){ sum += *ik * *kj; }
    (whileLoop
      (fun ((_, ik, _, _) : Nat × Nat × Nat × F) => ik != ii)
      (fun (k, ik, kj, sum) => some (k + 1, ik + 1, kj + k, sum + A ik * A kj))
      fuel (j, ij, jj, 0)).bind fun (_, _, kj, sum) =>
    -- *kj = sum * x;
    let A := Function.update A kj (sum * x)
    -- jj+=++j, ij++
    some (j + 1, jj + (j + 1), ij + 1, A)

/-- Lines 461-480, body and increment of `for( Int_t i = 1; i<=N; ij=ii+1, ii+=++i )`:
one row of the inverse of the triangular factor.  State `(i, ii, ij, A, ret)`. -/
def InvertS.invertStep (fuel : Nat) :
    Nat × Nat × Nat × (Nat → F) × Bool → Option (Nat × Nat × Nat × (Nat → F) × Bool)
  | (i, ii, ij, A, ret) =>
    (if A ii > ZERO then
      -- Double_t x = -(*ii = 1./ *ii);
      let A := Function.update A ii (1 / A ii)
      let x := -(A ii)
      -- Double_t *jj = A;  for( Int_t j=1; j<i; jj+=++j, ij++ ){ ... }
      (whileLoop
        (fun ((j, _, _, _) : Nat × Nat × Nat × (Nat → F)) => decide (j < i))
        (InvertS.invertEntry fuel ii x)
        fuel (1, 0, ij, A)).bind fun (_, _, _, A) => some (A, ret)
    else
      -- for( Double_t *ik = ij; ik!=ii+1; ik++ ){ *ik = 0.; }  ret = 1;
      (whileLoop
        (fun ((ik, _) : Nat × (Nat → F)) => ik != ii + 1)
        (fun (ik, A) => some (ik + 1, Function.update A ik 0))
        fuel (ij, A)).bind fun (_, A) => some (A, true)).bind fun (A, ret) =>
    -- ij=ii+1, ii+=++i
    some (i + 1, ii + (i + 1), ii + 1, A, ret)

/-- Second block of `InvertS` (lines 459-481): in-place inversion of the triangular
factor, started with the flag `ret0`. -/
def InvertS.invertFactor (fuel : Nat) (N : Nat) (A0 : Nat → F) (ret0 : Bool) :
    Option ((Nat → F) × Bool) :=
  -- Double_t *ii=A,*ij=A;  for( Int_t i = 1; i<=N; ij=ii+1, ii+=++i ){ ... }
  (whileLoop
    (fun ((i, _, _, _, _) : Nat × Nat × Nat × (Nat → F) × Bool) => decide (i ≤ N))
    (InvertS.invertStep fuel)
    fuel (1, 0, 0, A0, ret0)).bind fun (_, _, _, A, ret) => some (A, ret)

/-- Lines 491-493, body of `do{ ... }while( (ij++)!=ii )`: one entry of `A^T x A`.
State `(ij, A)`. -/
def InvertS.productEntry (fuel N i ii : Nat) : Nat × (Nat → F) → Option (Nat × (Nat → F))
  | (ij, A) =>
    -- Double_t *ki = ii, *kj = ij, sum = 0.;
    -- for( Int_t k=i; k<=N; ki+=k, kj+=k++ ) sum += (*ki) * (*kj);
    (whileLoop
      (fun ((k, _, _, _) : Nat × Nat × Nat × F) => decide (k ≤ N))
      (fun (k, ki, kj, sum) => some (k + 1, ki + k, kj + k, sum + A ki * A kj))
      fuel (i, ii, ij, 0)).bind fun (_, _, _, sum) =>
    -- *ij = sum;
    some (ij, Function.update A ij sum)

/-- Lines 489-495, body and increment of `for( Int_t i=1; i<=N; ii+=++i )`: one row of
`A^T x A`.  State `(i, ii, ij, A)`. -/
def InvertS.productStep (fuel N : Nat) :
    Nat × Nat × Nat × (Nat → F) → Option (Nat × Nat × Nat × (Nat → F))
  | (i, ii, ij, A) =>
    -- do{ ... }while( (ij++)!=ii );
    (doWhileLoop
      (InvertS.productEntry fuel N i ii)
      (fun ((ij, A) : Nat × (Nat → F)) => (ij != ii, (ij + 1, A)))
      fuel (ij, A)).bind fun (ij, A) =>
    -- ii+=++i
    some (i + 1, ii + (i + 1), ij, A)

/-- Third block of `InvertS` (lines 487-496): `A -> A^T x A` on the packed
triangle. -/
def InvertS.transposeTimesSelf (fuel : Nat) (N : Nat) (A0 : Nat → F) : Option (Nat → F) :=
  -- Double_t *ii=A, *ij=A;  for( Int_t i=1; i<=N; ii+=++i ){ ... }
  (whileLoop
    (fun ((i, _, _, _) : Nat × Nat × Nat × (Nat → F)) => decide (i ≤ N))
    (InvertS.productStep fuel N)
    fuel (1, 0, 0, A0)).bind fun (_, _, _, A) => some A

/-- The function `InvertS( Double_t A[], Int_t N )`: returns the error flag
(`false` is 0, `true` is 1) and the array after the call. -/
def InvertS (fuel : Nat) (sqrt : F → F) (A : Nat → F) (N : Nat) : Option (Bool × (Nat → F)) :=
  -- Bool_t ret = 0;
  (InvertS.factor fuel sqrt N A false).bind fun (A, ret) =>
  (InvertS.invertFactor fuel N A ret).bind fun (A, ret) =>
  (InvertS.transposeTimesSelf fuel N A).bind fun A =>
  -- return ret;
  some (ret, A)

/-! ## `MultSSQ` and `SmoothTracks` -/

/-- The function `MultSSQ( const Double_t *A, const Double_t *B, Double_t *C, Int_t N )`;
returns the array `C` after the call.  State of the outer loop: `(ind, i, C)`. -/
def MultSSQ (fuel : Nat) (A B C0 : Nat → F) (N : Nat) : Option (Nat → F) :=
  -- for( Int_t ind=0, i=0; i<N; ++i )
  (whileLoop
    (fun (_, i, _) => decide (i < N))
    (fun ((ind, i, C) : Nat × Nat × (Nat → F)) =>
      -- for( Int_t j=0; j<N; ++j, ++ind )
      (whileLoop
        (fun ((_, j, _) : Nat × Nat × (Nat → F)) => decide (j < N))
        (fun (ind, j, C) =>
          -- C[ind] = 0;
          let C := Function.update C ind 0
          -- for( Int_t k=0; k<N; ++k ) C[ind] += A[IndexS(i,k)] * B[IndexS(k,j)];
          (whileLoop
            (fun ((k, _) : Nat × (Nat → F)) => decide (k < N))
            (fun (k, C) =>
              some (k + 1, Function.update C ind (C ind + A (IndexS i k) * B (IndexS k j))))
            fuel (0, C)).bind fun (_, C) =>
          some (ind + 1, j + 1, C))
        fuel (ind, 0, C)).bind fun (ind, _, C) =>
      some (ind, i + 1, C))
    fuel (0, 0, C0)).bind fun (_, _, C) => some C

/-- The function `SmoothTracks(T1, C1, Chi21, NDF1, T2, C2, Chi22, NDF2, T, C, Chi2, NDF, N)`
called with output buffers `T`, `C` that do not overlap the (const) inputs.  The
arguments `T`, `C`, `Chi2`, `NDF` are the contents of the output locations before the
call; the result is the error flag (`false` is 0, `true` is 1) and the contents
`(T, C, Chi2, NDF)` of the output locations after the call.  The local arrays
`A[M]`, `K[N*N]`, `r[N]` start out as the zero function. -/
def SmoothTracks (fuel : Nat) (sqrt : F → F)
    (T1 C1 : Nat → F) (Chi21 : F) (NDF1 : Int)
    (T2 C2 : Nat → F) (Chi22 : F) (NDF2 : Int)
    (T C : Nat → F) (Chi2 : F) (NDF : Int) (N : Nat) :
    Option (Bool × (Nat → F) × (Nat → F) × F × Int) :=
  -- Int_t M = N*(N+1)/2;
  let M := N * (N + 1) / 2
  -- for(Int_t k=0; k<M; k++) A[k] = C1[k] + C2[k];
  (whileLoop
    (fun ((k, _) : Nat × (Nat → F)) => decide (k < M))
    (fun (k, A) => some (k + 1, Function.update A k (C1 k + C2 k)))
    fuel (0, (fun _ => 0 : Nat → F))).bind fun (_, A) =>
  -- Bool_t err = InvertS(A,N);
  (InvertS fuel sqrt A N).bind fun (err, A) =>
  -- if( err ) return 1;
  if err then some (true, T, C, Chi2, NDF) else
  -- Chi2 = Chi21 + Chi22;  NDF = NDF1 + NDF2;
  let Chi2 := Chi21 + Chi22
  let NDF := wrapInt_t (NDF1 + NDF2)
  -- MultSSQ( C1, A, K, N);
  (MultSSQ fuel C1 A (fun _ => (0 : F)) N).bind fun K =>
  -- for( Int_t k=0; k<N;k++) r[k] = T1[k] - T2[k];
  (whileLoop
    (fun ((k, _) : Nat × (Nat → F)) => decide (k < N))
    (fun (k, r) => some (k + 1, Function.update r k (T1 k - T2 k)))
    fuel (0, (fun _ => 0 : Nat → F))).bind fun (_, r) =>
  -- for( Int_t k=0; k<N;k++ ) for( Int_t l=0;l<N;l++) T[k] = T1[k] - K[k*N+l]*r[l];
  (whileLoop
    (fun ((k, _) : Nat × (Nat → F)) => decide (k < N))
    (fun (k, T) =>
      (whileLoop
        (fun ((l, _) : Nat × (Nat → F)) => decide (l < N))
        (fun (l, T) => some (l + 1, Function.update T k (T1 k - K (k * N + l) * r l)))
        fuel (0, T)).bind fun (_, T) =>
      some (k + 1, T))
    fuel (0, T)).bind fun (_, T) =>
  -- for( Int_t ind=0,i=0; i<N; i++ ){
  (whileLoop
    (fun ((_, i, _) : Nat × Nat × F) => decide (i < N))
    (fun (ind, i, Chi2) =>
      -- for( Int_t j=0; j<i; j++ ) Chi2+= 2*r[i]*r[j]*A[ind++];
      (whileLoop
        (fun ((_, j, _) : Nat × Nat × F) => decide (j < i))
        (fun (ind, j, Chi2) => some (ind + 1, j + 1, Chi2 + 2 * r i * r j * A ind))
        fuel (ind, 0, Chi2)).bind fun (ind, _, Chi2) =>
      -- Chi2+= r[i]*r[i]*A[ind++];
      some (ind + 1, i + 1, Chi2 + r i * r i * A ind))
    fuel (0, 0, Chi2)).bind fun (_, _, Chi2) =>
  -- NDF+=N;
  let NDF := wrapInt_t (NDF + (N : Int))
  -- for( Int_t l=0; l<N; l++ ) K[ (N+1)*l ] -= 1;
  (whileLoop
    (fun ((l, _) : Nat × (Nat → F)) => decide (l < N))
    (fun (l, K) => some (l + 1, Function.update K ((N + 1) * l) (K ((N + 1) * l) - 1)))
    fuel (0, K)).bind fun (_, K) =>
  -- for( Int_t ind = 0, l=0; l<N; ++l ){
  (whileLoop
    (fun ((_, l, _) : Nat × Nat × (Nat → F)) => decide (l < N))
    (fun (ind, l, A) =>
      -- for( Int_t j=0; j<=l; ++j, ind++ ){
      (whileLoop
        (fun ((_, j, _) : Nat × Nat × (Nat → F)) => decide (j ≤ l))
        (fun (ind, j, A) =>
          -- A[ind] = 0;
          let A := Function.update A ind 0
          -- for( Int_t k=0; k<N; ++k ) A[ind] -= K[l*N+k] * C1[IndexS(j,k)];
          (whileLoop
            (fun ((k, _) : Nat × (Nat → F)) => decide (k < N))
            (fun (k, A) =>
              some (k + 1, Function.update A ind (A ind - K (l * N + k) * C1 (IndexS j k))))
            fuel (0, A)).bind fun (_, A) =>
          some (ind + 1, j + 1, A))
        fuel (ind, 0, A)).bind fun (ind, _, A) =>
      some (ind, l + 1, A))
    fuel (0, 0, A)).bind fun (_, _, A) =>
  -- for( Int_t l=0; l<N; l++ ) C[l] = A[l];
  (whileLoop
    (fun ((l, _) : Nat × (Nat → F)) => decide (l < N))
    (fun (l, C) => some (l + 1, Function.update C l (A l)))
    fuel (0, C)).bind fun (_, C) =>
  -- return 0;
  some (false, T, C, Chi2, NDF)

/-! ## Gating: `SetParameter` and `MatchTracks` -/

/-- Modelled from the spec: the part of `AliESDtrack` read by the gate.  The class is
declared outside the sources at hand; `fP` is the parameter vector returned by
`GetParameter()`, holding (in this order) the two offsets `Y`, `Z`, the direction
sine `Snp`, the slope `Tgl` and the signed inverse transverse momentum. -/
structure AliESDtrack (F : Type) where
  /-- The five track parameters `fP[0..4]`. -/
  fP : Nat → F

/-- Getter `GetY()`. -/
def AliESDtrack.GetY (t : AliESDtrack F) : F := t.fP 0

/-- Getter `GetZ()`. -/
def AliESDtrack.GetZ (t : AliESDtrack F) : F := t.fP 1

/-- Getter `GetSnp()`. -/
def AliESDtrack.GetSnp (t : AliESDtrack F) : F := t.fP 2

/-- Getter `GetTgl()`. -/
def AliESDtrack.GetTgl (t : AliESDtrack F) : F := t.fP 3

/-- Getter `GetSigned1Pt()`. -/
def AliESDtrack.GetSigned1Pt (t : AliESDtrack F) : F := t.fP 4

/-- The data members of `AliHLTGlobalTrackMerger` read by the gate. -/
structure Merger (F : Type) where
  fMaxY : F
  fMaxZ : F
  fMaxSnp : F
  fMaxTgl : F
  fMaxSigned1Pt : F

/-- The default constructor (lines 46-60): all five thresholds are `0.0`. -/
def Merger.default : Merger F :=
  { fMaxY := 0, fMaxZ := 0, fMaxSnp := 0, fMaxTgl := 0, fMaxSigned1Pt := 0 }

/-- The function `SetParameter(maxy, maxz, maxsnp, maxtgl, signed1Pt)`. -/
def SetParameter (_m : Merger F) (maxy maxz maxsnp maxtgl signed1Pt : F) : Merger F :=
  { fMaxY := maxy, fMaxZ := maxz, fMaxSnp := maxsnp, fMaxTgl := maxtgl,
    fMaxSigned1Pt := signed1Pt }

/-- The function `MatchTracks(trackTPC, trackTRD)`; a null pointer is `none`. -/
def MatchTracks (m : Merger F) (trackTPC trackTRD : Option (AliESDtrack F)) : Bool :=
  match trackTPC with
  | none => false        -- if(!trackTPC) return kFALSE;
  | some a =>
    match trackTRD with
    | none => false      -- if(!trackTRD) return kFALSE;
    | some b =>
      if |a.GetY - b.GetY| > m.fMaxY then false
      else if |a.GetZ - b.GetZ| > m.fMaxZ then false
      else if |a.GetSnp - b.GetSnp| > m.fMaxSnp then false
      else if |a.GetTgl - b.GetTgl| > m.fMaxTgl then false
      else if |a.GetSigned1Pt - b.GetSigned1Pt| > m.fMaxSigned1Pt then false
      else true

/-! ## Specification-level notions -/

/-- Offset of the first entry of row `i` (0-based) of a packed lower triangle. -/
def tri (i : Nat) : Nat := i * (i + 1) / 2

/-- Specification of the Cholesky factor, column by column: `cholCols sqrt a n i k` is
the entry `L_ik` of the factor of the packed matrix `a` for a column `k < n` (and `0`
for a column not yet computed).  Column `n` is obtained from the columns before it:
the pivot is `x_n = a_nn - sum_{m<n} L_nm^2`, the diagonal entry is `sqrt(x_n)` and
the entry in row `i` is `(a_in - sum_{m<n} L_nm L_im) / sqrt(x_n)`. -/
def cholCols (sqrt : F → F) (a : Nat → F) : Nat → Nat → Nat → F
  | 0, _, _ => 0
  | n + 1, i, k =>
    if k = n then
      if i = n then
        sqrt (a (tri n + n) - ∑ m in Finset.range n, cholCols sqrt a n n m * cholCols sqrt a n n m)
      else
        (a (tri i + n) - ∑ m in Finset.range n, cholCols sqrt a n n m * cholCols sqrt a n i m)
          / sqrt (a (tri n + n)
              - ∑ m in Finset.range n, cholCols sqrt a n n m * cholCols sqrt a n n m)
    else cholCols sqrt a n i k

/-- The pivot of column `c` (0-based) of the Cholesky factorisation of the packed
matrix `a`: `x_c = a_cc - sum_{m<c} L_cm^2`. -/
def cholPivot (sqrt : F → F) (a : Nat → F) (c : Nat) : F :=
  a (tri c + c) - ∑ m in Finset.range c, cholCols sqrt a c c m * cholCols sqrt a c c m


/-- The symmetric `N x N` matrix stored in the packed array `A`
(`{a00, a10, a11, a20, ...}`): entry `(i, j)` is `A[IndexS(i,j)]`. -/
def toMatrix (N : Nat) (A : Nat → F) : Matrix (Fin N) (Fin N) F :=
  Matrix.of fun i j => A (IndexS i j)

/-- The lower-triangular `N x N` matrix stored in the packed array `A`: entry
`(i, j)` is `A[i(i+1)/2 + j]` for `j <= i` and `0` above the diagonal. -/
def toLower (N : Nat) (A : Nat → F) : Matrix (Fin N) (Fin N) F :=
  Matrix.of fun i j => if (j : Nat) ≤ (i : Nat) then A (tri i + j) else 0

/-- The array holding the entries of the list `l` (and `0` beyond its end); used to
write down concrete inputs. -/
def ofList (l : List F) : Nat → F := fun i => l.getD i 0

/-- The computation `x` returns a result that satisfies `P`. -/
def Returns {α : Type} (x : Option α) (P : α → Prop) : Prop := ∃ a, x = some a ∧ P a

/-- The local array `A` of `SmoothTracks` after the loop
`for(k=0; k<M; k++) A[k] = C1[k] + C2[k];` with `M = N*(N+1)/2`. -/
def sumPacked (N : Nat) (C1 C2 : Nat → F) : Nat → F :=
  fun k => if k < N * (N + 1) / 2 then C1 k + C2 k else 0

/-- The entry `K[i*N+j]` written by `MultSSQ( C1, A, K, N )`: the gain matrix. -/
def gain (N : Nat) (C1 A : Nat → F) (i j : Nat) : F :=
  ∑ k in Finset.range N, C1 (IndexS i k) * A (IndexS k j)

/-- The sum added to `Chi2` by the loop of lines 381-384 of `SmoothTracks`: the
off-diagonal entries of the packed array `A` count twice. -/
def chi2Packed (N : Nat) (r A : Nat → F) : F :=
  ∑ i in Finset.range N,
    (∑ j in Finset.range i, 2 * r i * r j * A (tri i + j) + r i * r i * A (tri i + i))

/-- The value computed for position `(i, j)` of the packed covariance by the loop of
lines 389-394 of `SmoothTracks`, after `K[(N+1)*l] -= 1`. -/
def covEntry (N : Nat) (C1 A : Nat → F) (i j : Nat) : F :=
  0 - ∑ k in Finset.range N, (gain N C1 A i k - if i = k then 1 else 0) * C1 (IndexS j k)

/-! ## Tracks, events and the external collaborators of the orchestrator

The classes `AliExternalTrackParam`, `AliESDtrack`, `AliESDEvent`, `AliTracker`,
`AliTRDtrackV1`, `AliHLTTPCTrack` and the two track collections are declared outside
the sources at hand.  Their data members are modelled from the spec; the operations
whose body matters (the propagator, the vertex relation, the conversions of the
detector tracks, the flag constants) are fields of an environment, so that every
theorem holds for all of them. -/

/-- Modelled from the spec: the data members of `AliExternalTrackParam`, the base class
of `AliESDtrack`: reference `x`, frame angle `alpha`, the five parameters and their
packed covariance.  This is the state the propagator advances in place. -/
structure ExternalTrackParam (F : Type) where
  fX : F
  fAlpha : F
  fP : Nat → F
  fC : Nat → F

/-- Modelled from the spec: an `AliESDtrack` object.  It extends the part read by the
gate (`fP`) with the rest of the state estimate (`fX`, `fAlpha`, `fC`), the status
flags, the label, the fit qualities, the identification arrays of the two detectors,
the recorded TPC points and the mass hypothesis returned by `GetMass()`. -/
structure ESDtrack (F : Type) extends AliESDtrack F where
  fX : F
  fAlpha : F
  fC : Nat → F
  fFlags : Nat
  fLabel : Int
  fTPCchi2 : F
  fTRDchi2 : F
  fGlobalChi2 : F
  fTPCr : Nat → F
  fTRDr : Nat → F
  fTPCPoints : Nat → F
  fMass : F

/-- The `AliExternalTrackParam` sub-object of a track. -/
def ESDtrack.ext (t : ESDtrack F) : ExternalTrackParam F :=
  { fX := t.fX, fAlpha := t.fAlpha, fP := t.fP, fC := t.fC }

/-- The track `t` after its `AliExternalTrackParam` sub-object has been overwritten. -/
def ESDtrack.withExt (t : ESDtrack F) (e : ExternalTrackParam F) : ESDtrack F :=
  { t with fX := e.fX, fAlpha := e.fAlpha, fP := e.fP, fC := e.fC }

/-- Modelled from the spec: a default-constructed `AliESDtrack` (all members zero). -/
def ESDtrack.default : ESDtrack F :=
  { fP := fun _ => 0, fX := 0, fAlpha := 0, fC := fun _ => 0, fFlags := 0, fLabel := 0,
    fTPCchi2 := 0, fTRDchi2 := 0, fGlobalChi2 := 0, fTPCr := fun _ => 0,
    fTRDr := fun _ => 0, fTPCPoints := fun _ => 0, fMass := 0 }

/-- Modelled from the spec: an `AliESDEvent`, as far as the merger uses it: the track
store (`GetTrack(i)`, a null entry is `none`), `GetNumberOfTracks()` and the magnetic
field. -/
structure ESDEvent (F : Type) where
  fTracks : Nat → Option (ESDtrack F)
  fNTracks : Nat
  fMagneticField : F

/-- Modelled from the spec: `AliESDEvent::AddTrack`, which appends a copy of the track
to the store. -/
def ESDEvent.AddTrack (ev : ESDEvent F) (t : ESDtrack F) : ESDEvent F :=
  { ev with fTracks := Function.update ev.fTracks ev.fNTracks (some t),
            fNTracks := ev.fNTracks + 1 }

/-- The external collaborators and constants of the merger.
* `kTPCin`, `kTRDin`, `kGlobalMerge`: status bits of `AliESDtrack`;
* `kSPECIES`: length of the identification arrays; `kVeryBig`: the tolerance passed to
  `RelateToVertex`;
* `PropagateTrackTo e x mass maxStep rotateTo`: `AliTracker::PropagateTrackTo`, which
  advances the `AliExternalTrackParam` it is handed and reports success;
* `RelateToVertex t vtx b maxd`: the track after `AliESDtrack::RelateToVertex`. -/
structure Env (F V : Type) where
  kTPCin : Nat
  kTRDin : Nat
  kGlobalMerge : Nat
  kSPECIES : Nat
  kVeryBig : F
  PropagateTrackTo : ExternalTrackParam F → F → F → F → Bool → Bool × ExternalTrackParam F
  RelateToVertex : ESDtrack F → V → F → F → ESDtrack F

/-- The call `AliTracker::PropagateTrackTo(track, x, track->GetMass(), kMaxStep, kFALSE)`
with `kMaxStep = 10.0`, on the track stored at index `idx` of the event: returns `isOk`
and the event after the in-place update of that track.  (The pointer is non-null
wherever the source makes this call; for a null entry nothing happens.) -/
def ESDEvent.PropagateTrackTo {V : Type} (env : Env F V) (ev : ESDEvent F) (idx : Nat) (x : F) :
    Bool × ESDEvent F :=
  match ev.fTracks idx with
  | none => (false, ev)
  | some t =>
    let r := env.PropagateTrackTo t.ext x t.fMass 10 false
    (r.1, { ev with fTracks := Function.update ev.fTracks idx (some (t.withExt r.2)) })

/-- Record of the calls made by `Merge`, in program order (a ghost output of the
embedding).  `i` is the index `iTrack` of the TPC track, `j` the index `jTrack` of the
TRD track, `x` the radius requested. -/
inductive MergeCall (F : Type) where
  /-- Line 187: propagation of the TPC track to the matching radius. -/
  | matchRadiusA (i : Nat) (x : F) (ok : Bool)
  /-- Line 203: propagation of the TRD track to the matching radius. -/
  | matchRadiusB (i j : Nat) (x : F) (ok : Bool)
  /-- Line 209: the gate `MatchTracks(tpcTrack, trdTrack)`. -/
  | gate (i j : Nat) (matched : Bool)
  /-- Line 217: propagation of the TPC track to the merging radius. -/
  | mergeRadiusA (i j : Nat) (x : F) (ok : Bool)
  /-- Line 220: propagation of the TRD track to the merging radius. -/
  | mergeRadiusB (i j : Nat) (x : F) (ok : Bool)
  /-- Line 229: the fusion `MergeTracks(tpcTrack, trdTrack, esdEvent)`. -/
  | fuse (i j : Nat) (merged : Bool)

/-- The indeterminate initial contents of the uninitialised locals
`trackParam[5]`, `trackCovar[15]`, `trackChi2`, `trackNDF` of `MergeTracks`. -/
structure MergeLocals (F : Type) where
  trackParam : Nat → F
  trackCovar : Nat → F
  trackChi2 : F
  trackNDF : Int

/-! ## `MergeTracks` and `Merge` -/

/-- The call of `SmoothTracks` made by `MergeTracks` (lines 270-272). -/
def MergeTracks.smooth (fuel : Nat) (sqrt : F → F) (loc : MergeLocals F)
    (tpcTrack trdTrack : ESDtrack F) : Option (Bool × (Nat → F) × (Nat → F) × F × Int) :=
  SmoothTracks fuel sqrt tpcTrack.fP tpcTrack.fC tpcTrack.fTPCchi2 5
    trdTrack.fP trdTrack.fC trdTrack.fTRDchi2 5
    loc.trackParam loc.trackCovar loc.trackChi2 loc.trackNDF 5

/-- The `AliESDtrack` built by lines 282-299 of `MergeTracks` from the two tracks and
the outputs of `SmoothTracks`.  The setters of `AliESDtrack` are modelled from the spec
as assignments of the named members: `SetStatus` ors the flag into the status, `Set`
copies `x`, `alpha`, 5 parameters and 15 covariance entries, `SetTPCpid`/`SetTRDpid`
copy `kSPECIES` values. -/
def MergeTracks.newTrack {V : Type} (env : Env F V) (tpcTrack trdTrack : ESDtrack F)
    (trackParam trackCovar : Nat → F) (trackChi2 : F) : ESDtrack F :=
  -- AliESDtrack track;
  let track : ESDtrack F := ESDtrack.default
  -- track.SetStatus(AliESDtrack::kGlobalMerge);
  let track := { track with fFlags := track.fFlags ||| env.kGlobalMerge }
  -- track.SetLabel(tpcTrack->GetLabel());
  let track := { track with fLabel := tpcTrack.fLabel }
  -- track.Set(tpcTrack->GetX(),tpcTrack->GetAlpha(),trackParam,trackCovar);
  let track := { track with
    fX := tpcTrack.fX, fAlpha := tpcTrack.fAlpha,
    fP := fun k => if k < 5 then trackParam k else track.fP k,
    fC := fun k => if k < 15 then trackCovar k else track.fC k }
  -- track.SetGlobalChi2(trackChi2);
  let track := { track with fGlobalChi2 := trackChi2 }
  -- tpcTrack->GetTPCpid(tpcPID);  track.SetTPCpid(tpcPID);
  let track := { track with
    fTPCr := fun k => if k < env.kSPECIES then tpcTrack.fTPCr k else track.fTPCr k }
  -- trdTrack->GetTRDpid(trdPID);  track.SetTRDpid(trdPID);
  let track := { track with
    fTRDr := fun k => if k < env.kSPECIES then trdTrack.fTRDr k else track.fTRDr k }
  track

/-- The function `MergeTracks(tpcTrack, trdTrack, esdEvent)` (lines 239-308); a null
track pointer is `none`.  Returns `isMerged` and the event after the call. -/
def MergeTracks {V : Type} (fuel : Nat) (sqrt : F → F) (env : Env F V) (loc : MergeLocals F)
    (tpcTrack trdTrack : Option (ESDtrack F)) (esdEvent : ESDEvent F) :
    Option (Bool × ESDEvent F) :=
  match tpcTrack with
  | none => some (false, esdEvent)        -- if(!tpcTrack) return kFALSE;
  | some tpc =>
    match trdTrack with
    | none => some (false, esdEvent)      -- if(!trdTrack) return kFALSE;
    | some trd =>
      -- Bool_t isNotOK = SmoothTracks(...);
      (MergeTracks.smooth fuel sqrt loc tpc trd).bind
        fun (isNotOK, trackParam, trackCovar, trackChi2, _) =>
      -- if(isNotOK) return kFALSE;
      if isNotOK then some (false, esdEvent) else
      -- esdEvent->AddTrack(&track);  return kTRUE;
      some (true,
        esdEvent.AddTrack (MergeTracks.newTrack env tpc trd trackParam trackCovar trackChi2))

/-- Lines 194-230, body and increment of the loop over `jTrack` of `Merge`, for the TPC
track at index `iTrack`.  State `(jTrack, esdEvent, log)`. -/
def Merge.pairStep {V : Type} (fuel : Nat) (sqrt : F → F) (env : Env F V) (m : Merger F)
    (loc : MergeLocals F) (iTrack : Nat) (kMergeRadius : F) :
    Nat × ESDEvent F × List (MergeCall F) → Option (Nat × ESDEvent F × List (MergeCall F))
  | (jTrack, ev, log) =>
    -- AliESDtrack *track = esdEvent->GetTrack(jTrack);  if(!track) continue;
    match ev.fTracks jTrack with
    | none => some (jTrack + 1, ev, log)
    | some track =>
      -- if((track->GetStatus()&AliESDtrack::kTRDin)==0) continue;
      if track.fFlags &&& env.kTRDin = 0 then some (jTrack + 1, ev, log) else
      -- isOk = AliTracker::PropagateTrackTo(trdTrack,kMatchRadius,...);  if(!isOk) continue;
      let r := ev.PropagateTrackTo env jTrack 285
      let ev := r.2
      let log := log ++ [MergeCall.matchRadiusB iTrack jTrack 285 r.1]
      if r.1 = false then some (jTrack + 1, ev, log) else
      -- isMatched = MatchTracks(tpcTrack,trdTrack);  if(!isMatched) continue;
      let isMatched := MatchTracks m ((ev.fTracks iTrack).map ESDtrack.toAliESDtrack)
        ((ev.fTracks jTrack).map ESDtrack.toAliESDtrack)
      let log := log ++ [MergeCall.gate iTrack jTrack isMatched]
      if isMatched = false then some (jTrack + 1, ev, log) else
      -- isOk = AliTracker::PropagateTrackTo(tpcTrack,kMergeRadius,...);  if(!isOk) continue;
      let r := ev.PropagateTrackTo env iTrack kMergeRadius
      let ev := r.2
      let log := log ++ [MergeCall.mergeRadiusA iTrack jTrack kMergeRadius r.1]
      if r.1 = false then some (jTrack + 1, ev, log) else
      -- isOk = AliTracker::PropagateTrackTo(trdTrack,kMergeRadius,...);  if(!isOk) continue;
      let r := ev.PropagateTrackTo env jTrack kMergeRadius
      let ev := r.2
      let log := log ++ [MergeCall.mergeRadiusB iTrack jTrack kMergeRadius r.1]
      if r.1 = false then some (jTrack + 1, ev, log) else
      -- Bool_t isMerged = MergeTracks(tpcTrack,trdTrack,esdEvent);
      (MergeTracks fuel sqrt env loc (ev.fTracks iTrack) (ev.fTracks jTrack) ev).bind
        fun (isMerged, ev) =>
      some (jTrack + 1, ev, log ++ [MergeCall.fuse iTrack jTrack isMerged])

/-- Lines 171-232, body and increment of the loop over `iTrack` of `Merge`; `nTracks` is
the number of tracks read on entry.  State `(iTrack, esdEvent, log)`. -/
def Merge.trackStep {V : Type} (fuel : Nat) (sqrt : F → F) (env : Env F V) (m : Merger F)
    (loc : MergeLocals F) (nTracks : Nat) :
    Nat × ESDEvent F × List (MergeCall F) → Option (Nat × ESDEvent F × List (MergeCall F))
  | (iTrack, ev, log) =>
    -- AliESDtrack *track = esdEvent->GetTrack(iTrack);  if(!track) continue;
    match ev.fTracks iTrack with
    | none => some (iTrack + 1, ev, log)
    | some track =>
      -- if((track->GetStatus()&AliESDtrack::kTPCin)==0) continue;
      if track.fFlags &&& env.kTPCin = 0 then some (iTrack + 1, ev, log) else
      -- kMergeRadius = tpcTrack->GetTPCPoints(0);
      let kMergeRadius := track.fTPCPoints 0
      -- isOk = AliTracker::PropagateTrackTo(tpcTrack,kMatchRadius,...);  if(!isOk) continue;
      let r := ev.PropagateTrackTo env iTrack 285
      let ev := r.2
      let log := log ++ [MergeCall.matchRadiusA iTrack 285 r.1]
      if r.1 = false then some (iTrack + 1, ev, log) else
      -- for(Int_t jTrack = 0; jTrack<nTracks; ++jTrack) { ... }
      (whileLoop
        (fun ((jTrack, _, _) : Nat × ESDEvent F × List (MergeCall F)) => decide (jTrack < nTracks))
        (Merge.pairStep fuel sqrt env m loc iTrack kMergeRadius)
        fuel (0, ev, log)).bind fun (_, ev, log) =>
      some (iTrack + 1, ev, log)

/-- The function `Merge(esdEvent)` (lines 147-236); a null event is `none`.  Returns the
Boolean result, the event after the call and the record of the calls made. -/
def Merge {V : Type} (fuel : Nat) (sqrt : F → F) (env : Env F V) (m : Merger F)
    (loc : MergeLocals F) (esdEvent : Option (ESDEvent F)) :
    Option (Bool × Option (ESDEvent F) × List (MergeCall F)) :=
  match esdEvent with
  | none => some (false, none, [])      -- if(!esdEvent) return kFALSE;
  | some ev =>
    -- Int_t nTracks = esdEvent->GetNumberOfTracks();
    let nTracks := ev.fNTracks
    -- for(Int_t iTrack = 0; iTrack<nTracks; ++iTrack) { ... }
    (whileLoop
      (fun ((iTrack, _, _) : Nat × ESDEvent F × List (MergeCall F)) => decide (iTrack < nTracks))
      (Merge.trackStep fuel sqrt env m loc nTracks)
      fuel (0, ev, [])).bind fun (_, ev, log) =>
    -- return kTRUE;
    some (true, some ev, log)

/-! ## `PropagateTracksToDCA` -/

/-- Lines 520-528 of `PropagateTracksToDCA`: what the body of the loop does to one
non-null track, for the field `kBz` of the event. -/
def PropagateTracksToDCA.track {V : Type} (env : Env F V) (fVertex : V) (kBz : F)
    (track : ESDtrack F) : ESDtrack F :=
  -- isOK = AliTracker::PropagateTrackTo(track,kSmallRadius,track->GetMass(),kMaxStep,kFALSE);
  let r := env.PropagateTrackTo track.ext (28 / 10) track.fMass 10 false
  let track := track.withExt r.2
  -- if(isOK) track->RelateToVertex(fVertex, kBz, kVeryBig);
  if r.1 then env.RelateToVertex track fVertex kBz env.kVeryBig else track

/-- The function `PropagateTracksToDCA(esdEvent)` (lines 501-530), for the member
`fVertex` of the merger; a null event is `none`.  Returns the event after the call.
`kSmallRadius = 2.8`, `kMaxStep = 10.0`.  State of the loop: `(iTrack, esdEvent)`. -/
def PropagateTracksToDCA {V : Type} (fuel : Nat) (env : Env F V) (fVertex : V)
    (esdEvent : Option (ESDEvent F)) : Option (Option (ESDEvent F)) :=
  match esdEvent with
  | none => some none                    -- if(!esdEvent) return;
  | some ev =>
    -- const Double_t kBz = esdEvent->GetMagneticField();
    let kBz := ev.fMagneticField
    -- Int_t nTracks = esdEvent->GetNumberOfTracks();
    let nTracks := ev.fNTracks
    -- for(Int_t iTrack = 0; iTrack<nTracks; ++iTrack) { ... }
    (whileLoop
      (fun ((iTrack, _) : Nat × ESDEvent F) => decide (iTrack < nTracks))
      (fun (iTrack, ev) =>
        -- AliESDtrack *track = esdEvent->GetTrack(iTrack);  if(!track) continue;
        match ev.fTracks iTrack with
        | none => some (iTrack + 1, ev)
        | some track =>
          let track := PropagateTracksToDCA.track env fVertex kBz track
          some (iTrack + 1, { ev with fTracks := Function.update ev.fTracks iTrack (some track) }))
      fuel (0, ev)).bind fun (_, ev) => some (some ev)

/-! ## `LoadTracks`, `FillTRDESD`, `FillTPCESD` -/

/-- Modelled from the spec: a track collection (`TClonesArray` of `AliTRDtrackV1`, or
`AliHLTTPCTrackArray`): its entries (a null entry is `none`) and their number. -/
structure TrackArray (T : Type) where
  At : Nat → Option T
  entries : Nat

/-- The operations of the detector tracks used by the ingest: `UpdateTrackParams` is
the method of `AliESDtrack` that takes over a detector track under the given flags;
`Convert2AliKalmanTrack` returns its status and the converted track; the getters,
`TMath::Sin` and `TMath::Cos` are used for the TPC points. -/
structure IngestOps (F TRD TPC : Type) where
  UpdateTrackParamsTRD : ESDtrack F → TRD → Nat → ESDtrack F
  UpdateTrackParamsTPC : ESDtrack F → TPC → Nat → ESDtrack F
  Convert2AliKalmanTrack : TPC → Int × TPC
  GetFirstPointX : TPC → F
  GetFirstPointY : TPC → F
  GetLastPointX : TPC → F
  GetLastPointY : TPC → F
  GetSector : TPC → Int
  GetAlpha : TPC → F
  Sin : F → F
  Cos : F → F

/-- The function `FillTRDESD(trdTrack, flags, esdEvent)` (lines 133-144); null pointers
are `none`.  Returns the event after the call. -/
def FillTRDESD {TRD TPC : Type} (ops : IngestOps F TRD TPC) (trdTrack : Option TRD)
    (flags : Nat) (esdEvent : Option (ESDEvent F)) : Option (ESDEvent F) :=
  match trdTrack with
  | none => esdEvent                     -- if(!trdTrack) return;
  | some trd =>
    match esdEvent with
    | none => none                       -- if(!esdEvent) return;
    | some ev =>
      -- AliESDtrack iotrack;  iotrack.UpdateTrackParams(trdTrack,flags);
      let iotrack := ops.UpdateTrackParamsTRD ESDtrack.default trd flags
      -- esdEvent->AddTrack(&iotrack);
      some (ev.AddTrack iotrack)

/-- The function `FillTPCESD(tpcTrack, flags, esdEvent)` (lines 107-130); null pointers
are `none`.  Returns the event after the call. -/
def FillTPCESD {TRD TPC : Type} (ops : IngestOps F TRD TPC) (tpcTrack : Option TPC)
    (flags : Nat) (esdEvent : Option (ESDEvent F)) : Option (ESDEvent F) :=
  match tpcTrack with
  | none => esdEvent                     -- if(!tpcTrack) return;
  | some tpc =>
    match esdEvent with
    | none => none                       -- if(!esdEvent) return;
    | some ev =>
      -- AliESDtrack iotrack;  iotrack.UpdateTrackParams(tpcTrack,flags);
      let iotrack := ops.UpdateTrackParamsTPC ESDtrack.default tpc flags
      -- Float_t points[4]={first x, first y, last x, last y};
      let points : Nat → F := ofList [ops.GetFirstPointX tpc, ops.GetFirstPointY tpc,
        ops.GetLastPointX tpc, ops.GetLastPointY tpc]
      -- if(tpcTrack->GetSector() == -1){ rotate the points by alpha }
      let points : Nat → F :=
        if ops.GetSector tpc = -1 then
          let s := ops.Sin (ops.GetAlpha tpc)
          let c := ops.Cos (ops.GetAlpha tpc)
          ofList [ops.GetFirstPointX tpc * c + ops.GetFirstPointY tpc * s,
            -ops.GetFirstPointX tpc * s + ops.GetFirstPointY tpc * c,
            ops.GetLastPointX tpc * c + ops.GetLastPointY tpc * s,
            -ops.GetLastPointX tpc * s + ops.GetLastPointY tpc * c]
        else points
      -- iotrack.SetTPCPoints(points);
      let iotrack := { iotrack with
        fTPCPoints := fun k => if k < 4 then points k else iotrack.fTPCPoints k }
      -- esdEvent->AddTrack(&iotrack);
      some (ev.AddTrack iotrack)

/-- The function `LoadTracks(TClonesArray *aTRDTracks, AliESDEvent *esdEvent)` (lines
70-84).  Returns the Boolean result and the event after the call.  State of the loop:
`(i, esdEvent)`. -/
def LoadTracksTRD {V TRD TPC : Type} (fuel : Nat) (env : Env F V) (ops : IngestOps F TRD TPC)
    (aTRDTracks : Option (TrackArray TRD)) (esdEvent : Option (ESDEvent F)) :
    Option (Bool × Option (ESDEvent F)) :=
  match aTRDTracks with
  | none => some (false, esdEvent)       -- if(!aTRDTracks) return kFALSE;
  | some arr =>
    -- Int_t entries = aTRDTracks->GetEntriesFast();
    let entries := arr.entries
    -- for(Int_t i=0; i<entries; ++i) { ... }
    (whileLoop
      (fun ((i, _) : Nat × Option (ESDEvent F)) => decide (i < entries))
      (fun (i, esdEvent) =>
        -- AliTRDtrackV1 *track = (AliTRDtrackV1*)aTRDTracks->At(i);  if(!track) continue;
        match arr.At i with
        | none => some (i + 1, esdEvent)
        | some track =>
          -- FillTRDESD(track,AliESDtrack::kTRDin,esdEvent);
          some (i + 1, FillTRDESD ops (some track) env.kTRDin esdEvent))
      fuel (0, esdEvent)).bind fun (_, esdEvent) =>
    -- return kTRUE;
    some (true, esdEvent)

/-- The function `LoadTracks(AliHLTTPCTrackArray *aTPCTracks, AliESDEvent *esdEvent)`
(lines 87-104).  Returns the Boolean result, the collection (whose tracks are
converted in place) and the event after the call.  State of the loop:
`(i, aTPCTracks, esdEvent)`. -/
def LoadTracksTPC {V TRD TPC : Type} (fuel : Nat) (env : Env F V) (ops : IngestOps F TRD TPC)
    (aTPCTracks : Option (TrackArray TPC)) (esdEvent : Option (ESDEvent F)) :
    Option (Bool × Option (TrackArray TPC) × Option (ESDEvent F)) :=
  match aTPCTracks with
  | none => some (false, none, esdEvent) -- if(!aTPCTracks) return kFALSE;
  | some arr =>
    -- for (int i=0; i<aTPCTracks->GetNTracks();++i) { ... }
    (whileLoop
      (fun ((i, arr, _) : Nat × TrackArray TPC × Option (ESDEvent F)) => decide (i < arr.entries))
      (fun (i, arr, esdEvent) =>
        -- AliHLTTPCTrack* track=(*aTPCTracks)[i];  if(!track) continue;
        match arr.At i with
        | none => some (i + 1, arr, esdEvent)
        | some track =>
          -- Int_t local=track->Convert2AliKalmanTrack();
          let r := ops.Convert2AliKalmanTrack track
          let arr := { arr with At := Function.update arr.At i (some r.2) }
          -- if(local<0) continue;
          if r.1 < 0 then some (i + 1, arr, esdEvent) else
          -- FillTPCESD(track,AliESDtrack::kTPCin,esdEvent);
          some (i + 1, arr, FillTPCESD ops (some r.2) env.kTPCin esdEvent))
      fuel (0, arr, esdEvent)).bind fun (_, arr, esdEvent) =>
    -- return kTRUE;
    some (true, some arr, esdEvent)

/-! ## Concrete collaborators and inputs used in examples -/

/-- A straight-line propagator that always succeeds: it moves the reference `x` to the
requested radius and advances `y` and `z` by the slopes held in the parameters 2 and 3.
The status bits have their usual values. -/
def exampleEnv : Env F Unit :=
  { kTPCin := 16, kTRDin := 256, kGlobalMerge := 134217728, kSPECIES := 5, kVeryBig := 10 ^ 24,
    PropagateTrackTo := fun e x _ _ _ => (true, { e with
      fX := x,
      fP := fun k => if k = 0 then e.fP 0 + (x - e.fX) * e.fP 2
        else if k = 1 then e.fP 1 + (x - e.fX) * e.fP 3 else e.fP k }),
    RelateToVertex := fun t _ _ _ => t }

/-- A straight track through the origin, given by its status flags, its slope, its
packed covariance and the reference `x` it is at: `y = slope * x`, parameter 2 is the
slope, the other parameters are zero; first TPC point at `x = 85`. -/
def exampleTrack (flags : Nat) (slope : F) (cov : Nat → F) (x : F) : ESDtrack F :=
  { (ESDtrack.default : ESDtrack F) with
    fFlags := flags, fX := x,
    fP := fun k => if k = 0 then slope * x else if k = 2 then slope else 0, fC := cov,
    fTPCPoints := fun _ => 85 }

/-- The event holding the tracks of the list, in order. -/
def exampleEvent (l : List (ESDtrack F)) : ESDEvent F :=
  { fTracks := fun i => l.get? i, fNTracks := l.length, fMagneticField := 0 }

/-- All-zero contents for the uninitialised locals of `MergeTracks`. -/
def exampleLocals : MergeLocals F :=
  { trackParam := fun _ => 0, trackCovar := fun _ => 0, trackChi2 := 0, trackNDF := 0 }

/-- The packed `5 x 5` diagonal matrix with `d` on the diagonal. -/
def diagPacked5 (d : F) : Nat → F :=
  ofList [d, 0, d, 0, 0, d, 0, 0, 0, d, 0, 0, 0, 0, d]

/-! ## Reading the record of calls of `Merge` -/

/-- The pair `(iTrack, jTrack)` a recorded call belongs to; the propagation of line 187
belongs to a TPC track, not to a pair. -/
def MergeCall.pair : MergeCall F → Option (Nat × Nat)
  | .matchRadiusA _ _ _ => none
  | .matchRadiusB i j _ _ => some (i, j)
  | .gate i j _ => some (i, j)
  | .mergeRadiusA i j _ _ => some (i, j)
  | .mergeRadiusB i j _ _ => some (i, j)
  | .fuse i j _ => some (i, j)

/-- The index `iTrack` of the TPC track during whose turn the call was made. -/
def MergeCall.tpcIndex : MergeCall F → Nat
  | .matchRadiusA i _ _ => i
  | .matchRadiusB i _ _ _ => i
  | .gate i _ _ => i
  | .mergeRadiusA i _ _ _ => i
  | .mergeRadiusB i _ _ _ => i
  | .fuse i _ _ => i

/-- The Boolean the call returned (`isOk`, `isMatched` or `isMerged`). -/
def MergeCall.outcome : MergeCall F → Bool
  | .matchRadiusA _ _ ok => ok
  | .matchRadiusB _ _ _ ok => ok
  | .gate _ _ matched => matched
  | .mergeRadiusA _ _ _ ok => ok
  | .mergeRadiusB _ _ _ ok => ok
  | .fuse _ _ merged => merged

/-- The pair of a successful fusion, nothing for any other call. -/
def MergeCall.fused : MergeCall F → Option (Nat × Nat)
  | .fuse i j true => some (i, j)
  | _ => none

/-- The pairs whose fusion succeeded, in program order. -/
def fusedPairs (log : List (MergeCall F)) : List (Nat × Nat) :=
  log.filterMap MergeCall.fused

/-- Track `i` of the event exists and has the status bit `kTPCin` (lines 173-177). -/
def usableTPC {V : Type} (env : Env F V) (ev : ESDEvent F) (i : Nat) : Prop :=
  ∃ t, ev.fTracks i = some t ∧ t.fFlags &&& env.kTPCin ≠ 0

/-- Track `j` of the event exists and has the status bit `kTRDin` (lines 196-200). -/
def usableTRD {V : Type} (env : Env F V) (ev : ESDEvent F) (j : Nat) : Prop :=
  ∃ t, ev.fTracks j = some t ∧ t.fFlags &&& env.kTRDin ≠ 0

/-- The value `GetTPCPoints(0)` of track `i` of the event (`0` for a null entry). -/
def ESDEvent.firstTPCPoint (ev : ESDEvent F) (i : Nat) : F :=
  match ev.fTracks i with
  | some t => t.fTPCPoints 0
  | none => 0

/-- Two entries of a track store that differ at most in the `AliExternalTrackParam`
sub-object of the track. -/
def SameButExt : Option (ESDtrack F) → Option (ESDtrack F) → Prop
  | none, none => True
  | some t, some t1 => ∃ e, t1 = t.withExt e
  | _, _ => False

/-- The track `tk` is what `MergeTracks` builds for the tracks `i` and `j` of the event
`ev0`, after these have been propagated: for some states `tpc`, `trd` of the two tracks
that differ from the ones in `ev0` at most in the `AliExternalTrackParam` part, the call
of `SmoothTracks` succeeded and `tk` is the track built from its outputs. -/
def Merge.MergedFrom {V : Type} (fuel : Nat) (sqrt : F → F) (env : Env F V) (loc : MergeLocals F)
    (ev0 : ESDEvent F) (i j : Nat) (tk : ESDtrack F) : Prop :=
  ∃ tpc trd P C chi ndf,
    SameButExt (ev0.fTracks i) (some tpc) ∧ SameButExt (ev0.fTracks j) (some trd) ∧
    MergeTracks.smooth fuel sqrt loc tpc trd = some (false, P, C, chi, ndf) ∧
    tk = MergeTracks.newTrack env tpc trd P C chi

/-- Relation between the event `ev0` on entry of `Merge` and the event `cur` at a later
point at which the record of calls is `log`: same field; the tracks present on entry
differ at most in their `AliExternalTrackParam` part; one track has been appended for
each successful fusion of the record, in order. -/
def Merge.Inv {V : Type} (fuel : Nat) (sqrt : F → F) (env : Env F V) (loc : MergeLocals F)
    (ev0 cur : ESDEvent F) (log : List (MergeCall F)) : Prop :=
  cur.fMagneticField = ev0.fMagneticField ∧
  (∀ idx, idx < ev0.fNTracks → SameButExt (ev0.fTracks idx) (cur.fTracks idx)) ∧
  cur.fNTracks = ev0.fNTracks + (fusedPairs log).length ∧
  ∀ k p, (fusedPairs log)[k]? = some p →
    ∃ tk, cur.fTracks (ev0.fNTracks + k) = some tk ∧
      Merge.MergedFrom fuel sqrt env loc ev0 p.1 p.2 tk

/-- The calls recorded for one pair `(i, j)` with a usable TRD track `j`: the five ways
in which lines 203-229 can run, for the merging radius `r`. -/
def PairSeg (i j : Nat) (r : F) (seg : List (MergeCall F)) : Prop :=
  seg = [.matchRadiusB i j 285 false] ∨
  seg = [.matchRadiusB i j 285 true, .gate i j false] ∨
  seg = [.matchRadiusB i j 285 true, .gate i j true, .mergeRadiusA i j r false] ∨
  seg = [.matchRadiusB i j 285 true, .gate i j true, .mergeRadiusA i j r true,
    .mergeRadiusB i j r false] ∨
  ∃ merged, seg = [.matchRadiusB i j 285 true, .gate i j true, .mergeRadiusA i j r true,
    .mergeRadiusB i j r true, .fuse i j merged]

/-- The calls recorded by the first `j` rounds of the loop over `jTrack`, for the TPC
track `i`: round by round, nothing for a TRD index that is not usable, one `PairSeg`
for a usable one. -/
def PairLog (usableB : Nat → Prop) (i : Nat) (r : F) : Nat → List (MergeCall F) → Prop
  | 0, l => l = []
  | j + 1, l => ∃ l1 seg, PairLog usableB i r j l1 ∧
      ((¬ usableB j ∧ seg = []) ∨ (usableB j ∧ PairSeg i j r seg)) ∧ l = l1 ++ seg

/-- The calls recorded by the first `i` rounds of the loop over `iTrack`, for an event
of `n` tracks: round by round, nothing for a TPC index that is not usable; for a usable
one the propagation of line 187 and, if it succeeded, the `PairLog` of all `n` rounds
of the inner loop. -/
def TrackLog (usableA usableB : Nat → Prop) (radius : Nat → F) (n : Nat) :
    Nat → List (MergeCall F) → Prop
  | 0, l => l = []
  | i + 1, l => ∃ l1 seg, TrackLog usableA usableB radius n i l1 ∧
      ((¬ usableA i ∧ seg = []) ∨
       (usableA i ∧ (seg = [.matchRadiusA i 285 false] ∨
          ∃ pl, PairLog usableB i (radius i) n pl ∧ seg = .matchRadiusA i 285 true :: pl))) ∧
      l = l1 ++ seg

/-- Detector-track operations for examples: detector tracks carry no data. -/
def exampleOps : IngestOps F Unit Unit :=
  { UpdateTrackParamsTRD := fun t _ flags => { t with fFlags := t.fFlags ||| flags },
    UpdateTrackParamsTPC := fun t _ flags => { t with fFlags := t.fFlags ||| flags },
    Convert2AliKalmanTrack := fun t => (0, t),
    GetFirstPointX := fun _ => 85, GetFirstPointY := fun _ => 0,
    GetLastPointX := fun _ => 250, GetLastPointY := fun _ => 0,
    GetSector := fun _ => 0, GetAlpha := fun _ => 0,
    Sin := fun _ => 0, Cos := fun _ => 1 }

/-- The example collaborators with a propagator that always fails and leaves the track
as it is. -/
def failingEnv : Env F Unit :=
  { (exampleEnv : Env F Unit) with PropagateTrackTo := fun e _ _ _ _ => (false, e) }

/-- Track `i` of the event exists and has the status bit `bit` set. -/
def ESDEvent.hasStatus (ev : ESDEvent F) (bit : Nat) (i : Nat) : Bool :=
  match ev.fTracks i with
  | some t => t.fFlags &&& bit != 0
  | none => false

/-- The number of tracks of the event (below its count) with the status bit `bit`. -/
def ESDEvent.countStatus (ev : ESDEvent F) (bit : Nat) : Nat :=
  ((List.range ev.fNTracks).filter (ev.hasStatus bit)).length

/-! ## `SmoothTracks` called in place -/

/-- The call `SmoothTracks(T1, C1, Chi21, NDF1, T2, C2, Chi22, NDF2, T1, C1, Chi2, NDF, N)`:
the output buffers `T`, `C` are the input arrays `T1`, `C1` themselves, which the comment
of the function allows (`T[N], C[N] ( can be aqual to {T1,C1}, or {T2,C2} )`).  Every
`T1[..]` and `T[..]` of the source is then an access to one array, here the state `T` of
the loops, started as `T1`; likewise `C1[..]` and `C[..]`.  The result is the error flag
and the contents of the arrays `T1`, `C1` and of `Chi2`, `NDF` after the call. -/
def SmoothTracksInPlace (fuel : Nat) (sqrt : F → F)
    (T1 C1 : Nat → F) (Chi21 : F) (NDF1 : Int)
    (T2 C2 : Nat → F) (Chi22 : F) (NDF2 : Int)
    (Chi2 : F) (NDF : Int) (N : Nat) :
    Option (Bool × (Nat → F) × (Nat → F) × F × Int) :=
  -- Int_t M = N*(N+1)/2;
  let M := N * (N + 1) / 2
  -- for(Int_t k=0; k<M; k++) A[k] = C1[k] + C2[k];
  (whileLoop
    (fun ((k, _) : Nat × (Nat → F)) => decide (k < M))
    (fun (k, A) => some (k + 1, Function.update A k (C1 k + C2 k)))
    fuel (0, (fun _ => 0 : Nat → F))).bind fun (_, A) =>
  -- Bool_t err = InvertS(A,N);
  (InvertS fuel sqrt A N).bind fun (err, A) =>
  -- if( err ) return 1;
  if err then some (true, T1, C1, Chi2, NDF) else
  -- Chi2 = Chi21 + Chi22;  NDF = NDF1 + NDF2;
  let Chi2 := Chi21 + Chi22
  let NDF := wrapInt_t (NDF1 + NDF2)
  -- MultSSQ( C1, A, K, N);
  (MultSSQ fuel C1 A (fun _ => (0 : F)) N).bind fun K =>
  -- for( Int_t k=0; k<N;k++) r[k] = T1[k] - T2[k];
  (whileLoop
    (fun ((k, _) : Nat × (Nat → F)) => decide (k < N))
    (fun (k, r) => some (k + 1, Function.update r k (T1 k - T2 k)))
    fuel (0, (fun _ => 0 : Nat → F))).bind fun (_, r) =>
  -- for( Int_t k=0; k<N;k++ ) for( Int_t l=0;l<N;l++) T[k] = T1[k] - K[k*N+l]*r[l];
  -- (`T1[k]` reads the array that is being written)
  (whileLoop
    (fun ((k, _) : Nat × (Nat → F)) => decide (k < N))
    (fun (k, T) =>
      (whileLoop
        (fun ((l, _) : Nat × (Nat → F)) => decide (l < N))
        (fun (l, T) => some (l + 1, Function.update T k (T k - K (k * N + l) * r l)))
        fuel (0, T)).bind fun (_, T) =>
      some (k + 1, T))
    fuel (0, T1)).bind fun (_, T) =>
  -- for( Int_t ind=0,i=0; i<N; i++ ){
  (whileLoop
    (fun ((_, i, _) : Nat × Nat × F) => decide (i < N))
    (fun (ind, i, Chi2) =>
      -- for( Int_t j=0; j<i; j++ ) Chi2+= 2*r[i]*r[j]*A[ind++];
      (whileLoop
        (fun ((_, j, _) : Nat × Nat × F) => decide (j < i))
        (fun (ind, j, Chi2) => some (ind + 1, j + 1, Chi2 + 2 * r i * r j * A ind))
        fuel (ind, 0, Chi2)).bind fun (ind, _, Chi2) =>
      -- Chi2+= r[i]*r[i]*A[ind++];
      some (ind + 1, i + 1, Chi2 + r i * r i * A ind))
    fuel (0, 0, Chi2)).bind fun (_, _, Chi2) =>
  -- NDF+=N;
  let NDF := wrapInt_t (NDF + (N : Int))
  -- for( Int_t l=0; l<N; l++ ) K[ (N+1)*l ] -= 1;
  (whileLoop
    (fun ((l, _) : Nat × (Nat → F)) => decide (l < N))
    (fun (l, K) => some (l + 1, Function.update K ((N + 1) * l) (K ((N + 1) * l) - 1)))
    fuel (0, K)).bind fun (_, K) =>
  -- for( Int_t ind = 0, l=0; l<N; ++l ){
  (whileLoop
    (fun ((_, l, _) : Nat × Nat × (Nat → F)) => decide (l < N))
    (fun (ind, l, A) =>
      -- for( Int_t j=0; j<=l; ++j, ind++ ){
      (whileLoop
        (fun ((_, j, _) : Nat × Nat × (Nat → F)) => decide (j ≤ l))
        (fun (ind, j, A) =>
          -- A[ind] = 0;
          let A := Function.update A ind 0
          -- for( Int_t k=0; k<N; ++k ) A[ind] -= K[l*N+k] * C1[IndexS(j,k)];
          (whileLoop
            (fun ((k, _) : Nat × (Nat → F)) => decide (k < N))
            (fun (k, A) =>
              some (k + 1, Function.update A ind (A ind - K (l * N + k) * C1 (IndexS j k))))
            fuel (0, A)).bind fun (_, A) =>
          some (ind + 1, j + 1, A))
        fuel (ind, 0, A)).bind fun (ind, _, A) =>
      some (ind, l + 1, A))
    fuel (0, 0, A)).bind fun (_, _, A) =>
  -- for( Int_t l=0; l<N; l++ ) C[l] = A[l];   (`C` is the array `C1`)
  (whileLoop
    (fun ((l, _) : Nat × (Nat → F)) => decide (l < N))
    (fun (l, C) => some (l + 1, Function.update C l (A l)))
    fuel (0, C1)).bind fun (_, C) =>
  -- return 0;
  some (false, T, C, Chi2, NDF)

/-! ## `InvertS` with checked array accesses

A second embedding of `InvertS`, for an array `A` of `M` entries: every read `*p` and
every write `*p = v` of the source goes through `rd` and `wr`, which fail (`none`) for
an offset outside `0 .. M-1`.  The blocks and their loops are those of `InvertS`. -/

/-- Read of the entry at offset `i` of an array of `M` entries. -/
def rd (M : Nat) (A : Nat → F) (i : Nat) : Option F :=
  if i < M then some (A i) else none

/-- Write of `v` at offset `i` of an array of `M` entries. -/
def wr (M : Nat) (A : Nat → F) (i : Nat) (v : F) : Option (Nat → F) :=
  if i < M then some (Function.update A i v) else none

/-- Lines 439-443 with checked accesses (see `InvertS.scaleStep`). -/
def InvertSChecked.scaleStep (fuel M j1 jj : Nat) (x : F) :
    Nat × Nat × (Nat → F) → Option (Nat × Nat × (Nat → F))
  | (step, ik, A) =>
    -- Double_t sum = 0;  for( Double_t *jk=j1; jk!=jj; sum += *(jk++) * *(ik++) );
    (whileLoop
      (fun ((jk, _, _) : Nat × Nat × F) => jk != jj)
      (fun (jk, ik, sum) =>
        (rd M A jk).bind fun a => (rd M A ik).bind fun b => some (jk + 1, ik + 1, sum + a * b))
      fuel (j1, ik, 0)).bind fun (_, ik, sum) =>
    -- *ik = (*ik - sum) * x; // ik == Aij
    (rd M A ik).bind fun a =>
    (wr M A ik ((a - sum) * x)).bind fun A =>
    -- ik+=++step
    some (step + 1, ik + (step + 1), A)

/-- Lines 427-449 with checked accesses (see `InvertS.factorStep`). -/
def InvertSChecked.factorStep (fuel M : Nat) (sqrt : F → F) (N : Nat) :
    Nat × Nat × Nat × (Nat → F) × Bool → Option (Nat × Nat × Nat × (Nat → F) × Bool)
  | (j, j1, jj, A, ret) =>
    -- Double_t *ik = j1, x = 0;  while( ik!=jj ){ x -= (*ik) * (*ik); ik++; }
    (whileLoop
      (fun ((ik, _) : Nat × F) => ik != jj)
      (fun (ik, x) => (rd M A ik).bind fun a => some (ik + 1, x - a * a))
      fuel (j1, 0)).bind fun (ik, x) =>
    -- x += *ik;
    (rd M A ik).bind fun a =>
    let x := x + a
    (if x > ZERO then
      -- x = sqrt(x); *ik = x; ik++; x = 1 / x;
      let x := sqrt x
      (wr M A ik x).bind fun A =>
      let ik := ik + 1
      let x := 1 / x
      -- for( Int_t step=1; step<=N-j; ik+=++step ){ ... }
      (whileLoop
        (fun ((step, _, _) : Nat × Nat × (Nat → F)) => decide (step ≤ N - j))
        (InvertSChecked.scaleStep fuel M j1 jj x)
        fuel (1, ik, A)).bind fun (_, _, A) => some (A, ret)
    else
      -- Double_t *ji=jj;  for( Int_t i=j; i<N; i++ ) *(ji+=i) = 0.;  ret = 1;
      (whileLoop
        (fun ((i, _, _) : Nat × Nat × (Nat → F)) => decide (i < N))
        (fun (i, ji, A) => (wr M A (ji + i) 0).bind fun A => some (i + 1, ji + i, A))
        fuel (j, jj, A)).bind fun (_, _, A) => some (A, true)).bind fun (A, ret) =>
    -- j1+=j++, jj+=j
    some (j + 1, j1 + j, jj + (j + 1), A, ret)

/-- First block of `InvertS` with checked accesses (see `InvertS.factor`). -/
def InvertSChecked.factor (fuel M : Nat) (sqrt : F → F) (N : Nat) (A0 : Nat → F)
    (ret0 : Bool) : Option ((Nat → F) × Bool) :=
  (whileLoop
    (fun ((j, _, _, _, _) : Nat × Nat × Nat × (Nat → F) × Bool) => decide (j ≤ N))
    (InvertSChecked.factorStep fuel M sqrt N)
    fuel (1, 0, 0, A0, ret0)).bind fun (_, _, _, A, ret) => some (A, ret)

/-- Lines 466-472 with checked accesses (see `InvertS.invertEntry`). -/
def InvertSChecked.invertEntry (fuel M ii : Nat) (x : F) :
    Nat × Nat × Nat × (Nat → F) → Option (Nat × Nat × Nat × (Nat → F))
  | (j, jj, ij, A) =>
    -- Double_t *ik = ij, *kj = jj, sum = 0.;
    -- for( Int_t k=j; ik!=ii; kj+=k++, ik++ ){ sum += *ik * *kj; }
    (whileLoop
      (fun ((_, ik, _, _) : Nat × Nat × Nat × F) => ik != ii)
      (fun (k, ik, kj, sum) =>
        (rd M A ik).bind fun a => (rd M A kj).bind fun b =>
        some (k + 1, ik + 1, kj + k, sum + a * b))
      fuel (j, ij, jj, 0)).bind fun (_, _, kj, sum) =>
    -- *kj = sum * x;
    (wr M A kj (sum * x)).bind fun A =>
    -- jj+=++j, ij++
    some (j + 1, jj + (j + 1), ij + 1, A)

/-- Lines 461-480 with checked accesses (see `InvertS.invertStep`). -/
def InvertSChecked.invertStep (fuel M : Nat) :
    Nat × Nat × Nat × (Nat → F) × Bool → Option (Nat × Nat × Nat × (Nat → F) × Bool)
  | (i, ii, ij, A, ret) =>
    -- if( *ii > ZERO ){
    (rd M A ii).bind fun a =>
    (if a > ZERO then
      -- Double_t x = -(*ii = 1./ *ii);
      (wr M A ii (1 / a)).bind fun A =>
      let x := -(1 / a)
      -- Double_t *jj = A;  for( Int_t j=1; j<i; jj+=++j, ij++ ){ ... }
      (whileLoop
        (fun ((j, _, _, _) : Nat × Nat × Nat × (Nat → F)) => decide (j < i))
        (InvertSChecked.invertEntry fuel M ii x)
        fuel (1, 0, ij, A)).bind fun (_, _, _, A) => some (A, ret)
    else
      -- for( Double_t *ik = ij; ik!=ii+1; ik++ ){ *ik = 0.; }  ret = 1;
      (whileLoop
        (fun ((ik, _) : Nat × (Nat → F)) => ik != ii + 1)
        (fun (ik, A) => (wr M A ik 0).bind fun A => some (ik + 1, A))
        fuel (ij, A)).bind fun (_, A) => some (A, true)).bind fun (A, ret) =>
    -- ij=ii+1, ii+=++i
    some (i + 1, ii + (i + 1), ii + 1, A, ret)

/-- Second block of `InvertS` with checked accesses (see `InvertS.invertFactor`). -/
def InvertSChecked.invertFactor (fuel M : Nat) (N : Nat) (A0 : Nat → F) (ret0 : Bool) :
    Option ((Nat → F) × Bool) :=
  (whileLoop
    (fun ((i, _, _, _, _) : Nat × Nat × Nat × (Nat → F) × Bool) => decide (i ≤ N))
    (InvertSChecked.invertStep fuel M)
    fuel (1, 0, 0, A0, ret0)).bind fun (_, _, _, A, ret) => some (A, ret)

/-- Lines 491-493 with checked accesses (see `InvertS.productEntry`). -/
def InvertSChecked.productEntry (fuel M N i ii : Nat) :
    Nat × (Nat → F) → Option (Nat × (Nat → F))
  | (ij, A) =>
    -- Double_t *ki = ii, *kj = ij, sum = 0.;
    -- for( Int_t k=i; k<=N; ki+=k, kj+=k++ ) sum += (*ki) * (*kj);
    (whileLoop
      (fun ((k, _, _, _) : Nat × Nat × Nat × F) => decide (k ≤ N))
      (fun (k, ki, kj, sum) =>
        (rd M A ki).bind fun a => (rd M A kj).bind fun b =>
        some (k + 1, ki + k, kj + k, sum + a * b))
      fuel (i, ii, ij, 0)).bind fun (_, _, _, sum) =>
    -- *ij = sum;
    (wr M A ij sum).bind fun A =>
    some (ij, A)

/-- Lines 489-495 with checked accesses (see `InvertS.productStep`). -/
def InvertSChecked.productStep (fuel M N : Nat) :
    Nat × Nat × Nat × (Nat → F) → Option (Nat × Nat × Nat × (Nat → F))
  | (i, ii, ij, A) =>
    -- do{ ... }while( (ij++)!=ii );
    (doWhileLoop
      (InvertSChecked.productEntry fuel M N i ii)
      (fun ((ij, A) : Nat × (Nat → F)) => (ij != ii, (ij + 1, A)))
      fuel (ij, A)).bind fun (ij, A) =>
    -- ii+=++i
    some (i + 1, ii + (i + 1), ij, A)

/-- Third block of `InvertS` with checked accesses (see `InvertS.transposeTimesSelf`). -/
def InvertSChecked.transposeTimesSelf (fuel M : Nat) (N : Nat) (A0 : Nat → F) :
    Option (Nat → F) :=
  (whileLoop
    (fun ((i, _, _, _) : Nat × Nat × Nat × (Nat → F)) => decide (i ≤ N))
    (InvertSChecked.productStep fuel M N)
    fuel (1, 0, 0, A0)).bind fun (_, _, _, A) => some A

/-- The function `InvertS( Double_t A[], Int_t N )` on an array of `M` entries, with
checked accesses: `none` if the fuel runs out or an access falls outside `0 .. M-1`. -/
def InvertSChecked (fuel M : Nat) (sqrt : F → F) (A : Nat → F) (N : Nat) :
    Option (Bool × (Nat → F)) :=
  -- Bool_t ret = 0;
  (InvertSChecked.factor fuel M sqrt N A false).bind fun (A, ret) =>
  (InvertSChecked.invertFactor fuel M N A ret).bind fun (A, ret) =>
  (InvertSChecked.transposeTimesSelf fuel M N A).bind fun A =>
  -- return ret;
  some (ret, A)

/-! ## Machine arithmetic: IEEE 754 `Double_t`

The definitions above read `Double_t` as an exact number.  The definitions of this
section give the arithmetic the compiled code runs on, IEEE 754 binary64 with rounding
to nearest, ties to even, and embed `InvertS`, `MultSSQ`, `SmoothTracks` and
`MatchTracks` a second time, statement by statement as above, on these numbers. -/

/-- A `Double_t` (IEEE 754 binary64).  `fin neg mag` is the finite number
`(-1)^neg * mag * 2^-1074`: every finite binary64 number, subnormal or not, is a
multiple of `2^-1074`; `fin true 0` is the negative zero.  `inf neg` is the infinity
of that sign, `nan` a NaN. -/
inductive Double where
  | fin (neg : Bool) (mag : Nat)
  | inf (neg : Bool)
  | nan
  deriving DecidableEq

/-- Position of the leading bit of `n` (`0` for `n < 2`), by dropping 64 bits or one bit
at a time, at most `fuel` times; `Double.ilog2 n n` is the integer binary logarithm
of `n`. -/
def Double.ilog2 : Nat → Nat → Nat
  | 0, _ => 0
  | fuel + 1, n =>
    if n < 2 then 0
    else if n < 2 ^ 64 then Double.ilog2 fuel (n / 2) + 1
    else Double.ilog2 fuel (n / 2 ^ 64) + 64

/-- Rounding to nearest, ties to even: the binary64 number nearest to the exact value
`(-1)^neg * (p / q) * 2^-1074`, for `q > 0`.  With `a` the integer part of `p / q`,
the spacing of the binary64 numbers around it is `2^s` units, where `s = 0` below
`2^53` units (subnormal and smallest normal numbers) and the mantissa `m` has 53 bits
otherwise; `t / q` is what is left after `m * 2^s`.  A result of `2^1024` or more
(`2^2098` units) overflows to infinity. -/
def Double.round (neg : Bool) (p q : Nat) : Double :=
  let a := p / q
  let s := Double.ilog2 a a - 52
  let m := a / 2 ^ s
  let t := p - m * 2 ^ s * q
  let h := 2 ^ s * q
  let m1 := if 2 * t < h then m else if h < 2 * t then m + 1 else if m % 2 = 0 then m else m + 1
  if m1 * 2 ^ s < 2 ^ 2098 then .fin neg (m1 * 2 ^ s) else .inf neg

/-- Conversion of an integer constant or `Int_t` value `n ≥ 0` to `Double_t`. -/
def Double.ofNat (n : Nat) : Double := Double.round false (n * 2 ^ 1074) 1

/-- The binary64 number nearest to the fraction `p / q`: the value of a decimal
constant such as `1.E-20` (`p = 1`, `q = 10^20`). -/
def Double.ofRatio (p q : Nat) : Double := Double.round false (p * 2 ^ 1074) q

/-- Unary minus. -/
def Double.neg : Double → Double
  | .fin n a => .fin (!n) a
  | .inf n => .inf (!n)
  | .nan => .nan

/-- The function `TMath::Abs(Double_t)`, i.e. `fabs`: the sign bit is cleared. -/
def Double.abs : Double → Double
  | .fin _ a => .fin false a
  | .inf _ => .inf false
  | .nan => .nan

/-- Addition.  Two finite numbers are added exactly and the sum is rounded; an exact
sum of zero of two numbers of opposite sign is `+0`. -/
def Double.add : Double → Double → Double
  | .fin na a, .fin nb b =>
    if na = nb then Double.round na (a + b) 1
    else if b < a then Double.round na (a - b) 1
    else if a < b then Double.round nb (b - a) 1
    else .fin false 0
  | .fin _ _, .inf nb => .inf nb
  | .inf na, .fin _ _ => .inf na
  | .inf na, .inf nb => if na = nb then .inf na else .nan
  | _, _ => .nan

/-- Subtraction: `a - b` is `a + (-b)`. -/
def Double.sub (a b : Double) : Double := Double.add a (Double.neg b)

/-- Multiplication: the exact product (in units of `2^-2148`) is rounded. -/
def Double.mul : Double → Double → Double
  | .fin na a, .fin nb b => Double.round (xor na nb) (a * b) (2 ^ 1074)
  | .fin na a, .inf nb => if a = 0 then .nan else .inf (xor na nb)
  | .inf na, .fin nb b => if b = 0 then .nan else .inf (xor na nb)
  | .inf na, .inf nb => .inf (xor na nb)
  | _, _ => .nan

/-- Division: the exact quotient is rounded; `x / 0` is an infinity for `x` other
than zero, and `0 / 0` is a NaN. -/
def Double.div : Double → Double → Double
  | .fin na a, .fin nb b =>
    if b = 0 then (if a = 0 then .nan else .inf (xor na nb))
    else Double.round (xor na nb) (a * 2 ^ 1074) b
  | .fin na _, .inf nb => .fin (xor na nb) 0
  | .inf na, .fin nb _ => .inf (xor na nb)
  | _, _ => .nan

/-- Integer square root by bisection on the bits: with `r` the bits chosen so far,
bit `b` is set if the square stays at or below `y`. -/
def Double.isqrtAux (y : Nat) : Nat → Nat → Nat
  | 0, r => r
  | b + 1, r => Double.isqrtAux y b (if (r + 2 ^ b) * (r + 2 ^ b) ≤ y then r + 2 ^ b else r)

/-- Heron's iteration `x -> (x + y / x) / 2`, for as long as it decreases. -/
def Double.heron (y : Nat) : Nat → Nat → Nat
  | 0, x => x
  | fuel + 1, x => if (x + y / x) / 2 < x then Double.heron y fuel ((x + y / x) / 2) else x

/-- The integer part of the square root of `y`: the number `x` that Heron's iteration
reaches from a power of two above the root, once checked (`x^2 ≤ y < (x+1)^2`); the
result of the bisection if the check fails. -/
def Double.isqrt (y : Nat) : Nat :=
  let x := Double.heron y (Double.ilog2 y y + 1) (2 ^ (Double.ilog2 y y / 2 + 1))
  if x * x ≤ y ∧ y < (x + 1) * (x + 1) then x
  else Double.isqrtAux y (Double.ilog2 y y / 2 + 1) 0

/-- The C library `sqrt`, correctly rounded as IEEE 754 requires.  For the finite
number `a` units the exact root is `√(a * 2^1074)` units; it lies between `m * 2^s` and
`(m + 1) * 2^s` and is compared with their midpoint `c / 2` by comparing `4 * y` with
`c * c`. -/
def Double.sqrt : Double → Double
  | .fin false a =>
    let y := a * 2 ^ 1074
    let r := Double.isqrt y
    let s := Double.ilog2 r r - 52
    let m := r / 2 ^ s
    let c := (2 * m + 1) * 2 ^ s
    let m1 := if 4 * y < c * c then m else if c * c < 4 * y then m + 1
      else if m % 2 = 0 then m else m + 1
    .fin false (m1 * 2 ^ s)
  | .fin true a => if a = 0 then .fin true 0 else .nan
  | .inf false => .inf false
  | _ => .nan

/-- The comparison `a < b` of C: false as soon as one side is a NaN; the two zeros
are equal. -/
def Double.lt : Double → Double → Bool
  | .fin false a, .fin false b => decide (a < b)
  | .fin true a, .fin true b => decide (b < a)
  | .fin true a, .fin false b => !(a == 0 && b == 0)
  | .fin false _, .fin true _ => false
  | .fin _ _, .inf nb => !nb
  | .inf na, .fin _ _ => na
  | .inf na, .inf nb => na && !nb
  | _, _ => false

/-- The comparison `a == b` of C: false as soon as one side is a NaN; the two zeros
are equal. -/
def Double.eq : Double → Double → Bool
  | .fin na a, .fin nb b => (a == 0 && b == 0) || (na == nb && a == b)
  | .inf na, .inf nb => na == nb
  | _, _ => false

/-- The test `isnan`. -/
def Double.isNaN : Double → Bool
  | .nan => true
  | _ => false

instance : OfNat Double n := ⟨Double.ofNat n⟩

instance : OfScientific Double :=
  ⟨fun m s e => if s then Double.ofRatio m (10 ^ e) else Double.ofNat (m * 10 ^ e)⟩

instance : Neg Double := ⟨Double.neg⟩

instance : Add Double := ⟨Double.add⟩

instance : Sub Double := ⟨Double.sub⟩

instance : Mul Double := ⟨Double.mul⟩

instance : Div Double := ⟨Double.div⟩

instance : LT Double := ⟨fun a b => Double.lt a b = true⟩

instance (a b : Double) : Decidable (a < b) :=
  inferInstanceAs (Decidable (Double.lt a b = true))

/-- An array given by its first entries, zero beyond them. -/
def Double.ofList (l : List Double) : Nat → Double := fun i => l.getD i 0

namespace IEEE

/-- The constant `ZERO = 1.E-20` of `InvertS`, as a binary64 number. -/
def ZERO : Double := 1e-20

/-- Lines 439-443 on binary64 numbers: the definition `InvertS.scaleStep` above with
every operation rounded. -/
def InvertS.scaleStep (fuel j1 jj : Nat) (x : Double) :
    Nat × Nat × (Nat → Double) → Option (Nat × Nat × (Nat → Double))
  | (step, ik, A) =>
    -- Double_t sum = 0;  for( Double_t *jk=j1; jk!=jj; sum += *(jk++) * *(ik++) );
    (whileLoop
      (fun ((jk, _, _) : Nat × Nat × Double) => jk != jj)
      (fun (jk, ik, sum) => some (jk + 1, ik + 1, sum + A jk * A ik))
      fuel (j1, ik, 0)).bind fun (_, ik, sum) =>
    -- *ik = (*ik - sum) * x; // ik == Aij
    let A := Function.update A ik ((A ik - sum) * x)
    -- ik+=++step
    some (step + 1, ik + (step + 1), A)

/-- Lines 427-449 on binary64 numbers: the definition `InvertS.factorStep` above with
every operation rounded, `ZERO` the binary64 constant and `sqrt` the C library function. -/
def InvertS.factorStep (fuel : Nat) (N : Nat) :
    Nat × Nat × Nat × (Nat → Double) × Bool → Option (Nat × Nat × Nat × (Nat → Double) × Bool)
  | (j, j1, jj, A, ret) =>
    -- Double_t *ik = j1, x = 0;  while( ik!=jj ){ x -= (*ik) * (*ik); ik++; }
    (whileLoop
      (fun ((ik, _) : Nat × Double) => ik != jj)
      (fun (ik, x) => some (ik + 1, x - A ik * A ik))
      fuel (j1, 0)).bind fun (ik, x) =>
    -- x += *ik;
    let x := x + A ik
    (if x > ZERO then
      -- x = sqrt(x); *ik = x; ik++; x = 1 / x;
      let x := Double.sqrt x
      let A := Function.update A ik x
      let ik := ik + 1
      let x := 1 / x
      -- for( Int_t step=1; step<=N-j; ik+=++step ){ ... }
      (whileLoop
        (fun ((step, _, _) : Nat × Nat × (Nat → Double)) => decide (step ≤ N - j))
        (InvertS.scaleStep fuel j1 jj x)
        fuel (1, ik, A)).bind fun (_, _, A) => some (A, ret)
    else
      -- Double_t *ji=jj;  for( Int_t i=j; i<N; i++ ) *(ji+=i) = 0.;  ret = 1;
      (whileLoop
        (fun ((i, _, _) : Nat × Nat × (Nat → Double)) => decide (i < N))
        (fun (i, ji, A) => some (i + 1, ji + i, Function.update A (ji + i) 0))
        fuel (j, jj, A)).bind fun (_, _, A) => some (A, true)).bind fun (A, ret) =>
    -- j1+=j++, jj+=j
    some (j + 1, j1 + j, jj + (j + 1), A, ret)

/-- First block of `InvertS` (lines 425-450) on binary64 numbers. -/
def InvertS.factor (fuel : Nat) (N : Nat) (A0 : Nat → Double) (ret0 : Bool) :
    Option ((Nat → Double) × Bool) :=
  -- Double_t *j1 = A, *jj = A;  for( Int_t j=1; j<=N; j1+=j++, jj+=j ){ ... }
  (whileLoop
    (fun ((j, _, _, _, _) : Nat × Nat × Nat × (Nat → Double) × Bool) => decide (j ≤ N))
    (InvertS.factorStep fuel N)
    fuel (1, 0, 0, A0, ret0)).bind fun (_, _, _, A, ret) => some (A, ret)

/-- Lines 466-472 on binary64 numbers: the definition `InvertS.invertEntry` above with
every operation rounded. -/
def InvertS.invertEntry (fuel ii : Nat) (x : Double) :
    Nat × Nat × Nat × (Nat → Double) → Option (Nat × Nat × Nat × (Nat → Double))
  | (j, jj, ij, A) =>
    -- Double_t *ik = ij, *kj = jj, sum = 0.;
    -- for( Int_t k=j; ik!=ii; kj+=k++, ik++ ){ sum += *ik * *kj; }
    (whileLoop
      (fun ((_, ik, _, _) : Nat × Nat × Nat × Double) => ik != ii)
      (fun (k, ik, kj, sum) => some (k + 1, ik + 1, kj + k, sum + A ik * A kj))
      fuel (j, ij, jj, 0)).bind fun (_, _, kj, sum) =>
    -- *kj = sum * x;
    let A := Function.update A kj (sum * x)
    -- jj+=++j, ij++
    some (j + 1, jj + (j + 1), ij + 1, A)

/-- Lines 461-480 on binary64 numbers: the definition `InvertS.invertStep` above with
every operation rounded. -/
def InvertS.invertStep (fuel : Nat) :
    Nat × Nat × Nat × (Nat → Double) × Bool → Option (Nat × Nat × Nat × (Nat → Double) × Bool)
  | (i, ii, ij, A, ret) =>
    (if A ii > ZERO then
      -- Double_t x = -(*ii = 1./ *ii);
      let A := Function.update A ii (1 / A ii)
      let x := -(A ii)
      -- Double_t *jj = A;  for( Int_t j=1; j<i; jj+=++j, ij++ ){ ... }
      (whileLoop
        (fun ((j, _, _, _) : Nat × Nat × Nat × (Nat → Double)) => decide (j < i))
        (InvertS.invertEntry fuel ii x)
        fuel (1, 0, ij, A)).bind fun (_, _, _, A) => some (A, ret)
    else
      -- for( Double_t *ik = ij; ik!=ii+1; ik++ ){ *ik = 0.; }  ret = 1;
      (whileLoop
        (fun ((ik, _) : Nat × (Nat → Double)) => ik != ii + 1)
        (fun (ik, A) => some (ik + 1, Function.update A ik 0))
        fuel (ij, A)).bind fun (_, A) => some (A, true)).bind fun (A, ret) =>
    -- ij=ii+1, ii+=++i
    some (i + 1, ii + (i + 1), ii + 1, A, ret)

/-- Second block of `InvertS` (lines 459-481) on binary64 numbers. -/
def InvertS.invertFactor (fuel : Nat) (N : Nat) (A0 : Nat → Double) (ret0 : Bool) :
    Option ((Nat → Double) × Bool) :=
  -- Double_t *ii=A,*ij=A;  for( Int_t i = 1; i<=N; ij=ii+1, ii+=++i ){ ... }
  (whileLoop
    (fun ((i, _, _, _, _) : Nat × Nat × Nat × (Nat → Double) × Bool) => decide (i ≤ N))
    (InvertS.invertStep fuel)
    fuel (1, 0, 0, A0, ret0)).bind fun (_, _, _, A, ret) => some (A, ret)

/-- Lines 491-493 on binary64 numbers: the definition `InvertS.productEntry` above with
every operation rounded. -/
def InvertS.productEntry (fuel N i ii : Nat) :
    Nat × (Nat → Double) → Option (Nat × (Nat → Double))
  | (ij, A) =>
    -- Double_t *ki = ii, *kj = ij, sum = 0.;
    -- for( Int_t k=i; k<=N; ki+=k, kj+=k++ ) sum += (*ki) * (*kj);
    (whileLoop
      (fun ((k, _, _, _) : Nat × Nat × Nat × Double) => decide (k ≤ N))
      (fun (k, ki, kj, sum) => some (k + 1, ki + k, kj + k, sum + A ki * A kj))
      fuel (i, ii, ij, 0)).bind fun (_, _, _, sum) =>
    -- *ij = sum;
    some (ij, Function.update A ij sum)

/-- Lines 489-495 on binary64 numbers. -/
def InvertS.productStep (fuel N : Nat) :
    Nat × Nat × Nat × (Nat → Double) → Option (Nat × Nat × Nat × (Nat → Double))
  | (i, ii, ij, A) =>
    -- do{ ... }while( (ij++)!=ii );
    (doWhileLoop
      (InvertS.productEntry fuel N i ii)
      (fun ((ij, A) : Nat × (Nat → Double)) => (ij != ii, (ij + 1, A)))
      fuel (ij, A)).bind fun (ij, A) =>
    -- ii+=++i
    some (i + 1, ii + (i + 1), ij, A)

/-- Third block of `InvertS` (lines 487-496) on binary64 numbers. -/
def InvertS.transposeTimesSelf (fuel : Nat) (N : Nat) (A0 : Nat → Double) :
    Option (Nat → Double) :=
  -- Double_t *ii=A, *ij=A;  for( Int_t i=1; i<=N; ii+=++i ){ ... }
  (whileLoop
    (fun ((i, _, _, _) : Nat × Nat × Nat × (Nat → Double)) => decide (i ≤ N))
    (InvertS.productStep fuel N)
    fuel (1, 0, 0, A0)).bind fun (_, _, _, A) => some A

/-- The function `InvertS( Double_t A[], Int_t N )` on binary64 numbers: returns the
error flag (`false` is 0, `true` is 1) and the array after the call. -/
def InvertS (fuel : Nat) (A : Nat → Double) (N : Nat) :
    Option (Bool × (Nat → Double)) :=
  -- Bool_t ret = 0;
  (InvertS.factor fuel N A false).bind fun (A, ret) =>
  (InvertS.invertFactor fuel N A ret).bind fun (A, ret) =>
  (InvertS.transposeTimesSelf fuel N A).bind fun A =>
  -- return ret;
  some (ret, A)

/-- The function `MultSSQ( const Double_t *A, const Double_t *B, Double_t *C, Int_t N )`
on binary64 numbers; returns the array `C` after the call. -/
def MultSSQ (fuel : Nat) (A B C0 : Nat → Double) (N : Nat) : Option (Nat → Double) :=
  -- for( Int_t ind=0, i=0; i<N; ++i )
  (whileLoop
    (fun (_, i, _) => decide (i < N))
    (fun ((ind, i, C) : Nat × Nat × (Nat → Double)) =>
      -- for( Int_t j=0; j<N; ++j, ++ind )
      (whileLoop
        (fun ((_, j, _) : Nat × Nat × (Nat → Double)) => decide (j < N))
        (fun (ind, j, C) =>
          -- C[ind] = 0;
          let C := Function.update C ind 0
          -- for( Int_t k=0; k<N; ++k ) C[ind] += A[IndexS(i,k)] * B[IndexS(k,j)];
          (whileLoop
            (fun ((k, _) : Nat × (Nat → Double)) => decide (k < N))
            (fun (k, C) =>
              some (k + 1, Function.update C ind (C ind + A (IndexS i k) * B (IndexS k j))))
            fuel (0, C)).bind fun (_, C) =>
          some (ind + 1, j + 1, C))
        fuel (ind, 0, C)).bind fun (ind, _, C) =>
      some (ind, i + 1, C))
    fuel (0, 0, C0)).bind fun (_, _, C) => some C

/-- The function `SmoothTracks(T1, C1, Chi21, NDF1, T2, C2, Chi22, NDF2, T, C, Chi2, NDF, N)`
on binary64 numbers and 32-bit `Int_t`, called with output buffers that do not overlap
the inputs; arguments and result are as for the definition `SmoothTracks` above. -/
def SmoothTracks (fuel : Nat)
    (T1 C1 : Nat → Double) (Chi21 : Double) (NDF1 : Int)
    (T2 C2 : Nat → Double) (Chi22 : Double) (NDF2 : Int)
    (T C : Nat → Double) (Chi2 : Double) (NDF : Int) (N : Nat) :
    Option (Bool × (Nat → Double) × (Nat → Double) × Double × Int) :=
  -- Int_t M = N*(N+1)/2;
  let M := N * (N + 1) / 2
  -- for(Int_t k=0; k<M; k++) A[k] = C1[k] + C2[k];
  (whileLoop
    (fun ((k, _) : Nat × (Nat → Double)) => decide (k < M))
    (fun (k, A) => some (k + 1, Function.update A k (C1 k + C2 k)))
    fuel (0, (fun _ => 0 : Nat → Double))).bind fun (_, A) =>
  -- Bool_t err = InvertS(A,N);
  (InvertS fuel A N).bind fun (err, A) =>
  -- if( err ) return 1;
  if err then some (true, T, C, Chi2, NDF) else
  -- Chi2 = Chi21 + Chi22;  NDF = NDF1 + NDF2;
  let Chi2 := Chi21 + Chi22
  let NDF := wrapInt_t (NDF1 + NDF2)
  -- MultSSQ( C1, A, K, N);
  (MultSSQ fuel C1 A (fun _ => (0 : Double)) N).bind fun K =>
  -- for( Int_t k=0; k<N;k++) r[k] = T1[k] - T2[k];
  (whileLoop
    (fun ((k, _) : Nat × (Nat → Double)) => decide (k < N))
    (fun (k, r) => some (k + 1, Function.update r k (T1 k - T2 k)))
    fuel (0, (fun _ => 0 : Nat → Double))).bind fun (_, r) =>
  -- for( Int_t k=0; k<N;k++ ) for( Int_t l=0;l<N;l++) T[k] = T1[k] - K[k*N+l]*r[l];
  (whileLoop
    (fun ((k, _) : Nat × (Nat → Double)) => decide (k < N))
    (fun (k, T) =>
      (whileLoop
        (fun ((l, _) : Nat × (Nat → Double)) => decide (l < N))
        (fun (l, T) => some (l + 1, Function.update T k (T1 k - K (k * N + l) * r l)))
        fuel (0, T)).bind fun (_, T) =>
      some (k + 1, T))
    fuel (0, T)).bind fun (_, T) =>
  -- for( Int_t ind=0,i=0; i<N; i++ ){
  (whileLoop
    (fun ((_, i, _) : Nat × Nat × Double) => decide (i < N))
    (fun (ind, i, Chi2) =>
      -- for( Int_t j=0; j<i; j++ ) Chi2+= 2*r[i]*r[j]*A[ind++];
      (whileLoop
        (fun ((_, j, _) : Nat × Nat × Double) => decide (j < i))
        (fun (ind, j, Chi2) => some (ind + 1, j + 1, Chi2 + 2 * r i * r j * A ind))
        fuel (ind, 0, Chi2)).bind fun (ind, _, Chi2) =>
      -- Chi2+= r[i]*r[i]*A[ind++];
      some (ind + 1, i + 1, Chi2 + r i * r i * A ind))
    fuel (0, 0, Chi2)).bind fun (_, _, Chi2) =>
  -- NDF+=N;
  let NDF := wrapInt_t (NDF + (N : Int))
  -- for( Int_t l=0; l<N; l++ ) K[ (N+1)*l ] -= 1;
  (whileLoop
    (fun ((l, _) : Nat × (Nat → Double)) => decide (l < N))
    (fun (l, K) => some (l + 1, Function.update K ((N + 1) * l) (K ((N + 1) * l) - 1)))
    fuel (0, K)).bind fun (_, K) =>
  -- for( Int_t ind = 0, l=0; l<N; ++l ){
  (whileLoop
    (fun ((_, l, _) : Nat × Nat × (Nat → Double)) => decide (l < N))
    (fun (ind, l, A) =>
      -- for( Int_t j=0; j<=l; ++j, ind++ ){
      (whileLoop
        (fun ((_, j, _) : Nat × Nat × (Nat → Double)) => decide (j ≤ l))
        (fun (ind, j, A) =>
          -- A[ind] = 0;
          let A := Function.update A ind 0
          -- for( Int_t k=0; k<N; ++k ) A[ind] -= K[l*N+k] * C1[IndexS(j,k)];
          (whileLoop
            (fun ((k, _) : Nat × (Nat → Double)) => decide (k < N))
            (fun (k, A) =>
              some (k + 1, Function.update A ind (A ind - K (l * N + k) * C1 (IndexS j k))))
            fuel (0, A)).bind fun (_, A) =>
          some (ind + 1, j + 1, A))
        fuel (ind, 0, A)).bind fun (ind, _, A) =>
      some (ind, l + 1, A))
    fuel (0, 0, A)).bind fun (_, _, A) =>
  -- for( Int_t l=0; l<N; l++ ) C[l] = A[l];
  (whileLoop
    (fun ((l, _) : Nat × (Nat → Double)) => decide (l < N))
    (fun (l, C) => some (l + 1, Function.update C l (A l)))
    fuel (0, C)).bind fun (_, C) =>
  -- return 0;
  some (false, T, C, Chi2, NDF)

/-- The function `MatchTracks(trackTPC, trackTRD)` on binary64 numbers; a null pointer
is `none`.  The getters `GetY()`, `GetZ()`, `GetSnp()`, `GetTgl()`, `GetSigned1Pt()` read
`fP[0]` to `fP[4]`. -/
def MatchTracks (m : Merger Double) (trackTPC trackTRD : Option (AliESDtrack Double)) : Bool :=
  match trackTPC with
  | none => false        -- if(!trackTPC) return kFALSE;
  | some a =>
    match trackTRD with
    | none => false      -- if(!trackTRD) return kFALSE;
    | some b =>
      if Double.abs (a.fP 0 - b.fP 0) > m.fMaxY then false
      else if Double.abs (a.fP 1 - b.fP 1) > m.fMaxZ then false
      else if Double.abs (a.fP 2 - b.fP 2) > m.fMaxSnp then false
      else if Double.abs (a.fP 3 - b.fP 3) > m.fMaxTgl then false
      else if Double.abs (a.fP 4 - b.fP 4) > m.fMaxSigned1Pt then false
      else true

/-- The default constructor (lines 46-60) on binary64 numbers: all five thresholds
are `0.0`. -/
def defaultMerger : Merger Double :=
  { fMaxY := 0, fMaxZ := 0, fMaxSnp := 0, fMaxTgl := 0, fMaxSigned1Pt := 0 }

end IEEE

/-- The function `SetParameter(maxy, maxz, maxsnp, maxtgl, signed1Pt)` on binary64
numbers. -/
def IEEE.SetParameter (_m : Merger Double) (maxy maxz maxsnp maxtgl signed1Pt : Double) :
    Merger Double :=
  { fMaxY := maxy, fMaxZ := maxz, fMaxSnp := maxsnp, fMaxTgl := maxtgl,
    fMaxSigned1Pt := signed1Pt }

/-! # Theorems -/

/-! ## Proof rules for the loops -/

/-- Invariant/variant rule for `whileLoop`: with enough fuel the loop returns, in a
state that satisfies the invariant and falsifies the test. -/
theorem whileLoop_rule {σ : Type} (cond : σ → Bool) (body : σ → Option σ)
    (Inv : σ → Prop) (V : σ → Nat)
    (hstep : ∀ s, Inv s → cond s = true → ∃ s', body s = some s' ∧ Inv s' ∧ V s' < V s) :
    ∀ (fuel : Nat) (s : σ), Inv s → V s < fuel →
      ∃ s', whileLoop cond body fuel s = some s' ∧ Inv s' ∧ cond s' = false := by
  intro fuel
  induction fuel with
  | zero => intro s _ h; omega
  | succ n ih =>
    intro s hI hV
    by_cases hc : cond s = true
    · obtain ⟨s', hb, hI', hV'⟩ := hstep s hI hc
      simp only [whileLoop, hc, if_true, hb, Option.some_bind]
      exact ih s' hI' (by omega)
    · refine ⟨s, ?_, hI, by simpa using hc⟩
      simp [whileLoop, hc]

/-- Rule for `doWhileLoop`: `Inv` holds before every execution of the body, `Post`
after the test that leaves the loop. -/
theorem doWhileLoop_rule {σ : Type} (body : σ → Option σ) (test : σ → Bool × σ)
    (Inv Post : σ → Prop) (V : σ → Nat)
    (hstep : ∀ s, Inv s → ∃ s1, body s = some s1 ∧
      ((test s1).1 = true → Inv (test s1).2 ∧ V (test s1).2 < V s) ∧
      ((test s1).1 = false → Post (test s1).2)) :
    ∀ (fuel : Nat) (s : σ), Inv s → V s < fuel →
      ∃ s', doWhileLoop body test fuel s = some s' ∧ Post s' := by
  intro fuel
  induction fuel with
  | zero => intro s _ h; omega
  | succ n ih =>
    intro s hI hV
    obtain ⟨s1, hb, ht, hf⟩ := hstep s hI
    by_cases hc : (test s1).1 = true
    · obtain ⟨hI', hV'⟩ := ht hc
      simp only [doWhileLoop, hb, Option.some_bind, hc, if_true]
      exact ih _ hI' (by omega)
    · refine ⟨(test s1).2, ?_, hf (by simpa using hc)⟩
      simp [doWhileLoop, hb, hc]

/-! ## Packed indices -/

theorem tri_zero : tri 0 = 0 := rfl

theorem tri_succ (i : Nat) : tri (i + 1) = tri i + i + 1 := by
  unfold tri
  have h : (i + 1) * (i + 1 + 1) = i * (i + 1) + 2 * (i + 1) := by ring
  rw [h, Nat.add_mul_div_left _ _ (by norm_num : 0 < 2)]
  omega

theorem tri_mono {i j : Nat} (h : i ≤ j) : tri i ≤ tri j := by
  induction h with
  | refl => exact le_refl _
  | step _ ih => rw [tri_succ]; omega

theorem tri_lt {i j : Nat} (h : i < j) : tri i + i < tri j := by
  have := tri_mono (Nat.succ_le_of_lt h)
  rw [tri_succ] at this
  omega

/-- Different positions of the lower triangle have different packed offsets. -/
theorem tri_inj {i j i' j' : Nat} (hj : j ≤ i) (hj' : j' ≤ i')
    (h : tri i + j = tri i' + j') : i = i' ∧ j = j' := by
  rcases Nat.lt_trichotomy i i' with hlt | heq | hgt
  · have := tri_lt hlt; omega
  · subst heq; exact ⟨rfl, by omega⟩
  · have := tri_lt hgt; omega

theorem IndexS_of_le {i j : Nat} (h : j ≤ i) : IndexS i j = tri i + j := by
  unfold IndexS tri
  rw [if_pos h, Nat.mul_comm]

theorem IndexS_comm (i j : Nat) : IndexS i j = IndexS j i := by
  unfold IndexS
  by_cases h1 : i ≥ j <;> by_cases h2 : j ≥ i
  · have : i = j := le_antisymm h2 h1
    subst this; rfl
  · simp [h1, h2]
  · simp [h1, h2]
  · omega

theorem tri_le_size {i N : Nat} (h : i ≤ N) : tri i ≤ N * (N + 1) / 2 := tri_mono h

/-! ## Closed forms of the innermost loops of `InvertS` -/

/-- The loop `while( ik!=jj ){ x -= (*ik) * (*ik); ik++; }`. -/
theorem sqLoop_eq (A : Nat → F) (fuel lo jj : Nat) (x0 : F) (h : lo ≤ jj) (hf : jj - lo < fuel) :
    whileLoop (fun ((ik, _) : Nat × F) => ik != jj)
      (fun (ik, x) => some (ik + 1, x - A ik * A ik)) fuel (lo, x0)
      = some (jj, x0 - ∑ m in Finset.Ico lo jj, A m * A m) := by
  obtain ⟨⟨ik, x⟩, hr, ⟨h1, h2, h3⟩, hc⟩ := whileLoop_rule
    (fun ((ik, _) : Nat × F) => ik != jj) (fun (ik, x) => some (ik + 1, x - A ik * A ik))
    (fun (ik, x) => lo ≤ ik ∧ ik ≤ jj ∧ x = x0 - ∑ m in Finset.Ico lo ik, A m * A m)
    (fun (ik, _) => jj - ik)
    (by
      rintro ⟨ik, x⟩ ⟨h1, h2, h3⟩ hc
      have hne : ik ≠ jj := by simpa using hc
      refine ⟨(ik + 1, x - A ik * A ik), rfl, ?_, by dsimp only; omega⟩
      dsimp only
      refine ⟨by omega, by omega, ?_⟩
      rw [Finset.sum_Ico_succ_top h1, h3]; ring)
    fuel (lo, x0) ⟨le_refl _, h, by simp⟩ hf
  have : ik = jj := by simpa using hc
  subst this
  rw [hr, h3]

/-- The loop `for( Double_t *jk=j1; jk!=jj; sum += *(jk++) * *(ik++) );`. -/
theorem dotLoop_eq (A : Nat → F) (fuel lo jj p : Nat) (h : lo ≤ jj) (hf : jj - lo < fuel) :
    whileLoop (fun ((jk, _, _) : Nat × Nat × F) => jk != jj)
      (fun (jk, ik, sum) => some (jk + 1, ik + 1, sum + A jk * A ik)) fuel (lo, p, 0)
      = some (jj, p + (jj - lo), ∑ m in Finset.range (jj - lo), A (lo + m) * A (p + m)) := by
  obtain ⟨⟨jk, ik, sum⟩, hr, ⟨h1, h2, h3, h4⟩, hc⟩ := whileLoop_rule
    (fun ((jk, _, _) : Nat × Nat × F) => jk != jj)
    (fun (jk, ik, sum) => some (jk + 1, ik + 1, sum + A jk * A ik))
    (fun (jk, ik, sum) => lo ≤ jk ∧ jk ≤ jj ∧ ik = p + (jk - lo) ∧
      sum = ∑ m in Finset.range (jk - lo), A (lo + m) * A (p + m))
    (fun (jk, _, _) => jj - jk)
    (by
      rintro ⟨jk, ik, sum⟩ ⟨h1, h2, h3, h4⟩ hc
      have hne : jk ≠ jj := by simpa using hc
      refine ⟨_, rfl, ?_, by dsimp only; omega⟩
      dsimp only
      refine ⟨by omega, by omega, by omega, ?_⟩
      have e : jk + 1 - lo = (jk - lo) + 1 := by omega
      rw [e, Finset.sum_range_succ, h4, h3]
      have e2 : lo + (jk - lo) = jk := by omega
      rw [e2])
    fuel (lo, p, 0) ⟨le_refl _, h, by simp, by simp⟩ hf
  have : jk = jj := by simpa using hc
  subst this
  rw [hr, h3, h4]

/-- The loop `for( Int_t k=j; ik!=ii; kj+=k++, ik++ ) sum += *ik * *kj;` started in row
`r` at column `q`: it walks along row `r` and down column `q`. -/
theorem rowColLoop_eq (A : Nat → F) (fuel q r : Nat) (h : q ≤ r) (hf : r - q < fuel) :
    whileLoop (fun ((_, ik, _, _) : Nat × Nat × Nat × F) => ik != tri r + r)
      (fun (k, ik, kj, sum) => some (k + 1, ik + 1, kj + k, sum + A ik * A kj))
      fuel (q + 1, tri r + q, tri q + q, 0)
      = some (r + 1, tri r + r, tri r + q,
          ∑ t in Finset.Ico q r, A (tri r + t) * A (tri t + q)) := by
  obtain ⟨⟨k, ik, kj, sum⟩, hr, ⟨t, h1, h2, h3, h4, h5, h6⟩, hc⟩ := whileLoop_rule
    (fun ((_, ik, _, _) : Nat × Nat × Nat × F) => ik != tri r + r)
    (fun (k, ik, kj, sum) => some (k + 1, ik + 1, kj + k, sum + A ik * A kj))
    (fun (k, ik, kj, sum) => ∃ t, q ≤ t ∧ t ≤ r ∧ k = t + 1 ∧ ik = tri r + t ∧ kj = tri t + q ∧
      sum = ∑ u in Finset.Ico q t, A (tri r + u) * A (tri u + q))
    (fun (_, ik, _, _) => tri r + r - ik)
    (by
      rintro ⟨k, ik, kj, sum⟩ ⟨t, h1, h2, h3, h4, h5, h6⟩ hc
      have hne : ik ≠ tri r + r := by simpa using hc
      refine ⟨_, rfl, ?_, by dsimp only; omega⟩
      dsimp only
      refine ⟨t + 1, by omega, by omega, by omega, by omega, ?_, ?_⟩
      · rw [tri_succ]; omega
      · rw [Finset.sum_Ico_succ_top h1, h6, h4, h5])
    fuel (q + 1, tri r + q, tri q + q, 0) ⟨q, le_refl _, h, rfl, rfl, rfl, by simp⟩
    (by dsimp only; omega)
  have : ik = tri r + r := by simpa using hc
  have ht : t = r := by omega
  subst ht
  rw [hr, h3, h4, h5, h6]

/-- The loop `for( Int_t k=i; k<=N; ki+=k, kj+=k++ ) sum += (*ki) * (*kj);` started in
row `r` at columns `r` and `q`: it walks down the two columns. -/
theorem colColLoop_eq (A : Nat → F) (fuel q r N : Nat) (h : r ≤ N) (hf : N - r < fuel) :
    whileLoop (fun ((k, _, _, _) : Nat × Nat × Nat × F) => decide (k ≤ N))
      (fun (k, ki, kj, sum) => some (k + 1, ki + k, kj + k, sum + A ki * A kj))
      fuel (r + 1, tri r + r, tri r + q, 0)
      = some (N + 1, tri N + r, tri N + q,
          ∑ t in Finset.Ico r N, A (tri t + r) * A (tri t + q)) := by
  obtain ⟨⟨k, ki, kj, sum⟩, hr, ⟨t, h1, h2, h3, h4, h5, h6⟩, hc⟩ := whileLoop_rule
    (fun ((k, _, _, _) : Nat × Nat × Nat × F) => decide (k ≤ N))
    (fun (k, ki, kj, sum) => some (k + 1, ki + k, kj + k, sum + A ki * A kj))
    (fun (k, ki, kj, sum) => ∃ t, r ≤ t ∧ t ≤ N ∧ k = t + 1 ∧ ki = tri t + r ∧ kj = tri t + q ∧
      sum = ∑ u in Finset.Ico r t, A (tri u + r) * A (tri u + q))
    (fun (k, _, _, _) => N + 1 - k)
    (by
      rintro ⟨k, ki, kj, sum⟩ ⟨t, h1, h2, h3, h4, h5, h6⟩ hc
      have hle : k ≤ N := by simpa using hc
      refine ⟨_, rfl, ?_, by dsimp only; omega⟩
      dsimp only
      refine ⟨t + 1, by omega, by omega, by omega, ?_, ?_, ?_⟩
      · rw [tri_succ]; omega
      · rw [tri_succ]; omega
      · rw [Finset.sum_Ico_succ_top h1, h6, h4, h5])
    fuel (r + 1, tri r + r, tri r + q, 0) ⟨r, le_refl _, h, rfl, rfl, rfl, by simp⟩
    (by dsimp only; omega)
  have : ¬ k ≤ N := by simpa using hc
  have ht : t = N := by omega
  subst ht
  rw [hr, h3, h4, h5, h6]

/-! ## The loops of the factorisation block -/

/-- The loop over `step` of the factorisation block, in column `c` (0-based): every
entry of column `c` below the diagonal is reduced and scaled, nothing else changes. -/
theorem scaleLoop_spec (fuel N c : Nat) (x : F) (A0 : Nat → F) (hc : c < N) (hf : N < fuel) :
    ∃ s ik A,
      whileLoop (fun ((step, _, _) : Nat × Nat × (Nat → F)) => decide (step ≤ N - (c + 1)))
        (InvertS.scaleStep fuel (tri c) (tri c + c) x) fuel (1, tri (c + 1), A0)
        = some (s, ik, A) ∧
      (∀ i, c < i → i < N → A (tri i + c)
        = (A0 (tri i + c) - ∑ m in Finset.range c, A0 (tri c + m) * A0 (tri i + m)) * x) ∧
      (∀ idx, (∀ i, c < i → i < N → idx ≠ tri i + c) → A idx = A0 idx) := by
  obtain ⟨⟨s, ik, A⟩, hr, ⟨h1, h2, h3, h4, h5⟩, hcond⟩ := whileLoop_rule
    (fun ((step, _, _) : Nat × Nat × (Nat → F)) => decide (step ≤ N - (c + 1)))
    (InvertS.scaleStep fuel (tri c) (tri c + c) x)
    (fun (step, ik, A) => 1 ≤ step ∧ c + step ≤ N ∧ ik = tri (c + step) ∧
      (∀ i, c < i → i < c + step → A (tri i + c)
        = (A0 (tri i + c) - ∑ m in Finset.range c, A0 (tri c + m) * A0 (tri i + m)) * x) ∧
      (∀ idx, (∀ i, c < i → i < c + step → idx ≠ tri i + c) → A idx = A0 idx))
    (fun (step, _, _) => N + 1 - step)
    (by
      rintro ⟨step, ik, A⟩ ⟨h1, h2, h3, h4, h5⟩ hcond
      dsimp only at h3 h4 h5 hcond
      have hlt : step ≤ N - (c + 1) := by simpa using hcond
      subst h3
      have hsum : ∑ m in Finset.range c, A (tri c + m) * A (tri (c + step) + m)
          = ∑ m in Finset.range c, A0 (tri c + m) * A0 (tri (c + step) + m) := by
        refine Finset.sum_congr rfl fun m hm => ?_
        have hm' : m < c := Finset.mem_range.mp hm
        have e1 : A (tri c + m) = A0 (tri c + m) := by
          refine h5 _ fun i hi _ he => ?_
          have := tri_inj (by omega) (by omega) he
          omega
        have e2 : A (tri (c + step) + m) = A0 (tri (c + step) + m) := by
          refine h5 _ fun i hi _ he => ?_
          have := tri_inj (by omega) (by omega) he
          omega
        rw [e1, e2]
      have e3 : A (tri (c + step) + c) = A0 (tri (c + step) + c) := by
        refine h5 _ fun i hi hi2 he => ?_
        have := tri_inj (by omega) (by omega) he
        omega
      have hb : InvertS.scaleStep fuel (tri c) (tri c + c) x (step, tri (c + step), A)
          = some (step + 1, tri (c + step) + c + (step + 1),
              Function.update A (tri (c + step) + c) ((A (tri (c + step) + c)
                - ∑ m in Finset.range c, A (tri c + m) * A (tri (c + step) + m)) * x)) := by
        simp only [InvertS.scaleStep]
        rw [dotLoop_eq A fuel (tri c) (tri c + c) _ (by omega) (by omega)]
        simp only [Option.some_bind, Nat.add_sub_cancel_left]
      refine ⟨_, hb, ?_, ?_⟩
      · dsimp only
        refine ⟨by omega, by omega, ?_, ?_, ?_⟩
        · rw [show c + (step + 1) = (c + step) + 1 by omega, tri_succ]; omega
        · intro i hi hi2
          by_cases hi3 : i = c + step
          · subst hi3
            rw [Function.update_same, hsum, e3]
          · rw [Function.update_noteq, h4 i hi (by omega)]
            intro he
            have := tri_inj (by omega) (by omega) he
            omega
        · intro idx hidx
          rw [Function.update_noteq (hidx (c + step) (by omega) (by omega)),
            h5 idx fun i hi hi2 => hidx i hi (by omega)]
      · dsimp only; omega)
    fuel (1, tri (c + 1), A0)
    ⟨le_refl _, by omega, rfl, fun i hi hi2 => by omega, fun idx _ => rfl⟩
    (by dsimp only; omega)
  dsimp only at h3 h4 h5 hcond
  have hge : ¬ s ≤ N - (c + 1) := by simpa using hcond
  have hs : c + s = N := by omega
  refine ⟨s, ik, A, hr, fun i hi hi2 => h4 i hi (by omega), fun idx hidx => h5 idx fun i hi hi2 =>
    hidx i hi (by omega)⟩

/-- The loop `for( Int_t i=j; i<N; i++ ) *(ji+=i) = 0.;` of the degenerate-pivot branch
returns. -/
theorem zeroColumnLoop_spec (fuel N j jj : Nat) (A0 : Nat → F) (hf : N < fuel) :
    ∃ s, whileLoop (fun ((i, _, _) : Nat × Nat × (Nat → F)) => decide (i < N))
        (fun (i, ji, A) => some (i + 1, ji + i, Function.update A (ji + i) 0))
        fuel (j, jj, A0) = some s := by
  obtain ⟨s, hr, -, -⟩ := whileLoop_rule
    (fun ((i, _, _) : Nat × Nat × (Nat → F)) => decide (i < N))
    (fun (i, ji, A) => some (i + 1, ji + i, Function.update A (ji + i) 0))
    (fun _ => True) (fun (i, _, _) => N - i)
    (by
      rintro ⟨i, ji, A⟩ - hcond
      have hlt : i < N := by simpa using hcond
      exact ⟨_, rfl, trivial, by dsimp only; omega⟩)
    fuel (j, jj, A0) trivial (by dsimp only; omega)
  exact ⟨s, hr⟩

/-- A column of the specified factor does not change once it has been computed. -/
theorem cholCols_stable (sqrt : F → F) (a : Nat → F) (i k : Nat) :
    ∀ n, k < n → cholCols sqrt a n i k = cholCols sqrt a (k + 1) i k := by
  intro n hn
  induction n with
  | zero => omega
  | succ n ih =>
    by_cases h : k = n
    · subst h; rfl
    · rw [cholCols, if_neg h]
      exact ih (by omega)

/-- Unfolding of the specified factor on the diagonal. -/
theorem cholCols_diag (sqrt : F → F) (a : Nat → F) (c : Nat) :
    cholCols sqrt a (c + 1) c c = sqrt (cholPivot sqrt a c) := by
  rw [cholCols, if_pos rfl, if_pos rfl]; rfl

/-- Unfolding of the specified factor below the diagonal. -/
theorem cholCols_below (sqrt : F → F) (a : Nat → F) (i c : Nat) (h : i ≠ c) :
    cholCols sqrt a (c + 1) i c
      = (a (tri i + c) - ∑ m in Finset.range c, cholCols sqrt a c c m * cholCols sqrt a c i m)
          / sqrt (cholPivot sqrt a c) := by
  rw [cholCols, if_pos rfl, if_neg h]; rfl

/-- One column of the factorisation block.  From a state in which the columns before
`c` hold the specified factor and the others the input, the body of the outer loop
returns a state in which this is so for `c + 1`; the flag is raised exactly when the
pivot of column `c` does not exceed `ZERO`, and is never lowered. -/
theorem factorStep_spec (fuel N c : Nat) (sqrt : F → F) (a A : Nat → F) (ret : Bool)
    (hc : c < N) (hf : N < fuel) :
    ∃ A' ret',
      InvertS.factorStep fuel sqrt N (c + 1, tri c, tri c + c, A, ret)
        = some (c + 2, tri (c + 1), tri (c + 1) + (c + 1), A', ret') ∧
      (ret = true → ret' = true) ∧
      ((∀ i k, k ≤ i → i < N →
          A (tri i + k) = if k < c then cholCols sqrt a (k + 1) i k else a (tri i + k)) →
        (ret' = (ret || !decide (cholPivot sqrt a c > ZERO))) ∧
        (cholPivot sqrt a c > ZERO → ∀ i k, k ≤ i → i < N →
          A' (tri i + k) = if k < c + 1 then cholCols sqrt a (k + 1) i k else a (tri i + k))) := by
  have hsq := sqLoop_eq A fuel (tri c) (tri c + c) 0 (by omega) (by omega)
  rw [Finset.sum_Ico_eq_sum_range, Nat.add_sub_cancel_left] at hsq
  have e1 : tri (c + 1) = tri c + c + 1 := tri_succ c
  have e2 : tri (c + 1) + (c + 1) = tri c + c + (c + 1 + 1) := by rw [e1]; omega
  have e3 : tri (c + 1) = tri c + (c + 1) := by rw [e1]; omega
  -- the value of the pivot computed by the code, when the content is as specified
  have hpiv : (∀ i k, k ≤ i → i < N →
      A (tri i + k) = if k < c then cholCols sqrt a (k + 1) i k else a (tri i + k)) →
      0 - ∑ m in Finset.range c, A (tri c + m) * A (tri c + m) + A (tri c + c)
        = cholPivot sqrt a c := by
    intro hA
    have hs : ∑ m in Finset.range c, A (tri c + m) * A (tri c + m)
        = ∑ m in Finset.range c, cholCols sqrt a c c m * cholCols sqrt a c c m := by
      refine Finset.sum_congr rfl fun m hm => ?_
      have hm' : m < c := Finset.mem_range.mp hm
      rw [hA c m (by omega) hc, if_pos hm', cholCols_stable sqrt a c m c hm']
    rw [hs, hA c c (le_refl _) hc, if_neg (lt_irrefl _)]
    unfold cholPivot; ring
  by_cases hx : 0 - ∑ m in Finset.range c, A (tri c + m) * A (tri c + m) + A (tri c + c) > ZERO
  · -- regular pivot
    obtain ⟨s, ik, A', hr, hA1, hA2⟩ := scaleLoop_spec fuel N c
      (1 / sqrt (0 - ∑ m in Finset.range c, A (tri c + m) * A (tri c + m) + A (tri c + c)))
      (Function.update A (tri c + c)
        (sqrt (0 - ∑ m in Finset.range c, A (tri c + m) * A (tri c + m) + A (tri c + c))))
      hc hf
    refine ⟨A', ret, ?_, fun h => h, fun hA => ?_⟩
    · simp only [InvertS.factorStep]
      rw [hsq]
      simp only [Option.some_bind, if_pos hx]
      rw [e1] at hr
      rw [hr]
      simp only [Option.some_bind, Option.some.injEq, Prod.mk.injEq]
      exact ⟨trivial, by omega, by omega, trivial⟩
    · have hp := hpiv hA
      rw [hp] at hx hA1 hA2
      refine ⟨by simp [hx], fun _ i k hk hi => ?_⟩
      by_cases hkc : k = c
      · subst hkc
        rw [if_pos (Nat.lt_succ_self _)]
        by_cases hik : i = k
        · subst hik
          rw [hA2 _ (fun i' h1 _ he => by have := tri_inj (le_refl _) (by omega) he; omega),
            Function.update_same, cholCols_diag]
        · rw [hA1 i (by omega) hi, cholCols_below sqrt a i k hik,
            Function.update_noteq (fun he => by
              have := tri_inj (by omega) (by omega) he; omega),
            hA i k hk hi, if_neg (lt_irrefl _)]
          have hs : ∑ m in Finset.range k,
              Function.update A (tri k + k) (sqrt (cholPivot sqrt a k)) (tri k + m)
                * Function.update A (tri k + k) (sqrt (cholPivot sqrt a k)) (tri i + m)
              = ∑ m in Finset.range k, cholCols sqrt a k k m * cholCols sqrt a k i m := by
            refine Finset.sum_congr rfl fun m hm => ?_
            have hm' : m < k := Finset.mem_range.mp hm
            rw [Function.update_noteq (fun he => by
                have := tri_inj (by omega) (by omega) he; omega),
              Function.update_noteq (fun he => by
                have := tri_inj (by omega) (by omega) he; omega),
              hA k m (by omega) hc, if_pos hm', hA i m (by omega) hi, if_pos hm',
              cholCols_stable sqrt a k m k hm', cholCols_stable sqrt a i m k hm']
          rw [hs, mul_one_div]
      · rw [hA2 _ (fun i' h1 _ he => by have := tri_inj hk (by omega) he; omega),
          Function.update_noteq (fun he => by
            have := tri_inj hk (le_refl _) he; omega),
          hA i k hk hi]
        by_cases hlt : k < c
        · rw [if_pos hlt, if_pos (by omega)]
        · rw [if_neg hlt, if_neg (by omega)]
  · -- degenerate pivot
    obtain ⟨⟨s, ji, A'⟩, hr⟩ := zeroColumnLoop_spec fuel N (c + 1) (tri c + c) A hf
    refine ⟨A', true, ?_, fun _ => rfl, fun hA => ?_⟩
    · simp only [InvertS.factorStep]
      rw [hsq]
      simp only [Option.some_bind, if_neg hx]
      rw [hr]
      simp only [Option.some_bind, Option.some.injEq, Prod.mk.injEq]
      exact ⟨trivial, by omega, by omega, trivial⟩
    · have hp := hpiv hA
      rw [hp] at hx
      exact ⟨by simp [hx], fun h => absurd h hx⟩

/-- The factorisation block returns; it raises the flag exactly when some pivot does
not exceed `ZERO` (and never lowers it); when all pivots exceed `ZERO` the array holds
the specified Cholesky factor. -/
theorem factor_spec (fuel N : Nat) (sqrt : F → F) (a : Nat → F) (ret0 : Bool) (hf : N < fuel) :
    ∃ L ret, InvertS.factor fuel sqrt N a ret0 = some (L, ret) ∧
      (ret = true ↔ ret0 = true ∨ ∃ c, c < N ∧ ¬ cholPivot sqrt a c > ZERO) ∧
      ((∀ c, c < N → cholPivot sqrt a c > ZERO) →
        ∀ i k, k ≤ i → i < N → L (tri i + k) = cholCols sqrt a (k + 1) i k) := by
  obtain ⟨⟨j, j1, jj, A, ret⟩, hr, ⟨c, h1, h2, h3, h4, h5, h6⟩, hcond⟩ := whileLoop_rule
    (fun ((j, _, _, _, _) : Nat × Nat × Nat × (Nat → F) × Bool) => decide (j ≤ N))
    (InvertS.factorStep fuel sqrt N)
    (fun (j, j1, jj, A, ret) => ∃ c, j = c + 1 ∧ c ≤ N ∧ j1 = tri c ∧ jj = tri c + c ∧
      (ret = true ↔ ret0 = true ∨ ∃ c', c' < c ∧ ¬ cholPivot sqrt a c' > ZERO) ∧
      ((∀ c', c' < c → cholPivot sqrt a c' > ZERO) → ∀ i k, k ≤ i → i < N →
        A (tri i + k) = if k < c then cholCols sqrt a (k + 1) i k else a (tri i + k)))
    (fun (j, _, _, _, _) => N + 1 - j)
    (by
      rintro ⟨j, j1, jj, A, ret⟩ ⟨c, h1, h2, h3, h4, h5, h6⟩ hcond
      dsimp only at hcond
      have hlt : j ≤ N := by simpa using hcond
      subst h1 h3 h4
      obtain ⟨A', ret', hb, hmono, hcont⟩ := factorStep_spec fuel N c sqrt a A ret (by omega) hf
      refine ⟨_, hb, ?_, by dsimp only; omega⟩
      dsimp only
      refine ⟨c + 1, rfl, by omega, rfl, rfl, ?_, ?_⟩
      · by_cases hall : ∀ c', c' < c → cholPivot sqrt a c' > ZERO
        · obtain ⟨hret, -⟩ := hcont (h6 hall)
          have hret0 : ret = ret0 := by
            cases hr : ret
            · cases hr0 : ret0
              · rfl
              · exact absurd (h5.mpr (Or.inl hr0)) (by simp [hr])
            · rcases h5.mp hr with h | ⟨c', hc', hbad⟩
              · exact h.symm
              · exact absurd (hall c' hc') hbad
          rw [hret, hret0]
          constructor
          · intro h
            rcases Bool.or_eq_true _ _ ▸ h with h | h
            · exact Or.inl h
            · exact Or.inr ⟨c, Nat.lt_succ_self _, by simpa using h⟩
          · rintro (h | ⟨c', hc', hbad⟩)
            · simp [h]
            · have : c' = c := by
                by_contra hne
                exact hbad (hall c' (by omega))
              subst this
              simp [hbad]
        · have hex : ∃ c', c' < c ∧ ¬ cholPivot sqrt a c' > ZERO := by
            by_contra hne
            exact hall fun c' hc' => by
              by_contra hbad
              exact hne ⟨c', hc', hbad⟩
          have hret : ret = true := h5.mpr (Or.inr hex)
          obtain ⟨c', hc', hbad⟩ := hex
          exact ⟨fun _ => Or.inr ⟨c', by omega, hbad⟩, fun _ => hmono hret⟩
      · intro hall
        exact (hcont (h6 fun c' hc' => hall c' (by omega))).2 (hall c (Nat.lt_succ_self _)))
    fuel (1, 0, 0, a, ret0)
    ⟨0, rfl, Nat.zero_le _, rfl, rfl, by simp, fun _ i k _ _ => by simp⟩
    (by dsimp only; omega)
  dsimp only at hcond
  have hge : ¬ j ≤ N := by simpa using hcond
  have hcN : c = N := by omega
  subst hcN
  refine ⟨A, ret, ?_, h5, fun hall i k hk hi => ?_⟩
  · simp only [InvertS.factor]
    rw [hr]
    rfl
  · rw [h6 hall i k hk hi, if_pos (by omega)]

/-! ## The loops of the triangular inversion block -/

/-- The loop over `j` of the inversion block, in row `r` (0-based): the entries of
row `r` left of the diagonal are replaced, nothing else changes. -/
theorem invertRowLoop_spec (fuel N r : Nat) (x : F) (A0 : Nat → F) (hr : r < N) (hf : N < fuel) :
    ∃ j jj ij A,
      whileLoop (fun ((j, _, _, _) : Nat × Nat × Nat × (Nat → F)) => decide (j < r + 1))
        (InvertS.invertEntry fuel (tri r + r) x) fuel (1, 0, tri r, A0)
        = some (j, jj, ij, A) ∧
      (∀ q, q < r → A (tri r + q)
        = (∑ t in Finset.Ico q r, A0 (tri r + t) * A0 (tri t + q)) * x) ∧
      (∀ idx, (∀ q, q < r → idx ≠ tri r + q) → A idx = A0 idx) := by
  obtain ⟨⟨j, jj, ij, A⟩, hres, ⟨q, h1, h2, h3, h4, h5, h6⟩, hcond⟩ := whileLoop_rule
    (fun ((j, _, _, _) : Nat × Nat × Nat × (Nat → F)) => decide (j < r + 1))
    (InvertS.invertEntry fuel (tri r + r) x)
    (fun (j, jj, ij, A) => ∃ q, j = q + 1 ∧ q ≤ r ∧ jj = tri q + q ∧ ij = tri r + q ∧
      (∀ q', q' < q → A (tri r + q')
        = (∑ t in Finset.Ico q' r, A0 (tri r + t) * A0 (tri t + q')) * x) ∧
      (∀ idx, (∀ q', q' < q → idx ≠ tri r + q') → A idx = A0 idx))
    (fun (j, _, _, _) => N + 1 - j)
    (by
      rintro ⟨j, jj, ij, A⟩ ⟨q, h1, h2, h3, h4, h5, h6⟩ hcond
      dsimp only at hcond
      have hlt : j < r + 1 := by simpa using hcond
      subst h1 h3 h4
      have hsum : ∑ t in Finset.Ico q r, A (tri r + t) * A (tri t + q)
          = ∑ t in Finset.Ico q r, A0 (tri r + t) * A0 (tri t + q) := by
        refine Finset.sum_congr rfl fun t ht => ?_
        obtain ⟨ht1, ht2⟩ := Finset.mem_Ico.mp ht
        have e1 : A (tri r + t) = A0 (tri r + t) := by
          refine h6 _ fun q' hq' he => ?_
          have := tri_inj (by omega) (by omega) he
          omega
        have e2 : A (tri t + q) = A0 (tri t + q) := by
          refine h6 _ fun q' hq' he => ?_
          have := tri_inj (by omega) (by omega) he
          omega
        rw [e1, e2]
      have hb : InvertS.invertEntry fuel (tri r + r) x (q + 1, tri q + q, tri r + q, A)
          = some (q + 1 + 1, tri q + q + (q + 1 + 1), tri r + q + 1,
              Function.update A (tri r + q)
                ((∑ t in Finset.Ico q r, A (tri r + t) * A (tri t + q)) * x)) := by
        simp only [InvertS.invertEntry]
        rw [rowColLoop_eq A fuel q r (by omega) (by omega)]
        simp only [Option.some_bind]
      refine ⟨_, hb, ?_, by dsimp only; omega⟩
      dsimp only
      refine ⟨q + 1, rfl, by omega, ?_, by omega, ?_, ?_⟩
      · rw [tri_succ]; omega
      · intro q' hq'
        by_cases hq2 : q' = q
        · subst hq2
          rw [Function.update_same, hsum]
        · rw [Function.update_noteq, h5 q' (by omega)]
          intro he
          omega
      · intro idx hidx
        rw [Function.update_noteq (hidx q (by omega)),
          h6 idx fun q' hq' => hidx q' (by omega)])
    fuel (1, 0, tri r, A0)
    ⟨0, rfl, Nat.zero_le _, rfl, rfl, fun q' hq' => by omega, fun idx _ => rfl⟩
    (by dsimp only; omega)
  dsimp only at hcond
  have hge : ¬ j < r + 1 := by simpa using hcond
  have hq : q = r := by omega
  subst hq
  exact ⟨j, jj, ij, A, hres, h5, h6⟩

/-- The loop `for( Double_t *ik = ij; ik!=ii+1; ik++ ) *ik = 0.;` of the degenerate
branch of the inversion block returns. -/
theorem zeroRowLoop_spec (fuel lo hi : Nat) (A0 : Nat → F) (h : lo ≤ hi) (hf : hi - lo < fuel) :
    ∃ s, whileLoop (fun ((ik, _) : Nat × (Nat → F)) => ik != hi)
        (fun (ik, A) => some (ik + 1, Function.update A ik 0)) fuel (lo, A0) = some s := by
  obtain ⟨s, hres, -, -⟩ := whileLoop_rule
    (fun ((ik, _) : Nat × (Nat → F)) => ik != hi)
    (fun (ik, A) => some (ik + 1, Function.update A ik 0))
    (fun (ik, _) => ik ≤ hi) (fun (ik, _) => hi - ik)
    (by
      rintro ⟨ik, A⟩ h1 hcond
      dsimp only at h1 hcond
      have hne : ik ≠ hi := by simpa using hcond
      exact ⟨_, rfl, by dsimp only; omega, by dsimp only; omega⟩)
    fuel (lo, A0) h (by dsimp only; omega)
  exact ⟨s, hres⟩

/-- One row of the inversion block: the body of the outer loop returns and never
lowers the flag; when the diagonal entry exceeds `ZERO` the flag is kept, the diagonal
entry is inverted and the entries left of it are replaced. -/
theorem invertStep_spec (fuel N r : Nat) (A : Nat → F) (ret : Bool) (hr : r < N) (hf : N < fuel) :
    ∃ A' ret',
      InvertS.invertStep fuel (r + 1, tri r + r, tri r, A, ret)
        = some (r + 2, tri (r + 1) + (r + 1), tri (r + 1), A', ret') ∧
      (ret = true → ret' = true) ∧
      (A (tri r + r) > ZERO →
        ret' = ret ∧ A' (tri r + r) = 1 / A (tri r + r) ∧
        (∀ q, q < r → A' (tri r + q)
          = (∑ t in Finset.Ico q r, A (tri r + t) * A (tri t + q)) * -(1 / A (tri r + r))) ∧
        (∀ idx, (∀ q, q ≤ r → idx ≠ tri r + q) → A' idx = A idx)) := by
  have e1 : tri (r + 1) = tri r + r + 1 := tri_succ r
  by_cases hx : A (tri r + r) > ZERO
  · obtain ⟨j, jj, ij, A', hres, hA1, hA2⟩ := invertRowLoop_spec fuel N r
      (-(1 / A (tri r + r))) (Function.update A (tri r + r) (1 / A (tri r + r))) hr hf
    refine ⟨A', ret, ?_, fun h => h, fun _ => ⟨rfl, ?_, ?_, ?_⟩⟩
    · simp only [InvertS.invertStep, if_pos hx, Function.update_same]
      rw [hres]
      simp only [Option.some_bind, Option.some.injEq, Prod.mk.injEq]
      exact ⟨trivial, by omega, by omega, trivial⟩
    · rw [hA2 _ (fun q hq he => by omega), Function.update_same]
    · intro q hq
      rw [hA1 q hq]
      congr 1
      refine Finset.sum_congr rfl fun t ht => ?_
      obtain ⟨ht1, ht2⟩ := Finset.mem_Ico.mp ht
      rw [Function.update_noteq (fun he => by omega),
        Function.update_noteq (fun he => by
          have := tri_inj (by omega) (le_refl _) he; omega)]
    · intro idx hidx
      rw [hA2 idx (fun q hq => hidx q (by omega)),
        Function.update_noteq (hidx r (le_refl _))]
  · obtain ⟨⟨ik, A'⟩, hres⟩ := zeroRowLoop_spec fuel (tri r) (tri r + r + 1) A (by omega)
      (by omega)
    refine ⟨A', true, ?_, fun _ => rfl, fun h => absurd h hx⟩
    simp only [InvertS.invertStep, if_neg hx]
    rw [hres]
    simp only [Option.some_bind, Option.some.injEq, Prod.mk.injEq]
    exact ⟨trivial, by omega, by omega, trivial⟩

theorem ZERO_pos : (0 : F) < ZERO := by
  unfold ZERO; positivity

theorem ZERO_lt_one : (ZERO : F) < 1 := by
  unfold ZERO
  rw [div_lt_one (by positivity)]
  norm_num

/-- The inversion block returns and never lowers the flag; when all diagonal entries
of the input `L` exceed `ZERO` it keeps the flag and the output `M` is the inverse of
the lower-triangular `L`: `sum_{q <= t <= i} L_it M_tq` is `1` for `i = q`, else `0`. -/
theorem invertFactor_spec (fuel N : Nat) (L : Nat → F) (ret0 : Bool) (hf : N < fuel) :
    ∃ M ret, InvertS.invertFactor fuel N L ret0 = some (M, ret) ∧
      (ret0 = true → ret = true) ∧
      ((∀ i, i < N → L (tri i + i) > ZERO) →
        ret = ret0 ∧ ∀ i q, q ≤ i → i < N →
          ∑ t in Finset.Ico q (i + 1), L (tri i + t) * M (tri t + q) = if i = q then 1 else 0) := by
  obtain ⟨⟨i, ii, ij, A, ret⟩, hres, ⟨r, h1, h2, h3, h4, h5, h6⟩, hcond⟩ := whileLoop_rule
    (fun ((i, _, _, _, _) : Nat × Nat × Nat × (Nat → F) × Bool) => decide (i ≤ N))
    (InvertS.invertStep fuel)
    (fun (i, ii, ij, A, ret) => ∃ r, i = r + 1 ∧ r ≤ N ∧ ii = tri r + r ∧ ij = tri r ∧
      (ret0 = true → ret = true) ∧
      ((∀ i, i < N → L (tri i + i) > ZERO) →
        ret = ret0 ∧
        (∀ i q, q ≤ i → i < r →
          ∑ t in Finset.Ico q (i + 1), L (tri i + t) * A (tri t + q) = if i = q then 1 else 0) ∧
        (∀ i q, q ≤ i → r ≤ i → i < N → A (tri i + q) = L (tri i + q))))
    (fun (i, _, _, _, _) => N + 1 - i)
    (by
      rintro ⟨i, ii, ij, A, ret⟩ ⟨r, h1, h2, h3, h4, h5, h6⟩ hcond
      dsimp only at hcond
      have hlt : i ≤ N := by simpa using hcond
      subst h1 h3 h4
      obtain ⟨A', ret', hb, hmono, hreg⟩ := invertStep_spec fuel N r A ret (by omega) hf
      refine ⟨_, hb, ?_, by dsimp only; omega⟩
      dsimp only
      refine ⟨r + 1, rfl, by omega, rfl, rfl, fun h => hmono (h5 h), fun hgood => ?_⟩
      obtain ⟨hret, hinv, hrest⟩ := h6 hgood
      have hrr : A (tri r + r) = L (tri r + r) := hrest r r (le_refl _) (le_refl _) (by omega)
      have hpos : L (tri r + r) > ZERO := hgood r (by omega)
      have hne : L (tri r + r) ≠ 0 := ne_of_gt (lt_trans ZERO_pos hpos)
      obtain ⟨hret', hd, hleft, hother⟩ := hreg (by rw [hrr]; exact hpos)
      -- entries above row `r` are not touched
      have habove : ∀ t q, q ≤ t → t < r → A' (tri t + q) = A (tri t + q) := by
        intro t q hq ht
        refine hother _ fun q' hq' he => ?_
        have := tri_inj hq hq' he
        omega
      refine ⟨by rw [hret', hret], ?_, ?_⟩
      · intro i q hq hi
        by_cases hir : i < r
        · rw [← hinv i q hq hir]
          refine Finset.sum_congr rfl fun t ht => ?_
          obtain ⟨ht1, ht2⟩ := Finset.mem_Ico.mp ht
          rw [habove t q ht1 (by omega)]
        · have hir' : i = r := by omega
          subst hir'
          rw [Finset.sum_Ico_succ_top hq]
          have hs : ∑ t in Finset.Ico q i, L (tri i + t) * A' (tri t + q)
              = ∑ t in Finset.Ico q i, L (tri i + t) * A (tri t + q) := by
            refine Finset.sum_congr rfl fun t ht => ?_
            obtain ⟨ht1, ht2⟩ := Finset.mem_Ico.mp ht
            rw [habove t q ht1 ht2]
          rw [hs]
          by_cases hqi : i = q
          · subst hqi
            rw [Finset.Ico_self, Finset.sum_empty, hd, hrr, if_pos rfl]
            field_simp
          · rw [if_neg hqi, hleft q (by omega), hrr]
            have hs2 : ∑ t in Finset.Ico q i, A (tri i + t) * A (tri t + q)
                = ∑ t in Finset.Ico q i, L (tri i + t) * A (tri t + q) := by
              refine Finset.sum_congr rfl fun t ht => ?_
              obtain ⟨ht1, ht2⟩ := Finset.mem_Ico.mp ht
              rw [hrest i t (by omega) (le_refl _) (by omega)]
            rw [hs2]
            field_simp
            ring
      · intro i q hq hri hi
        rw [hother _ (fun q' hq' he => by
          have := tri_inj hq hq' he
          omega)]
        exact hrest i q hq (by omega) hi)
    fuel (1, 0, 0, L, ret0)
    ⟨0, rfl, Nat.zero_le _, rfl, rfl, fun h => h, fun _ =>
      ⟨rfl, fun i q _ hi => by omega, fun i q _ _ _ => rfl⟩⟩
    (by dsimp only; omega)
  dsimp only at hcond
  have hge : ¬ i ≤ N := by simpa using hcond
  have hrN : r = N := by omega
  subst hrN
  refine ⟨A, ret, ?_, h5, fun hgood => ⟨(h6 hgood).1, (h6 hgood).2.1⟩⟩
  simp only [InvertS.invertFactor]
  rw [hres]
  rfl

/-! ## The loops of the product block -/

/-- The `do ... while` loop of the product block, in row `r` (0-based): every entry of
row `r` up to the diagonal is replaced by a product of two columns of the input,
nothing else changes, and `ij` ends one past the diagonal. -/
theorem productRowLoop_spec (fuel N r : Nat) (A0 : Nat → F) (hr : r < N) (hf : N < fuel) :
    ∃ A,
      doWhileLoop (InvertS.productEntry fuel N (r + 1) (tri r + r))
        (fun ((ij, A) : Nat × (Nat → F)) => (ij != tri r + r, (ij + 1, A))) fuel (tri r, A0)
        = some (tri r + r + 1, A) ∧
      (∀ q, q ≤ r → A (tri r + q) = ∑ t in Finset.Ico r N, A0 (tri t + r) * A0 (tri t + q)) ∧
      (∀ idx, (∀ q, q ≤ r → idx ≠ tri r + q) → A idx = A0 idx) := by
  obtain ⟨⟨ij, A⟩, hres, h1, h2, h3⟩ := doWhileLoop_rule
    (InvertS.productEntry fuel N (r + 1) (tri r + r))
    (fun ((ij, A) : Nat × (Nat → F)) => (ij != tri r + r, (ij + 1, A)))
    (fun (ij, A) => ∃ q, q ≤ r ∧ ij = tri r + q ∧
      (∀ q', q' < q → A (tri r + q') = ∑ t in Finset.Ico r N, A0 (tri t + r) * A0 (tri t + q')) ∧
      (∀ idx, (∀ q', q' < q → idx ≠ tri r + q') → A idx = A0 idx))
    (fun (ij, A) => ij = tri r + r + 1 ∧
      (∀ q, q ≤ r → A (tri r + q) = ∑ t in Finset.Ico r N, A0 (tri t + r) * A0 (tri t + q)) ∧
      (∀ idx, (∀ q, q ≤ r → idx ≠ tri r + q) → A idx = A0 idx))
    (fun (ij, _) => tri r + r + 1 - ij)
    (by
      rintro ⟨ij, A⟩ ⟨q, h1, h2, h3, h4⟩
      subst h2
      have hsum : ∑ t in Finset.Ico r N, A (tri t + r) * A (tri t + q)
          = ∑ t in Finset.Ico r N, A0 (tri t + r) * A0 (tri t + q) := by
        refine Finset.sum_congr rfl fun t ht => ?_
        obtain ⟨ht1, ht2⟩ := Finset.mem_Ico.mp ht
        have e1 : A (tri t + r) = A0 (tri t + r) := by
          refine h4 _ fun q' hq' he => ?_
          have := tri_inj ht1 (by omega) he
          omega
        have e2 : A (tri t + q) = A0 (tri t + q) := by
          refine h4 _ fun q' hq' he => ?_
          have := tri_inj (by omega) (by omega) he
          omega
        rw [e1, e2]
      have hb : InvertS.productEntry fuel N (r + 1) (tri r + r) (tri r + q, A)
          = some (tri r + q, Function.update A (tri r + q)
              (∑ t in Finset.Ico r N, A (tri t + r) * A (tri t + q))) := by
        simp only [InvertS.productEntry]
        rw [colColLoop_eq A fuel q r N (by omega) (by omega)]
        simp only [Option.some_bind]
      have hupd : ∀ q', q' < q + 1 →
          Function.update A (tri r + q) (∑ t in Finset.Ico r N, A (tri t + r) * A (tri t + q))
            (tri r + q') = ∑ t in Finset.Ico r N, A0 (tri t + r) * A0 (tri t + q') := by
        intro q' hq'
        by_cases hq2 : q' = q
        · subst hq2
          rw [Function.update_same, hsum]
        · rw [Function.update_noteq (fun he => by omega), h3 q' (by omega)]
      have hoth : ∀ idx, (∀ q', q' < q + 1 → idx ≠ tri r + q') →
          Function.update A (tri r + q) (∑ t in Finset.Ico r N, A (tri t + r) * A (tri t + q))
            idx = A0 idx := by
        intro idx hidx
        rw [Function.update_noteq (hidx q (by omega)), h4 idx fun q' hq' => hidx q' (by omega)]
      refine ⟨_, hb, fun htest => ?_, fun htest => ?_⟩
      · dsimp only at htest ⊢
        have hne : tri r + q ≠ tri r + r := by simpa using htest
        exact ⟨⟨q + 1, by omega, by omega, hupd, hoth⟩, by omega⟩
      · dsimp only at htest ⊢
        have heq : tri r + q = tri r + r := by simpa using htest
        have hqr : q = r := by omega
        subst hqr
        exact ⟨rfl, fun q' hq' => hupd q' (by omega), fun idx hidx =>
          hoth idx fun q' hq' => hidx q' (by omega)⟩)
    fuel (tri r, A0) ⟨0, Nat.zero_le _, rfl, fun q' hq' => by omega, fun idx _ => rfl⟩
    (by dsimp only; omega)
  subst h1
  exact ⟨A, hres, h2, h3⟩

/-- The product block returns, with
`R_iq = sum_{i <= t < N} M_ti M_tq` for `q <= i < N`. -/
theorem transposeTimesSelf_spec (fuel N : Nat) (M : Nat → F) (hf : N < fuel) :
    ∃ R, InvertS.transposeTimesSelf fuel N M = some R ∧
      ∀ i q, q ≤ i → i < N →
        R (tri i + q) = ∑ t in Finset.Ico i N, M (tri t + i) * M (tri t + q) := by
  obtain ⟨⟨i, ii, ij, A⟩, hres, ⟨r, h1, h2, h3, h4, h5, h6⟩, hcond⟩ := whileLoop_rule
    (fun ((i, _, _, _) : Nat × Nat × Nat × (Nat → F)) => decide (i ≤ N))
    (InvertS.productStep fuel N)
    (fun (i, ii, ij, A) => ∃ r, i = r + 1 ∧ r ≤ N ∧ ii = tri r + r ∧ ij = tri r ∧
      (∀ i q, q ≤ i → i < r →
        A (tri i + q) = ∑ t in Finset.Ico i N, M (tri t + i) * M (tri t + q)) ∧
      (∀ i q, q ≤ i → r ≤ i → A (tri i + q) = M (tri i + q)))
    (fun (i, _, _, _) => N + 1 - i)
    (by
      rintro ⟨i, ii, ij, A⟩ ⟨r, h1, h2, h3, h4, h5, h6⟩ hcond
      dsimp only at hcond
      have hlt : i ≤ N := by simpa using hcond
      subst h1 h3 h4
      obtain ⟨A', hb, hrow, hother⟩ := productRowLoop_spec fuel N r A (by omega) hf
      have hb' : InvertS.productStep fuel N (r + 1, tri r + r, tri r, A)
          = some (r + 1 + 1, tri r + r + (r + 1 + 1), tri r + r + 1, A') := by
        simp only [InvertS.productStep]
        rw [hb]
        simp only [Option.some_bind]
      refine ⟨_, hb', ?_, by dsimp only; omega⟩
      dsimp only
      refine ⟨r + 1, rfl, by omega, ?_, ?_, ?_, ?_⟩
      · rw [tri_succ]; omega
      · rw [tri_succ]
      · intro i q hq hi
        by_cases hir : i < r
        · rw [hother _ (fun q' hq' he => by
            have := tri_inj hq hq' he
            omega)]
          exact h5 i q hq hir
        · have hir' : i = r := by omega
          subst hir'
          rw [hrow q hq]
          refine Finset.sum_congr rfl fun t ht => ?_
          obtain ⟨ht1, ht2⟩ := Finset.mem_Ico.mp ht
          rw [h6 t i ht1 ht1, h6 t q (by omega) ht1]
      · intro i q hq hi
        rw [hother _ (fun q' hq' he => by
          have := tri_inj hq hq' he
          omega)]
        exact h6 i q hq (by omega))
    fuel (1, 0, 0, M)
    ⟨0, rfl, Nat.zero_le _, rfl, rfl, fun i q _ hi => by omega, fun i q _ _ => rfl⟩
    (by dsimp only; omega)
  dsimp only at hcond
  have hge : ¬ i ≤ N := by simpa using hcond
  have hrN : r = N := by omega
  subst hrN
  refine ⟨A, ?_, fun i q hq hi => h5 i q hq hi⟩
  simp only [InvertS.transposeTimesSelf]
  rw [hres]
  rfl

set_option linter.unusedSectionVars false

/-! ## From packed arrays to matrices -/

/-- A sum over `0 .. N-1` of a function that vanishes outside `lo .. hi-1`. -/
theorem sum_range_eq_sum_Ico (N lo hi : Nat) (hhi : hi ≤ N) (f g : Nat → F)
    (hin : ∀ t, lo ≤ t → t < hi → f t = g t)
    (hout : ∀ t, t < N → ¬ (lo ≤ t ∧ t < hi) → f t = 0) :
    ∑ t in Finset.range N, f t = ∑ t in Finset.Ico lo hi, g t := by
  have hsub : Finset.Ico lo hi ⊆ Finset.range N := by
    intro t ht
    obtain ⟨_, h2⟩ := Finset.mem_Ico.mp ht
    exact Finset.mem_range.mpr (by omega)
  rw [← Finset.sum_subset hsub (fun t ht hnt => hout t (Finset.mem_range.mp ht) (fun h =>
    hnt (Finset.mem_Ico.mpr h)))]
  exact Finset.sum_congr rfl fun t ht => hin t (Finset.mem_Ico.mp ht).1 (Finset.mem_Ico.mp ht).2

theorem toMatrix_apply (N : Nat) (A : Nat → F) (i j : Fin N) :
    toMatrix N A i j = A (IndexS i j) := rfl

theorem toLower_apply (N : Nat) (A : Nat → F) (i j : Fin N) :
    toLower N A i j = if (j : Nat) ≤ (i : Nat) then A (tri i + j) else 0 := rfl

/-- The matrix of a packed array is symmetric. -/
theorem toMatrix_transpose (N : Nat) (A : Nat → F) : (toMatrix N A).transpose = toMatrix N A := by
  ext i j
  rw [Matrix.transpose_apply, toMatrix_apply, toMatrix_apply, IndexS_comm]

/-- Entry `(i, k)` of `L * L^T` for a packed lower-triangular `L`, `k <= i`. -/
theorem toLower_mul_transpose_apply (N : Nat) (L : Nat → F) (i k : Fin N)
    (h : (k : Nat) ≤ (i : Nat)) :
    (toLower N L * (toLower N L).transpose) i k
      = ∑ t in Finset.range ((k : Nat) + 1), L (tri i + t) * L (tri k + t) := by
  rw [Matrix.mul_apply]
  refine (Fin.sum_univ_eq_sum_range (fun t : Nat => (if t ≤ (i : Nat) then L (tri i + t) else 0)
          * (if t ≤ (k : Nat) then L (tri k + t) else 0)) N).trans ?_
  rw [show Finset.range ((k : Nat) + 1) = Finset.Ico 0 ((k : Nat) + 1) from
    congrFun Finset.range_eq_Ico _]
  refine sum_range_eq_sum_Ico N 0 ((k : Nat) + 1) (by omega) _ _ (fun t _ ht => ?_)
    (fun t _ ht => ?_)
  · rw [if_pos (show t ≤ (i : Nat) by omega), if_pos (show t ≤ (k : Nat) by omega)]
  · rw [if_neg (show ¬ t ≤ (k : Nat) by omega), mul_zero]

/-- Entry `(i, q)` of `L * M` for packed lower-triangular `L`, `M`, `q <= i`. -/
theorem toLower_mul_apply (N : Nat) (L M : Nat → F) (i q : Fin N) :
    (toLower N L * toLower N M) i q
      = ∑ t in Finset.Ico (q : Nat) ((i : Nat) + 1), L (tri i + t) * M (tri t + q) := by
  rw [Matrix.mul_apply]
  refine (Fin.sum_univ_eq_sum_range (fun t : Nat => (if t ≤ (i : Nat) then L (tri i + t) else 0)
          * (if (q : Nat) ≤ t then M (tri t + q) else 0)) N).trans ?_
  refine sum_range_eq_sum_Ico N (q : Nat) ((i : Nat) + 1) (by omega) _ _ (fun t h1 h2 => ?_)
    (fun t _ ht => ?_)
  · rw [if_pos (show t ≤ (i : Nat) by omega), if_pos h1]
  · by_cases h1 : t ≤ (i : Nat)
    · rw [if_neg (show ¬ (q : Nat) ≤ t by omega), mul_zero]
    · rw [if_neg h1, zero_mul]

/-- Entry `(i, q)` of `M^T * M` for a packed lower-triangular `M`, `q <= i`. -/
theorem toLower_transpose_mul_apply (N : Nat) (M : Nat → F) (i q : Fin N)
    (h : (q : Nat) ≤ (i : Nat)) :
    ((toLower N M).transpose * toLower N M) i q
      = ∑ t in Finset.Ico (i : Nat) N, M (tri t + i) * M (tri t + q) := by
  rw [Matrix.mul_apply]
  refine (Fin.sum_univ_eq_sum_range (fun t : Nat => (if (i : Nat) ≤ t then M (tri t + i) else 0)
          * (if (q : Nat) ≤ t then M (tri t + q) else 0)) N).trans ?_
  refine sum_range_eq_sum_Ico N (i : Nat) N (le_refl _) _ _ (fun t h1 h2 => ?_)
    (fun t ht1 ht => ?_)
  · rw [if_pos h1, if_pos (show (q : Nat) ≤ t by omega)]
  · rw [if_neg (show ¬ (i : Nat) ≤ t by omega), zero_mul]

/-! ## Correctness of `InvertS` -/

/-- The specified factor satisfies the Cholesky equations
`a_ik = sum_{t <= k} L_it L_kt` when the pivots are positive. -/
theorem cholCols_equation (sqrt : F → F) (hsq : ∀ x : F, 0 ≤ x → sqrt x * sqrt x = x)
    (a : Nat → F) (i k : Nat) (hk : k ≤ i) (hpiv : 0 < cholPivot sqrt a k) :
    ∑ t in Finset.range (k + 1), cholCols sqrt a (t + 1) i t * cholCols sqrt a (t + 1) k t
      = a (tri i + k) := by
  have hs : ∑ t in Finset.range k, cholCols sqrt a (t + 1) i t * cholCols sqrt a (t + 1) k t
      = ∑ t in Finset.range k, cholCols sqrt a k k t * cholCols sqrt a k i t := by
    refine Finset.sum_congr rfl fun t ht => ?_
    have ht' : t < k := Finset.mem_range.mp ht
    rw [cholCols_stable sqrt a k t k ht', cholCols_stable sqrt a i t k ht', mul_comm]
  have hne : sqrt (cholPivot sqrt a k) ≠ 0 := by
    intro h0
    have := hsq _ (le_of_lt hpiv)
    rw [h0, mul_zero] at this
    exact absurd this.symm (ne_of_gt hpiv)
  rw [Finset.sum_range_succ, hs, cholCols_diag]
  by_cases hik : i = k
  · subst hik
    rw [cholCols_diag, hsq _ (le_of_lt hpiv)]
    unfold cholPivot; ring
  · rw [cholCols_below sqrt a i k hik, div_mul_cancel₀ _ hne]
    ring

/-- A pivot above `ZERO` has a square root above `ZERO`. -/
theorem sqrt_gt_ZERO (sqrt : F → F) (hsq : ∀ x : F, 0 ≤ x → sqrt x * sqrt x = x)
    (hnn : ∀ x : F, 0 ≤ sqrt x) (x : F) (hx : x > ZERO) : sqrt x > ZERO := by
  by_contra hle
  have hle' : sqrt x ≤ ZERO := not_lt.mp hle
  have h1 : sqrt x * sqrt x ≤ ZERO * ZERO := mul_le_mul hle' hle' (hnn x) (le_of_lt ZERO_pos)
  have h2 : (ZERO : F) * ZERO ≤ ZERO := by
    have := mul_le_mul_of_nonneg_left (le_of_lt (ZERO_lt_one (F := F))) (le_of_lt (ZERO_pos (F := F)))
    rwa [mul_one] at this
  rw [hsq x (le_of_lt (lt_trans ZERO_pos hx))] at h1
  exact absurd (lt_of_lt_of_le hx (le_trans h1 h2)) (lt_irrefl _)

/-- Functional specification of `InvertS` (for a square root function with
`sqrt x * sqrt x = x` and `0 <= sqrt x`): with fuel above `N` the call returns; the
flag is raised exactly when some Cholesky pivot of the input does not exceed `ZERO`;
and when the flag is not raised the output is the packed inverse of the input. -/
theorem InvertS_spec (fuel N : Nat) (sqrt : F → F)
    (hsq : ∀ x : F, 0 ≤ x → sqrt x * sqrt x = x) (hnn : ∀ x : F, 0 ≤ sqrt x)
    (a : Nat → F) (hf : N < fuel) :
    ∃ ret R, InvertS fuel sqrt a N = some (ret, R) ∧
      (ret = true ↔ ∃ c, c < N ∧ ¬ cholPivot sqrt a c > ZERO) ∧
      (ret = false → toMatrix N a * toMatrix N R = 1) := by
  obtain ⟨L, ret1, h1, hret1, hL⟩ := factor_spec fuel N sqrt a false hf
  obtain ⟨M, ret2, h2, hmono, hM⟩ := invertFactor_spec fuel N L ret1 hf
  obtain ⟨R, h3, hR⟩ := transposeTimesSelf_spec fuel N M hf
  have hcall : InvertS fuel sqrt a N = some (ret2, R) := by
    simp only [InvertS, h1, Option.some_bind, h2, h3]
  by_cases hall : ∀ c, c < N → cholPivot sqrt a c > ZERO
  · have hL' := hL hall
    have hr1 : ret1 = false := by
      cases hr : ret1
      · rfl
      · rcases hret1.mp hr with h | ⟨c, hc, hbad⟩
        · exact absurd h (by simp)
        · exact absurd (hall c hc) hbad
    have hdiag : ∀ i, i < N → L (tri i + i) > ZERO := by
      intro i hi
      rw [hL' i i (le_refl _) hi, cholCols_diag]
      exact sqrt_gt_ZERO sqrt hsq hnn _ (hall i hi)
    obtain ⟨hr2, hinv⟩ := hM hdiag
    have hr2' : ret2 = false := by rw [hr2, hr1]
    refine ⟨ret2, R, hcall, ?_, fun _ => ?_⟩
    · rw [hr2']
      constructor
      · intro h; exact absurd h (by simp)
      · rintro ⟨c, hc, hbad⟩; exact absurd (hall c hc) hbad
    · -- the three matrix identities
      have hA : toMatrix N a = toLower N L * (toLower N L).transpose := by
        have key : ∀ i k : Fin N, (k : Nat) ≤ (i : Nat) →
            (toLower N L * (toLower N L).transpose) i k = a (tri i + k) := by
          intro i k hk
          rw [toLower_mul_transpose_apply N L i k hk, ← cholCols_equation sqrt hsq a i k hk
            (lt_trans ZERO_pos (hall k k.2))]
          refine Finset.sum_congr rfl fun t ht => ?_
          have ht' : t < (k : Nat) + 1 := Finset.mem_range.mp ht
          rw [hL' i t (by omega) i.2, hL' k t (by omega) k.2]
        ext i k
        rw [toMatrix_apply]
        by_cases hk : (k : Nat) ≤ (i : Nat)
        · rw [key i k hk, IndexS_of_le hk]
        · have hk' : (i : Nat) ≤ (k : Nat) := by omega
          have hsymm : (toLower N L * (toLower N L).transpose) i k
              = (toLower N L * (toLower N L).transpose) k i := by
            rw [Matrix.mul_apply, Matrix.mul_apply]
            refine Finset.sum_congr rfl fun t _ => ?_
            rw [Matrix.transpose_apply, Matrix.transpose_apply, mul_comm]
          rw [hsymm, key k i hk', IndexS_comm, IndexS_of_le hk']
      have hLM : toLower N L * toLower N M = 1 := by
        ext i q
        rw [toLower_mul_apply, Matrix.one_apply]
        by_cases hq : (q : Nat) ≤ (i : Nat)
        · rw [hinv i q hq i.2]
          by_cases hiq : i = q
          · subst hiq; simp
          · rw [if_neg hiq, if_neg (fun h => hiq (Fin.ext h))]
        · rw [Finset.Ico_eq_empty (by omega), Finset.sum_empty, if_neg (fun h => hq (by rw [h]))]
      have hRm : toMatrix N R = (toLower N M).transpose * toLower N M := by
        ext i q
        rw [toMatrix_apply]
        by_cases hq : (q : Nat) ≤ (i : Nat)
        · rw [toLower_transpose_mul_apply N M i q hq, IndexS_of_le hq, hR i q hq i.2]
        · have hq' : (i : Nat) ≤ (q : Nat) := by omega
          have hsymm : ((toLower N M).transpose * toLower N M) i q
              = ((toLower N M).transpose * toLower N M) q i := by
            rw [Matrix.mul_apply, Matrix.mul_apply]
            refine Finset.sum_congr rfl fun t _ => ?_
            rw [Matrix.transpose_apply, Matrix.transpose_apply, mul_comm]
          rw [hsymm, toLower_transpose_mul_apply N M q i hq', IndexS_comm, IndexS_of_le hq',
            hR q i hq' q.2]
      have hML : toLower N M * toLower N L = 1 := Matrix.mul_eq_one_comm.mp hLM
      calc toMatrix N a * toMatrix N R
          = toLower N L * ((toLower N M * toLower N L).transpose * toLower N M) := by
            rw [hA, hRm, Matrix.transpose_mul]
            simp only [Matrix.mul_assoc]
        _ = 1 := by rw [hML, Matrix.transpose_one, Matrix.one_mul, hLM]
  · have hex : ∃ c, c < N ∧ ¬ cholPivot sqrt a c > ZERO := by
      by_contra hne
      exact hall fun c hc => by
        by_contra hbad
        exact hne ⟨c, hc, hbad⟩
    have hr1 : ret1 = true := hret1.mpr (Or.inr hex)
    have hr2 : ret2 = true := hmono hr1
    refine ⟨ret2, R, hcall, ⟨fun _ => hex, fun _ => hr2⟩, fun h => ?_⟩
    rw [hr2] at h
    exact absurd h (by simp)

/-! ## `InvertS` on the all-zero array -/

/-- Every offset below `tri N` is the offset of a position `(i, k)`, `k <= i < N`. -/
theorem tri_decompose (N idx : Nat) (h : idx < tri N) :
    ∃ i k, k ≤ i ∧ i < N ∧ idx = tri i + k := by
  induction N with
  | zero => rw [tri_zero] at h; omega
  | succ N ih =>
    rw [tri_succ] at h
    by_cases hlt : idx < tri N
    · obtain ⟨i, k, h1, h2, h3⟩ := ih hlt
      exact ⟨i, k, h1, by omega, h3⟩
    · exact ⟨N, idx - tri N, by omega, by omega, by omega⟩

/-- The zeroing loop of the factorisation block only writes zeros. -/
theorem zeroColumnLoop_content (fuel N j jj : Nat) (A0 : Nat → F) (hf : N < fuel) :
    ∃ i ji A, whileLoop (fun ((i, _, _) : Nat × Nat × (Nat → F)) => decide (i < N))
        (fun (i, ji, A) => some (i + 1, ji + i, Function.update A (ji + i) 0))
        fuel (j, jj, A0) = some (i, ji, A) ∧ ∀ idx, A idx = 0 ∨ A idx = A0 idx := by
  obtain ⟨⟨i, ji, A⟩, hr, hI, -⟩ := whileLoop_rule
    (fun ((i, _, _) : Nat × Nat × (Nat → F)) => decide (i < N))
    (fun (i, ji, A) => some (i + 1, ji + i, Function.update A (ji + i) 0))
    (fun (_, _, A) => ∀ idx, A idx = 0 ∨ A idx = A0 idx) (fun (i, _, _) => N - i)
    (by
      rintro ⟨i, ji, A⟩ hI hcond
      dsimp only at hI hcond
      have hlt : i < N := by simpa using hcond
      refine ⟨_, rfl, ?_, by dsimp only; omega⟩
      dsimp only
      intro idx
      by_cases h : idx = ji + i
      · subst h; left; rw [Function.update_same]
      · rw [Function.update_noteq h]; exact hI idx)
    fuel (j, jj, A0) (fun idx => Or.inr rfl) (by dsimp only; omega)
  exact ⟨i, ji, A, hr, hI⟩

/-- The zeroing loop of the inversion block only writes zeros. -/
theorem zeroRowLoop_content (fuel lo hi : Nat) (A0 : Nat → F) (h : lo ≤ hi)
    (hf : hi - lo < fuel) :
    ∃ ik A, whileLoop (fun ((ik, _) : Nat × (Nat → F)) => ik != hi)
        (fun (ik, A) => some (ik + 1, Function.update A ik 0)) fuel (lo, A0) = some (ik, A) ∧
      ∀ idx, A idx = 0 ∨ A idx = A0 idx := by
  obtain ⟨⟨ik, A⟩, hres, ⟨-, hI⟩, -⟩ := whileLoop_rule
    (fun ((ik, _) : Nat × (Nat → F)) => ik != hi)
    (fun (ik, A) => some (ik + 1, Function.update A ik 0))
    (fun (ik, A) => ik ≤ hi ∧ ∀ idx, A idx = 0 ∨ A idx = A0 idx) (fun (ik, _) => hi - ik)
    (by
      rintro ⟨ik, A⟩ ⟨h1, hI⟩ hcond
      dsimp only at h1 hI hcond
      have hne : ik ≠ hi := by simpa using hcond
      refine ⟨_, rfl, ?_, by dsimp only; omega⟩
      dsimp only
      refine ⟨by omega, fun idx => ?_⟩
      by_cases h : idx = ik
      · subst h; left; rw [Function.update_same]
      · rw [Function.update_noteq h]; exact hI idx)
    fuel (lo, A0) ⟨h, fun idx => Or.inr rfl⟩ (by dsimp only; omega)
  exact ⟨ik, A, hres, hI⟩

/-- One column of the factorisation block on an all-zero array: the pivot is `0`, the
flag is raised and the array stays all-zero. -/
theorem factorStep_zero (fuel N c : Nat) (sqrt : F → F) (A : Nat → F) (ret : Bool)
    (hc : c < N) (hf : N < fuel) (hz : ∀ k, k < tri N → A k = 0) :
    ∃ A', InvertS.factorStep fuel sqrt N (c + 1, tri c, tri c + c, A, ret)
        = some (c + 2, tri (c + 1), tri (c + 1) + (c + 1), A', true) ∧
      ∀ k, k < tri N → A' k = 0 := by
  have hsq := sqLoop_eq A fuel (tri c) (tri c + c) 0 (by omega) (by omega)
  rw [Finset.sum_Ico_eq_sum_range, Nat.add_sub_cancel_left] at hsq
  have e1 : tri (c + 1) = tri c + c + 1 := tri_succ c
  have hlt : tri c + c < tri N := tri_lt hc
  have hs : ∑ m in Finset.range c, A (tri c + m) * A (tri c + m) = 0 := by
    refine Finset.sum_eq_zero fun m hm => ?_
    have hm' : m < c := Finset.mem_range.mp hm
    rw [hz _ (by omega), mul_zero]
  have hx : ¬ (0 - ∑ m in Finset.range c, A (tri c + m) * A (tri c + m) + A (tri c + c) > ZERO) := by
    rw [hs, hz _ hlt, sub_zero, add_zero]
    exact not_lt.mpr (le_of_lt ZERO_pos)
  obtain ⟨i, ji, A', hr, hA'⟩ := zeroColumnLoop_content fuel N (c + 1) (tri c + c) A hf
  refine ⟨A', ?_, fun k hk => ?_⟩
  · simp only [InvertS.factorStep]
    rw [hsq]
    simp only [Option.some_bind, if_neg hx]
    rw [hr]
    simp only [Option.some_bind, Option.some.injEq, Prod.mk.injEq]
    exact ⟨trivial, by omega, by omega, trivial⟩
  · rcases hA' k with h | h
    · exact h
    · rw [h]; exact hz k hk

/-- The factorisation block on an all-zero array of size `N >= 1` raises the flag and
leaves the array all-zero. -/
theorem factor_zero (fuel N : Nat) (sqrt : F → F) (a : Nat → F) (ret0 : Bool) (hN : 1 ≤ N)
    (hf : N < fuel) (hz : ∀ k, k < tri N → a k = 0) :
    ∃ L, InvertS.factor fuel sqrt N a ret0 = some (L, true) ∧ ∀ k, k < tri N → L k = 0 := by
  obtain ⟨⟨j, j1, jj, A, ret⟩, hr, ⟨c, h1, h2, h3, h4, h5, h6⟩, hcond⟩ := whileLoop_rule
    (fun ((j, _, _, _, _) : Nat × Nat × Nat × (Nat → F) × Bool) => decide (j ≤ N))
    (InvertS.factorStep fuel sqrt N)
    (fun (j, j1, jj, A, ret) => ∃ c, j = c + 1 ∧ c ≤ N ∧ j1 = tri c ∧ jj = tri c + c ∧
      (1 ≤ c → ret = true) ∧ ∀ k, k < tri N → A k = 0)
    (fun (j, _, _, _, _) => N + 1 - j)
    (by
      rintro ⟨j, j1, jj, A, ret⟩ ⟨c, h1, h2, h3, h4, h5, h6⟩ hcond
      dsimp only at hcond
      have hlt : j ≤ N := by simpa using hcond
      subst h1 h3 h4
      obtain ⟨A', hb, hz'⟩ := factorStep_zero fuel N c sqrt A ret (by omega) hf h6
      refine ⟨_, hb, ?_, by dsimp only; omega⟩
      dsimp only
      exact ⟨c + 1, rfl, by omega, rfl, rfl, fun _ => rfl, hz'⟩)
    fuel (1, 0, 0, a, ret0)
    ⟨0, rfl, Nat.zero_le _, rfl, rfl, fun h => by omega, hz⟩
    (by dsimp only; omega)
  dsimp only at hcond
  have hge : ¬ j ≤ N := by simpa using hcond
  have hret : ret = true := h5 (by omega)
  subst hret
  refine ⟨A, ?_, h6⟩
  simp only [InvertS.factor]
  rw [hr]
  rfl

/-- One row of the inversion block on an all-zero array: the array stays all-zero. -/
theorem invertStep_zero (fuel N r : Nat) (A : Nat → F) (ret : Bool)
    (hr : r < N) (hf : N < fuel) (hz : ∀ k, k < tri N → A k = 0) :
    ∃ A', InvertS.invertStep fuel (r + 1, tri r + r, tri r, A, ret)
        = some (r + 2, tri (r + 1) + (r + 1), tri (r + 1), A', true) ∧
      ∀ k, k < tri N → A' k = 0 := by
  have e1 : tri (r + 1) = tri r + r + 1 := tri_succ r
  have hlt : tri r + r < tri N := tri_lt hr
  have hx : ¬ (A (tri r + r) > ZERO) := by
    rw [hz _ hlt]
    exact not_lt.mpr (le_of_lt ZERO_pos)
  obtain ⟨ik, A', hres, hA'⟩ := zeroRowLoop_content fuel (tri r) (tri r + r + 1) A (by omega)
    (by omega)
  refine ⟨A', ?_, fun k hk => ?_⟩
  · simp only [InvertS.invertStep, if_neg hx]
    rw [hres]
    simp only [Option.some_bind, Option.some.injEq, Prod.mk.injEq]
    exact ⟨trivial, by omega, by omega, trivial⟩
  · rcases hA' k with h | h
    · exact h
    · rw [h]; exact hz k hk

/-- The inversion block on an all-zero array leaves the array all-zero. -/
theorem invertFactor_zero (fuel N : Nat) (L : Nat → F) (hf : N < fuel)
    (hz : ∀ k, k < tri N → L k = 0) :
    ∃ M ret, InvertS.invertFactor fuel N L true = some (M, ret) ∧ ∀ k, k < tri N → M k = 0 := by
  obtain ⟨⟨i, ii, ij, A, ret⟩, hres, ⟨r, h1, h2, h3, h4, h6⟩, hcond⟩ := whileLoop_rule
    (fun ((i, _, _, _, _) : Nat × Nat × Nat × (Nat → F) × Bool) => decide (i ≤ N))
    (InvertS.invertStep fuel)
    (fun (i, ii, ij, A, _) => ∃ r, i = r + 1 ∧ r ≤ N ∧ ii = tri r + r ∧ ij = tri r ∧
      ∀ k, k < tri N → A k = 0)
    (fun (i, _, _, _, _) => N + 1 - i)
    (by
      rintro ⟨i, ii, ij, A, ret⟩ ⟨r, h1, h2, h3, h4, h6⟩ hcond
      dsimp only at hcond
      have hlt : i ≤ N := by simpa using hcond
      subst h1 h3 h4
      obtain ⟨A', hb, hz'⟩ := invertStep_zero fuel N r A ret (by omega) hf h6
      refine ⟨_, hb, ?_, by dsimp only; omega⟩
      dsimp only
      exact ⟨r + 1, rfl, by omega, rfl, rfl, hz'⟩)
    fuel (1, 0, 0, L, true) ⟨0, rfl, Nat.zero_le _, rfl, rfl, hz⟩ (by dsimp only; omega)
  refine ⟨A, ret, ?_, h6⟩
  simp only [InvertS.invertFactor]
  rw [hres]
  rfl

/-- On an all-zero array of size `N >= 1`, `InvertS` returns the error flag and leaves
the array all-zero. -/
theorem InvertS_zero (fuel N : Nat) (sqrt : F → F) (a : Nat → F) (hN : 1 ≤ N) (hf : N < fuel)
    (hz : ∀ k, k < tri N → a k = 0) :
    ∃ R, InvertS fuel sqrt a N = some (true, R) ∧ ∀ k, k < tri N → R k = 0 := by
  obtain ⟨L, h1, hL⟩ := factor_zero fuel N sqrt a false hN hf hz
  obtain ⟨M, ret, h2, hM⟩ := invertFactor_zero fuel N L hf hL
  obtain ⟨M', ret', h2', hmono, -⟩ := invertFactor_spec fuel N L true hf
  obtain ⟨R, h3, hR⟩ := transposeTimesSelf_spec fuel N M hf
  have hret : ret = true := by
    rw [h2] at h2'
    simp only [Option.some.injEq, Prod.mk.injEq] at h2'
    rw [h2'.2]; exact hmono rfl
  subst hret
  refine ⟨R, ?_, fun k hk => ?_⟩
  · simp only [InvertS, h1, Option.some_bind, h2, h3]
  · obtain ⟨i, q, hq, hi, rfl⟩ := tri_decompose N k hk
    rw [hR i q hq hi]
    refine Finset.sum_eq_zero fun t ht => ?_
    obtain ⟨ht1, ht2⟩ := Finset.mem_Ico.mp ht
    have : tri t + i < tri N := by have := tri_lt ht2; omega
    rw [hM _ this, zero_mul]

/-! ## Claims on `InvertS` (exact real arithmetic) -/

/-- C1: for every `n >= 1` and every symmetric positive-definite `n x n` matrix `A` in
packed lower-triangular form whose successive Cholesky pivots all exceed `1e-20`,
`InvertS(A, n)` returns (with any fuel above `n`) the flag 0 and overwrites the array
with the packed inverse of `A`: (input matrix) x (output matrix) = identity. -/
theorem InvertS_inverts_spd (n : Nat) (_hn : 1 ≤ n) (A : Nat → ℝ)
    (_hpd : (toMatrix n A).PosDef)
    (hpiv : ∀ c, c < n → cholPivot Real.sqrt A c > ZERO)
    (fuel : Nat) (hf : n < fuel) :
    ∃ R, InvertS fuel Real.sqrt A n = some (false, R) ∧
      toMatrix n A * toMatrix n R = 1 ∧ toMatrix n R = (toMatrix n A)⁻¹ := by
  obtain ⟨ret, R, hcall, hret, hinv⟩ :=
    InvertS_spec fuel n Real.sqrt (fun _ hx => Real.mul_self_sqrt hx) Real.sqrt_nonneg A hf
  have hr : ret = false := by
    cases h : ret
    · rfl
    · obtain ⟨c, hc, hbad⟩ := hret.mp h
      exact absurd (hpiv c hc) hbad
  subst hr
  exact ⟨R, hcall, hinv rfl, (Matrix.inv_eq_right_inv (hinv rfl)).symm⟩

/-- C2 as amended: in exact real arithmetic, for every `n >= 1` and every singular
symmetric `n x n` matrix in packed form, `InvertS` returns (with any fuel above `n`) the
error flag 1; if the input array is all-zero, the array is also left all-zero. -/
theorem InvertS_detects_singular (n : Nat) (hn : 1 ≤ n) (A : Nat → ℝ)
    (hsing : (toMatrix n A).det = 0) (fuel : Nat) (hf : n < fuel) :
    (∃ R, InvertS fuel Real.sqrt A n = some (true, R)) ∧
    ((∀ k, k < n * (n + 1) / 2 → A k = 0) →
      ∃ R, InvertS fuel Real.sqrt A n = some (true, R) ∧ ∀ k, k < n * (n + 1) / 2 → R k = 0) := by
  refine ⟨?_, fun hz => InvertS_zero fuel n Real.sqrt A hn hf hz⟩
  obtain ⟨ret, R, hcall, -, hinv⟩ :=
    InvertS_spec fuel n Real.sqrt (fun _ hx => Real.mul_self_sqrt hx) Real.sqrt_nonneg A hf
  cases hr : ret
  · have hdet := congrArg Matrix.det (hinv hr)
    rw [Matrix.det_mul, hsing, zero_mul, Matrix.det_one] at hdet
    exact absurd hdet zero_ne_one
  · rw [hr] at hcall
    exact ⟨R, hcall⟩

theorem real_sqrt_four : Real.sqrt 4 = 2 := by
  rw [show (4 : ℝ) = 2 * 2 by norm_num]
  exact Real.sqrt_mul_self (by norm_num)

/-- The packed matrix `{4, 2, 5}`, i.e. `[[4, 2], [2, 5]]`, is positive definite. -/
theorem example_posDef : (toMatrix 2 (ofList [(4 : ℝ), 2, 5])).PosDef := by
  refine ⟨?_, fun x hx => ?_⟩
  · ext i j
    fin_cases i <;> fin_cases j <;> simp [toMatrix, IndexS, ofList]
  · have hne : x 0 ≠ 0 ∨ x 1 ≠ 0 := by
      by_contra h
      rw [not_or, not_not, not_not] at h
      exact hx (by ext i; fin_cases i <;> simp [h.1, h.2])
    have hval : Matrix.dotProduct (star x) (Matrix.mulVec (toMatrix 2 (ofList [(4 : ℝ), 2, 5])) x)
        = (2 * x 0 + x 1) ^ 2 + 4 * x 1 ^ 2 := by
      simp [Matrix.dotProduct, Matrix.mulVec, Fin.sum_univ_two, toMatrix, IndexS, ofList]
      ring
    rw [hval]
    rcases hne with h | h
    · by_cases h1 : x 1 = 0
      · rw [h1]
        have : 0 < x 0 ^ 2 := by positivity
        nlinarith
      · have : 0 < x 1 ^ 2 := by positivity
        nlinarith [sq_nonneg (2 * x 0 + x 1)]
    · have : 0 < x 1 ^ 2 := by positivity
      nlinarith [sq_nonneg (2 * x 0 + x 1)]

/-- The Cholesky pivots of the packed matrix `{4, 2, 5}` are `4` and `4`. -/
theorem example_pivots :
    ∀ c, c < 2 → cholPivot Real.sqrt (ofList [(4 : ℝ), 2, 5]) c > ZERO := by
  intro c hc
  have hZ : (ZERO : ℝ) < 4 := lt_trans ZERO_lt_one (by norm_num)
  interval_cases c
  · have : cholPivot Real.sqrt (ofList [(4 : ℝ), 2, 5]) 0 = 4 := by
      simp [cholPivot, tri, ofList]
    rw [this]; exact hZ
  · have : cholPivot Real.sqrt (ofList [(4 : ℝ), 2, 5]) 1 = 4 := by
      simp [cholPivot, cholCols, tri, ofList, Finset.sum_range_one, real_sqrt_four]
      norm_num
    rw [this]; exact hZ

/-- Witness of C1: the matrix `[[4, 2], [2, 5]]`. -/
theorem InvertS_inverts_spd_witness :
    ∃ R, InvertS 3 Real.sqrt (ofList [(4 : ℝ), 2, 5]) 2 = some (false, R) ∧
      toMatrix 2 (ofList [(4 : ℝ), 2, 5]) * toMatrix 2 R = 1 ∧
      toMatrix 2 R = (toMatrix 2 (ofList [(4 : ℝ), 2, 5]))⁻¹ :=
  InvertS_inverts_spd 2 (by norm_num) (ofList [4, 2, 5]) example_posDef example_pivots 3
    (by norm_num)

/-! ## Counting loops -/

/-- Rule for a counting loop `for( k=0; k<n; k++ ) body` with state `(k, s)`. -/
theorem forLoop_rule {σ : Type} (cond : Nat × σ → Bool) (body : Nat × σ → Option (Nat × σ))
    (n fuel : Nat) (Inv : Nat → σ → Prop)
    (hcond : ∀ k s, cond (k, s) = decide (k < n))
    (hstep : ∀ k s, k < n → Inv k s → ∃ s', body (k, s) = some (k + 1, s') ∧ Inv (k + 1) s')
    (s0 : σ) (h0 : Inv 0 s0) (hf : n < fuel) :
    ∃ s', whileLoop cond body fuel (0, s0) = some (n, s') ∧ Inv n s' := by
  obtain ⟨⟨k, s⟩, hr, ⟨h1, h2⟩, hc⟩ := whileLoop_rule cond body
    (fun (k, s) => k ≤ n ∧ Inv k s) (fun (k, _) => n - k)
    (by
      rintro ⟨k, s⟩ ⟨h1, h2⟩ hc
      rw [hcond] at hc
      have hlt : k < n := by simpa using hc
      obtain ⟨s', hb, hI⟩ := hstep k s hlt h2
      exact ⟨_, hb, ⟨by omega, hI⟩, by dsimp only; omega⟩)
    fuel (0, s0) ⟨Nat.zero_le _, h0⟩ (by dsimp only; omega)
  rw [hcond] at hc
  have hge : ¬ k < n := by simpa using hc
  have hk : k = n := by omega
  subst hk
  exact ⟨s, hr, h2⟩

/-- Rule for a counting loop `for( ind=..., i=0; i<n; i++ ) body` with state
`(ind, i, s)`, where the body also advances the running index `ind`. -/
theorem forLoop2_rule {σ : Type} (cond : Nat × Nat × σ → Bool)
    (body : Nat × Nat × σ → Option (Nat × Nat × σ))
    (n fuel : Nat) (Inv : Nat → Nat → σ → Prop)
    (hcond : ∀ ind i s, cond (ind, i, s) = decide (i < n))
    (hstep : ∀ ind i s, i < n → Inv i ind s →
      ∃ ind' s', body (ind, i, s) = some (ind', i + 1, s') ∧ Inv (i + 1) ind' s')
    (ind0 : Nat) (s0 : σ) (h0 : Inv 0 ind0 s0) (hf : n < fuel) :
    ∃ ind' s', whileLoop cond body fuel (ind0, 0, s0) = some (ind', n, s') ∧ Inv n ind' s' := by
  obtain ⟨⟨ind, i, s⟩, hr, ⟨h1, h2⟩, hc⟩ := whileLoop_rule cond body
    (fun (ind, i, s) => i ≤ n ∧ Inv i ind s) (fun (_, i, _) => n - i)
    (by
      rintro ⟨ind, i, s⟩ ⟨h1, h2⟩ hc
      rw [hcond] at hc
      have hlt : i < n := by simpa using hc
      obtain ⟨ind', s', hb, hI⟩ := hstep ind i s hlt h2
      exact ⟨_, hb, ⟨by omega, hI⟩, by dsimp only; omega⟩)
    fuel (ind0, 0, s0) ⟨Nat.zero_le _, h0⟩ (by dsimp only; omega)
  rw [hcond] at hc
  have hge : ¬ i < n := by simpa using hc
  have hk : i = n := by omega
  subst hk
  exact ⟨ind, s, hr, h2⟩

/-- Row-major offsets `i*N + j` with `j < N` determine `i` and `j`. -/
theorem rowMajor_inj {N i j i' j' : Nat} (hj : j < N) (hj' : j' < N)
    (h : i * N + j = i' * N + j') : i = i' ∧ j = j' := by
  have h1 : (i * N + j) / N = i := by
    rw [Nat.add_comm, Nat.add_mul_div_right _ _ (by omega), Nat.div_eq_of_lt hj, Nat.zero_add]
  have h2 : (i' * N + j') / N = i' := by
    rw [Nat.add_comm, Nat.add_mul_div_right _ _ (by omega), Nat.div_eq_of_lt hj', Nat.zero_add]
  have hi : i = i' := by rw [← h1, ← h2, h]
  subst hi
  exact ⟨rfl, by omega⟩

theorem rowMajor_lt {N i j : Nat} (hi : i < N) (hj : j < N) : i * N + j < N * N := by
  have : (i + 1) * N ≤ N * N := Nat.mul_le_mul_right N hi
  rw [Nat.add_mul, Nat.one_mul] at this
  omega

theorem le_tri (N : Nat) : N ≤ tri N := by
  cases N with
  | zero => exact Nat.zero_le _
  | succ n => rw [tri_succ]; omega

/-! ## Sequencing of computations that return -/

theorem Returns.bind {α β : Type} {x : Option α} {f : α → Option β} {P : α → Prop}
    {Q : β → Prop} (hx : Returns x P) (hf : ∀ a, P a → Returns (f a) Q) :
    Returns (x.bind f) Q := by
  obtain ⟨a, ha, hP⟩ := hx
  obtain ⟨b, hb, hQ⟩ := hf a hP
  exact ⟨b, by rw [ha, Option.some_bind, hb], hQ⟩

theorem Returns.some {α : Type} {a : α} {P : α → Prop} (h : P a) : Returns (some a) P :=
  ⟨a, rfl, h⟩

theorem Returns.mono {α : Type} {x : Option α} {P Q : α → Prop} (hx : Returns x P)
    (h : ∀ a, P a → Q a) : Returns x Q := by
  obtain ⟨a, ha, hP⟩ := hx
  exact ⟨a, ha, h a hP⟩

/-- Two descriptions of the result of the same computation hold together. -/
theorem Returns.and {α : Type} {x : Option α} {P Q : α → Prop} (hP : Returns x P)
    (hQ : Returns x Q) : Returns x (fun a => P a ∧ Q a) := by
  obtain ⟨a, ha, hPa⟩ := hP
  obtain ⟨b, hb, hQb⟩ := hQ
  rw [ha] at hb
  cases hb
  exact ⟨a, ha, hPa, hQb⟩

/-- Counting loop with state `(k, s)`, as a statement about what the loop returns. -/
theorem Returns.forLoop {σ : Type} {cond : Nat × σ → Bool} {body : Nat × σ → Option (Nat × σ)}
    {fuel : Nat} {s0 : σ} (n : Nat) (Inv : Nat → σ → Prop)
    (hcond : ∀ k s, cond (k, s) = decide (k < n))
    (hstep : ∀ k s, k < n → Inv k s → Returns (body (k, s)) (fun r => r.1 = k + 1 ∧ Inv (k + 1) r.2))
    (h0 : Inv 0 s0) (hf : n < fuel) :
    Returns (whileLoop cond body fuel (0, s0)) (fun r => r.1 = n ∧ Inv n r.2) := by
  obtain ⟨s', hr, hI⟩ := forLoop_rule cond body n fuel Inv hcond
    (fun k s hk hI => by
      obtain ⟨⟨k', s'⟩, hb, h1, h2⟩ := hstep k s hk hI
      dsimp only at h1 h2
      subst h1
      exact ⟨s', hb, h2⟩) s0 h0 hf
  exact ⟨(n, s'), hr, rfl, hI⟩

/-- Counting loop with state `(ind, i, s)`, as a statement about what the loop returns. -/
theorem Returns.forLoop2 {σ : Type} {cond : Nat × Nat × σ → Bool}
    {body : Nat × Nat × σ → Option (Nat × Nat × σ)} {fuel ind0 : Nat} {s0 : σ}
    (n : Nat) (Inv : Nat → Nat → σ → Prop)
    (hcond : ∀ ind i s, cond (ind, i, s) = decide (i < n))
    (hstep : ∀ ind i s, i < n → Inv i ind s →
      Returns (body (ind, i, s)) (fun r => r.2.1 = i + 1 ∧ Inv (i + 1) r.1 r.2.2))
    (h0 : Inv 0 ind0 s0) (hf : n < fuel) :
    Returns (whileLoop cond body fuel (ind0, 0, s0)) (fun r => r.2.1 = n ∧ Inv n r.1 r.2.2) := by
  obtain ⟨ind', s', hr, hI⟩ := forLoop2_rule cond body n fuel Inv hcond
    (fun ind i s hi hI => by
      obtain ⟨⟨ind', i', s'⟩, hb, h1, h2⟩ := hstep ind i s hi hI
      dsimp only at h1 h2
      subst h1
      exact ⟨ind', s', hb, h2⟩) ind0 s0 h0 hf
  exact ⟨(ind', n, s'), hr, rfl, hI⟩

/-! ## `MultSSQ` -/

/-- The function `MultSSQ` returns (with fuel above `N`) the row-major product of the
two packed symmetric matrices: `C[i*N+j] = sum_k A[IndexS(i,k)] * B[IndexS(k,j)]`. -/
theorem MultSSQ_spec (fuel N : Nat) (A B C0 : Nat → F) (hf : N < fuel) :
    Returns (MultSSQ fuel A B C0 N) (fun C =>
      ∀ i j, i < N → j < N →
        C (i * N + j) = ∑ k in Finset.range N, A (IndexS i k) * B (IndexS k j)) := by
  unfold MultSSQ
  refine Returns.bind (Returns.forLoop2 N
    (fun i ind C => ind = i * N ∧ ∀ i' j, i' < i → j < N →
      C (i' * N + j) = ∑ k in Finset.range N, A (IndexS i' k) * B (IndexS k j))
    (fun _ _ _ => rfl) (fun ind i C hi hI => ?_) ⟨by omega, fun i' j h => by omega⟩ hf) ?_
  · -- one row
    obtain ⟨hind, hdone⟩ := hI
    subst hind
    dsimp only
    refine Returns.bind (Returns.forLoop2 N
      (fun j ind C' => ind = i * N + j ∧
        (∀ i' j', i' < i → j' < N →
          C' (i' * N + j') = ∑ k in Finset.range N, A (IndexS i' k) * B (IndexS k j')) ∧
        (∀ j', j' < j →
          C' (i * N + j') = ∑ k in Finset.range N, A (IndexS i k) * B (IndexS k j')))
      (fun _ _ _ => rfl) (fun ind j C' hj hI => ?_) ⟨by omega, hdone, fun j' h => by omega⟩ hf) ?_
    · -- one entry
      obtain ⟨hind, hrows, hrow⟩ := hI
      subst hind
      dsimp only
      refine Returns.bind (Returns.forLoop N
        (fun k C'' => C'' = Function.update C' (i * N + j)
          (∑ m in Finset.range k, A (IndexS i m) * B (IndexS m j)))
        (fun _ _ => rfl) (fun k C'' hk hI => ?_) (by simp) hf) ?_
      · subst hI
        refine Returns.some ⟨rfl, ?_⟩
        dsimp only
        rw [Function.update_idem, Function.update_same, Finset.sum_range_succ]
      · rintro ⟨k, C''⟩ ⟨-, hC⟩
        dsimp only at hC ⊢
        subst hC
        refine Returns.some ⟨rfl, Nat.add_assoc _ _ _, fun i' j' hi' hj' => ?_, fun j' hj' => ?_⟩
        · dsimp only
          rw [Function.update_noteq (fun he => by
            have := rowMajor_inj hj' hj he; omega)]
          exact hrows i' j' hi' hj'
        · dsimp only
          by_cases hjj : j' = j
          · subst hjj; rw [Function.update_same]
          · rw [Function.update_noteq (fun he => by omega)]
            exact hrow j' (by omega)
    · rintro ⟨ind, j, C'⟩ ⟨hj, hind, hrows, hrow⟩
      dsimp only at hj hind hrows hrow ⊢
      subst hj hind
      refine Returns.some ⟨rfl, ?_, fun i' j hi' hj => ?_⟩
      · dsimp only; rw [Nat.add_mul, Nat.one_mul]
      · dsimp only
        by_cases hii : i' = i
        · subst hii; exact hrow j hj
        · exact hrows i' j (by omega) hj
  · rintro ⟨ind, i, C⟩ ⟨hi, -, hdone⟩
    dsimp only at hi hdone ⊢
    subst hi
    exact Returns.some hdone

/-! ## `SmoothTracks` -/

/-- What `SmoothTracks` computes, given the result `(err, Ainv)` of its call of
`InvertS` on `C1 + C2` (fuel above `N*(N+1)/2`).  If `err` is set the outputs are
returned as they were.  Otherwise: `T[k]` is `T1[k] - K[k][N-1] * r[N-1]` for `k < N`;
`Chi2` is `Chi21 + Chi22` plus the packed quadratic form; `NDF` is `NDF1 + NDF2 + N`
in `Int_t` arithmetic;
and `C[l]` is the computed covariance entry for the offsets `l < N` only. -/
theorem SmoothTracks_spec (fuel N : Nat) (sqrt : F → F)
    (T1 C1 : Nat → F) (Chi21 : F) (NDF1 : Int) (T2 C2 : Nat → F) (Chi22 : F) (NDF2 : Int)
    (T C : Nat → F) (Chi2 : F) (NDF : Int) (hf : tri N < fuel)
    (err : Bool) (Ainv : Nat → F)
    (hinv : InvertS fuel sqrt (sumPacked N C1 C2) N = some (err, Ainv)) :
    Returns (SmoothTracks fuel sqrt T1 C1 Chi21 NDF1 T2 C2 Chi22 NDF2 T C Chi2 NDF N)
      (fun out =>
        (err = true → out = (true, T, C, Chi2, NDF)) ∧
        (err = false →
          out.1 = false ∧
          (∀ k, k < N → out.2.1 k
            = T1 k - gain N C1 Ainv k (N - 1) * (T1 (N - 1) - T2 (N - 1))) ∧
          (∀ k, N ≤ k → out.2.1 k = T k) ∧
          (∀ i j, j ≤ i → i < N → tri i + j < N →
            out.2.2.1 (tri i + j) = covEntry N C1 Ainv i j) ∧
          (∀ l, N ≤ l → out.2.2.1 l = C l) ∧
          out.2.2.2.1 = Chi21 + Chi22 + chi2Packed N (fun k => T1 k - T2 k) Ainv ∧
          out.2.2.2.2 = wrapInt_t (wrapInt_t (NDF1 + NDF2) + (N : Int)))) := by
  have hN : N < fuel := lt_of_le_of_lt (le_tri N) hf
  unfold SmoothTracks
  dsimp only
  -- A[k] = C1[k] + C2[k]
  refine Returns.bind (Returns.forLoop (N * (N + 1) / 2)
    (fun k A => ∀ idx, A idx = if idx < k then C1 idx + C2 idx else 0)
    (fun _ _ => rfl) (fun k A hk hI => ?_) (fun idx => by simp) hf) ?_
  · refine Returns.some ⟨rfl, fun idx => ?_⟩
    dsimp only
    by_cases h : idx = k
    · subst h; rw [Function.update_same, if_pos (Nat.lt_succ_self _)]
    · rw [Function.update_noteq h, hI idx]
      by_cases h2 : idx < k
      · rw [if_pos h2, if_pos (by omega)]
      · rw [if_neg h2, if_neg (by omega)]
  rintro ⟨k, A⟩ ⟨-, hA⟩
  dsimp only at hA ⊢
  have hAeq : A = sumPacked N C1 C2 := funext fun idx => hA idx
  subst hAeq
  rw [hinv, Option.some_bind]
  dsimp only
  cases err
  swap
  · exact Returns.some ⟨fun _ => rfl, fun h => absurd h (by simp)⟩
  simp only [Bool.false_eq_true, if_false]
  -- MultSSQ( C1, A, K, N )
  refine Returns.bind (MultSSQ_spec fuel N C1 Ainv _ hN) fun K hK => ?_
  -- r[k] = T1[k] - T2[k]
  refine Returns.bind (Returns.forLoop N
    (fun k r => ∀ idx, r idx = if idx < k then T1 idx - T2 idx else 0)
    (fun _ _ => rfl) (fun k r hk hI => ?_) (fun idx => by simp) hN) ?_
  · refine Returns.some ⟨rfl, fun idx => ?_⟩
    dsimp only
    by_cases h : idx = k
    · subst h; rw [Function.update_same, if_pos (Nat.lt_succ_self _)]
    · rw [Function.update_noteq h, hI idx]
      by_cases h2 : idx < k
      · rw [if_pos h2, if_pos (by omega)]
      · rw [if_neg h2, if_neg (by omega)]
  rintro ⟨k, r⟩ ⟨-, hr⟩
  dsimp only at hr ⊢
  have hrN : ∀ idx, idx < N → r idx = T1 idx - T2 idx := fun idx h => by rw [hr idx, if_pos h]
  -- T[k] = T1[k] - K[k*N+l]*r[l]
  refine Returns.bind (Returns.forLoop N
    (fun k T' => (∀ k', k' < k → T' k' = T1 k' - K (k' * N + (N - 1)) * r (N - 1)) ∧
      (∀ k', k ≤ k' → T' k' = T k'))
    (fun _ _ => rfl) (fun k T' hk hI => ?_) ⟨fun k' h => by omega, fun k' _ => rfl⟩ hN) ?_
  · obtain ⟨hI1, hI2⟩ := hI
    dsimp only
    refine Returns.bind (Returns.forLoop N
      (fun l T'' => (l = 0 ∧ T'' = T') ∨
        (1 ≤ l ∧ T'' = Function.update T' k (T1 k - K (k * N + (l - 1)) * r (l - 1))))
      (fun _ _ => rfl) (fun l T'' hl hI3 => ?_) (Or.inl ⟨rfl, rfl⟩) hN) ?_
    · refine Returns.some ⟨rfl, Or.inr ⟨by omega, ?_⟩⟩
      dsimp only
      rcases hI3 with ⟨_, h⟩ | ⟨_, h⟩
      · subst h; rw [Nat.add_sub_cancel]
      · subst h; rw [Function.update_idem, Nat.add_sub_cancel]
    · rintro ⟨l, T''⟩ ⟨hl, hT⟩
      dsimp only at hl hT ⊢
      subst hl
      rcases hT with ⟨h0, _⟩ | ⟨_, h⟩
      · omega
      · subst h
        refine Returns.some ⟨rfl, fun k' hk' => ?_, fun k' hk' => ?_⟩
        · dsimp only
          by_cases e : k' = k
          · subst e; rw [Function.update_same]
          · rw [Function.update_noteq e]; exact hI1 k' (by omega)
        · dsimp only
          rw [Function.update_noteq (by omega)]; exact hI2 k' (by omega)
  rintro ⟨k, T'⟩ ⟨-, hT1, hT2⟩
  dsimp only at hT1 hT2 ⊢
  -- Chi2 += ...
  refine Returns.bind (Returns.forLoop2 N
    (fun i ind X => ind = tri i ∧ X = Chi21 + Chi22 + ∑ i' in Finset.range i,
      (∑ j in Finset.range i', 2 * r i' * r j * Ainv (tri i' + j)
        + r i' * r i' * Ainv (tri i' + i')))
    (fun _ _ _ => rfl) (fun ind i X hi hI => ?_) ⟨rfl, by simp⟩ hN) ?_
  · obtain ⟨hind, hX⟩ := hI
    subst hind
    dsimp only
    refine Returns.bind (Returns.forLoop2 i
      (fun j ind' X' => ind' = tri i + j ∧
        X' = X + ∑ j' in Finset.range j, 2 * r i * r j' * Ainv (tri i + j'))
      (fun _ _ _ => rfl) (fun ind' j X' hj hI2 => ?_) ⟨rfl, by simp⟩ (by omega)) ?_
    · obtain ⟨h1, h2⟩ := hI2
      subst h1
      refine Returns.some ⟨rfl, Nat.add_assoc _ _ _, ?_⟩
      dsimp only
      rw [h2, Finset.sum_range_succ]; ring
    · rintro ⟨ind', j, X'⟩ ⟨hj, h1, h2⟩
      dsimp only at hj h1 h2 ⊢
      subst hj h1
      refine Returns.some ⟨rfl, ?_, ?_⟩
      · dsimp only; rw [tri_succ]
      · dsimp only; rw [h2, hX, Finset.sum_range_succ]; ring
  rintro ⟨ind, i, X⟩ ⟨-, -, hChi⟩
  dsimp only at hChi ⊢
  -- K[(N+1)*l] -= 1
  refine Returns.bind (Returns.forLoop N
    (fun l K' => (∀ l', l' < l → K' ((N + 1) * l') = K ((N + 1) * l') - 1) ∧
      (∀ idx, (∀ l', l' < l → idx ≠ (N + 1) * l') → K' idx = K idx))
    (fun _ _ => rfl) (fun l K' hl hI => ?_) ⟨fun l' h => by omega, fun idx _ => rfl⟩ hN) ?_
  · obtain ⟨h1, h2⟩ := hI
    refine Returns.some ⟨rfl, fun l' hl' => ?_, fun idx hidx => ?_⟩
    · dsimp only
      by_cases e : l' = l
      · subst e
        rw [Function.update_same, h2 _ (fun l'' hl'' he => by
          have := Nat.eq_of_mul_eq_mul_left (Nat.succ_pos N) he; omega)]
      · rw [Function.update_noteq (fun he => e
          (Nat.eq_of_mul_eq_mul_left (Nat.succ_pos N) he)), h1 l' (by omega)]
    · dsimp only
      rw [Function.update_noteq (hidx l (by omega)), h2 idx (fun l' hl' => hidx l' (by omega))]
  rintro ⟨l, K'⟩ ⟨-, hK1, hK2⟩
  dsimp only at hK1 hK2 ⊢
  have hK' : ∀ i k, i < N → k < N →
      K' (i * N + k) = gain N C1 Ainv i k - if i = k then 1 else 0 := by
    intro i k hi hk
    by_cases e : i = k
    · subst e
      have e2 : i * N + i = (N + 1) * i := by ring
      rw [if_pos rfl, e2, hK1 i hi, ← e2, hK i i hi hi]; rfl
    · rw [if_neg e, sub_zero, hK2 _ (fun l' hl' he => by
        have e2 : (N + 1) * l' = l' * N + l' := by ring
        rw [e2] at he
        have := rowMajor_inj hk hl' he
        omega), hK i k hi hk]; rfl
  -- A[ind] = - sum_k K[l*N+k] * C1[IndexS(j,k)]
  refine Returns.bind (Returns.forLoop2 N
    (fun l ind A' => ind = tri l ∧
      ∀ i j, j ≤ i → i < l → A' (tri i + j) = covEntry N C1 Ainv i j)
    (fun _ _ _ => rfl) (fun ind l A' hl hI => ?_) ⟨rfl, fun i j _ h => by omega⟩ hN) ?_
  · obtain ⟨hind, hdone⟩ := hI
    subst hind
    dsimp only
    refine Returns.bind (Returns.forLoop2 (l + 1)
      (fun j ind' A'' => ind' = tri l + j ∧
        (∀ i j', j' ≤ i → i < l → A'' (tri i + j') = covEntry N C1 Ainv i j') ∧
        (∀ j', j' < j → A'' (tri l + j') = covEntry N C1 Ainv l j'))
      (fun _ j _ => by simp [Nat.lt_succ_iff]) (fun ind' j A'' hj hI2 => ?_)
      ⟨rfl, hdone, fun j' h => by omega⟩ (by omega)) ?_
    · obtain ⟨h1, h2, h3⟩ := hI2
      subst h1
      dsimp only
      refine Returns.bind (Returns.forLoop N
        (fun k A3 => A3 = Function.update A'' (tri l + j)
          (0 - ∑ m in Finset.range k, K' (l * N + m) * C1 (IndexS j m)))
        (fun _ _ => rfl) (fun k A3 hk hI3 => ?_) (by simp) hN) ?_
      · subst hI3
        refine Returns.some ⟨rfl, ?_⟩
        dsimp only
        rw [Function.update_idem, Function.update_same, Finset.sum_range_succ, sub_sub]
      · rintro ⟨k, A3⟩ ⟨hk, hA3⟩
        dsimp only at hk hA3 ⊢
        subst hA3 hk
        refine Returns.some ⟨rfl, Nat.add_assoc _ _ _, fun i j' hj' hi => ?_, fun j' hj' => ?_⟩
        · dsimp only
          rw [Function.update_noteq (fun he => by
            have := tri_inj hj' (by omega) he; omega)]
          exact h2 i j' hj' hi
        · dsimp only
          by_cases e : j' = j
          · subst e
            rw [Function.update_same]
            unfold covEntry
            congr 1
            refine Finset.sum_congr rfl fun m hm => ?_
            rw [hK' l m hl (Finset.mem_range.mp hm)]
          · rw [Function.update_noteq (fun he => by omega)]
            exact h3 j' (by omega)
    · rintro ⟨ind', j, A''⟩ ⟨hj, h1, h2, h3⟩
      dsimp only at hj h1 h2 h3 ⊢
      subst hj h1
      refine Returns.some ⟨rfl, ?_, fun i j hj hi => ?_⟩
      · dsimp only; rw [tri_succ]; omega
      · dsimp only
        by_cases e : i = l
        · subst e; exact h3 j (by omega)
        · exact h2 i j hj (by omega)
  rintro ⟨ind', l', A'⟩ ⟨-, -, hcov⟩
  dsimp only at hcov ⊢
  -- C[l] = A[l]
  refine Returns.bind (Returns.forLoop N
    (fun l C' => ∀ idx, C' idx = if idx < l then A' idx else C idx)
    (fun _ _ => rfl) (fun l C' hl hI => ?_) (fun idx => by simp) hN) ?_
  · refine Returns.some ⟨rfl, fun idx => ?_⟩
    dsimp only
    by_cases h : idx = l
    · subst h; rw [Function.update_same, if_pos (Nat.lt_succ_self _)]
    · rw [Function.update_noteq h, hI idx]
      by_cases h2 : idx < l
      · rw [if_pos h2, if_pos (by omega)]
      · rw [if_neg h2, if_neg (by omega)]
  rintro ⟨l'', C'⟩ ⟨-, hC⟩
  dsimp only at hC ⊢
  refine Returns.some ⟨fun h => absurd h (by simp), fun _ => ⟨rfl, fun k hk => ?_,
    fun k hk => hT2 k hk, fun i j hj hi hlt => ?_, fun l hl => ?_, ?_, rfl⟩⟩
  · dsimp only
    rw [hT1 k hk, hK k (N - 1) hk (by omega), hrN (N - 1) (by omega)]; rfl
  · dsimp only
    rw [hC, if_pos hlt, hcov i j hj hi]
  · dsimp only
    rw [hC, if_neg (by omega)]
  · dsimp only
    rw [hChi]
    unfold chi2Packed
    congr 1
    refine Finset.sum_congr rfl fun i hi => ?_
    have hi' : i < N := Finset.mem_range.mp hi
    rw [hrN i hi']
    congr 1
    refine Finset.sum_congr rfl fun j hj => ?_
    rw [hrN j (by have := Finset.mem_range.mp hj; omega)]

/-! ## The closed forms of `SmoothTracks` as matrix expressions -/

theorem IndexS_lt (N i j : Nat) (hi : i < N) (hj : j < N) : IndexS i j < N * (N + 1) / 2 := by
  have key : ∀ a b, b ≤ a → a < N → IndexS a b < tri N := by
    intro a b hb ha
    rw [IndexS_of_le hb]
    have := tri_lt ha
    omega
  by_cases h : j ≤ i
  · exact key i j h hi
  · rw [IndexS_comm]; exact key j i (by omega) hj

/-- The array `A[k] = C1[k] + C2[k]` stores the sum of the two matrices. -/
theorem toMatrix_sumPacked (N : Nat) (C1 C2 : Nat → F) :
    toMatrix N (sumPacked N C1 C2) = toMatrix N C1 + toMatrix N C2 := by
  ext i j
  rw [Matrix.add_apply, toMatrix_apply, toMatrix_apply, toMatrix_apply]
  unfold sumPacked
  rw [if_pos (IndexS_lt N i j i.2 j.2)]

/-- The gain computed by `MultSSQ( C1, A, K, N )` is the matrix product `C1 * A`. -/
theorem gain_eq_mul (N : Nat) (C1 A : Nat → F) (i j : Fin N) :
    gain N C1 A i j = (toMatrix N C1 * toMatrix N A) i j := by
  rw [Matrix.mul_apply]
  exact (Fin.sum_univ_eq_sum_range (fun k => C1 (IndexS i k) * A (IndexS k j)) N).symm

/-- The packed sum with doubled off-diagonal terms is the full quadratic form. -/
theorem chi2Packed_eq_double_sum (N : Nat) (r A : Nat → F) :
    chi2Packed N r A
      = ∑ i in Finset.range N, ∑ j in Finset.range N, r i * (A (IndexS i j) * r j) := by
  unfold chi2Packed
  induction N with
  | zero => simp
  | succ n ih =>
    rw [Finset.sum_range_succ, ih, Finset.sum_range_succ]
    have h1 : ∑ i in Finset.range n, ∑ j in Finset.range (n + 1), r i * (A (IndexS i j) * r j)
        = ∑ i in Finset.range n, ∑ j in Finset.range n, r i * (A (IndexS i j) * r j)
          + ∑ i in Finset.range n, r i * (A (IndexS i n) * r n) := by
      rw [← Finset.sum_add_distrib]
      exact Finset.sum_congr rfl fun i _ => Finset.sum_range_succ _ _
    have h2 : ∑ i in Finset.range n, r i * (A (IndexS i n) * r n)
        = ∑ j in Finset.range n, r n * r j * A (tri n + j) := by
      refine Finset.sum_congr rfl fun j hj => ?_
      have hj' : j < n := Finset.mem_range.mp hj
      rw [IndexS_comm, IndexS_of_le (le_of_lt hj')]; ring
    have h3 : ∑ j in Finset.range n, r n * (A (IndexS n j) * r j)
        = ∑ j in Finset.range n, r n * r j * A (tri n + j) := by
      refine Finset.sum_congr rfl fun j hj => ?_
      have hj' : j < n := Finset.mem_range.mp hj
      rw [IndexS_of_le (le_of_lt hj')]; ring
    have h4 : ∑ j in Finset.range n, 2 * r n * r j * A (tri n + j)
        = 2 * ∑ j in Finset.range n, r n * r j * A (tri n + j) := by
      rw [Finset.mul_sum]
      exact Finset.sum_congr rfl fun j _ => by ring
    rw [h1, h2, Finset.sum_range_succ, h3, h4, IndexS_of_le (le_refl n)]
    ring

/-- The packed sum of `SmoothTracks` is the quadratic form `r^T A r`. -/
theorem chi2Packed_eq_dotProduct (N : Nat) (r A : Nat → F) :
    chi2Packed N r A
      = Matrix.dotProduct (fun i : Fin N => r i)
          (Matrix.mulVec (toMatrix N A) (fun i : Fin N => r i)) := by
  rw [chi2Packed_eq_double_sum]
  unfold Matrix.dotProduct Matrix.mulVec Matrix.dotProduct
  rw [← Fin.sum_univ_eq_sum_range (fun i => ∑ j in Finset.range N, r i * (A (IndexS i j) * r j)) N]
  refine Finset.sum_congr rfl fun i _ => ?_
  rw [← Fin.sum_univ_eq_sum_range (fun j => r i * (A (IndexS i j) * r j)) N, Finset.mul_sum]
  rfl

/-- The covariance entry computed by `SmoothTracks` is the entry of `(I - K) * C1`. -/
theorem covEntry_eq_mul (N : Nat) (C1 A : Nat → F) (i j : Fin N) :
    covEntry N C1 A i j = ((1 - toMatrix N C1 * toMatrix N A) * toMatrix N C1) i j := by
  rw [Matrix.mul_apply]
  unfold covEntry
  rw [← Fin.sum_univ_eq_sum_range
    (fun k => (gain N C1 A i k - if (i : Nat) = k then 1 else 0) * C1 (IndexS j k)) N,
    zero_sub, ← Finset.sum_neg_distrib]
  refine Finset.sum_congr rfl fun k _ => ?_
  rw [Matrix.sub_apply, Matrix.one_apply, toMatrix_apply, gain_eq_mul, IndexS_comm]
  by_cases h : i = k
  · subst h; simp; ring
  · rw [if_neg h, if_neg (fun he => h (Fin.ext he))]; ring

/-! ## `SmoothTracks` in exact real arithmetic -/

/-- The call of `InvertS` made by `SmoothTracks` returns; its flag is raised exactly
when a Cholesky pivot of `C1 + C2` does not exceed `ZERO`, and otherwise its output is
the packed inverse of `C1 + C2`. -/
theorem InvertS_sumPacked (fuel N : Nat) (C1 C2 : Nat → ℝ) (hf : tri N < fuel) :
    ∃ err Ainv, InvertS fuel Real.sqrt (sumPacked N C1 C2) N = some (err, Ainv) ∧
      (err = true ↔ ∃ c, c < N ∧ ¬ cholPivot Real.sqrt (sumPacked N C1 C2) c > ZERO) ∧
      (err = false → (toMatrix N C1 + toMatrix N C2) * toMatrix N Ainv = 1 ∧
        toMatrix N Ainv = (toMatrix N C1 + toMatrix N C2)⁻¹) := by
  obtain ⟨err, Ainv, h1, h2, h3⟩ := InvertS_spec fuel N Real.sqrt
    (fun _ hx => Real.mul_self_sqrt hx) Real.sqrt_nonneg (sumPacked N C1 C2)
    (lt_of_le_of_lt (le_tri N) hf)
  refine ⟨err, Ainv, h1, h2, fun he => ?_⟩
  have h := h3 he
  rw [toMatrix_sumPacked] at h
  exact ⟨h, (Matrix.inv_eq_right_inv h).symm⟩

theorem chi2Packed_zero (N : Nat) (r A : Nat → F) (hr : ∀ k, r k = 0) : chi2Packed N r A = 0 := by
  unfold chi2Packed
  refine Finset.sum_eq_zero fun i _ => ?_
  rw [hr i, zero_mul, zero_mul, add_zero]
  refine Finset.sum_eq_zero fun j _ => ?_
  rw [mul_zero, zero_mul, zero_mul]

/-- Fusion of two estimates with the same covariance `C1`, when the inversion of
`C1 + C1` succeeds: the gain is half the identity, so the offsets `l < N` of the
output covariance hold `C1[l]/2` and `T[k]` is `T1[k]`, except that `T[N-1]` is the
mean of `T1[N-1]` and `T2[N-1]`. -/
theorem SmoothTracks_equal_cov (fuel N : Nat) (T1 C1 : Nat → ℝ) (Chi21 : ℝ) (NDF1 : Int)
    (T2 : Nat → ℝ) (Chi22 : ℝ) (NDF2 : Int) (T C : Nat → ℝ) (Chi2 : ℝ) (NDF : Int)
    (hf : tri N < fuel)
    (hpiv : ∀ c, c < N → cholPivot Real.sqrt (sumPacked N C1 C1) c > ZERO) :
    ∃ Ainv, Returns (SmoothTracks fuel Real.sqrt T1 C1 Chi21 NDF1 T2 C1 Chi22 NDF2 T C Chi2 NDF N)
      (fun out =>
        out.1 = false ∧
        (∀ k, k < N → out.2.1 k
          = T1 k - (if k = N - 1 then 1 / 2 else 0) * (T1 (N - 1) - T2 (N - 1))) ∧
        (∀ k, N ≤ k → out.2.1 k = T k) ∧
        (∀ l, l < N → out.2.2.1 l = C1 l / 2) ∧
        (∀ l, N ≤ l → out.2.2.1 l = C l) ∧
        out.2.2.2.1 = Chi21 + Chi22 + chi2Packed N (fun k => T1 k - T2 k) Ainv ∧
        out.2.2.2.2 = wrapInt_t (wrapInt_t (NDF1 + NDF2) + (N : Int))) := by
  obtain ⟨err, Ainv, hinv, herr, hmat⟩ := InvertS_sumPacked fuel N C1 C1 hf
  have he : err = false := by
    cases h : err
    · rfl
    · obtain ⟨c, hc, hbad⟩ := herr.mp h
      exact absurd (hpiv c hc) hbad
  subst he
  obtain ⟨hAR, -⟩ := hmat rfl
  have hhalf : toMatrix N C1 * toMatrix N Ainv = (1 / 2 : ℝ) • (1 : Matrix (Fin N) (Fin N) ℝ) := by
    rw [Matrix.add_mul] at hAR
    ext i j
    have := congrFun (congrFun hAR i) j
    rw [Matrix.add_apply] at this
    rw [Matrix.smul_apply, smul_eq_mul]
    linarith
  have hgain : ∀ i j, i < N → j < N → gain N C1 Ainv i j = if i = j then 1 / 2 else 0 := by
    intro i j hi hj
    have := gain_eq_mul N C1 Ainv ⟨i, hi⟩ ⟨j, hj⟩
    rw [hhalf, Matrix.smul_apply, Matrix.one_apply, smul_eq_mul] at this
    rw [this]
    by_cases h : i = j
    · subst h; simp
    · rw [if_neg h, if_neg (fun he => h (by simpa using he)), mul_zero]
  have hcov : ∀ i j, j ≤ i → i < N → covEntry N C1 Ainv i j = C1 (tri i + j) / 2 := by
    intro i j hj hi
    have := covEntry_eq_mul N C1 Ainv ⟨i, hi⟩ ⟨j, by omega⟩
    rw [hhalf] at this
    rw [this]
    have e : (1 - (1 / 2 : ℝ) • (1 : Matrix (Fin N) (Fin N) ℝ)) = (1 / 2 : ℝ) • 1 := by
      ext a b
      rw [Matrix.sub_apply, Matrix.smul_apply, smul_eq_mul]
      ring
    rw [e, Matrix.smul_mul, Matrix.one_mul, Matrix.smul_apply, toMatrix_apply, smul_eq_mul,
      IndexS_of_le hj]
    ring
  refine ⟨Ainv, (SmoothTracks_spec fuel N Real.sqrt T1 C1 Chi21 NDF1 T2 C1 Chi22 NDF2 T C Chi2 NDF
    hf false Ainv hinv).mono fun out h => ?_⟩
  obtain ⟨h1, h2, h3, h4, h5, h6, h7⟩ := h.2 rfl
  refine ⟨h1, fun k hk => ?_, h3, fun l hl => ?_, h5, h6, h7⟩
  · rw [h2 k hk, hgain k (N - 1) hk (by omega)]
  · obtain ⟨i, j, hj, hi, rfl⟩ := tri_decompose N l (lt_of_lt_of_le hl (le_tri N))
    rw [h4 i j hj hi hl, hcov i j hj hi]

/-! ## A concrete fusion: `N = 2`, `C1 = C2 = {2, 1, 5/2}`, `T1 = {2, 0}`, `T2 = {0, 0}` -/

theorem example_sumPacked :
    sumPacked 2 (ofList [(2 : ℝ), 1, 5 / 2]) (ofList [(2 : ℝ), 1, 5 / 2])
      = ofList [(4 : ℝ), 2, 5] := by
  funext k
  rcases k with _ | _ | _ | k
  · norm_num [sumPacked, ofList]
  · norm_num [sumPacked, ofList]
  · norm_num [sumPacked, ofList]
  · simp [sumPacked, ofList]

theorem example_sum_pivots :
    ∀ c, c < 2 → cholPivot Real.sqrt
      (sumPacked 2 (ofList [(2 : ℝ), 1, 5 / 2]) (ofList [(2 : ℝ), 1, 5 / 2])) c > ZERO := by
  rw [example_sumPacked]
  exact example_pivots

/-- With equal covariances the gain matrix `C1 * inverse(C1 + C1)` is half the
identity (when the inversion succeeds). -/
theorem gainMatrix_equal_cov (N : Nat) (C1 : Nat → ℝ)
    (hpiv : ∀ c, c < N → cholPivot Real.sqrt (sumPacked N C1 C1) c > ZERO) :
    toMatrix N C1 * (toMatrix N C1 + toMatrix N C1)⁻¹
      = (1 / 2 : ℝ) • (1 : Matrix (Fin N) (Fin N) ℝ) := by
  obtain ⟨err, Ainv, -, herr, hmat⟩ := InvertS_sumPacked (tri N + 1) N C1 C1 (Nat.lt_succ_self _)
  have he : err = false := by
    cases h : err
    · rfl
    · obtain ⟨c, hc, hbad⟩ := herr.mp h
      exact absurd (hpiv c hc) hbad
  obtain ⟨hAR, hR⟩ := hmat he
  rw [← hR]
  rw [Matrix.add_mul] at hAR
  ext i j
  have := congrFun (congrFun hAR i) j
  rw [Matrix.add_apply] at this
  rw [Matrix.smul_apply, smul_eq_mul]
  linarith

/-- The run of `SmoothTracks` on the concrete input, started with all-zero output
buffers: it succeeds with `T = {2, 0}` and `C = {1, 1/2, 0}`. -/
theorem SmoothTracks_example :
    ∃ T' C' chi, SmoothTracks 4 Real.sqrt (ofList [2, 0]) (ofList [2, 1, 5 / 2]) 0 0
        (ofList [0, 0]) (ofList [2, 1, 5 / 2]) 0 0 (ofList []) (ofList []) 0 0 2
        = some (false, T', C', chi, 2) ∧
      T' 0 = 2 ∧ T' 1 = 0 ∧ C' 0 = 1 ∧ C' 1 = 1 / 2 ∧ C' 2 = 0 := by
  obtain ⟨Ainv, ⟨err, T', C', chi, ndf⟩, hrun, h1, h2, -, h4, h5, -, h7⟩ :=
    SmoothTracks_equal_cov 4 2 (ofList [2, 0]) (ofList [2, 1, 5 / 2]) 0 0 (ofList [0, 0]) 0 0
      (ofList []) (ofList []) 0 0 (by decide) example_sum_pivots
  dsimp only at h1 h2 h4 h5 h7
  subst h1
  have hndf : ndf = 2 := by rw [h7]; decide
  subst hndf
  refine ⟨T', C', chi, hrun, ?_, ?_, ?_, ?_, ?_⟩
  · rw [h2 0 (by norm_num)]; simp [ofList]
  · rw [h2 1 (by norm_num)]; simp [ofList]
  · rw [h4 0 (by norm_num)]; simp [ofList]
  · rw [h4 1 (by norm_num)]; simp [ofList]
  · rw [h5 2 (le_refl _)]; simp [ofList]

/-! ## Claims on `SmoothTracks` (exact real arithmetic) -/

/-- C3 (the code departs from the claim): on the input `N = 2`, `T1 = {2, 0}`,
`T2 = {0, 0}`, `C1 = C2 = {2, 1, 5/2}` with an output buffer of its own, `SmoothTracks`
succeeds and returns `T[0] = 2`, whereas `T1[0] - sum_l K[0][l]*(T1[l]-T2[l])` with
`K = C1 * inverse(C1+C2)` is `1`: the inner loop of line 379 assigns instead of
accumulating, so only the term `l = N-1` survives. -/
theorem SmoothTracks_state_keeps_last_term_only :
    ∃ T' C' chi ndf, SmoothTracks 4 Real.sqrt (ofList [2, 0]) (ofList [2, 1, 5 / 2]) 0 0
        (ofList [0, 0]) (ofList [2, 1, 5 / 2]) 0 0 (ofList []) (ofList []) 0 0 2
        = some (false, T', C', chi, ndf) ∧
      T' 0 = 2 ∧
      ofList [(2 : ℝ), 0] 0
        - ∑ l : Fin 2, (toMatrix 2 (ofList [(2 : ℝ), 1, 5 / 2])
            * (toMatrix 2 (ofList [(2 : ℝ), 1, 5 / 2])
              + toMatrix 2 (ofList [(2 : ℝ), 1, 5 / 2]))⁻¹) 0 l
          * (ofList [(2 : ℝ), 0] l - ofList [(0 : ℝ), 0] l) = 1 := by
  obtain ⟨T', C', chi, hrun, h0, -, -, -, -⟩ := SmoothTracks_example
  refine ⟨T', C', chi, 2, hrun, h0, ?_⟩
  rw [gainMatrix_equal_cov 2 _ example_sum_pivots, Fin.sum_univ_two]
  simp [ofList, Matrix.one_apply]
  norm_num

/-- C4 (the code departs from the claim): on the input `N = 2`, `C1 = C2 = {2, 1, 5/2}`
with an all-zero output buffer `C`, `SmoothTracks` succeeds and leaves `C[2] = 0`,
whereas entry `(1, 1)` of `(I - K) * C1` (packed offset `IndexS(1,1) = 2`) is `5/4`:
the copy loop of line 395 runs over `l < N`, not over the `N*(N+1)/2` packed entries. -/
theorem SmoothTracks_covariance_copies_N_entries_only :
    ∃ T' C' chi ndf, SmoothTracks 4 Real.sqrt (ofList [2, 0]) (ofList [2, 1, 5 / 2]) 0 0
        (ofList [0, 0]) (ofList [2, 1, 5 / 2]) 0 0 (ofList []) (ofList []) 0 0 2
        = some (false, T', C', chi, ndf) ∧
      IndexS 1 1 = 2 ∧ C' 2 = 0 ∧
      ((1 - toMatrix 2 (ofList [(2 : ℝ), 1, 5 / 2])
            * (toMatrix 2 (ofList [(2 : ℝ), 1, 5 / 2])
              + toMatrix 2 (ofList [(2 : ℝ), 1, 5 / 2]))⁻¹)
          * toMatrix 2 (ofList [(2 : ℝ), 1, 5 / 2])) 1 1 = 5 / 4 := by
  obtain ⟨T', C', chi, hrun, -, -, -, -, h2⟩ := SmoothTracks_example
  refine ⟨T', C', chi, 2, hrun, by decide, h2, ?_⟩
  rw [gainMatrix_equal_cov 2 _ example_sum_pivots, Matrix.mul_apply, Fin.sum_univ_two]
  simp [ofList, Matrix.one_apply, toMatrix, IndexS]
  norm_num

/-- C6: with fuel above `N*(N+1)/2` both `InvertS` on `C1 + C2` and `SmoothTracks`
return, and the flag of `SmoothTracks` is the flag of `InvertS`; when that flag is 1
the outputs `T`, `C`, `Chi2`, `NDF` are as they were before the call. -/
theorem SmoothTracks_failure_leaves_outputs (N fuel : Nat) (T1 C1 : Nat → ℝ) (Chi21 : ℝ)
    (NDF1 : Int) (T2 C2 : Nat → ℝ) (Chi22 : ℝ) (NDF2 : Int) (T C : Nat → ℝ) (Chi2 : ℝ)
    (NDF : Int) (hf : N * (N + 1) / 2 < fuel) :
    ∃ err Ainv out,
      InvertS fuel Real.sqrt (sumPacked N C1 C2) N = some (err, Ainv) ∧
      SmoothTracks fuel Real.sqrt T1 C1 Chi21 NDF1 T2 C2 Chi22 NDF2 T C Chi2 NDF N = some out ∧
      out.1 = err ∧
      (err = true → out = (true, T, C, Chi2, NDF)) := by
  obtain ⟨err, Ainv, hinv, -, -⟩ := InvertS_sumPacked fuel N C1 C2 hf
  obtain ⟨out, hrun, h1, h2⟩ :=
    SmoothTracks_spec fuel N Real.sqrt T1 C1 Chi21 NDF1 T2 C2 Chi22 NDF2 T C Chi2 NDF hf err Ainv hinv
  refine ⟨err, Ainv, out, hinv, hrun, ?_, h1⟩
  cases herr : err
  · exact (h2 herr).1
  · rw [h1 herr]

/-- C7 (the code departs from the claim): on the input `N = 2`, `C1 = C2 = {2, 1, 5/2}`
(positive semi-definite) with an all-zero output buffer `C`, the inversion succeeds
and the returned packed covariance `{1, 1/2, 0}` is not positive semi-definite. -/
theorem SmoothTracks_covariance_not_psd :
    ∃ T' C' chi ndf, SmoothTracks 4 Real.sqrt (ofList [2, 0]) (ofList [2, 1, 5 / 2]) 0 0
        (ofList [0, 0]) (ofList [2, 1, 5 / 2]) 0 0 (ofList []) (ofList []) 0 0 2
        = some (false, T', C', chi, ndf) ∧
      (toMatrix 2 (ofList [(2 : ℝ), 1, 5 / 2])).PosSemidef ∧
      ¬ (toMatrix 2 C').PosSemidef := by
  obtain ⟨T', C', chi, hrun, -, -, h0, h1, h2⟩ := SmoothTracks_example
  refine ⟨T', C', chi, 2, hrun, ⟨?_, fun x => ?_⟩, fun hpsd => ?_⟩
  · ext i j
    fin_cases i <;> fin_cases j <;> simp [toMatrix, IndexS, ofList]
  · have hval : Matrix.dotProduct (star x)
        (Matrix.mulVec (toMatrix 2 (ofList [(2 : ℝ), 1, 5 / 2])) x)
        = 2 * (x 0 + x 1 / 2) ^ 2 + 2 * x 1 ^ 2 := by
      simp [Matrix.dotProduct, Matrix.mulVec, Fin.sum_univ_two, toMatrix, IndexS, ofList]
      ring
    rw [hval]
    positivity
  · have h := hpsd.2 ![1, -2]
    have hval : Matrix.dotProduct (star ![(1 : ℝ), -2]) (Matrix.mulVec (toMatrix 2 C') ![1, -2])
        = -1 := by
      simp [Matrix.dotProduct, Matrix.mulVec, Fin.sum_univ_two, toMatrix, IndexS, h0, h1, h2]
    rw [hval] at h
    exact absurd h (by norm_num)

/-- Witness of C6: two all-zero covariances, `N = 2`. -/
theorem SmoothTracks_failure_leaves_outputs_witness :
    ∃ err Ainv out,
      InvertS 4 Real.sqrt (sumPacked 2 (ofList ([] : List ℝ)) (ofList [])) 2 = some (err, Ainv) ∧
      SmoothTracks 4 Real.sqrt (ofList [2, 0]) (ofList []) 0 0 (ofList [0, 0]) (ofList []) 0 0
        (ofList [7, 7]) (ofList [9, 9, 9]) 5 6 2 = some out ∧
      out.1 = err ∧
      (err = true → out = (true, ofList [7, 7], ofList [9, 9, 9], 5, 6)) :=
  SmoothTracks_failure_leaves_outputs 2 4 (ofList [2, 0]) (ofList []) 0 0 (ofList [0, 0])
    (ofList []) 0 0 (ofList [7, 7]) (ofList [9, 9, 9]) 5 6 (by decide)

/-- C8 as stated fails: the `1 x 1` covariance `C1 = {ZERO/2}` is positive definite and
invertible, yet `SmoothTracks` with `T2 = T1`, `C2 = C1` returns the error flag and
leaves the outputs untouched, because the pivot `2 * ZERO/2` does not exceed `ZERO`. -/
theorem SmoothTracks_self_fusion_tiny_covariance_fails :
    (toMatrix 1 (ofList [(ZERO : ℝ) / 2])).PosDef ∧
    (toMatrix 1 (ofList [(ZERO : ℝ) / 2])).det ≠ 0 ∧
    SmoothTracks 2 Real.sqrt (ofList [1]) (ofList [(ZERO : ℝ) / 2]) 0 0
        (ofList [1]) (ofList [(ZERO : ℝ) / 2]) 0 0 (ofList []) (ofList []) 0 0 1
      = some (true, ofList [], ofList [], 0, 0) := by
  have hZ : (0 : ℝ) < ZERO / 2 := by have := ZERO_pos (F := ℝ); linarith
  have h00 : toMatrix 1 (ofList [(ZERO : ℝ) / 2]) 0 0 = ZERO / 2 := by
    simp [toMatrix, IndexS, ofList]
  refine ⟨⟨?_, fun x hx => ?_⟩, ?_, ?_⟩
  · ext i j
    fin_cases i; fin_cases j
    simp
  · have hne : x 0 ≠ 0 := by
      intro h
      exact hx (by ext i; fin_cases i; simpa using h)
    have hval : Matrix.dotProduct (star x) (Matrix.mulVec (toMatrix 1 (ofList [(ZERO : ℝ) / 2])) x)
        = x 0 * (ZERO / 2 * x 0) := by
      simp [Matrix.dotProduct, Matrix.mulVec, h00]
    rw [hval]
    have : 0 < x 0 ^ 2 := by positivity
    nlinarith
  · rw [Matrix.det_fin_one, h00]
    exact ne_of_gt hZ
  · obtain ⟨err, Ainv, hinv, herr, -⟩ := InvertS_sumPacked 2 1 (ofList [(ZERO : ℝ) / 2])
      (ofList [(ZERO : ℝ) / 2]) (by decide)
    have hpiv : cholPivot Real.sqrt
        (sumPacked 1 (ofList [(ZERO : ℝ) / 2]) (ofList [(ZERO : ℝ) / 2])) 0 = ZERO := by
      simp [cholPivot, tri, sumPacked, ofList]
    have he : err = true := herr.mpr ⟨0, by norm_num, by rw [hpiv]; exact lt_irrefl _⟩
    subst he
    obtain ⟨out, hrun, h1, -⟩ := SmoothTracks_spec 2 1 Real.sqrt (ofList [1])
      (ofList [(ZERO : ℝ) / 2]) 0 0 (ofList [1]) (ofList [(ZERO : ℝ) / 2]) 0 0 (ofList [])
      (ofList []) 0 0 (by decide) true Ainv hinv
    rw [hrun, h1 rfl]

/-- C8 as amended: in exact real arithmetic, for every `N >= 1`, every state `T1` and
every packed covariance `C1` such that all Cholesky pivots of `C1 + C1` exceed `1e-20`
(the inversion succeeds), `SmoothTracks` called with `T2 = T1`, `C2 = C1` (fuel above
`N*(N+1)/2`)
succeeds, returns `Chi2 = Chi21 + Chi22` exactly, and the entries `C[l]`, `l < N`, of
the merged covariance that it writes are `C1[l] / 2`. -/
theorem SmoothTracks_self_fusion (N : Nat) (_hN : 1 ≤ N) (T1 C1 : Nat → ℝ) (Chi21 : ℝ)
    (NDF1 : Int) (Chi22 : ℝ) (NDF2 : Int) (T C : Nat → ℝ) (Chi2 : ℝ) (NDF : Int)
    (fuel : Nat) (hf : N * (N + 1) / 2 < fuel)
    (hpiv : ∀ c, c < N → cholPivot Real.sqrt (sumPacked N C1 C1) c > ZERO) :
    ∃ T' C' NDF',
      SmoothTracks fuel Real.sqrt T1 C1 Chi21 NDF1 T1 C1 Chi22 NDF2 T C Chi2 NDF N
        = some (false, T', C', Chi21 + Chi22, NDF') ∧
      ∀ l, l < N → C' l = C1 l / 2 := by
  obtain ⟨Ainv, ⟨err, T', C', chi, ndf⟩, hrun, h1, -, -, h4, -, h6, -⟩ :=
    SmoothTracks_equal_cov fuel N T1 C1 Chi21 NDF1 T1 Chi22 NDF2 T C Chi2 NDF hf hpiv
  dsimp only at h1 h4 h6
  subst h1
  rw [chi2Packed_zero N _ Ainv (fun k => sub_self _), add_zero] at h6
  subst h6
  exact ⟨T', C', ndf, hrun, h4⟩

/-- Witness of C8 as amended: `N = 2`, `C1 = {2, 1, 5/2}`, `T1 = {2, 0}`. -/
theorem SmoothTracks_self_fusion_witness :
    ∃ T' C' NDF',
      SmoothTracks 4 Real.sqrt (ofList [2, 0]) (ofList [2, 1, 5 / 2]) 3 0
        (ofList [2, 0]) (ofList [2, 1, 5 / 2]) 4 0 (ofList []) (ofList []) 0 0 2
        = some (false, T', C', 3 + 4, NDF') ∧
      ∀ l, l < 2 → C' l = ofList [(2 : ℝ), 1, 5 / 2] l / 2 :=
  SmoothTracks_self_fusion 2 (by decide) (ofList [2, 0]) (ofList [2, 1, 5 / 2]) 3 0 4 0
    (ofList []) (ofList []) 0 0 4 (by decide) example_sum_pivots

/-! ## Claims on the gate `MatchTracks` -/

/-- The gate on two non-null tracks, for any thresholds: a five-way conjunction. -/
theorem MatchTracks_some_iff (m : Merger F) (a b : AliESDtrack F) :
    MatchTracks m (some a) (some b) = true ↔
      |a.GetY - b.GetY| ≤ m.fMaxY ∧ |a.GetZ - b.GetZ| ≤ m.fMaxZ ∧
      |a.GetSnp - b.GetSnp| ≤ m.fMaxSnp ∧ |a.GetTgl - b.GetTgl| ≤ m.fMaxTgl ∧
      |a.GetSigned1Pt - b.GetSigned1Pt| ≤ m.fMaxSigned1Pt := by
  unfold MatchTracks
  dsimp only
  by_cases h1 : |a.GetY - b.GetY| > m.fMaxY
  · rw [if_pos h1]
    exact ⟨fun h => absurd h (by simp), fun h => absurd h.1 (not_le.mpr h1)⟩
  rw [if_neg h1]
  by_cases h2 : |a.GetZ - b.GetZ| > m.fMaxZ
  · rw [if_pos h2]
    exact ⟨fun h => absurd h (by simp), fun h => absurd h.2.1 (not_le.mpr h2)⟩
  rw [if_neg h2]
  by_cases h3 : |a.GetSnp - b.GetSnp| > m.fMaxSnp
  · rw [if_pos h3]
    exact ⟨fun h => absurd h (by simp), fun h => absurd h.2.2.1 (not_le.mpr h3)⟩
  rw [if_neg h3]
  by_cases h4 : |a.GetTgl - b.GetTgl| > m.fMaxTgl
  · rw [if_pos h4]
    exact ⟨fun h => absurd h (by simp), fun h => absurd h.2.2.2.1 (not_le.mpr h4)⟩
  rw [if_neg h4]
  by_cases h5 : |a.GetSigned1Pt - b.GetSigned1Pt| > m.fMaxSigned1Pt
  · rw [if_pos h5]
    exact ⟨fun h => absurd h (by simp), fun h => absurd h.2.2.2.2 (not_le.mpr h5)⟩
  rw [if_neg h5]
  exact ⟨fun _ => ⟨not_lt.mp h1, not_lt.mp h2, not_lt.mp h3, not_lt.mp h4, not_lt.mp h5⟩,
    fun _ => rfl⟩

/-- The gate in exact real arithmetic: for all non-null tracks `a`, `b` and thresholds
set by `SetParameter`, `MatchTracks(a, b)` is true if and only if each of the five
absolute deviations is at most its threshold (equality accepted); with all thresholds
`1.0`, two states that differ only in the first offset by `0.5` match and two that
differ by `1.5` do not; and if either track is null the result is false. -/
theorem MatchTracks_five_way_and (m0 : Merger ℝ) (maxy maxz maxsnp maxtgl max1pt : ℝ)
    (a b : AliESDtrack ℝ) :
    (MatchTracks (SetParameter m0 maxy maxz maxsnp maxtgl max1pt) (some a) (some b) = true ↔
      |a.GetY - b.GetY| ≤ maxy ∧ |a.GetZ - b.GetZ| ≤ maxz ∧
      |a.GetSnp - b.GetSnp| ≤ maxsnp ∧ |a.GetTgl - b.GetTgl| ≤ maxtgl ∧
      |a.GetSigned1Pt - b.GetSigned1Pt| ≤ max1pt) ∧
    (((∀ k, 1 ≤ k → a.fP k = b.fP k) ∧ a.fP 0 - b.fP 0 = 1 / 2) →
      MatchTracks (SetParameter m0 1 1 1 1 1) (some a) (some b) = true) ∧
    (((∀ k, 1 ≤ k → a.fP k = b.fP k) ∧ a.fP 0 - b.fP 0 = 3 / 2) →
      MatchTracks (SetParameter m0 1 1 1 1 1) (some a) (some b) = false) ∧
    (∀ (m : Merger ℝ) (t : Option (AliESDtrack ℝ)),
      MatchTracks m none t = false ∧ MatchTracks m t none = false) := by
  refine ⟨MatchTracks_some_iff _ a b, ?_, ?_, fun m t => ⟨rfl, ?_⟩⟩
  · rintro ⟨hk, h0⟩
    rw [MatchTracks_some_iff]
    simp only [SetParameter, AliESDtrack.GetY, AliESDtrack.GetZ, AliESDtrack.GetSnp,
      AliESDtrack.GetTgl, AliESDtrack.GetSigned1Pt]
    rw [h0, hk 1 (le_refl _), hk 2 (by norm_num), hk 3 (by norm_num), hk 4 (by norm_num)]
    simp only [sub_self, abs_zero]
    refine ⟨?_, by norm_num, by norm_num, by norm_num, by norm_num⟩
    rw [abs_of_pos (by norm_num)]; norm_num
  · rintro ⟨_, h0⟩
    cases h : MatchTracks (SetParameter m0 1 1 1 1 1) (some a) (some b)
    · rfl
    · have h1 := ((MatchTracks_some_iff _ a b).mp h).1
      simp only [SetParameter, AliESDtrack.GetY] at h1
      rw [h0, abs_of_pos (by norm_num)] at h1
      exact absurd h1 (by norm_num)
  · cases t <;> rfl

/-- C10 as stated fails: on a default-constructed merger, `MatchTracks` accepts two
tracks with the same five parameters (here all zero). -/
theorem MatchTracks_default_accepts_equal_tracks :
    MatchTracks (Merger.default : Merger ℝ) (some ⟨fun _ => 0⟩) (some ⟨fun _ => 0⟩) = true := by
  rw [MatchTracks_some_iff]
  simp [Merger.default, AliESDtrack.GetY, AliESDtrack.GetZ, AliESDtrack.GetSnp,
    AliESDtrack.GetTgl, AliESDtrack.GetSigned1Pt]

/-- The default gate in exact real arithmetic: on a default-constructed merger (all
five thresholds `0.0`), `MatchTracks` returns true exactly for two non-null tracks whose
five parameters are equal; every pair that differs in a parameter, or has a null track,
is rejected. -/
theorem MatchTracks_default_iff_equal (a b : Option (AliESDtrack ℝ)) :
    MatchTracks (Merger.default : Merger ℝ) a b = true ↔
      ∃ ta tb, a = some ta ∧ b = some tb ∧
        ta.GetY = tb.GetY ∧ ta.GetZ = tb.GetZ ∧ ta.GetSnp = tb.GetSnp ∧
        ta.GetTgl = tb.GetTgl ∧ ta.GetSigned1Pt = tb.GetSigned1Pt := by
  have key : ∀ x y : ℝ, |x - y| ≤ 0 ↔ x = y := fun x y => by
    rw [abs_nonpos_iff, sub_eq_zero]
  cases a with
  | none => exact ⟨fun h => absurd h (by simp [MatchTracks]), fun ⟨_, _, h, _⟩ => by simp at h⟩
  | some ta =>
    cases b with
    | none =>
      exact ⟨fun h => absurd h (by simp [MatchTracks]), fun ⟨_, _, _, h, _⟩ => by simp at h⟩
    | some tb =>
      rw [MatchTracks_some_iff]
      simp only [Merger.default, key]
      constructor
      · intro h
        exact ⟨ta, tb, rfl, rfl, h⟩
      · rintro ⟨ta', tb', h1, h2, h⟩
        cases h1; cases h2
        exact h

/-! ## Claim on `MultSSQ` -/

/-- C11: for every `N >= 1` and packed symmetric `A`, `B`, the call of `MultSSQ` returns
(fuel above `N`) the row-major `N x N` array `C` with
`C[i*N+j] = sum_k A[IndexS(i,k)] * B[IndexS(k,j)]` for all `i, j < N`, which is the
entry `(i, j)` of `A^T * B`.  The inputs `A` and `B` are `const` and are only read: the
only array the call returns is `C`. -/
theorem MultSSQ_is_matrix_product (N fuel : Nat) (_hN : 1 ≤ N) (A B C0 : Nat → ℝ)
    (hf : N < fuel) :
    ∃ C, MultSSQ fuel A B C0 N = some C ∧
      ∀ i j : Fin N,
        C ((i : Nat) * N + j) = ∑ k in Finset.range N, A (IndexS i k) * B (IndexS k j) ∧
        C ((i : Nat) * N + j) = ((toMatrix N A).transpose * toMatrix N B) i j := by
  obtain ⟨C, hC, hent⟩ := MultSSQ_spec fuel N A B C0 hf
  refine ⟨C, hC, fun i j => ⟨hent i j i.2 j.2, ?_⟩⟩
  rw [hent i j i.2 j.2, toMatrix_transpose]
  exact gain_eq_mul N A B i j

/-- Witness of C11: `N = 2`. -/
theorem MultSSQ_is_matrix_product_witness :
    ∃ C, MultSSQ 3 (ofList [(1 : ℝ), 2, 3]) (ofList [(0 : ℝ), 1, 0]) (ofList []) 2 = some C ∧
      ∀ i j : Fin 2,
        C ((i : Nat) * 2 + j)
          = ∑ k in Finset.range 2,
              ofList [(1 : ℝ), 2, 3] (IndexS i k) * ofList [(0 : ℝ), 1, 0] (IndexS k j) ∧
        C ((i : Nat) * 2 + j)
          = ((toMatrix 2 (ofList [(1 : ℝ), 2, 3])).transpose
              * toMatrix 2 (ofList [(0 : ℝ), 1, 0])) i j :=
  MultSSQ_is_matrix_product 2 3 (by decide) (ofList [1, 2, 3]) (ofList [0, 1, 0]) (ofList [])
    (by decide)

/-! ## `MergeTracks` -/

theorem ESDtrack.withExt_ext (t : ESDtrack F) : t.withExt t.ext = t := rfl

theorem ESDtrack.withExt_withExt (t : ESDtrack F) (e e' : ExternalTrackParam F) :
    (t.withExt e).withExt e' = t.withExt e' := rfl

theorem tri_five : tri 5 = 15 := by decide

/-- The call of `SmoothTracks` made by `MergeTracks` returns (fuel above 15); on failure
its outputs are the untouched locals, on success its `NDF` is `5 + 5 + 5`. -/
theorem MergeTracks.smooth_spec (fuel : Nat) (hf : 15 < fuel) (loc : MergeLocals ℝ)
    (tpc trd : ESDtrack ℝ) :
    ∃ err P C chi ndf, MergeTracks.smooth fuel Real.sqrt loc tpc trd = some (err, P, C, chi, ndf) ∧
      (err = true → P = loc.trackParam ∧ C = loc.trackCovar ∧ chi = loc.trackChi2 ∧
        ndf = loc.trackNDF) ∧
      (err = false → ndf = 5 + 5 + ((5 : Nat) : Int)) := by
  have hf' : tri 5 < fuel := by rw [tri_five]; exact hf
  obtain ⟨err, Ainv, hinv, -, -⟩ := InvertS_sumPacked fuel 5 tpc.fC trd.fC hf'
  obtain ⟨⟨e, P, C, chi, ndf⟩, hrun, h1, h2⟩ := SmoothTracks_spec fuel 5 Real.sqrt tpc.fP tpc.fC
    tpc.fTPCchi2 5 trd.fP trd.fC trd.fTRDchi2 5 loc.trackParam loc.trackCovar loc.trackChi2
    loc.trackNDF hf' err Ainv hinv
  refine ⟨e, P, C, chi, ndf, hrun, fun he => ?_, fun he => ?_⟩
  · cases herr : err
    · have := (h2 herr).1
      dsimp only at this
      rw [this] at he
      exact absurd he (by simp)
    · have := h1 herr
      simp only [Prod.mk.injEq] at this
      exact ⟨this.2.1, this.2.2.1, this.2.2.2.1, this.2.2.2.2⟩
  · cases herr : err
    · have h7 := (h2 herr).2.2.2.2.2.2
      dsimp only at h7
      rw [h7]
      decide
    · have := h1 herr
      simp only [Prod.mk.injEq] at this
      rw [this.1] at he
      exact absurd he (by simp)

/-- What `MergeTracks` does on two non-null tracks, given the result of its call of
`SmoothTracks`: on failure it returns `kFALSE` and the event as it was, on success it
returns `kTRUE` and the event with the new track appended. -/
theorem MergeTracks_of_smooth {V : Type} (fuel : Nat) (sqrt : F → F) (env : Env F V)
    (loc : MergeLocals F) (tpc trd : ESDtrack F) (ev : ESDEvent F)
    (err : Bool) (P C : Nat → F) (chi : F) (ndf : Int)
    (h : MergeTracks.smooth fuel sqrt loc tpc trd = some (err, P, C, chi, ndf)) :
    MergeTracks fuel sqrt env loc (some tpc) (some trd) ev
      = some (!err, if err then ev else ev.AddTrack (MergeTracks.newTrack env tpc trd P C chi)) := by
  simp only [MergeTracks, h, Option.some_bind]
  cases err <;> simp

/-- The track built by `MergeTracks`, member by member. -/
theorem MergeTracks.newTrack_fields {V : Type} (env : Env F V) (tpc trd : ESDtrack F)
    (P C : Nat → F) (chi : F) :
    (MergeTracks.newTrack env tpc trd P C chi).fFlags = env.kGlobalMerge ∧
    (MergeTracks.newTrack env tpc trd P C chi).fLabel = tpc.fLabel ∧
    (MergeTracks.newTrack env tpc trd P C chi).fX = tpc.fX ∧
    (MergeTracks.newTrack env tpc trd P C chi).fAlpha = tpc.fAlpha ∧
    (∀ k, k < 5 → (MergeTracks.newTrack env tpc trd P C chi).fP k = P k) ∧
    (∀ k, k < 15 → (MergeTracks.newTrack env tpc trd P C chi).fC k = C k) ∧
    (MergeTracks.newTrack env tpc trd P C chi).fGlobalChi2 = chi ∧
    (∀ k, k < env.kSPECIES →
      (MergeTracks.newTrack env tpc trd P C chi).fTPCr k = tpc.fTPCr k) ∧
    (∀ k, k < env.kSPECIES →
      (MergeTracks.newTrack env tpc trd P C chi).fTRDr k = trd.fTRDr k) := by
  refine ⟨?_, rfl, rfl, rfl, fun k hk => ?_, fun k hk => ?_, rfl, fun k hk => ?_, fun k hk => ?_⟩
  · simp [MergeTracks.newTrack, ESDtrack.default]
  · simp [MergeTracks.newTrack, hk]
  · simp [MergeTracks.newTrack, hk]
  · simp [MergeTracks.newTrack, hk]
  · simp [MergeTracks.newTrack, hk]

/-! ## `PropagateTracksToDCA` -/

/-- With fuel above the number of tracks, `PropagateTracksToDCA` returns; the tracks
below the count are each replaced by their image under the per-track step, everything
else is as before. -/
theorem PropagateTracksToDCA_spec {V : Type} (fuel : Nat) (env : Env F V) (fVertex : V)
    (ev : ESDEvent F) (hf : ev.fNTracks < fuel) :
    ∃ ev1, PropagateTracksToDCA fuel env fVertex (some ev) = some (some ev1) ∧
      ev1.fNTracks = ev.fNTracks ∧ ev1.fMagneticField = ev.fMagneticField ∧
      (∀ i, i < ev.fNTracks → ev1.fTracks i =
        (ev.fTracks i).map (PropagateTracksToDCA.track env fVertex ev.fMagneticField)) ∧
      (∀ i, ev.fNTracks ≤ i → ev1.fTracks i = ev.fTracks i) := by
  suffices h : Returns (PropagateTracksToDCA fuel env fVertex (some ev)) (fun r =>
      ∃ ev1, r = some ev1 ∧ ev1.fNTracks = ev.fNTracks ∧
        ev1.fMagneticField = ev.fMagneticField ∧
        (∀ i, i < ev.fNTracks → ev1.fTracks i =
          (ev.fTracks i).map (PropagateTracksToDCA.track env fVertex ev.fMagneticField)) ∧
        (∀ i, ev.fNTracks ≤ i → ev1.fTracks i = ev.fTracks i)) by
    obtain ⟨r, hr, ev1, rfl, h⟩ := h
    exact ⟨ev1, hr, h⟩
  unfold PropagateTracksToDCA
  dsimp only
  refine Returns.bind (Returns.forLoop ev.fNTracks
    (fun k ev1 => ev1.fNTracks = ev.fNTracks ∧ ev1.fMagneticField = ev.fMagneticField ∧
      (∀ i, i < k → ev1.fTracks i =
        (ev.fTracks i).map (PropagateTracksToDCA.track env fVertex ev.fMagneticField)) ∧
      (∀ i, k ≤ i → ev1.fTracks i = ev.fTracks i))
    (fun _ _ => rfl) (fun k s hk hI => ?_)
    ⟨rfl, rfl, fun i hi => absurd hi (Nat.not_lt_zero _), fun i _ => rfl⟩ hf) ?_
  · obtain ⟨h1, h2, h3, h4⟩ := hI
    dsimp only
    cases hs : s.fTracks k with
    | none =>
      refine Returns.some ⟨rfl, h1, h2, fun i hi => ?_, fun i hi => h4 i (by omega)⟩
      rcases Nat.lt_succ_iff_lt_or_eq.mp hi with hlt | heq
      · exact h3 i hlt
      · subst heq
        rw [hs, ← h4 i le_rfl, hs]; rfl
    | some t =>
      refine Returns.some ⟨rfl, h1, h2, fun i hi => ?_, fun i hi => ?_⟩
      · dsimp only
        rcases Nat.lt_succ_iff_lt_or_eq.mp hi with hlt | heq
        · rw [Function.update_noteq (by omega)]
          exact h3 i hlt
        · subst heq
          rw [Function.update_same, ← h4 i le_rfl, hs]; rfl
      · dsimp only
        rw [Function.update_noteq (by omega)]
        exact h4 i (by omega)
  · rintro ⟨k, ev1⟩ ⟨-, h1, h2, h3, h4⟩
    exact Returns.some ⟨ev1, rfl, h1, h2, h3, h4⟩

/-- C20: `PropagateTracksToDCA` is a per-track pass.  A null event is left alone.  For an
event (fuel above its number of tracks) the call returns, the number of tracks and the
field are unchanged, and every track below the count is replaced by a function of that
track alone: the propagator is called on it with radius `2.8`, its mass and step `10`;
if the propagator reports success the result is handed to `RelateToVertex` with the
vertex, the field of the event and `kVeryBig`; if not, `RelateToVertex` is not called
and the track stays in the store as the propagator left it. -/
theorem PropagateTracksToDCA_per_track {V : Type} (fuel : Nat) (env : Env F V) (fVertex : V)
    (ev : ESDEvent F) (hf : ev.fNTracks < fuel) :
    PropagateTracksToDCA fuel env fVertex none = some none ∧
    ∃ ev1, PropagateTracksToDCA fuel env fVertex (some ev) = some (some ev1) ∧
      ev1.fNTracks = ev.fNTracks ∧ ev1.fMagneticField = ev.fMagneticField ∧
      (∀ i, ev.fNTracks ≤ i → ev1.fTracks i = ev.fTracks i) ∧
      ∀ i, i < ev.fNTracks →
        (ev.fTracks i = none → ev1.fTracks i = none) ∧
        ∀ t, ev.fTracks i = some t →
          ((env.PropagateTrackTo t.ext (28 / 10) t.fMass 10 false).1 = true →
            ev1.fTracks i = some (env.RelateToVertex
              (t.withExt (env.PropagateTrackTo t.ext (28 / 10) t.fMass 10 false).2)
              fVertex ev.fMagneticField env.kVeryBig)) ∧
          ((env.PropagateTrackTo t.ext (28 / 10) t.fMass 10 false).1 = false →
            ev1.fTracks i =
              some (t.withExt (env.PropagateTrackTo t.ext (28 / 10) t.fMass 10 false).2)) := by
  refine ⟨rfl, ?_⟩
  obtain ⟨ev1, hrun, h1, h2, h3, h4⟩ := PropagateTracksToDCA_spec fuel env fVertex ev hf
  refine ⟨ev1, hrun, h1, h2, h4, fun i hi => ⟨fun hn => ?_, fun t ht => ⟨fun hok => ?_, fun hok => ?_⟩⟩⟩
  · rw [h3 i hi, hn]; rfl
  · rw [h3 i hi, ht]
    simp [PropagateTracksToDCA.track, hok]
  · rw [h3 i hi, ht]
    simp [PropagateTracksToDCA.track, hok]

/-- C17: when the call of `SmoothTracks` made by `MergeTracks` reports success,
`MergeTracks` returns `kTRUE` and appends exactly one track: the count grows by one, the
new track sits at the old count, every other entry of the store (the two input tracks
among them) and the field are as before.  The new track has status `kGlobalMerge`, the
label, `x` and `alpha` of the TPC track, the parameters, covariance and global
chi-square returned by `SmoothTracks`, the TPC identification array of the TPC track and
the TRD identification array of the TRD track. -/
theorem MergeTracks_appends_merged_track {V : Type} (fuel : Nat) (hf : 15 < fuel)
    (env : Env ℝ V) (loc : MergeLocals ℝ) (tpc trd : ESDtrack ℝ) (ev : ESDEvent ℝ) :
    ∃ err P C chi ndf,
      MergeTracks.smooth fuel Real.sqrt loc tpc trd = some (err, P, C, chi, ndf) ∧
      (err = false → ∃ t ev1,
        MergeTracks fuel Real.sqrt env loc (some tpc) (some trd) ev = some (true, ev1) ∧
        ev1.fNTracks = ev.fNTracks + 1 ∧ ev1.fTracks ev.fNTracks = some t ∧
        (∀ idx, idx ≠ ev.fNTracks → ev1.fTracks idx = ev.fTracks idx) ∧
        ev1.fMagneticField = ev.fMagneticField ∧
        t.fFlags = env.kGlobalMerge ∧ t.fLabel = tpc.fLabel ∧
        t.fX = tpc.fX ∧ t.fAlpha = tpc.fAlpha ∧
        (∀ k, k < 5 → t.fP k = P k) ∧ (∀ k, k < 15 → t.fC k = C k) ∧
        t.fGlobalChi2 = chi ∧
        (∀ k, k < env.kSPECIES → t.fTPCr k = tpc.fTPCr k) ∧
        (∀ k, k < env.kSPECIES → t.fTRDr k = trd.fTRDr k)) := by
  obtain ⟨err, P, C, chi, ndf, hs, -, -⟩ := MergeTracks.smooth_spec fuel hf loc tpc trd
  refine ⟨err, P, C, chi, ndf, hs, fun he => ?_⟩
  subst he
  have hm := MergeTracks_of_smooth fuel Real.sqrt env loc tpc trd ev false P C chi ndf hs
  obtain ⟨h1, h2, h3, h4, h5, h6, h7, h8, h9⟩ := MergeTracks.newTrack_fields env tpc trd P C chi
  refine ⟨MergeTracks.newTrack env tpc trd P C chi, _, hm, rfl, ?_, fun idx hidx => ?_, rfl,
    h1, h2, h3, h4, h5, h6, h7, h8, h9⟩
  · simp [ESDEvent.AddTrack]
  · simp [ESDEvent.AddTrack, Function.update_noteq hidx]

/-! ## `LoadTracks` -/

/-- With fuel above the number of entries, the TRD overload of `LoadTracks` returns
`kTRUE` for a non-null collection. -/
theorem LoadTracksTRD_some {V TRD TPC : Type} (fuel : Nat) (env : Env F V)
    (ops : IngestOps F TRD TPC) (arr : TrackArray TRD) (esdEvent : Option (ESDEvent F))
    (hf : arr.entries < fuel) :
    ∃ ev1, LoadTracksTRD fuel env ops (some arr) esdEvent = some (true, ev1) := by
  suffices h : Returns (LoadTracksTRD fuel env ops (some arr) esdEvent) (fun r => r.1 = true) by
    obtain ⟨⟨b, ev1⟩, hr, hb⟩ := h
    dsimp only at hb
    subst hb
    exact ⟨ev1, hr⟩
  unfold LoadTracksTRD
  dsimp only
  refine Returns.bind (Returns.forLoop arr.entries (fun _ _ => True) (fun _ _ => rfl)
    (fun k s _ _ => ?_) trivial hf) ?_
  · dsimp only
    cases arr.At k with
    | none => exact Returns.some ⟨rfl, trivial⟩
    | some t => exact Returns.some ⟨rfl, trivial⟩
  · rintro ⟨k, ev1⟩ -
    exact Returns.some rfl

/-- Invariant/variant rule for `whileLoop`, as a statement about what the loop returns. -/
theorem Returns.whileLoop {σ : Type} {cond : σ → Bool} {body : σ → Option σ} {fuel : Nat}
    {s0 : σ} (Inv : σ → Prop) (V : σ → Nat)
    (hstep : ∀ s, Inv s → cond s = true → Returns (body s) (fun s1 => Inv s1 ∧ V s1 < V s))
    (h0 : Inv s0) (hf : V s0 < fuel) :
    Returns (AliHLTGlobalTrackMerger.whileLoop cond body fuel s0)
      (fun s1 => Inv s1 ∧ cond s1 = false) := by
  obtain ⟨s1, hr, h1, h2⟩ := whileLoop_rule cond body Inv V
    (fun s hI hc => by
      obtain ⟨s1, hb, h1, h2⟩ := hstep s hI hc
      exact ⟨s1, hb, h1, h2⟩) fuel s0 h0 hf
  exact ⟨s1, hr, h1, h2⟩

/-- With fuel above the number of tracks, the TPC overload of `LoadTracks` returns
`kTRUE` for a non-null collection. -/
theorem LoadTracksTPC_some {V TRD TPC : Type} (fuel : Nat) (env : Env F V)
    (ops : IngestOps F TRD TPC) (arr : TrackArray TPC) (esdEvent : Option (ESDEvent F))
    (hf : arr.entries < fuel) :
    ∃ arr1 ev1, LoadTracksTPC fuel env ops (some arr) esdEvent = some (true, arr1, ev1) := by
  suffices h : Returns (LoadTracksTPC fuel env ops (some arr) esdEvent) (fun r => r.1 = true) by
    obtain ⟨⟨b, arr1, ev1⟩, hr, hb⟩ := h
    dsimp only at hb
    subst hb
    exact ⟨arr1, ev1, hr⟩
  unfold LoadTracksTPC
  dsimp only
  refine Returns.bind (Returns.whileLoop (fun s => s.2.1.entries = arr.entries)
    (fun s => arr.entries - s.1) ?_ rfl (by dsimp only; omega)) ?_
  · rintro ⟨i, a, e⟩ hI hc
    dsimp only at hI hc ⊢
    have hlt : i < a.entries := by simpa using hc
    cases a.At i with
    | none => exact Returns.some ⟨hI, by omega⟩
    | some t =>
      dsimp only
      split
      · exact Returns.some ⟨hI, by omega⟩
      · exact Returns.some ⟨hI, by omega⟩
  · rintro ⟨i, a, e⟩ -
    exact Returns.some rfl

/-! ## The loops of `Merge` -/

theorem SameButExt.refl (o : Option (ESDtrack F)) : SameButExt o o := by
  cases o with
  | none => trivial
  | some t => exact ⟨t.ext, rfl⟩

theorem SameButExt.none_right {o : Option (ESDtrack F)} (h : SameButExt none o) : o = none := by
  cases o with
  | none => rfl
  | some t => exact h.elim

theorem SameButExt.some_right {t : ESDtrack F} {o : Option (ESDtrack F)}
    (h : SameButExt (some t) o) : ∃ e, o = some (t.withExt e) := by
  cases o with
  | none => exact h.elim
  | some t1 =>
    obtain ⟨e, he⟩ := h
    exact ⟨e, by rw [he]⟩

theorem SameButExt.withExt {o : Option (ESDtrack F)} {t : ESDtrack F}
    (h : SameButExt o (some t)) (e : ExternalTrackParam F) :
    SameButExt o (some (t.withExt e)) := by
  cases o with
  | none => exact h.elim
  | some t0 =>
    obtain ⟨e0, he0⟩ := h
    exact ⟨e, by rw [he0]; rfl⟩

theorem fusedPairs_append (l1 l2 : List (MergeCall F)) :
    fusedPairs (l1 ++ l2) = fusedPairs l1 ++ fusedPairs l2 := by
  simp [fusedPairs, List.filterMap_append]

/-- Propagating one of the tracks present on entry keeps the relation `Merge.Inv`. -/
theorem Merge.Inv.propagate {V : Type} {fuel : Nat} {sqrt : F → F} {env : Env F V}
    {loc : MergeLocals F} {ev0 cur : ESDEvent F} {log : List (MergeCall F)}
    (hI : Merge.Inv fuel sqrt env loc ev0 cur log) (idx : Nat) (hidx : idx < ev0.fNTracks)
    (x : F) : Merge.Inv fuel sqrt env loc ev0 (cur.PropagateTrackTo env idx x).2 log := by
  obtain ⟨h1, h2, h3, h4⟩ := hI
  unfold ESDEvent.PropagateTrackTo
  cases hc : cur.fTracks idx with
  | none => exact ⟨h1, h2, h3, h4⟩
  | some t =>
    dsimp only
    refine ⟨h1, fun k hk => ?_, h3, fun k p hp => ?_⟩
    · dsimp only
      by_cases hki : k = idx
      · subst hki
        rw [Function.update_same]
        have := h2 k hk
        rw [hc] at this
        exact this.withExt _
      · rw [Function.update_noteq hki]
        exact h2 k hk
    · dsimp only
      rw [Function.update_noteq (by omega)]
      exact h4 k p hp

/-- Calls other than a successful fusion do not affect the relation `Merge.Inv`. -/
theorem Merge.Inv.log_append {V : Type} {fuel : Nat} {sqrt : F → F} {env : Env F V}
    {loc : MergeLocals F} {ev0 cur : ESDEvent F} {log : List (MergeCall F)}
    (hI : Merge.Inv fuel sqrt env loc ev0 cur log) (l : List (MergeCall F))
    (hl : fusedPairs l = []) : Merge.Inv fuel sqrt env loc ev0 cur (log ++ l) := by
  unfold Merge.Inv
  rw [fusedPairs_append, hl, List.append_nil]
  exact hI

/-- A successful fusion appends its track and its entry of the record. -/
theorem Merge.Inv.fuse_true {V : Type} {fuel : Nat} {sqrt : F → F} {env : Env F V}
    {loc : MergeLocals F} {ev0 cur : ESDEvent F} {log : List (MergeCall F)}
    (hI : Merge.Inv fuel sqrt env loc ev0 cur log) (i j : Nat) (tk : ESDtrack F)
    (htk : Merge.MergedFrom fuel sqrt env loc ev0 i j tk) :
    Merge.Inv fuel sqrt env loc ev0 (cur.AddTrack tk) (log ++ [MergeCall.fuse i j true]) := by
  obtain ⟨h1, h2, h3, h4⟩ := hI
  have hfp : fusedPairs (log ++ [MergeCall.fuse i j true]) = fusedPairs log ++ [(i, j)] := by
    rw [fusedPairs_append]; rfl
  unfold Merge.Inv
  rw [hfp]
  refine ⟨h1, fun k hk => ?_, ?_, fun k p hp => ?_⟩
  · simp only [ESDEvent.AddTrack]
    rw [Function.update_noteq (by omega)]
    exact h2 k hk
  · simp only [ESDEvent.AddTrack, List.length_append, List.length_singleton]
    omega
  · simp only [ESDEvent.AddTrack]
    by_cases hk : k < (fusedPairs log).length
    · rw [List.getElem?_append_left hk] at hp
      rw [Function.update_noteq (by omega)]
      exact h4 k p hp
    · have hk2 : k = (fusedPairs log).length := by
        by_contra hne
        have : (fusedPairs log ++ [(i, j)]).length ≤ k := by
          simp only [List.length_append, List.length_singleton]; omega
        rw [List.getElem?_eq_none this] at hp
        exact absurd hp (by simp)
      subst hk2
      rw [List.getElem?_append_right (le_refl _)] at hp
      simp only [Nat.sub_self, List.getElem?_cons_zero, Option.some.injEq] at hp
      subst hp
      rw [← h3, Function.update_same]
      exact ⟨tk, rfl, htk⟩

/-- One round of the loop over `jTrack`: it returns, advances `jTrack` by one, appends
to the record nothing (TRD index not usable) or one `PairSeg`, and keeps `Merge.Inv`. -/
theorem Merge.pairStep_spec {V : Type} (fuel : Nat) (hf : 15 < fuel) (env : Env ℝ V)
    (m : Merger ℝ) (loc : MergeLocals ℝ) (ev0 cur : ESDEvent ℝ) (log : List (MergeCall ℝ))
    (i j : Nat) (rad : ℝ) (hi : i < ev0.fNTracks) (hj : j < ev0.fNTracks)
    (hA : ∃ t, ev0.fTracks i = some t)
    (hI : Merge.Inv fuel Real.sqrt env loc ev0 cur log) :
    Returns (Merge.pairStep fuel Real.sqrt env m loc i rad (j, cur, log)) (fun r =>
      r.1 = j + 1 ∧ ∃ seg,
        ((¬ usableTRD env ev0 j ∧ seg = []) ∨ (usableTRD env ev0 j ∧ PairSeg i j rad seg)) ∧
        r.2.2 = log ++ seg ∧ Merge.Inv fuel Real.sqrt env loc ev0 r.2.1 (log ++ seg)) := by
  have hFj := hI.2.1 j hj
  cases h0 : ev0.fTracks j with
  | none =>
    rw [h0] at hFj
    have hc := hFj.none_right
    have hstep : Merge.pairStep fuel Real.sqrt env m loc i rad (j, cur, log)
        = some (j + 1, cur, log) := by
      simp only [Merge.pairStep, hc]
    rw [hstep]
    refine Returns.some ⟨rfl, [], Or.inl ⟨?_, rfl⟩, (List.append_nil _).symm, ?_⟩
    · rintro ⟨t, ht, -⟩
      rw [h0] at ht
      exact absurd ht (by simp)
    · rw [List.append_nil]; exact hI
  | some t0 =>
    rw [h0] at hFj
    obtain ⟨e, hc⟩ := hFj.some_right
    by_cases hfl : t0.fFlags &&& env.kTRDin = 0
    · have hstep : Merge.pairStep fuel Real.sqrt env m loc i rad (j, cur, log)
          = some (j + 1, cur, log) := by
        simp only [Merge.pairStep, hc]
        exact if_pos hfl
      rw [hstep]
      refine Returns.some ⟨rfl, [], Or.inl ⟨?_, rfl⟩, (List.append_nil _).symm, ?_⟩
      · rintro ⟨t, ht, hne⟩
        rw [h0] at ht
        cases ht
        exact hne hfl
      · rw [List.append_nil]; exact hI
    · have hB : usableTRD env ev0 j := ⟨t0, h0, hfl⟩
      have hfl1 : ¬ (t0.withExt e).fFlags &&& env.kTRDin = 0 := hfl
      have hI1 := hI.propagate j hj 285
      have hI2 := hI1.propagate i hi rad
      have hI3 := hI2.propagate j hj rad
      simp only [Merge.pairStep, hc]
      rw [if_neg hfl1]
      generalize ESDEvent.PropagateTrackTo env cur j 285 = r1 at hI1 hI2 hI3 ⊢
      obtain ⟨ok1, cur1⟩ := r1
      dsimp only at hI1 hI2 hI3 ⊢
      cases ok1 with
      | false =>
        rw [if_pos rfl]
        exact Returns.some ⟨rfl, _, Or.inr ⟨hB, Or.inl rfl⟩, rfl, hI1.log_append _ rfl⟩
      | true =>
        rw [if_neg (show ¬ (true = false) by decide)]
        generalize MatchTracks m (Option.map ESDtrack.toAliESDtrack (cur1.fTracks i))
          (Option.map ESDtrack.toAliESDtrack (cur1.fTracks j)) = g
        cases g with
        | false =>
          rw [if_pos rfl]
          exact Returns.some ⟨rfl, _, Or.inr ⟨hB, Or.inr (Or.inl rfl)⟩, by simp,
            hI1.log_append _ rfl⟩
        | true =>
          rw [if_neg (show ¬ (true = false) by decide)]
          generalize ESDEvent.PropagateTrackTo env cur1 i rad = r2 at hI2 hI3 ⊢
          obtain ⟨ok2, cur2⟩ := r2
          dsimp only at hI2 hI3 ⊢
          cases ok2 with
          | false =>
            rw [if_pos rfl]
            exact Returns.some ⟨rfl, _, Or.inr ⟨hB, Or.inr (Or.inr (Or.inl rfl))⟩, by simp,
              hI2.log_append _ rfl⟩
          | true =>
            rw [if_neg (show ¬ (true = false) by decide)]
            generalize ESDEvent.PropagateTrackTo env cur2 j rad = r3 at hI3 ⊢
            obtain ⟨ok3, cur3⟩ := r3
            dsimp only at hI3 ⊢
            cases ok3 with
            | false =>
              rw [if_pos rfl]
              exact Returns.some ⟨rfl, _, Or.inr ⟨hB, Or.inr (Or.inr (Or.inr (Or.inl rfl)))⟩,
                by simp, hI3.log_append _ rfl⟩
            | true =>
              rw [if_neg (show ¬ (true = false) by decide)]
              obtain ⟨ti0, hti0⟩ := hA
              have hFi3 := hI3.2.1 i hi
              have hFj3 := hI3.2.1 j hj
              rw [hti0] at hFi3
              rw [h0] at hFj3
              obtain ⟨ei, hci⟩ := hFi3.some_right
              obtain ⟨ej, hcj⟩ := hFj3.some_right
              rw [hci, hcj]
              obtain ⟨err, P, C, chi, ndf, hs, -, -⟩ :=
                MergeTracks.smooth_spec fuel hf loc (ti0.withExt ei) (t0.withExt ej)
              rw [MergeTracks_of_smooth fuel Real.sqrt env loc _ _ cur3 err P C chi ndf hs]
              cases err with
              | true =>
                exact Returns.some ⟨rfl, _,
                  Or.inr ⟨hB, Or.inr (Or.inr (Or.inr (Or.inr ⟨false, rfl⟩)))⟩,
                  by simp, hI3.log_append _ rfl⟩
              | false =>
                have hI4 := (hI3.log_append [MergeCall.matchRadiusB i j 285 true,
                  MergeCall.gate i j true, MergeCall.mergeRadiusA i j rad true,
                  MergeCall.mergeRadiusB i j rad true] rfl).fuse_true i j
                  (MergeTracks.newTrack env (ti0.withExt ei) (t0.withExt ej) P C chi)
                  ⟨_, _, P, C, chi, ndf, by rw [hti0]; exact ⟨ei, rfl⟩,
                    by rw [h0]; exact ⟨ej, rfl⟩, hs, rfl⟩
                rw [List.append_assoc] at hI4
                exact Returns.some ⟨rfl, _,
                  Or.inr ⟨hB, Or.inr (Or.inr (Or.inr (Or.inr ⟨true, rfl⟩)))⟩,
                  by simp, hI4⟩

/-- The loop over `jTrack` for the TPC track `i`: it returns, appends a `PairLog` of all
rounds to the record, and keeps `Merge.Inv`. -/
theorem Merge.pairLoop_spec {V : Type} (fuel : Nat) (hf : 15 < fuel) (env : Env ℝ V)
    (m : Merger ℝ) (loc : MergeLocals ℝ) (ev0 cur : ESDEvent ℝ) (log : List (MergeCall ℝ))
    (i : Nat) (rad : ℝ) (hn : ev0.fNTracks < fuel) (hi : i < ev0.fNTracks)
    (hA : ∃ t, ev0.fTracks i = some t)
    (hI : Merge.Inv fuel Real.sqrt env loc ev0 cur log) :
    Returns (whileLoop
        (fun ((jTrack, _, _) : Nat × ESDEvent ℝ × List (MergeCall ℝ)) =>
          decide (jTrack < ev0.fNTracks))
        (Merge.pairStep fuel Real.sqrt env m loc i rad) fuel (0, cur, log))
      (fun r => ∃ pl, PairLog (usableTRD env ev0) i rad ev0.fNTracks pl ∧
        r.2.2 = log ++ pl ∧ Merge.Inv fuel Real.sqrt env loc ev0 r.2.1 r.2.2) := by
  refine (Returns.forLoop ev0.fNTracks
    (fun k s => ∃ pl, PairLog (usableTRD env ev0) i rad k pl ∧
      s.2 = log ++ pl ∧ Merge.Inv fuel Real.sqrt env loc ev0 s.1 s.2)
    (fun _ _ => rfl) (fun k s hk hInv => ?_)
    ⟨[], rfl, (List.append_nil _).symm, hI⟩ hn).mono (fun r h => h.2)
  obtain ⟨c, l⟩ := s
  obtain ⟨pl, hpl, hl, hInv⟩ := hInv
  dsimp only at hl hInv
  refine (Merge.pairStep_spec fuel hf env m loc ev0 c l i k rad hi hk hA hInv).mono ?_
  rintro ⟨k1, c1, l1⟩ ⟨h1, seg, hseg, h2, h3⟩
  dsimp only at h1 h2 h3 ⊢
  subst h2
  refine ⟨h1, pl ++ seg, ⟨pl, seg, hpl, hseg, rfl⟩, ?_, h3⟩
  rw [hl, List.append_assoc]

/-- One round of the loop over `iTrack`: it returns, advances `iTrack` by one, appends
to the record nothing (TPC index not usable), the failed propagation of line 187, or
the successful one followed by the `PairLog` of the inner loop, and keeps `Merge.Inv`. -/
theorem Merge.trackStep_spec {V : Type} (fuel : Nat) (hf : 15 < fuel) (env : Env ℝ V)
    (m : Merger ℝ) (loc : MergeLocals ℝ) (ev0 cur : ESDEvent ℝ) (log : List (MergeCall ℝ))
    (i : Nat) (hn : ev0.fNTracks < fuel) (hi : i < ev0.fNTracks)
    (hI : Merge.Inv fuel Real.sqrt env loc ev0 cur log) :
    Returns (Merge.trackStep fuel Real.sqrt env m loc ev0.fNTracks (i, cur, log)) (fun r =>
      r.1 = i + 1 ∧ ∃ seg,
        ((¬ usableTPC env ev0 i ∧ seg = []) ∨
         (usableTPC env ev0 i ∧ (seg = [MergeCall.matchRadiusA i 285 false] ∨
            ∃ pl, PairLog (usableTRD env ev0) i (ev0.firstTPCPoint i) ev0.fNTracks pl ∧
              seg = MergeCall.matchRadiusA i 285 true :: pl))) ∧
        r.2.2 = log ++ seg ∧ Merge.Inv fuel Real.sqrt env loc ev0 r.2.1 r.2.2) := by
  have hFi := hI.2.1 i hi
  cases h0 : ev0.fTracks i with
  | none =>
    rw [h0] at hFi
    have hc := hFi.none_right
    have hstep : Merge.trackStep fuel Real.sqrt env m loc ev0.fNTracks (i, cur, log)
        = some (i + 1, cur, log) := by
      simp only [Merge.trackStep, hc]
    rw [hstep]
    refine Returns.some ⟨rfl, [], Or.inl ⟨?_, rfl⟩, (List.append_nil _).symm, hI⟩
    rintro ⟨t, ht, -⟩
    rw [h0] at ht
    exact absurd ht (by simp)
  | some t0 =>
    rw [h0] at hFi
    obtain ⟨e, hc⟩ := hFi.some_right
    by_cases hfl : t0.fFlags &&& env.kTPCin = 0
    · have hstep : Merge.trackStep fuel Real.sqrt env m loc ev0.fNTracks (i, cur, log)
          = some (i + 1, cur, log) := by
        simp only [Merge.trackStep, hc]
        exact if_pos hfl
      rw [hstep]
      refine Returns.some ⟨rfl, [], Or.inl ⟨?_, rfl⟩, (List.append_nil _).symm, hI⟩
      rintro ⟨t, ht, hne⟩
      rw [h0] at ht
      cases ht
      exact hne hfl
    · have hA : usableTPC env ev0 i := ⟨t0, h0, hfl⟩
      have hfl1 : ¬ (t0.withExt e).fFlags &&& env.kTPCin = 0 := hfl
      have hrad : (t0.withExt e).fTPCPoints 0 = ev0.firstTPCPoint i := by
        simp only [ESDEvent.firstTPCPoint, h0]
        rfl
      have hI1 := hI.propagate i hi 285
      simp only [Merge.trackStep, hc]
      rw [if_neg hfl1, hrad]
      generalize ESDEvent.PropagateTrackTo env cur i 285 = r1 at hI1 ⊢
      obtain ⟨ok1, cur1⟩ := r1
      dsimp only at hI1 ⊢
      cases ok1 with
      | false =>
        rw [if_pos rfl]
        exact Returns.some ⟨rfl, _, Or.inr ⟨hA, Or.inl rfl⟩, rfl, hI1.log_append _ rfl⟩
      | true =>
        rw [if_neg (show ¬ (true = false) by decide)]
        refine Returns.bind (Merge.pairLoop_spec fuel hf env m loc ev0 cur1
          (log ++ [MergeCall.matchRadiusA i 285 true]) i (ev0.firstTPCPoint i) hn hi ⟨t0, h0⟩
          (hI1.log_append _ rfl)) ?_
        rintro ⟨k1, c1, l1⟩ ⟨pl, hpl, h2, h3⟩
        dsimp only at h2 h3 ⊢
        refine Returns.some ⟨rfl, _, Or.inr ⟨hA, Or.inr ⟨pl, hpl, rfl⟩⟩, ?_, h3⟩
        dsimp only
        rw [h2, List.append_assoc]
        rfl

/-- With fuel above 15 and above the number of tracks, `Merge` returns `kTRUE` for a
non-null event; the record of its calls is a `TrackLog` of all rounds of the outer loop
and the event it leaves is related to the one on entry by `Merge.Inv`. -/
theorem Merge_spec {V : Type} (fuel : Nat) (hf : 15 < fuel) (env : Env ℝ V)
    (m : Merger ℝ) (loc : MergeLocals ℝ) (ev : ESDEvent ℝ) (hn : ev.fNTracks < fuel) :
    ∃ ev1 log, Merge fuel Real.sqrt env m loc (some ev) = some (true, some ev1, log) ∧
      Merge.Inv fuel Real.sqrt env loc ev ev1 log ∧
      TrackLog (usableTPC env ev) (usableTRD env ev) ev.firstTPCPoint ev.fNTracks
        ev.fNTracks log := by
  suffices h : Returns (Merge fuel Real.sqrt env m loc (some ev)) (fun r =>
      r.1 = true ∧ ∃ ev1, r.2.1 = some ev1 ∧ Merge.Inv fuel Real.sqrt env loc ev ev1 r.2.2 ∧
        TrackLog (usableTPC env ev) (usableTRD env ev) ev.firstTPCPoint ev.fNTracks
          ev.fNTracks r.2.2) by
    obtain ⟨⟨b, o, l⟩, hr, hb, ev1, ho, h1, h2⟩ := h
    dsimp only at hb ho h1 h2
    subst hb ho
    exact ⟨ev1, l, hr, h1, h2⟩
  unfold Merge
  dsimp only
  refine Returns.bind (Returns.forLoop ev.fNTracks
    (fun k s => Merge.Inv fuel Real.sqrt env loc ev s.1 s.2 ∧
      TrackLog (usableTPC env ev) (usableTRD env ev) ev.firstTPCPoint ev.fNTracks k s.2)
    (fun _ _ => rfl) (fun k s hk hInv => ?_) ⟨?_, by simp only [TrackLog]⟩ hn) ?_
  · obtain ⟨c, l⟩ := s
    obtain ⟨hInv, hlog⟩ := hInv
    dsimp only at hInv hlog
    refine (Merge.trackStep_spec fuel hf env m loc ev c l k hn hk hInv).mono ?_
    rintro ⟨k1, c1, l1⟩ ⟨h1, seg, hseg, h2, h3⟩
    dsimp only at h1 h2 h3 ⊢
    subst h2
    exact ⟨h1, h3, l, seg, hlog, hseg, rfl⟩
  · refine ⟨rfl, fun idx _ => SameButExt.refl _, rfl, fun k p hp => ?_⟩
    simp [fusedPairs] at hp
  · rintro ⟨k, c, l⟩ ⟨-, h1, h2⟩
    exact Returns.some ⟨rfl, c, rfl, h1, h2⟩

/-! ## Reading the record of calls -/

theorem MergeCall.tpcIndex_of_pair {c : MergeCall F} {i j : Nat} (h : c.pair = some (i, j)) :
    c.tpcIndex = i := by
  cases c <;> simp only [MergeCall.pair, Option.some.injEq, Prod.mk.injEq, reduceCtorEq] at h <;>
    exact h.1

theorem mem_fusedPairs {log : List (MergeCall F)} {p : Nat × Nat} :
    p ∈ fusedPairs log ↔ MergeCall.fuse p.1 p.2 true ∈ log := by
  unfold fusedPairs
  rw [List.mem_filterMap]
  constructor
  · rintro ⟨c, hc, hf⟩
    cases c with
    | fuse i j f =>
      cases f with
      | true =>
        simp only [MergeCall.fused, Option.some.injEq] at hf
        rw [← hf]; exact hc
      | false => simp [MergeCall.fused] at hf
    | _ => simp [MergeCall.fused] at hf
  · intro h
    exact ⟨_, h, rfl⟩

theorem PairSeg.pair_eq {i j : Nat} {r : F} {seg : List (MergeCall F)} (h : PairSeg i j r seg) :
    ∀ c ∈ seg, c.pair = some (i, j) := by
  rcases h with rfl | rfl | rfl | rfl | ⟨f, rfl⟩ <;> simp [MergeCall.pair]

theorem PairSeg.head_mem {i j : Nat} {r : F} {seg : List (MergeCall F)} (h : PairSeg i j r seg) :
    ∃ ok, MergeCall.matchRadiusB i j 285 ok ∈ seg := by
  rcases h with rfl | rfl | rfl | rfl | ⟨f, rfl⟩
  · exact ⟨false, by simp⟩
  all_goals exact ⟨true, by simp⟩

theorem PairLog.mem_pair {uB : Nat → Prop} {i : Nat} {r : F} :
    ∀ (n : Nat) (pl : List (MergeCall F)), PairLog uB i r n pl →
      ∀ c ∈ pl, ∃ j, j < n ∧ c.pair = some (i, j) := by
  intro n
  induction n with
  | zero =>
    intro pl h c hc
    simp only [PairLog] at h
    subst h
    simp at hc
  | succ n ih =>
    intro pl h c hc
    obtain ⟨l1, seg, h1, hseg, rfl⟩ := h
    rcases List.mem_append.mp hc with hc1 | hc2
    · obtain ⟨j, hj, hp⟩ := ih l1 h1 c hc1
      exact ⟨j, by omega, hp⟩
    · rcases hseg with ⟨-, rfl⟩ | ⟨-, hs⟩
      · simp at hc2
      · exact ⟨n, by omega, hs.pair_eq c hc2⟩

/-- All calls recorded for a pair `(i, j)` by the inner loop lie in one `PairSeg`, which
is a sublist of the record; there are such calls only for a usable TRD index. -/
theorem PairLog.pairSeg_of_mem {uB : Nat → Prop} {i : Nat} {r : F} :
    ∀ (n : Nat) (pl : List (MergeCall F)), PairLog uB i r n pl →
      ∀ j, (∃ c ∈ pl, c.pair = some (i, j)) →
        j < n ∧ uB j ∧ ∃ seg, PairSeg i j r seg ∧ seg.Sublist pl ∧
          ∀ c ∈ pl, c.pair = some (i, j) → c ∈ seg := by
  intro n
  induction n with
  | zero =>
    rintro pl h j ⟨c, hc, -⟩
    simp only [PairLog] at h
    subst h
    simp at hc
  | succ n ih =>
    rintro pl h j ⟨c, hc, hp⟩
    obtain ⟨l1, seg, h1, hseg, rfl⟩ := h
    have hseg_pair : ∀ c ∈ seg, c.pair = some (i, n) := by
      rcases hseg with ⟨-, rfl⟩ | ⟨-, hs⟩
      · simp
      · exact hs.pair_eq
    rcases List.mem_append.mp hc with hc1 | hc2
    · obtain ⟨hj, hu, s, hs, hsub, hall⟩ := ih l1 h1 j ⟨c, hc1, hp⟩
      refine ⟨by omega, hu, s, hs, hsub.trans (List.sublist_append_left _ _), fun c1 hc1 hp1 => ?_⟩
      rcases List.mem_append.mp hc1 with h | h
      · exact hall c1 h hp1
      · have := hseg_pair c1 h
        rw [hp1] at this
        simp only [Option.some.injEq, Prod.mk.injEq, true_and] at this
        omega
    · have hjn := hseg_pair c hc2
      rw [hp] at hjn
      simp only [Option.some.injEq, Prod.mk.injEq, true_and] at hjn
      subst hjn
      rcases hseg with ⟨-, rfl⟩ | ⟨hu, hs⟩
      · simp at hc2
      · refine ⟨by omega, hu, seg, hs, List.sublist_append_right _ _, fun c1 hc1 hp1 => ?_⟩
        rcases List.mem_append.mp hc1 with h | h
        · obtain ⟨j1, hj1, hp2⟩ := PairLog.mem_pair j l1 h1 c1 h
          rw [hp1] at hp2
          simp only [Option.some.injEq, Prod.mk.injEq, true_and] at hp2
          omega
        · exact h

/-- Every usable TRD index has its `PairSeg` in the record of the inner loop. -/
theorem PairLog.exists_pairSeg {uB : Nat → Prop} {i : Nat} {r : F} :
    ∀ (n : Nat) (pl : List (MergeCall F)), PairLog uB i r n pl →
      ∀ j, j < n → uB j → ∃ seg, PairSeg i j r seg ∧ seg.Sublist pl := by
  intro n
  induction n with
  | zero => intro pl _ j hj; omega
  | succ n ih =>
    intro pl h j hj hu
    obtain ⟨l1, seg, h1, hseg, rfl⟩ := h
    by_cases hjn : j = n
    · subst hjn
      rcases hseg with ⟨hnu, -⟩ | ⟨-, hs⟩
      · exact absurd hu hnu
      · exact ⟨seg, hs, List.sublist_append_right _ _⟩
    · obtain ⟨s, hs, hsub⟩ := ih l1 h1 j (by omega) hu
      exact ⟨s, hs, hsub.trans (List.sublist_append_left _ _)⟩

/-- The calls recorded during the turn of a usable TPC track all carry its index. -/
theorem trackSeg_tpcIndex {uB : Nat → Prop} {i n : Nat} {r : F} {seg : List (MergeCall F)}
    (h : seg = [MergeCall.matchRadiusA i 285 false] ∨
      ∃ pl, PairLog uB i r n pl ∧ seg = MergeCall.matchRadiusA i 285 true :: pl) :
    ∀ c ∈ seg, c.tpcIndex = i := by
  rcases h with rfl | ⟨pl, hpl, rfl⟩
  · simp [MergeCall.tpcIndex]
  · intro c hc
    rcases List.mem_cons.mp hc with rfl | hc
    · rfl
    · obtain ⟨j, -, hp⟩ := PairLog.mem_pair n pl hpl c hc
      exact MergeCall.tpcIndex_of_pair hp

theorem TrackLog.tpcIndex_lt {uA uB : Nat → Prop} {rad : Nat → F} {n : Nat} :
    ∀ (k : Nat) (l : List (MergeCall F)), TrackLog uA uB rad n k l →
      ∀ c ∈ l, c.tpcIndex < k := by
  intro k
  induction k with
  | zero =>
    intro l h c hc
    simp only [TrackLog] at h
    subst h
    simp at hc
  | succ k ih =>
    intro l h c hc
    obtain ⟨l1, seg, h1, hseg, rfl⟩ := h
    rcases List.mem_append.mp hc with hc1 | hc2
    · have := ih l1 h1 c hc1
      omega
    · rcases hseg with ⟨-, rfl⟩ | ⟨-, hs⟩
      · simp at hc2
      · rw [trackSeg_tpcIndex hs c hc2]
        omega

/-- All calls recorded during the turn of the TPC index `i` lie in one segment of the
record, which is a sublist of it; there are such calls only for a usable TPC index. -/
theorem TrackLog.trackSeg_of_mem {uA uB : Nat → Prop} {rad : Nat → F} {n : Nat} :
    ∀ (k : Nat) (l : List (MergeCall F)), TrackLog uA uB rad n k l →
      ∀ i, (∃ c ∈ l, c.tpcIndex = i) →
        i < k ∧ uA i ∧ ∃ seg, (seg = [MergeCall.matchRadiusA i 285 false] ∨
          ∃ pl, PairLog uB i (rad i) n pl ∧ seg = MergeCall.matchRadiusA i 285 true :: pl) ∧
          seg.Sublist l ∧ ∀ c ∈ l, c.tpcIndex = i → c ∈ seg := by
  intro k
  induction k with
  | zero =>
    rintro l h i ⟨c, hc, -⟩
    simp only [TrackLog] at h
    subst h
    simp at hc
  | succ k ih =>
    rintro l h i ⟨c, hc, hp⟩
    obtain ⟨l1, seg, h1, hseg, rfl⟩ := h
    have hseg_idx : ∀ c ∈ seg, c.tpcIndex = k := by
      rcases hseg with ⟨-, rfl⟩ | ⟨-, hs⟩
      · simp
      · exact trackSeg_tpcIndex hs
    rcases List.mem_append.mp hc with hc1 | hc2
    · obtain ⟨hi, hu, s, hs, hsub, hall⟩ := ih l1 h1 i ⟨c, hc1, hp⟩
      refine ⟨by omega, hu, s, hs, hsub.trans (List.sublist_append_left _ _), fun c1 hc1 hp1 => ?_⟩
      rcases List.mem_append.mp hc1 with h | h
      · exact hall c1 h hp1
      · have := hseg_idx c1 h
        omega
    · have hik := hseg_idx c hc2
      rw [hp] at hik
      subst hik
      rcases hseg with ⟨-, rfl⟩ | ⟨hu, hs⟩
      · simp at hc2
      · refine ⟨by omega, hu, seg, hs, List.sublist_append_right _ _, fun c1 hc1 hp1 => ?_⟩
        rcases List.mem_append.mp hc1 with h | h
        · have := TrackLog.tpcIndex_lt i l1 h1 c1 h
          omega
        · exact h

/-- Every usable TPC index has its segment in the record. -/
theorem TrackLog.exists_trackSeg {uA uB : Nat → Prop} {rad : Nat → F} {n : Nat} :
    ∀ (k : Nat) (l : List (MergeCall F)), TrackLog uA uB rad n k l →
      ∀ i, i < k → uA i → ∃ seg, (seg = [MergeCall.matchRadiusA i 285 false] ∨
          ∃ pl, PairLog uB i (rad i) n pl ∧ seg = MergeCall.matchRadiusA i 285 true :: pl) ∧
          seg.Sublist l := by
  intro k
  induction k with
  | zero => intro l _ i hi; omega
  | succ k ih =>
    intro l h i hi hu
    obtain ⟨l1, seg, h1, hseg, rfl⟩ := h
    by_cases hik : i = k
    · subst hik
      rcases hseg with ⟨hnu, -⟩ | ⟨-, hs⟩
      · exact absurd hu hnu
      · exact ⟨seg, hs, List.sublist_append_right _ _⟩
    · obtain ⟨s, hs, hsub⟩ := ih l1 h1 i (by omega) hu
      exact ⟨s, hs, hsub.trans (List.sublist_append_left _ _)⟩

/-- The propagations of line 187 in the record are requests for radius 285 made for
usable TPC indices below the number of rounds. -/
theorem TrackLog.matchRadiusA_mem {uA uB : Nat → Prop} {rad : Nat → F} {n k : Nat}
    {l : List (MergeCall F)} (h : TrackLog uA uB rad n k l) {i : Nat} {x : F} {ok : Bool}
    (hm : MergeCall.matchRadiusA i x ok ∈ l) : x = 285 ∧ i < k ∧ uA i := by
  obtain ⟨hi, hu, seg, hseg, -, hall⟩ := TrackLog.trackSeg_of_mem k l h i ⟨_, hm, rfl⟩
  have hc := hall _ hm rfl
  refine ⟨?_, hi, hu⟩
  rcases hseg with rfl | ⟨pl, hpl, rfl⟩
  · simp only [List.mem_singleton, MergeCall.matchRadiusA.injEq] at hc
    exact hc.2.1
  · rcases List.mem_cons.mp hc with h1 | h1
    · simp only [MergeCall.matchRadiusA.injEq] at h1
      exact h1.2.1
    · obtain ⟨j, -, hp⟩ := PairLog.mem_pair n pl hpl _ h1
      simp [MergeCall.pair] at hp

/-- A TPC track whose propagation of line 187 failed has no other call in the record. -/
theorem TrackLog.failed_track {uA uB : Nat → Prop} {rad : Nat → F} {n k : Nat}
    {l : List (MergeCall F)} (h : TrackLog uA uB rad n k l) {i : Nat} {x : F}
    (hm : MergeCall.matchRadiusA i x false ∈ l) :
    ∀ c ∈ l, c.tpcIndex = i → c = MergeCall.matchRadiusA i 285 false := by
  obtain ⟨hi, hu, seg, hseg, -, hall⟩ := TrackLog.trackSeg_of_mem k l h i ⟨_, hm, rfl⟩
  have hc := hall _ hm rfl
  rcases hseg with rfl | ⟨pl, hpl, rfl⟩
  · intro c hcl hci
    exact List.mem_singleton.mp (hall c hcl hci)
  · rcases List.mem_cons.mp hc with h1 | h1
    · simp at h1
    · obtain ⟨j, -, hp⟩ := PairLog.mem_pair n pl hpl _ h1
      simp [MergeCall.pair] at hp

/-- Every usable TPC index below the number of rounds has its propagation of line 187
in the record. -/
theorem TrackLog.track_visited {uA uB : Nat → Prop} {rad : Nat → F} {n k : Nat}
    {l : List (MergeCall F)} (h : TrackLog uA uB rad n k l) {i : Nat} (hi : i < k) (hu : uA i) :
    ∃ ok, MergeCall.matchRadiusA i 285 ok ∈ l := by
  obtain ⟨seg, hseg, hsub⟩ := TrackLog.exists_trackSeg k l h i hi hu
  rcases hseg with rfl | ⟨pl, hpl, rfl⟩
  · exact ⟨false, hsub.subset (by simp)⟩
  · exact ⟨true, hsub.subset (by simp)⟩

/-- After a successful propagation of line 187 the inner loop runs over all rounds. -/
theorem TrackLog.pairLog_of_mem {uA uB : Nat → Prop} {rad : Nat → F} {n k : Nat}
    {l : List (MergeCall F)} (h : TrackLog uA uB rad n k l) {i : Nat} {x : F}
    (hm : MergeCall.matchRadiusA i x true ∈ l) :
    ∃ pl, PairLog uB i (rad i) n pl ∧ (MergeCall.matchRadiusA i 285 true :: pl).Sublist l ∧
      ∀ c ∈ l, c.tpcIndex = i → c ∈ MergeCall.matchRadiusA i 285 true :: pl := by
  obtain ⟨hi, hu, seg, hseg, hsub, hall⟩ := TrackLog.trackSeg_of_mem k l h i ⟨_, hm, rfl⟩
  have hc := hall _ hm rfl
  rcases hseg with rfl | ⟨pl, hpl, rfl⟩
  · simp at hc
  · exact ⟨pl, hpl, hsub, hall⟩

/-- After a successful propagation of line 187 every usable TRD index is visited. -/
theorem TrackLog.pair_visited {uA uB : Nat → Prop} {rad : Nat → F} {n k : Nat}
    {l : List (MergeCall F)} (h : TrackLog uA uB rad n k l) {i j : Nat} {x : F}
    (hm : MergeCall.matchRadiusA i x true ∈ l) (hj : j < n) (hu : uB j) :
    ∃ seg, PairSeg i j (rad i) seg ∧ seg.Sublist l := by
  obtain ⟨pl, hpl, hsub, -⟩ := h.pairLog_of_mem hm
  obtain ⟨seg, hseg, hsub2⟩ := PairLog.exists_pairSeg n pl hpl j hj hu
  exact ⟨seg, hseg, (hsub2.trans (List.sublist_cons_self _ _)).trans hsub⟩

/-- All calls recorded for a pair `(i, j)` lie in one `PairSeg`, a sublist of the record;
there are such calls only for a usable TPC index whose propagation of line 187 succeeded
and a usable TRD index. -/
theorem TrackLog.pair_seg {uA uB : Nat → Prop} {rad : Nat → F} {n k : Nat}
    {l : List (MergeCall F)} (h : TrackLog uA uB rad n k l) {i j : Nat}
    (hm : ∃ c ∈ l, c.pair = some (i, j)) :
    i < k ∧ j < n ∧ uA i ∧ uB j ∧ MergeCall.matchRadiusA i 285 true ∈ l ∧
      ∃ seg, PairSeg i j (rad i) seg ∧ seg.Sublist l ∧
        ∀ c ∈ l, c.pair = some (i, j) → c ∈ seg := by
  obtain ⟨c, hc, hp⟩ := hm
  have hci := MergeCall.tpcIndex_of_pair hp
  obtain ⟨hi, hu, seg, hseg, hsub, hall⟩ := TrackLog.trackSeg_of_mem k l h i ⟨c, hc, hci⟩
  have hcs := hall c hc hci
  rcases hseg with rfl | ⟨pl, hpl, rfl⟩
  · rw [List.mem_singleton] at hcs
    subst hcs
    simp [MergeCall.pair] at hp
  · have hcpl : c ∈ pl := by
      rcases List.mem_cons.mp hcs with h1 | h1
      · subst h1
        simp [MergeCall.pair] at hp
      · exact h1
    obtain ⟨hj, huB, s, hs, hsub2, hall2⟩ := PairLog.pairSeg_of_mem n pl hpl j ⟨c, hcpl, hp⟩
    refine ⟨hi, hj, hu, huB, hsub.subset (by simp), s, hs,
      (hsub2.trans (List.sublist_cons_self _ _)).trans hsub, fun c1 hc1 hp1 => ?_⟩
    have h1 := hall c1 hc1 (MergeCall.tpcIndex_of_pair hp1)
    rcases List.mem_cons.mp h1 with h2 | h2
    · subst h2
      simp [MergeCall.pair] at hp1
    · exact hall2 c1 h2 hp1

theorem PairSeg.fusedPairs {i j : Nat} {r : F} {seg : List (MergeCall F)}
    (h : PairSeg i j r seg) : fusedPairs seg = [] ∨ fusedPairs seg = [(i, j)] := by
  rcases h with rfl | rfl | rfl | rfl | ⟨f, rfl⟩
  · exact Or.inl rfl
  · exact Or.inl rfl
  · exact Or.inl rfl
  · exact Or.inl rfl
  · cases f
    · exact Or.inl rfl
    · exact Or.inr rfl

theorem PairLog.fusedPairs_increasing {uB : Nat → Prop} {i : Nat} {r : F} :
    ∀ (n : Nat) (pl : List (MergeCall F)), PairLog uB i r n pl →
      (∀ p ∈ fusedPairs pl, p.1 = i ∧ p.2 < n) ∧
      (fusedPairs pl).Pairwise (fun p q => p.1 < q.1 ∨ (p.1 = q.1 ∧ p.2 < q.2)) := by
  intro n
  induction n with
  | zero =>
    intro pl h
    simp only [PairLog] at h
    subst h
    exact ⟨fun p hp => by simp [AliHLTGlobalTrackMerger.fusedPairs] at hp, List.Pairwise.nil⟩
  | succ n ih =>
    intro pl h
    obtain ⟨l1, seg, h1, hseg, rfl⟩ := h
    obtain ⟨hm, hs⟩ := ih l1 h1
    have hfs : AliHLTGlobalTrackMerger.fusedPairs seg = [] ∨
        AliHLTGlobalTrackMerger.fusedPairs seg = [(i, n)] := by
      rcases hseg with ⟨-, rfl⟩ | ⟨-, hs⟩
      · exact Or.inl rfl
      · exact hs.fusedPairs
    rw [fusedPairs_append]
    rcases hfs with h0 | h0
    · rw [h0, List.append_nil]
      exact ⟨fun p hp => ⟨(hm p hp).1, by have := (hm p hp).2; omega⟩, hs⟩
    · rw [h0]
      refine ⟨fun p hp => ?_, ?_⟩
      · rcases List.mem_append.mp hp with h | h
        · exact ⟨(hm p h).1, by have := (hm p h).2; omega⟩
        · rw [List.mem_singleton] at h
          subst h
          exact ⟨rfl, Nat.lt_succ_self _⟩
      · rw [List.pairwise_append]
        refine ⟨hs, List.pairwise_singleton _ _, fun a ha b hb => ?_⟩
        rw [List.mem_singleton] at hb
        subst hb
        exact Or.inr ⟨(hm a ha).1, (hm a ha).2⟩

/-- The successful fusions of the record come in strictly increasing order of
`(iTrack, jTrack)`: first by TPC index, then by TRD index. -/
theorem TrackLog.fusedPairs_sorted {uA uB : Nat → Prop} {rad : Nat → F} {n : Nat} :
    ∀ (k : Nat) (l : List (MergeCall F)), TrackLog uA uB rad n k l →
      (∀ p ∈ fusedPairs l, p.1 < k) ∧
      (fusedPairs l).Pairwise (fun p q => p.1 < q.1 ∨ (p.1 = q.1 ∧ p.2 < q.2)) := by
  intro k
  induction k with
  | zero =>
    intro l h
    simp only [TrackLog] at h
    subst h
    exact ⟨fun p hp => by simp [fusedPairs] at hp, List.Pairwise.nil⟩
  | succ k ih =>
    intro l h
    obtain ⟨l1, seg, h1, hseg, rfl⟩ := h
    obtain ⟨hm, hs⟩ := ih l1 h1
    have hfs : (∀ p ∈ fusedPairs seg, p.1 = k) ∧
        (fusedPairs seg).Pairwise (fun p q => p.1 < q.1 ∨ (p.1 = q.1 ∧ p.2 < q.2)) := by
      rcases hseg with ⟨-, rfl⟩ | ⟨-, rfl | ⟨pl, hpl, rfl⟩⟩
      · exact ⟨fun p hp => by simp [fusedPairs] at hp, List.Pairwise.nil⟩
      · exact ⟨fun p hp => by simp [fusedPairs, MergeCall.fused] at hp, List.Pairwise.nil⟩
      · obtain ⟨h2, h3⟩ := PairLog.fusedPairs_increasing n pl hpl
        have : fusedPairs (MergeCall.matchRadiusA k 285 true :: pl) = fusedPairs pl := rfl
        rw [this]
        exact ⟨fun p hp => (h2 p hp).1, h3⟩
    rw [fusedPairs_append]
    refine ⟨fun p hp => ?_, ?_⟩
    · rcases List.mem_append.mp hp with h | h
      · have := hm p h; omega
      · have := hfs.1 p h; omega
    · rw [List.pairwise_append]
      refine ⟨hs, hfs.2, fun a ha b hb => Or.inl ?_⟩
      have h1 := hm a ha
      have h2 := hfs.1 b hb
      omega

/-! ## Runs of `Merge` on the example events -/

/-- A counting loop whose rounds are known: the loop passes through the states `f 0`,
`f 1`, ... and returns `f n`. -/
theorem whileLoop_trace {σ : Type} (cond : Nat × σ → Bool) (body : Nat × σ → Option (Nat × σ))
    (n fuel : Nat) (f : Nat → σ) (hcond : ∀ k s, cond (k, s) = decide (k < n))
    (hstep : ∀ k, k < n → body (k, f k) = some (k + 1, f (k + 1))) (hf : n < fuel) :
    whileLoop cond body fuel (0, f 0) = some (n, f n) := by
  obtain ⟨s, hr, hs⟩ := forLoop_rule cond body n fuel (fun k s => s = f k) hcond
    (fun k s hk hs => by subst hs; exact ⟨_, hstep k hk, rfl⟩) (f 0) rfl hf
  rw [hr, hs]

theorem exampleTrack_withExt (flags : Nat) (s : F) (c : Nat → F) (x0 x m st : F) (b : Bool) :
    (exampleTrack flags s c x0).withExt
        ((exampleEnv : Env F Unit).PropagateTrackTo (exampleTrack flags s c x0).ext x m st b).2
      = exampleTrack flags s c x := by
  simp only [exampleTrack, exampleEnv, ESDtrack.withExt, ESDtrack.ext, ESDtrack.default]
  congr
  funext k
  by_cases h0 : k = 0
  · subst h0; simp; ring
  · by_cases h1 : k = 1
    · subst h1; simp
    · simp [h0, h1]

/-- The example propagator moves an example track of the event to the requested `x`. -/
theorem exampleEvent_propagate (l : List (ESDtrack F)) (idx flags : Nat) (s : F)
    (c : Nat → F) (x0 x : F) (h : l.get? idx = some (exampleTrack flags s c x0)) :
    ESDEvent.PropagateTrackTo (exampleEnv : Env F Unit) (exampleEvent l) idx x
      = (true, exampleEvent (l.set idx (exampleTrack flags s c x))) := by
  have h1 : (exampleEvent l).fTracks idx = some (exampleTrack flags s c x0) := h
  simp only [ESDEvent.PropagateTrackTo, h1]
  rw [exampleTrack_withExt]
  refine Prod.ext rfl ?_
  simp only [exampleEvent, List.length_set]
  congr 1
  funext i
  by_cases hi : i = idx
  · subst hi
    rw [Function.update_same]
    have hlt : i < l.length := by
      rw [List.get?_eq_getElem?] at h
      exact (List.getElem?_eq_some_iff.mp h).1
    simp [List.get?_eq_getElem?, List.getElem?_set, hlt]
  · rw [Function.update_noteq hi]
    simp [List.get?_eq_getElem?, List.getElem?_set, Ne.symm hi]

theorem exampleEvent_AddTrack (l : List (ESDtrack F)) (t : ESDtrack F) :
    (exampleEvent l).AddTrack t = exampleEvent (l ++ [t]) := by
  simp only [ESDEvent.AddTrack, exampleEvent, List.length_append, List.length_singleton]
  congr 1
  funext i
  by_cases hi : i = l.length
  · subst hi
    rw [Function.update_same]
    simp [List.get?_eq_getElem?]
  · rw [Function.update_noteq hi]
    simp only [List.get?_eq_getElem?]
    by_cases hlt : i < l.length
    · rw [List.getElem?_append_left hlt]
    · rw [List.getElem?_eq_none (by omega), List.getElem?_eq_none]
      simp only [List.length_append, List.length_singleton]
      omega

theorem exampleEvent_get_set_self (l : List (ESDtrack F)) (idx : Nat) (t t1 : ESDtrack F)
    (h : l.get? idx = some t) : (exampleEvent (l.set idx t1)).fTracks idx = some t1 := by
  have hlt : idx < l.length := by
    rw [List.get?_eq_getElem?] at h
    exact (List.getElem?_eq_some_iff.mp h).1
  simp [exampleEvent, List.get?_eq_getElem?, List.getElem?_set, hlt]

theorem exampleEvent_get_set_ne (l : List (ESDtrack F)) (idx i : Nat) (t1 : ESDtrack F)
    (h : idx ≠ i) : (exampleEvent (l.set idx t1)).fTracks i = l.get? i := by
  simp [exampleEvent, List.get?_eq_getElem?, List.getElem?_set, h]

/-- The default gate on two example tracks: it accepts exactly when they have the same
`y` and the same slope. -/
theorem example_gate (fi fj : Nat) (si sj : F) (ci cj : Nat → F) (xi xj : F) :
    MatchTracks (Merger.default : Merger F) (some (exampleTrack fi si ci xi).toAliESDtrack)
      (some (exampleTrack fj sj cj xj).toAliESDtrack) = true ↔ si * xi = sj * xj ∧ si = sj := by
  rw [MatchTracks_some_iff]
  simp only [Merger.default, AliESDtrack.GetY, AliESDtrack.GetZ, AliESDtrack.GetSnp,
    AliESDtrack.GetTgl, AliESDtrack.GetSigned1Pt, exampleTrack, ESDtrack.default]
  simp [abs_nonpos_iff, sub_eq_zero]

theorem Merge.pairStep_skip {V : Type} (fuel : Nat) (sqrt : F → F) (env : Env F V)
    (m : Merger F) (loc : MergeLocals F) (i j : Nat) (rad : F) (cur : ESDEvent F)
    (log : List (MergeCall F)) (t : ESDtrack F) (ht : cur.fTracks j = some t)
    (hfl : t.fFlags &&& env.kTRDin = 0) :
    Merge.pairStep fuel sqrt env m loc i rad (j, cur, log) = some (j + 1, cur, log) := by
  simp only [Merge.pairStep, ht]
  exact if_pos hfl

theorem Merge.trackStep_skip {V : Type} (fuel : Nat) (sqrt : F → F) (env : Env F V)
    (m : Merger F) (loc : MergeLocals F) (n i : Nat) (cur : ESDEvent F)
    (log : List (MergeCall F)) (t : ESDtrack F) (ht : cur.fTracks i = some t)
    (hfl : t.fFlags &&& env.kTPCin = 0) :
    Merge.trackStep fuel sqrt env m loc n (i, cur, log) = some (i + 1, cur, log) := by
  simp only [Merge.trackStep, ht]
  exact if_pos hfl

/-- One round of the inner loop on an example event, when the gate rejects the pair. -/
theorem example_pairStep_reject (fuel : Nat) (sqrt : F → F) (loc : MergeLocals F)
    (l : List (ESDtrack F)) (i j fi fj : Nat) (si sj : F) (ci cj : Nat → F) (xi xj rad : F)
    (log : List (MergeCall F)) (hij : j ≠ i)
    (hi : l.get? i = some (exampleTrack fi si ci xi))
    (hj : l.get? j = some (exampleTrack fj sj cj xj)) (hfl : fj &&& 256 ≠ 0)
    (hg : ¬ (si * xi = sj * 285 ∧ si = sj)) :
    Merge.pairStep fuel sqrt (exampleEnv : Env F Unit) Merger.default loc i rad
        (j, exampleEvent l, log)
      = some (j + 1, exampleEvent (l.set j (exampleTrack fj sj cj 285)),
          log ++ [MergeCall.matchRadiusB i j 285 true] ++ [MergeCall.gate i j false]) := by
  have h1 : (exampleEvent l).fTracks j = some (exampleTrack fj sj cj xj) := hj
  have hgate : MatchTracks (Merger.default : Merger F)
      (some (exampleTrack fi si ci xi).toAliESDtrack)
      (some (exampleTrack fj sj cj 285).toAliESDtrack) = false := by
    rw [← Bool.not_eq_true, example_gate]
    exact hg
  simp only [Merge.pairStep, h1]
  rw [if_neg (show ¬ ((exampleTrack fj sj cj xj).fFlags &&& (exampleEnv : Env F Unit).kTRDin = 0)
    from hfl)]
  rw [exampleEvent_propagate l j fj sj cj xj 285 hj]
  dsimp only
  rw [if_neg (show ¬ (true = false) by decide)]
  rw [exampleEvent_get_set_self l j _ _ hj, exampleEvent_get_set_ne l j i _ hij, hi]
  simp only [Option.map_some']
  rw [hgate, if_pos rfl]

/-- One round of the inner loop on an example event, when the gate accepts the pair:
both tracks are moved to the merging radius and fused. -/
theorem example_pairStep_accept (fuel : Nat) (sqrt : F → F) (loc : MergeLocals F)
    (l : List (ESDtrack F)) (i j fi fj : Nat) (si sj : F) (ci cj : Nat → F) (xi xj rad : F)
    (log : List (MergeCall F)) (hij : j ≠ i)
    (hi : l.get? i = some (exampleTrack fi si ci xi))
    (hj : l.get? j = some (exampleTrack fj sj cj xj)) (hfl : fj &&& 256 ≠ 0)
    (hg : si * xi = sj * 285 ∧ si = sj)
    (err : Bool) (P C : Nat → F) (chi : F) (ndf : Int)
    (hs : MergeTracks.smooth fuel sqrt loc (exampleTrack fi si ci rad) (exampleTrack fj sj cj rad)
      = some (err, P, C, chi, ndf)) :
    Merge.pairStep fuel sqrt (exampleEnv : Env F Unit) Merger.default loc i rad
        (j, exampleEvent l, log)
      = some (j + 1,
          (if err then exampleEvent (((l.set j (exampleTrack fj sj cj 285)).set i
              (exampleTrack fi si ci rad)).set j (exampleTrack fj sj cj rad))
           else exampleEvent ((((l.set j (exampleTrack fj sj cj 285)).set i
              (exampleTrack fi si ci rad)).set j (exampleTrack fj sj cj rad)) ++
              [MergeTracks.newTrack exampleEnv (exampleTrack fi si ci rad)
                (exampleTrack fj sj cj rad) P C chi])),
          log ++ [MergeCall.matchRadiusB i j 285 true] ++ [MergeCall.gate i j true] ++
            [MergeCall.mergeRadiusA i j rad true] ++ [MergeCall.mergeRadiusB i j rad true] ++
            [MergeCall.fuse i j (!err)]) := by
  have h1 : (exampleEvent l).fTracks j = some (exampleTrack fj sj cj xj) := hj
  have hgate : MatchTracks (Merger.default : Merger F)
      (some (exampleTrack fi si ci xi).toAliESDtrack)
      (some (exampleTrack fj sj cj 285).toAliESDtrack) = true := by
    rw [example_gate]
    exact hg
  have hlj : j < l.length := by
    rw [List.get?_eq_getElem?] at hj
    exact (List.getElem?_eq_some_iff.mp hj).1
  have hli : i < l.length := by
    rw [List.get?_eq_getElem?] at hi
    exact (List.getElem?_eq_some_iff.mp hi).1
  have hi1 : (l.set j (exampleTrack fj sj cj 285)).get? i = some (exampleTrack fi si ci xi) := by
    rw [← hi]
    simp [List.get?_eq_getElem?, List.getElem?_set, hij]
  have hj2 : ((l.set j (exampleTrack fj sj cj 285)).set i (exampleTrack fi si ci rad)).get? j
      = some (exampleTrack fj sj cj 285) := by
    simp [List.get?_eq_getElem?, List.getElem?_set, hij, Ne.symm hij, hlj]
  have hi3 : (exampleEvent (((l.set j (exampleTrack fj sj cj 285)).set i
      (exampleTrack fi si ci rad)).set j (exampleTrack fj sj cj rad))).fTracks i
      = some (exampleTrack fi si ci rad) := by
    simp [exampleEvent, List.get?_eq_getElem?, List.getElem?_set, hij, Ne.symm hij, hli]
  have hj3 : (exampleEvent (((l.set j (exampleTrack fj sj cj 285)).set i
      (exampleTrack fi si ci rad)).set j (exampleTrack fj sj cj rad))).fTracks j
      = some (exampleTrack fj sj cj rad) := by
    simp [exampleEvent, List.get?_eq_getElem?, List.getElem?_set, hlj]
  simp only [Merge.pairStep, h1]
  rw [if_neg (show ¬ ((exampleTrack fj sj cj xj).fFlags &&& (exampleEnv : Env F Unit).kTRDin = 0)
    from hfl)]
  rw [exampleEvent_propagate l j fj sj cj xj 285 hj]
  dsimp only
  rw [if_neg (show ¬ (true = false) by decide)]
  rw [exampleEvent_get_set_self l j _ _ hj, exampleEvent_get_set_ne l j i _ hij, hi]
  simp only [Option.map_some']
  rw [hgate, if_neg (show ¬ (true = false) by decide)]
  rw [exampleEvent_propagate _ i fi si ci xi rad hi1]
  dsimp only
  rw [if_neg (show ¬ (true = false) by decide)]
  rw [exampleEvent_propagate _ j fj sj cj 285 rad hj2]
  dsimp only
  rw [if_neg (show ¬ (true = false) by decide)]
  rw [hi3, hj3, MergeTracks_of_smooth fuel sqrt exampleEnv loc _ _ _ err P C chi ndf hs]
  cases err
  · simp only [Option.some_bind, exampleEvent_AddTrack]
  · rfl

/-- The turn of a usable TPC track of an example event, up to the inner loop. -/
theorem example_trackStep (fuel : Nat) (sqrt : F → F) (loc : MergeLocals F)
    (l : List (ESDtrack F)) (n i fi : Nat) (si : F) (ci : Nat → F) (xi : F)
    (log : List (MergeCall F))
    (hi : l.get? i = some (exampleTrack fi si ci xi)) (hfl : fi &&& 16 ≠ 0) :
    Merge.trackStep fuel sqrt (exampleEnv : Env F Unit) Merger.default loc n
        (i, exampleEvent l, log)
      = (whileLoop
          (fun ((jTrack, _, _) : Nat × ESDEvent F × List (MergeCall F)) => decide (jTrack < n))
          (Merge.pairStep fuel sqrt (exampleEnv : Env F Unit) Merger.default loc i 85)
          fuel (0, exampleEvent (l.set i (exampleTrack fi si ci 285)),
            log ++ [MergeCall.matchRadiusA i 285 true])).bind
        fun r => some (i + 1, r.2.1, r.2.2) := by
  have h1 : (exampleEvent l).fTracks i = some (exampleTrack fi si ci xi) := hi
  simp only [Merge.trackStep, h1]
  rw [if_neg (show ¬ ((exampleTrack fi si ci xi).fFlags &&& (exampleEnv : Env F Unit).kTPCin = 0)
    from hfl)]
  rw [exampleEvent_propagate l i fi si ci xi 285 hi]
  dsimp only
  rw [if_neg (show ¬ (true = false) by decide)]
  rfl

/-! ## Fusion of example tracks -/

/-- With all-zero covariances the call of `SmoothTracks` made by `MergeTracks` reports
failure and returns the locals as they were. -/
theorem MergeTracks.smooth_zero (fuel : Nat) (hf : 15 < fuel) (sqrt : F → F)
    (loc : MergeLocals F) (tpc trd : ESDtrack F)
    (h1 : ∀ k, k < 15 → tpc.fC k = 0) (h2 : ∀ k, k < 15 → trd.fC k = 0) :
    MergeTracks.smooth fuel sqrt loc tpc trd
      = some (true, loc.trackParam, loc.trackCovar, loc.trackChi2, loc.trackNDF) := by
  have hf1 : tri 5 < fuel := by rw [tri_five]; exact hf
  obtain ⟨R, hR, -⟩ := InvertS_zero fuel 5 sqrt (sumPacked 5 tpc.fC trd.fC) (by norm_num)
    (by omega) (fun k hk => by
      rw [tri_five] at hk
      simp [sumPacked, hk, h1 k hk, h2 k hk])
  obtain ⟨out, hout, h, -⟩ := SmoothTracks_spec fuel 5 sqrt tpc.fP tpc.fC tpc.fTPCchi2 5
    trd.fP trd.fC trd.fTRDchi2 5 loc.trackParam loc.trackCovar loc.trackChi2 loc.trackNDF
    hf1 true R hR
  rw [h rfl] at hout
  exact hout

/-- For a packed matrix with zero entries below the diagonal the Cholesky recurrence
gives zero entries below the diagonal. -/
theorem cholCols_diagonal (sqrt : F → F) (a : Nat → F)
    (hd : ∀ i k, k < i → a (tri i + k) = 0) :
    ∀ n i k, k < i → cholCols sqrt a n i k = 0 := by
  intro n
  induction n with
  | zero => intro i k _; rfl
  | succ n ih =>
    intro i k hk
    rw [cholCols]
    by_cases hkn : k = n
    · subst hkn
      rw [if_pos rfl, if_neg (by omega), hd i k hk]
      have : ∑ m in Finset.range k, cholCols sqrt a k k m * cholCols sqrt a k i m = 0 :=
        Finset.sum_eq_zero (fun m hm => by
          rw [ih i m (by have := Finset.mem_range.mp hm; omega), mul_zero])
      rw [this, sub_zero, zero_div]
    · rw [if_neg hkn]
      exact ih i k hk

/-- The pivots of a packed matrix with zero entries below the diagonal are its
diagonal entries. -/
theorem cholPivot_diagonal (sqrt : F → F) (a : Nat → F)
    (hd : ∀ i k, k < i → a (tri i + k) = 0) (c : Nat) :
    cholPivot sqrt a c = a (tri c + c) := by
  unfold cholPivot
  have : ∑ m in Finset.range c, cholCols sqrt a c c m * cholCols sqrt a c c m = 0 :=
    Finset.sum_eq_zero (fun m hm => by
      rw [cholCols_diagonal sqrt a hd c c m (Finset.mem_range.mp hm), mul_zero])
  rw [this, sub_zero]

theorem sumPacked_diagPacked5_pivot (sqrt : F → F) (d : F) (c : Nat) (hc : c < 5) :
    cholPivot sqrt (sumPacked 5 (diagPacked5 d) (diagPacked5 d)) c = d + d := by
  rw [cholPivot_diagonal]
  · interval_cases c <;> simp [sumPacked, diagPacked5, ofList, tri]
  · intro i k hk
    by_cases hi : i < 5
    · interval_cases i <;> interval_cases k <;> simp [sumPacked, diagPacked5, ofList, tri]
    · have h15 : 15 ≤ tri i := by
        rw [← tri_five]
        exact tri_mono (by omega)
      simp only [sumPacked]
      rw [if_neg (by omega)]

/-- With both covariances `d` times the identity, `2 d` above the threshold, the call of
`SmoothTracks` made by `MergeTracks` succeeds. -/
theorem MergeTracks.smooth_diag (fuel : Nat) (hf : 15 < fuel) (loc : MergeLocals ℝ)
    (tpc trd : ESDtrack ℝ) (d : ℝ) (hd : ZERO < d + d)
    (h1 : tpc.fC = diagPacked5 d) (h2 : trd.fC = diagPacked5 d) :
    ∃ P C chi ndf, MergeTracks.smooth fuel Real.sqrt loc tpc trd = some (false, P, C, chi, ndf) := by
  have hf1 : tri 5 < fuel := by rw [tri_five]; exact hf
  obtain ⟨Ainv, ⟨e, P, C, chi, ndf⟩, hout, he, -⟩ := SmoothTracks_equal_cov fuel 5 tpc.fP
    (diagPacked5 d) tpc.fTPCchi2 5 trd.fP trd.fTRDchi2 5 loc.trackParam loc.trackCovar
    loc.trackChi2 loc.trackNDF hf1 (fun c hc => by
      rw [sumPacked_diagPacked5_pivot Real.sqrt d c hc]
      exact hd)
  dsimp only at he
  subst he
  exact ⟨P, C, chi, ndf, by unfold MergeTracks.smooth; rw [h1, h2]; exact hout⟩

/-- The run of `Merge` on the event of one TPC track and one TRD track of the same
slope and covariance, both at `x = 0`, with the example propagator and the default
gate: every propagation succeeds, the gate accepts, and the fusion is attempted
once; `err` is what the call of `SmoothTracks` reports for the two tracks at the merging
radius 85.  A track is appended exactly when `err` is false. -/
theorem example_run_pair (sqrt : F → F) (s : F) (c : Nat → F)
    (err : Bool) (P C : Nat → F) (chi : F) (ndf : Int)
    (hs : MergeTracks.smooth 16 sqrt exampleLocals (exampleTrack 16 s c 85)
      (exampleTrack 256 s c 85) = some (err, P, C, chi, ndf)) :
    ∃ ev1, Merge 16 sqrt (exampleEnv : Env F Unit) Merger.default exampleLocals
        (some (exampleEvent [exampleTrack 16 s c 0, exampleTrack 256 s c 0]))
      = some (true, some ev1,
          [MergeCall.matchRadiusA 0 285 true, MergeCall.matchRadiusB 0 1 285 true,
           MergeCall.gate 0 1 true, MergeCall.mergeRadiusA 0 1 85 true,
           MergeCall.mergeRadiusB 0 1 85 true, MergeCall.fuse 0 1 (!err)]) ∧
      ev1.fNTracks = (if err then 2 else 3) := by
  -- the inner loop of the turn of track 0
  have hinner := whileLoop_trace
    (fun ((jTrack, _, _) : Nat × ESDEvent F × List (MergeCall F)) => decide (jTrack < 2))
    (Merge.pairStep 16 sqrt (exampleEnv : Env F Unit) Merger.default exampleLocals 0 85) 2 16
    (fun k => if k = 0 ∨ k = 1 then
        (exampleEvent [exampleTrack 16 s c 285, exampleTrack 256 s c 0],
          [] ++ [MergeCall.matchRadiusA 0 285 true])
      else
        ((if err then exampleEvent [exampleTrack 16 s c 85, exampleTrack 256 s c 85]
          else exampleEvent [exampleTrack 16 s c 85, exampleTrack 256 s c 85,
            MergeTracks.newTrack exampleEnv (exampleTrack 16 s c 85)
              (exampleTrack 256 s c 85) P C chi]),
          [] ++ [MergeCall.matchRadiusA 0 285 true] ++ [MergeCall.matchRadiusB 0 1 285 true] ++
            [MergeCall.gate 0 1 true] ++ [MergeCall.mergeRadiusA 0 1 85 true] ++
            [MergeCall.mergeRadiusB 0 1 85 true] ++ [MergeCall.fuse 0 1 (!err)]))
    (fun _ _ => rfl)
    (fun k hk => by
      interval_cases k
      · exact Merge.pairStep_skip 16 sqrt (exampleEnv : Env F Unit) Merger.default
          exampleLocals 0 0 85 _ _ (exampleTrack 16 s c 285) rfl
          (show (16 : Nat) &&& 256 = 0 by decide)
      · exact example_pairStep_accept 16 sqrt exampleLocals
          [exampleTrack 16 s c 285, exampleTrack 256 s c 0] 0 1 16 256 s s c c 285 0 85 _
          (by decide) rfl rfl (by decide) ⟨rfl, rfl⟩ err P C chi ndf hs)
    (by decide)
  have houter := whileLoop_trace
    (fun ((iTrack, _, _) : Nat × ESDEvent F × List (MergeCall F)) => decide (iTrack < 2))
    (Merge.trackStep 16 sqrt (exampleEnv : Env F Unit) Merger.default exampleLocals 2) 2 16
    (fun k => if k = 0 then
        (exampleEvent [exampleTrack 16 s c 0, exampleTrack 256 s c 0], [])
      else
        ((if err then exampleEvent [exampleTrack 16 s c 85, exampleTrack 256 s c 85]
          else exampleEvent [exampleTrack 16 s c 85, exampleTrack 256 s c 85,
            MergeTracks.newTrack exampleEnv (exampleTrack 16 s c 85)
              (exampleTrack 256 s c 85) P C chi]),
          [] ++ [MergeCall.matchRadiusA 0 285 true] ++ [MergeCall.matchRadiusB 0 1 285 true] ++
            [MergeCall.gate 0 1 true] ++ [MergeCall.mergeRadiusA 0 1 85 true] ++
            [MergeCall.mergeRadiusB 0 1 85 true] ++ [MergeCall.fuse 0 1 (!err)]))
    (fun _ _ => rfl)
    (fun k hk => by
      interval_cases k
      · refine (example_trackStep 16 sqrt exampleLocals
          [exampleTrack 16 s c 0, exampleTrack 256 s c 0] 2 0 16 s c 0 [] rfl
          (by decide)).trans ?_
        refine (congrArg (fun o => Option.bind o _) hinner).trans ?_
        rfl
      · cases err
        · exact Merge.trackStep_skip 16 sqrt (exampleEnv : Env F Unit) Merger.default
            exampleLocals 2 1 _ _ (exampleTrack 256 s c 85) rfl
            (show (256 : Nat) &&& 16 = 0 by decide)
        · exact Merge.trackStep_skip 16 sqrt (exampleEnv : Env F Unit) Merger.default
            exampleLocals 2 1 _ _ (exampleTrack 256 s c 85) rfl
            (show (256 : Nat) &&& 16 = 0 by decide))
    (by decide)
  refine ⟨_, (congrArg (fun o => Option.bind o _) houter).trans rfl, ?_⟩
  cases err <;> rfl

/-- The run of `Merge` on the event of one TPC track and two identical TRD tracks, all of
slope `s` and covariance `c` and at `x = 0`, with the example propagator and the default
gate, when the fusion of two such tracks at the merging radius 85 succeeds.  The first
TRD track is accepted and fused.  For the second one the gate is evaluated with the TPC
track at `x = 85`: it accepts when `s = 0` and rejects when `s ≠ 0`. -/
theorem example_run_three (sqrt : F → F) (s : F) (c : Nat → F)
    (P C : Nat → F) (chi : F) (ndf : Int)
    (hs : MergeTracks.smooth 16 sqrt exampleLocals (exampleTrack 16 s c 85)
      (exampleTrack 256 s c 85) = some (false, P, C, chi, ndf)) :
    (s ≠ 0 →
      Merge.pairStep 16 sqrt (exampleEnv : Env F Unit) Merger.default exampleLocals 0 85
          (2, exampleEvent [exampleTrack 16 s c 85, exampleTrack 256 s c 85,
              exampleTrack 256 s c 0,
              MergeTracks.newTrack exampleEnv (exampleTrack 16 s c 85)
                (exampleTrack 256 s c 85) P C chi],
            [MergeCall.matchRadiusA 0 285 true, MergeCall.matchRadiusB 0 1 285 true,
             MergeCall.gate 0 1 true, MergeCall.mergeRadiusA 0 1 85 true,
             MergeCall.mergeRadiusB 0 1 85 true, MergeCall.fuse 0 1 true])
        = some (3, exampleEvent [exampleTrack 16 s c 85, exampleTrack 256 s c 85,
              exampleTrack 256 s c 285,
              MergeTracks.newTrack exampleEnv (exampleTrack 16 s c 85)
                (exampleTrack 256 s c 85) P C chi],
            [MergeCall.matchRadiusA 0 285 true, MergeCall.matchRadiusB 0 1 285 true,
             MergeCall.gate 0 1 true, MergeCall.mergeRadiusA 0 1 85 true,
             MergeCall.mergeRadiusB 0 1 85 true, MergeCall.fuse 0 1 true,
             MergeCall.matchRadiusB 0 2 285 true, MergeCall.gate 0 2 false]) ∧
      ∃ ev1, Merge 16 sqrt (exampleEnv : Env F Unit) Merger.default exampleLocals
          (some (exampleEvent [exampleTrack 16 s c 0, exampleTrack 256 s c 0,
            exampleTrack 256 s c 0]))
        = some (true, some ev1,
            [MergeCall.matchRadiusA 0 285 true, MergeCall.matchRadiusB 0 1 285 true,
             MergeCall.gate 0 1 true, MergeCall.mergeRadiusA 0 1 85 true,
             MergeCall.mergeRadiusB 0 1 85 true, MergeCall.fuse 0 1 true,
             MergeCall.matchRadiusB 0 2 285 true, MergeCall.gate 0 2 false]) ∧
        ev1.fNTracks = 4) ∧
    (s = 0 →
      ∃ ev1, Merge 16 sqrt (exampleEnv : Env F Unit) Merger.default exampleLocals
          (some (exampleEvent [exampleTrack 16 s c 0, exampleTrack 256 s c 0,
            exampleTrack 256 s c 0]))
        = some (true, some ev1,
            [MergeCall.matchRadiusA 0 285 true, MergeCall.matchRadiusB 0 1 285 true,
             MergeCall.gate 0 1 true, MergeCall.mergeRadiusA 0 1 85 true,
             MergeCall.mergeRadiusB 0 1 85 true, MergeCall.fuse 0 1 true,
             MergeCall.matchRadiusB 0 2 285 true, MergeCall.gate 0 2 true,
             MergeCall.mergeRadiusA 0 2 85 true, MergeCall.mergeRadiusB 0 2 85 true,
             MergeCall.fuse 0 2 true]) ∧
        ev1.fNTracks = 5) := by
  have hstep1 := example_pairStep_accept 16 sqrt exampleLocals
    [exampleTrack 16 s c 285, exampleTrack 256 s c 0, exampleTrack 256 s c 0] 0 1 16 256 s s c c
    285 0 85 ([] ++ [MergeCall.matchRadiusA 0 285 true])
    (by decide) rfl rfl (by decide) ⟨rfl, rfl⟩ false P C chi ndf hs
  have hskipA := Merge.pairStep_skip 16 sqrt (exampleEnv : Env F Unit) Merger.default
    exampleLocals 0 0 85
    (exampleEvent [exampleTrack 16 s c 285, exampleTrack 256 s c 0, exampleTrack 256 s c 0])
    ([] ++ [MergeCall.matchRadiusA 0 285 true])
    (exampleTrack 16 s c 285) rfl (show (16 : Nat) &&& 256 = 0 by decide)
  have htrack := example_trackStep 16 sqrt exampleLocals
    [exampleTrack 16 s c 0, exampleTrack 256 s c 0, exampleTrack 256 s c 0] 3 0 16 s c 0 [] rfl
    (by decide)
  refine ⟨fun hne => ?_, fun h0 => ?_⟩
  · have hstep2 := example_pairStep_reject 16 sqrt exampleLocals
      [exampleTrack 16 s c 85, exampleTrack 256 s c 85, exampleTrack 256 s c 0,
        MergeTracks.newTrack exampleEnv (exampleTrack 16 s c 85)
          (exampleTrack 256 s c 85) P C chi] 0 2 16 256 s s c c 85 0 85
      [MergeCall.matchRadiusA 0 285 true, MergeCall.matchRadiusB 0 1 285 true,
        MergeCall.gate 0 1 true, MergeCall.mergeRadiusA 0 1 85 true,
        MergeCall.mergeRadiusB 0 1 85 true, MergeCall.fuse 0 1 true]
      (by decide) rfl rfl (by decide) (by
        rintro ⟨h, -⟩
        have : s * (285 - 85) = 0 := by rw [mul_sub, ← h, sub_self]
        rcases mul_eq_zero.mp this with h1 | h1
        · exact hne h1
        · norm_num at h1)
    refine ⟨hstep2, ?_⟩
    have hinner := whileLoop_trace
      (fun ((jTrack, _, _) : Nat × ESDEvent F × List (MergeCall F)) => decide (jTrack < 3))
      (Merge.pairStep 16 sqrt (exampleEnv : Env F Unit) Merger.default exampleLocals 0 85) 3 16
      (fun k => if k = 0 ∨ k = 1 then
          (exampleEvent [exampleTrack 16 s c 285, exampleTrack 256 s c 0, exampleTrack 256 s c 0],
            [] ++ [MergeCall.matchRadiusA 0 285 true])
        else if k = 2 then
          (exampleEvent [exampleTrack 16 s c 85, exampleTrack 256 s c 85,
              exampleTrack 256 s c 0,
              MergeTracks.newTrack exampleEnv (exampleTrack 16 s c 85)
                (exampleTrack 256 s c 85) P C chi],
            [MergeCall.matchRadiusA 0 285 true, MergeCall.matchRadiusB 0 1 285 true,
             MergeCall.gate 0 1 true, MergeCall.mergeRadiusA 0 1 85 true,
             MergeCall.mergeRadiusB 0 1 85 true, MergeCall.fuse 0 1 true])
        else
          (exampleEvent [exampleTrack 16 s c 85, exampleTrack 256 s c 85,
              exampleTrack 256 s c 285,
              MergeTracks.newTrack exampleEnv (exampleTrack 16 s c 85)
                (exampleTrack 256 s c 85) P C chi],
            [MergeCall.matchRadiusA 0 285 true, MergeCall.matchRadiusB 0 1 285 true,
             MergeCall.gate 0 1 true, MergeCall.mergeRadiusA 0 1 85 true,
             MergeCall.mergeRadiusB 0 1 85 true, MergeCall.fuse 0 1 true,
             MergeCall.matchRadiusB 0 2 285 true, MergeCall.gate 0 2 false]))
      (fun _ _ => rfl)
      (fun k hk => by
        interval_cases k
        · exact hskipA
        · exact hstep1
        · exact hstep2)
      (by decide)
    have houter := whileLoop_trace
      (fun ((iTrack, _, _) : Nat × ESDEvent F × List (MergeCall F)) => decide (iTrack < 3))
      (Merge.trackStep 16 sqrt (exampleEnv : Env F Unit) Merger.default exampleLocals 3) 3 16
      (fun k => if k = 0 then
          (exampleEvent [exampleTrack 16 s c 0, exampleTrack 256 s c 0, exampleTrack 256 s c 0],
            [])
        else
          (exampleEvent [exampleTrack 16 s c 85, exampleTrack 256 s c 85,
              exampleTrack 256 s c 285,
              MergeTracks.newTrack exampleEnv (exampleTrack 16 s c 85)
                (exampleTrack 256 s c 85) P C chi],
            [MergeCall.matchRadiusA 0 285 true, MergeCall.matchRadiusB 0 1 285 true,
             MergeCall.gate 0 1 true, MergeCall.mergeRadiusA 0 1 85 true,
             MergeCall.mergeRadiusB 0 1 85 true, MergeCall.fuse 0 1 true,
             MergeCall.matchRadiusB 0 2 285 true, MergeCall.gate 0 2 false]))
      (fun _ _ => rfl)
      (fun k hk => by
        interval_cases k
        · refine htrack.trans ?_
          refine (congrArg (fun o => Option.bind o _) hinner).trans ?_
          rfl
        · exact Merge.trackStep_skip 16 sqrt (exampleEnv : Env F Unit) Merger.default
            exampleLocals 3 1 _ _ (exampleTrack 256 s c 85) rfl
            (show (256 : Nat) &&& 16 = 0 by decide)
        · exact Merge.trackStep_skip 16 sqrt (exampleEnv : Env F Unit) Merger.default
            exampleLocals 3 2 _ _ (exampleTrack 256 s c 285) rfl
            (show (256 : Nat) &&& 16 = 0 by decide))
      (by decide)
    exact ⟨_, (congrArg (fun o => Option.bind o _) houter).trans rfl, rfl⟩
  · have hstep2 := example_pairStep_accept 16 sqrt exampleLocals
      [exampleTrack 16 s c 85, exampleTrack 256 s c 85, exampleTrack 256 s c 0,
        MergeTracks.newTrack exampleEnv (exampleTrack 16 s c 85)
          (exampleTrack 256 s c 85) P C chi] 0 2 16 256 s s c c 85 0 85
      [MergeCall.matchRadiusA 0 285 true, MergeCall.matchRadiusB 0 1 285 true,
        MergeCall.gate 0 1 true, MergeCall.mergeRadiusA 0 1 85 true,
        MergeCall.mergeRadiusB 0 1 85 true, MergeCall.fuse 0 1 true]
      (by decide) rfl rfl (by decide) ⟨by rw [h0, zero_mul, zero_mul], rfl⟩ false P C chi ndf hs
    have hinner := whileLoop_trace
      (fun ((jTrack, _, _) : Nat × ESDEvent F × List (MergeCall F)) => decide (jTrack < 3))
      (Merge.pairStep 16 sqrt (exampleEnv : Env F Unit) Merger.default exampleLocals 0 85) 3 16
      (fun k => if k = 0 ∨ k = 1 then
          (exampleEvent [exampleTrack 16 s c 285, exampleTrack 256 s c 0, exampleTrack 256 s c 0],
            [] ++ [MergeCall.matchRadiusA 0 285 true])
        else if k = 2 then
          (exampleEvent [exampleTrack 16 s c 85, exampleTrack 256 s c 85,
              exampleTrack 256 s c 0,
              MergeTracks.newTrack exampleEnv (exampleTrack 16 s c 85)
                (exampleTrack 256 s c 85) P C chi],
            [MergeCall.matchRadiusA 0 285 true, MergeCall.matchRadiusB 0 1 285 true,
             MergeCall.gate 0 1 true, MergeCall.mergeRadiusA 0 1 85 true,
             MergeCall.mergeRadiusB 0 1 85 true, MergeCall.fuse 0 1 true])
        else
          (exampleEvent [exampleTrack 16 s c 85, exampleTrack 256 s c 85,
              exampleTrack 256 s c 85,
              MergeTracks.newTrack exampleEnv (exampleTrack 16 s c 85)
                (exampleTrack 256 s c 85) P C chi,
              MergeTracks.newTrack exampleEnv (exampleTrack 16 s c 85)
                (exampleTrack 256 s c 85) P C chi],
            [MergeCall.matchRadiusA 0 285 true, MergeCall.matchRadiusB 0 1 285 true,
             MergeCall.gate 0 1 true, MergeCall.mergeRadiusA 0 1 85 true,
             MergeCall.mergeRadiusB 0 1 85 true, MergeCall.fuse 0 1 true,
             MergeCall.matchRadiusB 0 2 285 true, MergeCall.gate 0 2 true,
             MergeCall.mergeRadiusA 0 2 85 true, MergeCall.mergeRadiusB 0 2 85 true,
             MergeCall.fuse 0 2 true]))
      (fun _ _ => rfl)
      (fun k hk => by
        interval_cases k
        · exact hskipA
        · exact hstep1
        · exact hstep2)
      (by decide)
    have houter := whileLoop_trace
      (fun ((iTrack, _, _) : Nat × ESDEvent F × List (MergeCall F)) => decide (iTrack < 3))
      (Merge.trackStep 16 sqrt (exampleEnv : Env F Unit) Merger.default exampleLocals 3) 3 16
      (fun k => if k = 0 then
          (exampleEvent [exampleTrack 16 s c 0, exampleTrack 256 s c 0, exampleTrack 256 s c 0],
            [])
        else
          (exampleEvent [exampleTrack 16 s c 85, exampleTrack 256 s c 85,
              exampleTrack 256 s c 85,
              MergeTracks.newTrack exampleEnv (exampleTrack 16 s c 85)
                (exampleTrack 256 s c 85) P C chi,
              MergeTracks.newTrack exampleEnv (exampleTrack 16 s c 85)
                (exampleTrack 256 s c 85) P C chi],
            [MergeCall.matchRadiusA 0 285 true, MergeCall.matchRadiusB 0 1 285 true,
             MergeCall.gate 0 1 true, MergeCall.mergeRadiusA 0 1 85 true,
             MergeCall.mergeRadiusB 0 1 85 true, MergeCall.fuse 0 1 true,
             MergeCall.matchRadiusB 0 2 285 true, MergeCall.gate 0 2 true,
             MergeCall.mergeRadiusA 0 2 85 true, MergeCall.mergeRadiusB 0 2 85 true,
             MergeCall.fuse 0 2 true]))
      (fun _ _ => rfl)
      (fun k hk => by
        interval_cases k
        · refine htrack.trans ?_
          refine (congrArg (fun o => Option.bind o _) hinner).trans ?_
          rfl
        · exact Merge.trackStep_skip 16 sqrt (exampleEnv : Env F Unit) Merger.default
            exampleLocals 3 1 _ _ (exampleTrack 256 s c 85) rfl
            (show (256 : Nat) &&& 16 = 0 by decide)
        · exact Merge.trackStep_skip 16 sqrt (exampleEnv : Env F Unit) Merger.default
            exampleLocals 3 2 _ _ (exampleTrack 256 s c 85) rfl
            (show (256 : Nat) &&& 16 = 0 by decide))
      (by decide)
    exact ⟨_, (congrArg (fun o => Option.bind o _) houter).trans rfl, rfl⟩

/-! ## Facts about the calls of one pair -/

theorem SameButExt.some_left {o : Option (ESDtrack F)} {t : ESDtrack F}
    (h : SameButExt o (some t)) : ∃ t0 e, o = some t0 ∧ t = t0.withExt e := by
  cases o with
  | none => exact h.elim
  | some t0 =>
    obtain ⟨e, he⟩ := h
    exact ⟨t0, e, rfl, he⟩

/-- The order of the calls of one pair: after an accepting gate the TPC track is sent
to the merging radius `r`; if that succeeded, the TRD track is; if that succeeded too,
the fusion is called. -/
theorem PairSeg.after_gate {i j : Nat} {r : F} {seg : List (MergeCall F)}
    (h : PairSeg i j r seg) (hg : MergeCall.gate i j true ∈ seg) :
    ∃ okA, [MergeCall.gate i j true, MergeCall.mergeRadiusA i j r okA].Sublist seg ∧
      (okA = true → ∃ okB,
        [MergeCall.mergeRadiusA i j r true, MergeCall.mergeRadiusB i j r okB].Sublist seg ∧
        (okB = true → ∃ f,
          [MergeCall.mergeRadiusB i j r true, MergeCall.fuse i j f].Sublist seg)) := by
  rcases h with rfl | rfl | rfl | rfl | ⟨f, rfl⟩
  · simp at hg
  · simp at hg
  · exact ⟨false, List.IsInfix.sublist ⟨[_], [], rfl⟩, fun h => absurd h (by decide)⟩
  · exact ⟨true, List.IsInfix.sublist ⟨[_], [_], rfl⟩, fun _ =>
      ⟨false, List.IsInfix.sublist ⟨[_, _], [], rfl⟩, fun h => absurd h (by decide)⟩⟩
  · exact ⟨true, List.IsInfix.sublist ⟨[_], [_, _], rfl⟩, fun _ =>
      ⟨true, List.IsInfix.sublist ⟨[_, _], [_], rfl⟩, fun _ =>
        ⟨f, List.IsInfix.sublist ⟨[_, _, _], [], rfl⟩⟩⟩⟩

/-- What precedes the calls of one pair: a propagation of the TPC track to the merging
radius is for the radius `r` and follows an accepting gate; one of the TRD track is for
`r` and follows a successful one of the TPC track; a fusion follows both. -/
theorem PairSeg.before {i j : Nat} {r : F} {seg : List (MergeCall F)}
    (h : PairSeg i j r seg) :
    (∀ x ok, MergeCall.mergeRadiusA i j x ok ∈ seg → x = r ∧ MergeCall.gate i j true ∈ seg) ∧
    (∀ x ok, MergeCall.mergeRadiusB i j x ok ∈ seg →
      x = r ∧ MergeCall.mergeRadiusA i j r true ∈ seg) ∧
    (∀ f, MergeCall.fuse i j f ∈ seg →
      MergeCall.gate i j true ∈ seg ∧ MergeCall.mergeRadiusA i j r true ∈ seg ∧
      MergeCall.mergeRadiusB i j r true ∈ seg) ∧
    (∀ g, MergeCall.gate i j g ∈ seg → MergeCall.matchRadiusB i j 285 true ∈ seg) := by
  rcases h with rfl | rfl | rfl | rfl | ⟨f, rfl⟩ <;>
    refine ⟨fun x ok hm => ?_, fun x ok hm => ?_, fun f hm => ?_, fun g hm => ?_⟩ <;>
    simp at hm ⊢ <;> simp [hm]

/-- A failed propagation to the merging radius ends the calls of the pair. -/
theorem PairSeg.after_failure {i j : Nat} {r : F} {seg : List (MergeCall F)}
    (h : PairSeg i j r seg) :
    (∀ x, MergeCall.mergeRadiusA i j x false ∈ seg →
      (∀ y ok, MergeCall.mergeRadiusB i j y ok ∉ seg) ∧ ∀ f, MergeCall.fuse i j f ∉ seg) ∧
    (∀ x, MergeCall.mergeRadiusB i j x false ∈ seg → ∀ f, MergeCall.fuse i j f ∉ seg) ∧
    (MergeCall.fuse i j false ∈ seg → MergeCall.fuse i j true ∉ seg) := by
  rcases h with rfl | rfl | rfl | rfl | ⟨f, rfl⟩ <;>
    refine ⟨fun x hm => ?_, fun x hm => ?_, fun hm => ?_⟩ <;>
    simp at hm ⊢
  exact hm

theorem eq_singleton_of_nodup {α : Type} {l : List α} {x : α} (hn : l.Nodup)
    (hall : ∀ p ∈ l, p = x) (hx : x ∈ l) : l = [x] := by
  cases l with
  | nil => simp at hx
  | cons y t =>
    have hy : y = x := hall y (List.mem_cons_self _ _)
    subst hy
    cases t with
    | nil => rfl
    | cons z u =>
      have hz : z = y := hall z (by simp)
      subst hz
      simp at hn

/-! ## The orchestrator: claims about `Merge` -/

/-- C13: a failure of the propagation of a TPC track to the matching radius is a local
skip.  For every event, propagator and gate, `Merge` (fuel above 15 and above the number
of tracks) returns `kTRUE`, and in the record of its calls: every usable TPC track has
its propagation to the matching radius 285; if that propagation failed for track `i`, it
is the only call made during the turn of `i` (no gate, no fusion, no propagation of a
TRD track) and no fused pair has TPC index `i`; if it succeeded, every usable TRD track
is propagated to the matching radius on behalf of `i`.  The tracks appended to the event
are as many as the successful fusions. -/
theorem Merge_skips_failed_tpc_track {V : Type} (fuel : Nat) (hf : 15 < fuel) (env : Env ℝ V)
    (m : Merger ℝ) (loc : MergeLocals ℝ) (ev : ESDEvent ℝ) (hn : ev.fNTracks < fuel) :
    ∃ ev1 log, Merge fuel Real.sqrt env m loc (some ev) = some (true, some ev1, log) ∧
      (∀ i, i < ev.fNTracks → usableTPC env ev i →
        ∃ ok, MergeCall.matchRadiusA i 285 ok ∈ log) ∧
      (∀ i x, MergeCall.matchRadiusA i x false ∈ log →
        (∀ c ∈ log, c.tpcIndex = i → c = MergeCall.matchRadiusA i 285 false) ∧
        ∀ j, (i, j) ∉ fusedPairs log) ∧
      (∀ i x j, MergeCall.matchRadiusA i x true ∈ log → j < ev.fNTracks → usableTRD env ev j →
        ∃ ok, MergeCall.matchRadiusB i j 285 ok ∈ log) ∧
      ev1.fNTracks = ev.fNTracks + (fusedPairs log).length := by
  obtain ⟨ev1, log, hrun, hInv, hlog⟩ := Merge_spec fuel hf env m loc ev hn
  refine ⟨ev1, log, hrun, fun i hi hu => hlog.track_visited hi hu, fun i x hm => ?_,
    fun i x j hm hj hu => ?_, hInv.2.2.1⟩
  · refine ⟨hlog.failed_track hm, fun j hj => ?_⟩
    have h1 := mem_fusedPairs.mp hj
    have h2 := hlog.failed_track hm _ h1 rfl
    exact MergeCall.noConfusion h2
  · obtain ⟨seg, hseg, hsub⟩ := hlog.pair_visited hm hj hu
    obtain ⟨ok, hok⟩ := hseg.head_mem
    exact ⟨ok, hsub.subset hok⟩

/-- C16: a failure of the fusion is a local skip.  When the call of `SmoothTracks`
reports failure, `MergeTracks` returns `kFALSE` and the event as it was.  For every
event, propagator and gate, `Merge` (fuel above 15 and above the number of tracks)
returns `kTRUE`; a pair whose fusion failed is not among the fused pairs, and the tracks
appended are as many as the fused pairs; every usable TPC track gets its propagation to
the matching radius and, if that succeeded, so does every usable TRD track on its
behalf, whatever happened to the pairs before. -/
theorem Merge_fusion_failure_is_local {V : Type} (fuel : Nat) (hf : 15 < fuel) (env : Env ℝ V)
    (m : Merger ℝ) (loc : MergeLocals ℝ) (ev : ESDEvent ℝ) (hn : ev.fNTracks < fuel) :
    (∀ (tpc trd : ESDtrack ℝ) (e : ESDEvent ℝ) (P C : Nat → ℝ) (chi : ℝ) (ndf : Int),
      MergeTracks.smooth fuel Real.sqrt loc tpc trd = some (true, P, C, chi, ndf) →
      MergeTracks fuel Real.sqrt env loc (some tpc) (some trd) e = some (false, e)) ∧
    ∃ ev1 log, Merge fuel Real.sqrt env m loc (some ev) = some (true, some ev1, log) ∧
      (∀ i j, MergeCall.fuse i j false ∈ log → (i, j) ∉ fusedPairs log) ∧
      ev1.fNTracks = ev.fNTracks + (fusedPairs log).length ∧
      (∀ i, i < ev.fNTracks → usableTPC env ev i →
        ∃ ok, MergeCall.matchRadiusA i 285 ok ∈ log) ∧
      (∀ i x j, MergeCall.matchRadiusA i x true ∈ log → j < ev.fNTracks → usableTRD env ev j →
        ∃ ok, MergeCall.matchRadiusB i j 285 ok ∈ log) := by
  refine ⟨fun tpc trd e P C chi ndf hs => ?_, ?_⟩
  · rw [MergeTracks_of_smooth fuel Real.sqrt env loc tpc trd e true P C chi ndf hs]
    rfl
  obtain ⟨ev1, log, hrun, hInv, hlog⟩ := Merge_spec fuel hf env m loc ev hn
  refine ⟨ev1, log, hrun, fun i j hm hfp => ?_, hInv.2.2.1,
    fun i hi hu => hlog.track_visited hi hu, fun i x j hm hj hu => ?_⟩
  · obtain ⟨-, -, -, -, -, seg, hseg, -, hall⟩ := hlog.pair_seg ⟨_, hm, rfl⟩
    exact hseg.after_failure.2.2 (hall _ hm rfl) (hall _ (mem_fusedPairs.mp hfp) rfl)
  · obtain ⟨seg, hseg, hsub⟩ := hlog.pair_visited hm hj hu
    obtain ⟨ok, hok⟩ := hseg.head_mem
    exact ⟨ok, hsub.subset hok⟩

/-- C18: the merging-radius step.  For every event, propagator and gate, in the record
of the calls of `Merge` (fuel above 15 and above the number of tracks): after an
accepting gate for the pair `(i, j)` the TPC track is sent to the merging radius, which
is `GetTPCPoints(0)` of track `i`; if that succeeded the TRD track is sent there next,
and if that succeeded too the fusion is called.  Conversely the TRD track is only sent
after the TPC track arrived, a fusion is only called after both arrived, and after a
failed propagation of either track there is no later call for the pair, so the pair is
not among the fused pairs, which are as many as the tracks appended. -/
theorem Merge_merge_radius_step {V : Type} (fuel : Nat) (hf : 15 < fuel) (env : Env ℝ V)
    (m : Merger ℝ) (loc : MergeLocals ℝ) (ev : ESDEvent ℝ) (hn : ev.fNTracks < fuel) :
    ∃ ev1 log, Merge fuel Real.sqrt env m loc (some ev) = some (true, some ev1, log) ∧
      (∀ i j, MergeCall.gate i j true ∈ log →
        ∃ okA, [MergeCall.gate i j true,
            MergeCall.mergeRadiusA i j (ev.firstTPCPoint i) okA].Sublist log ∧
          (okA = true → ∃ okB, [MergeCall.mergeRadiusA i j (ev.firstTPCPoint i) true,
              MergeCall.mergeRadiusB i j (ev.firstTPCPoint i) okB].Sublist log ∧
            (okB = true → ∃ f, [MergeCall.mergeRadiusB i j (ev.firstTPCPoint i) true,
              MergeCall.fuse i j f].Sublist log))) ∧
      (∀ i j x ok, MergeCall.mergeRadiusA i j x ok ∈ log →
        x = ev.firstTPCPoint i ∧ MergeCall.gate i j true ∈ log) ∧
      (∀ i j x ok, MergeCall.mergeRadiusB i j x ok ∈ log →
        x = ev.firstTPCPoint i ∧ MergeCall.mergeRadiusA i j x true ∈ log) ∧
      (∀ i j f, MergeCall.fuse i j f ∈ log →
        MergeCall.mergeRadiusA i j (ev.firstTPCPoint i) true ∈ log ∧
        MergeCall.mergeRadiusB i j (ev.firstTPCPoint i) true ∈ log) ∧
      (∀ i j x, MergeCall.mergeRadiusA i j x false ∈ log →
        (∀ y ok, MergeCall.mergeRadiusB i j y ok ∉ log) ∧
        (∀ f, MergeCall.fuse i j f ∉ log) ∧ (i, j) ∉ fusedPairs log) ∧
      (∀ i j x, MergeCall.mergeRadiusB i j x false ∈ log →
        (∀ f, MergeCall.fuse i j f ∉ log) ∧ (i, j) ∉ fusedPairs log) ∧
      ev1.fNTracks = ev.fNTracks + (fusedPairs log).length := by
  obtain ⟨ev1, log, hrun, hInv, hlog⟩ := Merge_spec fuel hf env m loc ev hn
  refine ⟨ev1, log, hrun, fun i j hm => ?_, fun i j x ok hm => ?_, fun i j x ok hm => ?_,
    fun i j f hm => ?_, fun i j x hm => ?_, fun i j x hm => ?_, hInv.2.2.1⟩
  · obtain ⟨-, -, -, -, -, seg, hseg, hsub, hall⟩ := hlog.pair_seg ⟨_, hm, rfl⟩
    obtain ⟨okA, h1, h2⟩ := hseg.after_gate (hall _ hm rfl)
    refine ⟨okA, h1.trans hsub, fun hA => ?_⟩
    obtain ⟨okB, h3, h4⟩ := h2 hA
    refine ⟨okB, h3.trans hsub, fun hB => ?_⟩
    obtain ⟨f, h5⟩ := h4 hB
    exact ⟨f, h5.trans hsub⟩
  · obtain ⟨-, -, -, -, -, seg, hseg, hsub, hall⟩ := hlog.pair_seg ⟨_, hm, rfl⟩
    obtain ⟨h1, h2⟩ := hseg.before.1 x ok (hall _ hm rfl)
    exact ⟨h1, hsub.subset h2⟩
  · obtain ⟨-, -, -, -, -, seg, hseg, hsub, hall⟩ := hlog.pair_seg ⟨_, hm, rfl⟩
    obtain ⟨h1, h2⟩ := hseg.before.2.1 x ok (hall _ hm rfl)
    subst h1
    exact ⟨rfl, hsub.subset h2⟩
  · obtain ⟨-, -, -, -, -, seg, hseg, hsub, hall⟩ := hlog.pair_seg ⟨_, hm, rfl⟩
    obtain ⟨-, h1, h2⟩ := hseg.before.2.2.1 f (hall _ hm rfl)
    exact ⟨hsub.subset h1, hsub.subset h2⟩
  · obtain ⟨-, -, -, -, -, seg, hseg, hsub, hall⟩ := hlog.pair_seg ⟨_, hm, rfl⟩
    obtain ⟨h1, h2⟩ := hseg.after_failure.1 x (hall _ hm rfl)
    exact ⟨fun y ok h => h1 y ok (hall _ h rfl), fun f h => h2 f (hall _ h rfl),
      fun h => h2 true (hall _ (mem_fusedPairs.mp h) rfl)⟩
  · obtain ⟨-, -, -, -, -, seg, hseg, hsub, hall⟩ := hlog.pair_seg ⟨_, hm, rfl⟩
    have h2 := hseg.after_failure.2.1 x (hall _ hm rfl)
    exact ⟨fun f h => h2 f (hall _ h rfl), fun h => h2 true (hall _ (mem_fusedPairs.mp h) rfl)⟩

/-- Two example tracks with all-zero covariance cannot be fused. -/
theorem example_zero_cov_fusion_fails (s x : ℝ) :
    MergeTracks.smooth 16 Real.sqrt exampleLocals (exampleTrack 16 s (fun _ => 0) x)
      (exampleTrack 256 s (fun _ => 0) x)
      = some (true, (exampleLocals : MergeLocals ℝ).trackParam,
          (exampleLocals : MergeLocals ℝ).trackCovar,
          (exampleLocals : MergeLocals ℝ).trackChi2,
          (exampleLocals : MergeLocals ℝ).trackNDF) :=
  MergeTracks.smooth_zero 16 (by decide) Real.sqrt exampleLocals _ _ (fun _ _ => rfl)
    (fun _ _ => rfl)

/-- Two example tracks with covariance `2 I` can be fused. -/
theorem example_diag_cov_fusion_succeeds (s x : ℝ) :
    ∃ P C chi ndf, MergeTracks.smooth 16 Real.sqrt exampleLocals
      (exampleTrack 16 s (diagPacked5 2) x) (exampleTrack 256 s (diagPacked5 2) x)
      = some (false, P, C, chi, ndf) :=
  MergeTracks.smooth_diag 16 (by decide) exampleLocals _ _ 2
    (lt_trans ZERO_lt_one (by norm_num)) rfl rfl

/-- Instance of C16: on the example pair with all-zero covariances the fusion fails,
the pair is not among the fused pairs and `Merge` returns `kTRUE`. -/
theorem Merge_fusion_failure_is_local_witness :
    (15 < 16 ∧ (exampleEvent [exampleTrack 16 0 (fun _ => (0 : ℝ)) 0,
        exampleTrack 256 0 (fun _ => 0) 0]).fNTracks < 16) ∧
    ∃ ev1 log, Merge 16 Real.sqrt (exampleEnv : Env ℝ Unit) Merger.default exampleLocals
        (some (exampleEvent [exampleTrack 16 0 (fun _ => (0 : ℝ)) 0,
          exampleTrack 256 0 (fun _ => 0) 0])) = some (true, some ev1, log) ∧
      MergeCall.fuse 0 1 false ∈ log ∧ (0, 1) ∉ fusedPairs log ∧
      ev1.fNTracks = 2 + (fusedPairs log).length := by
  refine ⟨⟨by decide, by decide⟩, ?_⟩
  obtain ⟨-, ev1, log, h1, h2, h3, -, -⟩ := Merge_fusion_failure_is_local 16 (by decide)
    (exampleEnv : Env ℝ Unit) Merger.default exampleLocals
    (exampleEvent [exampleTrack 16 0 (fun _ => (0 : ℝ)) 0, exampleTrack 256 0 (fun _ => 0) 0])
    (by decide)
  obtain ⟨ev2, hrun, -⟩ := example_run_pair Real.sqrt 0 (fun _ => (0 : ℝ)) true _ _ _ _
    (example_zero_cov_fusion_fails 0 85)
  have hlog := congrArg (fun r => r.2.2) (Option.some.inj (h1.symm.trans hrun))
  dsimp only at hlog
  have hmem : MergeCall.fuse 0 1 false ∈ log := by rw [hlog]; simp
  exact ⟨ev1, log, h1, hmem, h2 0 1 hmem, h3⟩

/-- Instance of C18: on the example pair with covariances `2 I` the gate accepts and
both tracks are sent to the merging radius. -/
theorem Merge_merge_radius_step_witness :
    (15 < 16 ∧ (exampleEvent [exampleTrack 16 0 (diagPacked5 (2 : ℝ)) 0,
        exampleTrack 256 0 (diagPacked5 2) 0]).fNTracks < 16) ∧
    ∃ ev1 log, Merge 16 Real.sqrt (exampleEnv : Env ℝ Unit) Merger.default exampleLocals
        (some (exampleEvent [exampleTrack 16 0 (diagPacked5 (2 : ℝ)) 0,
          exampleTrack 256 0 (diagPacked5 2) 0])) = some (true, some ev1, log) ∧
      MergeCall.gate 0 1 true ∈ log ∧
      MergeCall.mergeRadiusA 0 1 85 true ∈ log ∧ MergeCall.mergeRadiusB 0 1 85 true ∈ log := by
  refine ⟨⟨by decide, by decide⟩, ?_⟩
  obtain ⟨ev1, log, h1, -, -, -, h2, -, -, -⟩ := Merge_merge_radius_step 16 (by decide)
    (exampleEnv : Env ℝ Unit) Merger.default exampleLocals
    (exampleEvent [exampleTrack 16 0 (diagPacked5 (2 : ℝ)) 0,
      exampleTrack 256 0 (diagPacked5 2) 0]) (by decide)
  obtain ⟨P, C, chi, ndf, hs⟩ := example_diag_cov_fusion_succeeds 0 85
  obtain ⟨ev2, hrun, -⟩ := example_run_pair Real.sqrt 0 (diagPacked5 (2 : ℝ)) false P C chi ndf hs
  have hlog := congrArg (fun r => r.2.2) (Option.some.inj (h1.symm.trans hrun))
  dsimp only at hlog
  have hmem : MergeCall.fuse 0 1 true ∈ log := by rw [hlog]; simp
  have hg : MergeCall.gate 0 1 true ∈ log := by rw [hlog]; simp
  have h3 := h2 0 1 true hmem
  have hr : (exampleEvent [exampleTrack 16 0 (diagPacked5 (2 : ℝ)) 0,
      exampleTrack 256 0 (diagPacked5 2) 0]).firstTPCPoint 0 = 85 := rfl
  rw [hr] at h3
  exact ⟨ev1, log, h1, hg, h3.1, h3.2⟩

/-- C19: no exclusivity in matching.  For every event, propagator and gate, `Merge`
(fuel above 15 and above the number of tracks) appends one track for each successful
fusion of its record, in program order: the count grows by the number of fused pairs,
and the `k`-th appended track has status `kGlobalMerge`, the label and the TPC
identification of the TPC track and the TRD identification of the TRD track of the
`k`-th fused pair.  The fused pairs are the pairs with a successful fusion in the record
and come in strictly increasing order, first by TPC index, then by TRD index; nothing
limits how many of them share a TPC index or a TRD index. -/
theorem Merge_appends_one_track_per_fused_pair {V : Type} (fuel : Nat) (hf : 15 < fuel)
    (env : Env ℝ V) (m : Merger ℝ) (loc : MergeLocals ℝ) (ev : ESDEvent ℝ)
    (hn : ev.fNTracks < fuel) :
    ∃ ev1 log, Merge fuel Real.sqrt env m loc (some ev) = some (true, some ev1, log) ∧
      ev1.fNTracks = ev.fNTracks + (fusedPairs log).length ∧
      (∀ k p, (fusedPairs log)[k]? = some p →
        ∃ tk tpc trd, ev.fTracks p.1 = some tpc ∧ ev.fTracks p.2 = some trd ∧
          ev1.fTracks (ev.fNTracks + k) = some tk ∧
          tk.fFlags = env.kGlobalMerge ∧ tk.fLabel = tpc.fLabel ∧
          (∀ s, s < env.kSPECIES → tk.fTPCr s = tpc.fTPCr s) ∧
          (∀ s, s < env.kSPECIES → tk.fTRDr s = trd.fTRDr s)) ∧
      (∀ i j, (i, j) ∈ fusedPairs log ↔ MergeCall.fuse i j true ∈ log) ∧
      (fusedPairs log).Pairwise (fun p q => p.1 < q.1 ∨ (p.1 = q.1 ∧ p.2 < q.2)) := by
  obtain ⟨ev1, log, hrun, hInv, hlog⟩ := Merge_spec fuel hf env m loc ev hn
  refine ⟨ev1, log, hrun, hInv.2.2.1, fun k p hp => ?_, fun i j => mem_fusedPairs,
    (TrackLog.fusedPairs_sorted _ log hlog).2⟩
  obtain ⟨tk, htk, tpc, trd, P, C, chi, ndf, h1, h2, -, rfl⟩ := hInv.2.2.2 k p hp
  obtain ⟨tpc0, e1, ho1, rfl⟩ := h1.some_left
  obtain ⟨trd0, e2, ho2, rfl⟩ := h2.some_left
  obtain ⟨g1, g2, -, -, -, -, -, g8, g9⟩ :=
    MergeTracks.newTrack_fields env (tpc0.withExt e1) (trd0.withExt e2) P C chi
  exact ⟨_, tpc0, trd0, ho1, ho2, htk, g1, g2, g8, g9⟩

/-- Instance of C19: on the example event of one TPC track and two TRD tracks of slope 0
the TPC track is fused with both TRD tracks and two tracks are appended. -/
theorem Merge_appends_one_track_per_fused_pair_witness :
    (15 < 16 ∧ (exampleEvent [exampleTrack 16 0 (diagPacked5 (2 : ℝ)) 0,
        exampleTrack 256 0 (diagPacked5 2) 0, exampleTrack 256 0 (diagPacked5 2) 0]).fNTracks < 16) ∧
    ∃ ev1 log, Merge 16 Real.sqrt (exampleEnv : Env ℝ Unit) Merger.default exampleLocals
        (some (exampleEvent [exampleTrack 16 0 (diagPacked5 (2 : ℝ)) 0,
          exampleTrack 256 0 (diagPacked5 2) 0, exampleTrack 256 0 (diagPacked5 2) 0]))
          = some (true, some ev1, log) ∧
      fusedPairs log = [(0, 1), (0, 2)] ∧ ev1.fNTracks = 3 + 2 := by
  refine ⟨⟨by decide, by decide⟩, ?_⟩
  obtain ⟨ev1, log, h1, h2, -, -, -⟩ := Merge_appends_one_track_per_fused_pair 16 (by decide)
    (exampleEnv : Env ℝ Unit) Merger.default exampleLocals
    (exampleEvent [exampleTrack 16 0 (diagPacked5 (2 : ℝ)) 0,
      exampleTrack 256 0 (diagPacked5 2) 0, exampleTrack 256 0 (diagPacked5 2) 0]) (by decide)
  obtain ⟨P, C, chi, ndf, hs⟩ := example_diag_cov_fusion_succeeds 0 85
  obtain ⟨ev2, hrun, -⟩ := (example_run_three Real.sqrt 0 (diagPacked5 (2 : ℝ)) P C chi ndf hs).2 rfl
  have hlog := congrArg (fun r => r.2.2) (Option.some.inj (h1.symm.trans hrun))
  dsimp only at hlog
  have hfp : fusedPairs log = [(0, 1), (0, 2)] := by rw [hlog]; rfl
  rw [hfp] at h2
  exact ⟨ev1, log, h1, hfp, h2⟩

/-! ## The orchestrator: a single pair, the gate radius, null inputs -/

theorem example_pair_usable (c : Nat → ℝ) :
    (∀ i, i < 2 → (usableTPC (exampleEnv : Env ℝ Unit)
      (exampleEvent [exampleTrack 16 0 c 0, exampleTrack 256 0 c 0]) i ↔ i = 0)) ∧
    (∀ j, j < 2 → (usableTRD (exampleEnv : Env ℝ Unit)
      (exampleEvent [exampleTrack 16 0 c 0, exampleTrack 256 0 c 0]) j ↔ j = 1)) := by
  constructor
  · intro i hi
    interval_cases i
    · refine ⟨fun _ => rfl, fun _ => ⟨_, rfl, ?_⟩⟩
      show (16 : Nat) &&& 16 ≠ 0
      decide
    · refine ⟨fun h => ?_, fun h => absurd h (by decide)⟩
      obtain ⟨t, ht, hfl⟩ := h
      have : t = exampleTrack 256 0 c 0 := (Option.some.inj ht).symm
      subst this
      exact absurd (show (256 : Nat) &&& 16 = 0 by decide) hfl
  · intro j hj
    interval_cases j
    · refine ⟨fun h => ?_, fun h => absurd h (by decide)⟩
      obtain ⟨t, ht, hfl⟩ := h
      have : t = exampleTrack 16 0 c 0 := (Option.some.inj ht).symm
      subst this
      exact absurd (show (16 : Nat) &&& 256 = 0 by decide) hfl
    · refine ⟨fun _ => rfl, fun _ => ⟨_, rfl, ?_⟩⟩
      show (256 : Nat) &&& 256 ≠ 0
      decide

/-- C12 as stated fails: the event holds exactly one usable TPC track and one usable TRD
track (all-zero covariances), every requested propagation succeeds and the gate accepts
the pair, yet `Merge` appends no track, because the fusion fails. -/
theorem Merge_single_pair_zero_covariance_appends_nothing :
    (∃ ev1, Merge 16 Real.sqrt (exampleEnv : Env ℝ Unit) Merger.default exampleLocals
        (some (exampleEvent [exampleTrack 16 0 (fun _ => (0 : ℝ)) 0,
          exampleTrack 256 0 (fun _ => 0) 0]))
      = some (true, some ev1,
          [MergeCall.matchRadiusA 0 285 true, MergeCall.matchRadiusB 0 1 285 true,
           MergeCall.gate 0 1 true, MergeCall.mergeRadiusA 0 1 85 true,
           MergeCall.mergeRadiusB 0 1 85 true, MergeCall.fuse 0 1 false]) ∧
      ev1.fNTracks = 2) ∧
    (∀ i, i < 2 → (usableTPC (exampleEnv : Env ℝ Unit)
      (exampleEvent [exampleTrack 16 0 (fun _ => (0 : ℝ)) 0,
        exampleTrack 256 0 (fun _ => 0) 0]) i ↔ i = 0)) ∧
    (∀ j, j < 2 → (usableTRD (exampleEnv : Env ℝ Unit)
      (exampleEvent [exampleTrack 16 0 (fun _ => (0 : ℝ)) 0,
        exampleTrack 256 0 (fun _ => 0) 0]) j ↔ j = 1)) :=
  ⟨example_run_pair Real.sqrt 0 (fun _ => (0 : ℝ)) true _ _ _ _
      (example_zero_cov_fusion_fails 0 85),
    example_pair_usable _⟩

/-- C12, amended: for an event holding exactly one usable TPC track (index `a`) and one
usable TRD track (index `b`), if in the run of `Merge` every requested propagation
succeeded and the gate accepted (every call of the record other than a fusion returned
true) and no fusion failed, then `Merge` returns `kTRUE`, the fused pairs are just
`(a, b)`, exactly one track is appended, it has status `kGlobalMerge` and it is the
track built by `MergeTracks` from the outputs of a successful call of `SmoothTracks` on
the two tracks, whose `NDF` is `5 + 5 + 5`. -/
theorem Merge_single_pair {V : Type} (fuel : Nat) (hf : 15 < fuel) (env : Env ℝ V)
    (m : Merger ℝ) (loc : MergeLocals ℝ) (ev : ESDEvent ℝ) (hn : ev.fNTracks < fuel)
    (a b : Nat) (ha : a < ev.fNTracks) (hb : b < ev.fNTracks)
    (hA : ∀ i, i < ev.fNTracks → (usableTPC env ev i ↔ i = a))
    (hB : ∀ j, j < ev.fNTracks → (usableTRD env ev j ↔ j = b))
    (res : Bool) (ev1 : ESDEvent ℝ) (log : List (MergeCall ℝ))
    (hrun : Merge fuel Real.sqrt env m loc (some ev) = some (res, some ev1, log))
    (hok : ∀ c ∈ log, c.outcome = true ∨ ∃ i j, c = MergeCall.fuse i j false)
    (hfuse : ∀ i j, MergeCall.fuse i j false ∉ log) :
    res = true ∧ fusedPairs log = [(a, b)] ∧ ev1.fNTracks = ev.fNTracks + 1 ∧
    ∃ tk tpc trd P C chi ndf,
      ev1.fTracks ev.fNTracks = some tk ∧ tk.fFlags = env.kGlobalMerge ∧
      SameButExt (ev.fTracks a) (some tpc) ∧ SameButExt (ev.fTracks b) (some trd) ∧
      MergeTracks.smooth fuel Real.sqrt loc tpc trd = some (false, P, C, chi, ndf) ∧
      ndf = 5 + 5 + 5 ∧ tk = MergeTracks.newTrack env tpc trd P C chi := by
  obtain ⟨ev2, log2, hrun2, hInv, hlog⟩ := Merge_spec fuel hf env m loc ev hn
  have heq := Option.some.inj (hrun.symm.trans hrun2)
  simp only [Prod.mk.injEq, Option.some.injEq] at heq
  obtain ⟨hres, hev, hl⟩ := heq
  subst hres hev hl
  have htrue : ∀ c ∈ log, c.outcome = true := by
    intro c hc
    rcases hok c hc with h | ⟨i, j, rfl⟩
    · exact h
    · exact absurd hc (hfuse i j)
  -- the fusion of the pair (a, b) is in the record
  obtain ⟨okA, hmA⟩ := hlog.track_visited ha ((hA a ha).mpr rfl)
  have hokA : okA = true := htrue _ hmA
  subst hokA
  obtain ⟨seg, hseg, hsub⟩ := hlog.pair_visited hmA hb ((hB b hb).mpr rfl)
  have hfab : MergeCall.fuse a b true ∈ log := by
    rcases hseg with rfl | rfl | rfl | rfl | ⟨f, rfl⟩
    · exact absurd (htrue _ (hsub.subset (List.mem_singleton_self _))) (by simp [MergeCall.outcome])
    · have := htrue (MergeCall.gate a b false) (hsub.subset (by simp))
      simp [MergeCall.outcome] at this
    · have := htrue (MergeCall.mergeRadiusA a b (ev.firstTPCPoint a) false)
        (hsub.subset (by simp))
      simp [MergeCall.outcome] at this
    · have := htrue (MergeCall.mergeRadiusB a b (ev.firstTPCPoint a) false)
        (hsub.subset (by simp))
      simp [MergeCall.outcome] at this
    · have hf1 := htrue (MergeCall.fuse a b f) (hsub.subset (by simp))
      simp only [MergeCall.outcome] at hf1
      subst hf1
      exact hsub.subset (by simp)
  -- and it is the only successful one
  have hall : ∀ p ∈ fusedPairs log, p = (a, b) := by
    rintro ⟨i, j⟩ hp
    obtain ⟨hi, hj, huA, huB, -⟩ := hlog.pair_seg ⟨_, mem_fusedPairs.mp hp, rfl⟩
    rw [(hA i hi).mp huA, (hB j hj).mp huB]
  have hnodup : (fusedPairs log).Nodup :=
    (TrackLog.fusedPairs_sorted _ log hlog).2.imp (fun {p q} h heq => by
      subst heq
      rcases h with h | ⟨-, h⟩ <;> exact lt_irrefl _ h)
  have hfp : fusedPairs log = [(a, b)] :=
    eq_singleton_of_nodup hnodup hall (mem_fusedPairs.mpr hfab)
  have hcount := hInv.2.2.1
  rw [hfp] at hcount
  obtain ⟨tk, htk, tpc, trd, P, C, chi, ndf, h1, h2, hs, rfl⟩ :=
    hInv.2.2.2 0 (a, b) (by rw [hfp]; rfl)
  obtain ⟨e, P1, C1, chi1, ndf1, hs1, -, hndf⟩ := MergeTracks.smooth_spec fuel hf loc tpc trd
  rw [hs] at hs1
  simp only [Option.some.injEq, Prod.mk.injEq] at hs1
  obtain ⟨he, -, -, -, hn1⟩ := hs1
  have hndf2 : ndf = 5 + 5 + 5 := by
    rw [hn1]
    exact hndf he.symm
  exact ⟨rfl, hfp, hcount, _, tpc, trd, P, C, chi, ndf, htk,
    (MergeTracks.newTrack_fields env tpc trd P C chi).1, h1, h2, hs, hndf2, rfl⟩

/-- Instance of C12 (amended): the example pair with covariances `2 I`. -/
theorem Merge_single_pair_witness :
    ∃ ev1, Merge 16 Real.sqrt (exampleEnv : Env ℝ Unit) Merger.default exampleLocals
        (some (exampleEvent [exampleTrack 16 0 (diagPacked5 (2 : ℝ)) 0,
          exampleTrack 256 0 (diagPacked5 2) 0]))
      = some (true, some ev1,
          [MergeCall.matchRadiusA 0 285 true, MergeCall.matchRadiusB 0 1 285 true,
           MergeCall.gate 0 1 true, MergeCall.mergeRadiusA 0 1 85 true,
           MergeCall.mergeRadiusB 0 1 85 true, MergeCall.fuse 0 1 true]) ∧
      ev1.fNTracks = 2 + 1 ∧
      ∃ tk, ev1.fTracks 2 = some tk ∧ tk.fFlags = 134217728 := by
  obtain ⟨P, C, chi, ndf, hs⟩ := example_diag_cov_fusion_succeeds 0 85
  obtain ⟨ev1, hrun, -⟩ := example_run_pair Real.sqrt 0 (diagPacked5 (2 : ℝ)) false P C chi ndf hs
  obtain ⟨-, -, h3, tk, -, -, -, -, -, -, h4, h5, -⟩ := Merge_single_pair 16 (by decide)
    (exampleEnv : Env ℝ Unit) Merger.default exampleLocals
    (exampleEvent [exampleTrack 16 0 (diagPacked5 (2 : ℝ)) 0, exampleTrack 256 0 (diagPacked5 2) 0])
    (by decide) 0 1 (by decide) (by decide) (example_pair_usable _).1 (example_pair_usable _).2
    true ev1 _ hrun (by simp [MergeCall.outcome]) (by simp)
  exact ⟨ev1, hrun, h3, tk, h4, h5⟩

/-- C14 fails in the code: the gate is also evaluated with the TPC track at the merging
radius.  Event: one TPC track and two identical TRD tracks, all straight tracks of slope
`1/10` at `x = 0` with covariance `2 I`; straight-line propagator that always succeeds;
default gate.  The first TRD track is accepted and fused, which leaves the TPC track at
the merging radius `x = 85`.  The round of the inner loop for the second TRD track
starts from that state: the TRD track is sent to 285 and the gate is evaluated with the
TPC track still at 85, without a propagation of the TPC track in between, and rejects
the second TRD track although it is identical to the first. -/
theorem Merge_gate_sees_track_at_merge_radius :
    ∃ P C chi,
      Merge.pairStep 16 Real.sqrt (exampleEnv : Env ℝ Unit) Merger.default exampleLocals 0 85
          (2, exampleEvent [exampleTrack 16 (1 / 10) (diagPacked5 2) 85,
              exampleTrack 256 (1 / 10) (diagPacked5 2) 85,
              exampleTrack 256 (1 / 10) (diagPacked5 2) 0,
              MergeTracks.newTrack exampleEnv (exampleTrack 16 (1 / 10) (diagPacked5 2) 85)
                (exampleTrack 256 (1 / 10) (diagPacked5 2) 85) P C chi],
            [MergeCall.matchRadiusA 0 285 true, MergeCall.matchRadiusB 0 1 285 true,
             MergeCall.gate 0 1 true, MergeCall.mergeRadiusA 0 1 85 true,
             MergeCall.mergeRadiusB 0 1 85 true, MergeCall.fuse 0 1 true])
        = some (3, exampleEvent [exampleTrack 16 (1 / 10) (diagPacked5 2) 85,
              exampleTrack 256 (1 / 10) (diagPacked5 2) 85,
              exampleTrack 256 (1 / 10) (diagPacked5 2) 285,
              MergeTracks.newTrack exampleEnv (exampleTrack 16 (1 / 10) (diagPacked5 2) 85)
                (exampleTrack 256 (1 / 10) (diagPacked5 2) 85) P C chi],
            [MergeCall.matchRadiusA 0 285 true, MergeCall.matchRadiusB 0 1 285 true,
             MergeCall.gate 0 1 true, MergeCall.mergeRadiusA 0 1 85 true,
             MergeCall.mergeRadiusB 0 1 85 true, MergeCall.fuse 0 1 true,
             MergeCall.matchRadiusB 0 2 285 true, MergeCall.gate 0 2 false]) ∧
      ∃ ev1, Merge 16 Real.sqrt (exampleEnv : Env ℝ Unit) Merger.default exampleLocals
          (some (exampleEvent [exampleTrack 16 (1 / 10) (diagPacked5 2) 0,
            exampleTrack 256 (1 / 10) (diagPacked5 2) 0,
            exampleTrack 256 (1 / 10) (diagPacked5 2) 0]))
        = some (true, some ev1,
            [MergeCall.matchRadiusA 0 285 true, MergeCall.matchRadiusB 0 1 285 true,
             MergeCall.gate 0 1 true, MergeCall.mergeRadiusA 0 1 85 true,
             MergeCall.mergeRadiusB 0 1 85 true, MergeCall.fuse 0 1 true,
             MergeCall.matchRadiusB 0 2 285 true, MergeCall.gate 0 2 false]) ∧
        ev1.fNTracks = 4 := by
  obtain ⟨P, C, chi, ndf, hs⟩ := example_diag_cov_fusion_succeeds (1 / 10) 85
  exact ⟨P, C, chi,
    (example_run_three Real.sqrt (1 / 10) (diagPacked5 (2 : ℝ)) P C chi ndf hs).1 (by norm_num)⟩

/-- C15: null inputs.  `Merge` on a null event returns `kFALSE` and makes no call; each
overload of `LoadTracks` on a null collection returns `kFALSE` and leaves the event as
it was (and has no collection to touch).  On a non-null event, `Merge` returns `kTRUE`;
on a non-null collection, whatever the event pointer, each overload of `LoadTracks`
returns `kTRUE` (fuel above 15 and above the number of tracks or entries). -/
theorem null_input_returns_false {V TRD TPC : Type} (fuel : Nat) (hf : 15 < fuel)
    (env : Env ℝ V) (m : Merger ℝ) (loc : MergeLocals ℝ) (ops : IngestOps ℝ TRD TPC)
    (esdEvent : Option (ESDEvent ℝ)) :
    Merge fuel Real.sqrt env m loc none = some (false, none, []) ∧
    LoadTracksTRD fuel env ops none esdEvent = some (false, esdEvent) ∧
    LoadTracksTPC fuel env ops none esdEvent = some (false, none, esdEvent) ∧
    (∀ ev : ESDEvent ℝ, ev.fNTracks < fuel →
      ∃ ev1 log, Merge fuel Real.sqrt env m loc (some ev) = some (true, some ev1, log)) ∧
    (∀ arr : TrackArray TRD, arr.entries < fuel →
      ∃ ev1, LoadTracksTRD fuel env ops (some arr) esdEvent = some (true, ev1)) ∧
    (∀ arr : TrackArray TPC, arr.entries < fuel →
      ∃ arr1 ev1, LoadTracksTPC fuel env ops (some arr) esdEvent = some (true, arr1, ev1)) := by
  refine ⟨rfl, rfl, rfl, fun ev hn => ?_, fun arr h => LoadTracksTRD_some fuel env ops arr esdEvent h,
    fun arr h => LoadTracksTPC_some fuel env ops arr esdEvent h⟩
  obtain ⟨ev1, log, hrun, -, -⟩ := Merge_spec fuel hf env m loc ev hn
  exact ⟨ev1, log, hrun⟩

/-- Instance of C15 with the example collaborators: null inputs, and a collection of
two entries loaded into an empty event. -/
theorem null_input_returns_false_witness :
    15 < 16 ∧
    Merge 16 Real.sqrt (exampleEnv : Env ℝ Unit) Merger.default exampleLocals none
      = some (false, none, []) ∧
    LoadTracksTRD 16 (exampleEnv : Env ℝ Unit) exampleOps none (some (exampleEvent []))
      = some (false, some (exampleEvent [])) ∧
    LoadTracksTPC 16 (exampleEnv : Env ℝ Unit) exampleOps none (some (exampleEvent []))
      = some (false, none, some (exampleEvent [])) ∧
    (∃ ev1, LoadTracksTRD 16 (exampleEnv : Env ℝ Unit) exampleOps
      (some { At := fun _ => some (), entries := 2 }) (some (exampleEvent [])) = some (true, ev1)) := by
  obtain ⟨h1, h2, h3, -, h5, -⟩ := null_input_returns_false 16 (by decide)
    (exampleEnv : Env ℝ Unit) Merger.default exampleLocals (exampleOps : IngestOps ℝ Unit Unit)
    (some (exampleEvent []))
  exact ⟨by decide, h1, h2, h3, h5 { At := fun _ => some (), entries := 2 } (by decide)⟩

/-! ## Further instances on the example inputs -/

/-- The turn of a usable TPC track whose propagation to the matching radius fails. -/
theorem Merge.trackStep_failed {V : Type} (fuel : Nat) (sqrt : F → F) (env : Env F V)
    (m : Merger F) (loc : MergeLocals F) (n i : Nat) (cur : ESDEvent F)
    (log : List (MergeCall F)) (t : ESDtrack F) (ht : cur.fTracks i = some t)
    (hfl : t.fFlags &&& env.kTPCin ≠ 0)
    (hp : (ESDEvent.PropagateTrackTo env cur i 285).1 = false) :
    Merge.trackStep fuel sqrt env m loc n (i, cur, log)
      = some (i + 1, (ESDEvent.PropagateTrackTo env cur i 285).2,
          log ++ [MergeCall.matchRadiusA i 285 false]) := by
  simp only [Merge.trackStep, ht]
  rw [if_neg hfl, if_pos hp, hp]

/-- The run of `Merge` on the example pair with the propagator that always fails: the
only call is the failed propagation of the TPC track. -/
theorem example_run_failing (sqrt : F → F) (c : Nat → F) :
    ∃ ev1, Merge 16 sqrt (failingEnv : Env F Unit) Merger.default exampleLocals
        (some (exampleEvent [exampleTrack 16 0 c 0, exampleTrack 256 0 c 0]))
      = some (true, some ev1, [MergeCall.matchRadiusA 0 285 false]) := by
  have houter := whileLoop_trace
    (fun ((iTrack, _, _) : Nat × ESDEvent F × List (MergeCall F)) => decide (iTrack < 2))
    (Merge.trackStep 16 sqrt (failingEnv : Env F Unit) Merger.default exampleLocals 2) 2 16
    (fun k => if k = 0 then
        (exampleEvent [exampleTrack 16 0 c 0, exampleTrack 256 0 c 0], [])
      else
        ((ESDEvent.PropagateTrackTo (failingEnv : Env F Unit)
            (exampleEvent [exampleTrack 16 0 c 0, exampleTrack 256 0 c 0]) 0 285).2,
          [] ++ [MergeCall.matchRadiusA 0 285 false]))
    (fun _ _ => rfl)
    (fun k hk => by
      interval_cases k
      · exact Merge.trackStep_failed 16 sqrt (failingEnv : Env F Unit) Merger.default
          exampleLocals 2 0 _ [] (exampleTrack 16 0 c 0) rfl
          (show (16 : Nat) &&& 16 ≠ 0 by decide) rfl
      · exact Merge.trackStep_skip 16 sqrt (failingEnv : Env F Unit) Merger.default
          exampleLocals 2 1 _ _ (exampleTrack 256 0 c 0) rfl
          (show (256 : Nat) &&& 16 = 0 by decide))
    (by decide)
  exact ⟨_, (congrArg (fun o => Option.bind o _) houter).trans rfl⟩

/-- Instance of C13: with the propagator that always fails, the failed propagation of
the TPC track is the only call of the run, nothing is fused or appended, and `Merge`
returns `kTRUE`. -/
theorem Merge_skips_failed_tpc_track_witness :
    (15 < 16 ∧ (exampleEvent [exampleTrack 16 0 (fun _ => (0 : ℝ)) 0,
        exampleTrack 256 0 (fun _ => 0) 0]).fNTracks < 16) ∧
    ∃ ev1 log, Merge 16 Real.sqrt (failingEnv : Env ℝ Unit) Merger.default exampleLocals
        (some (exampleEvent [exampleTrack 16 0 (fun _ => (0 : ℝ)) 0,
          exampleTrack 256 0 (fun _ => 0) 0])) = some (true, some ev1, log) ∧
      MergeCall.matchRadiusA 0 285 false ∈ log ∧
      (∀ c ∈ log, c.tpcIndex = 0 → c = MergeCall.matchRadiusA 0 285 false) ∧
      (∀ j, (0, j) ∉ fusedPairs log) ∧ ev1.fNTracks = 2 + (fusedPairs log).length := by
  refine ⟨⟨by decide, by decide⟩, ?_⟩
  obtain ⟨ev1, log, h1, -, h2, -, h3⟩ := Merge_skips_failed_tpc_track 16 (by decide)
    (failingEnv : Env ℝ Unit) Merger.default exampleLocals
    (exampleEvent [exampleTrack 16 0 (fun _ => (0 : ℝ)) 0, exampleTrack 256 0 (fun _ => 0) 0])
    (by decide)
  obtain ⟨ev2, hrun⟩ := example_run_failing Real.sqrt (fun _ => (0 : ℝ))
  have hlog := congrArg (fun r => r.2.2) (Option.some.inj (h1.symm.trans hrun))
  dsimp only at hlog
  have hmem : MergeCall.matchRadiusA 0 285 false ∈ log := by rw [hlog]; simp
  exact ⟨ev1, log, h1, hmem, (h2 0 285 hmem).1, (h2 0 285 hmem).2, h3⟩

/-- Instance of C17: two example tracks with covariance `2 I` at the merging radius are
fused, and the track appended to an event of two tracks is tagged `kGlobalMerge`. -/
theorem MergeTracks_appends_merged_track_witness :
    (15 < 16) ∧ ∃ P C chi ndf,
      MergeTracks.smooth 16 Real.sqrt exampleLocals (exampleTrack 16 0 (diagPacked5 2) 85)
        (exampleTrack 256 0 (diagPacked5 2) 85) = some (false, P, C, chi, ndf) ∧
      ∃ t ev1,
        MergeTracks 16 Real.sqrt (exampleEnv : Env ℝ Unit) exampleLocals
          (some (exampleTrack 16 0 (diagPacked5 2) 85))
          (some (exampleTrack 256 0 (diagPacked5 2) 85))
          (exampleEvent [exampleTrack 16 0 (diagPacked5 2) 85,
            exampleTrack 256 0 (diagPacked5 2) 85]) = some (true, ev1) ∧
        ev1.fNTracks = 2 + 1 ∧ ev1.fTracks 2 = some t ∧ t.fFlags = 134217728 ∧
        ev1.fTracks 0 = some (exampleTrack 16 0 (diagPacked5 2) 85) ∧
        ev1.fTracks 1 = some (exampleTrack 256 0 (diagPacked5 2) 85) := by
  refine ⟨by decide, ?_⟩
  obtain ⟨err, P, C, chi, ndf, hs, h⟩ := MergeTracks_appends_merged_track 16 (by decide)
    (exampleEnv : Env ℝ Unit) exampleLocals (exampleTrack 16 0 (diagPacked5 2) 85)
    (exampleTrack 256 0 (diagPacked5 2) 85)
    (exampleEvent [exampleTrack 16 0 (diagPacked5 2) 85, exampleTrack 256 0 (diagPacked5 2) 85])
  obtain ⟨P1, C1, chi1, ndf1, hs1⟩ := example_diag_cov_fusion_succeeds 0 85
  have he : err = false := by
    rw [hs] at hs1
    exact congrArg (fun r => r.1) (Option.some.inj hs1)
  subst he
  obtain ⟨t, ev1, h1, h2, h3, h4, -, h5, -⟩ := h rfl
  exact ⟨P, C, chi, ndf, hs, t, ev1, h1, h2, h3, h5,
    (h4 0 (by decide)).trans rfl, (h4 1 (by decide)).trans rfl⟩

/-- Instance of C20: with the example propagator both tracks of the example pair are
moved to `x = 2.8` and handed to `RelateToVertex`; the count stays 2. -/
theorem PropagateTracksToDCA_per_track_witness :
    (exampleEvent [exampleTrack 16 0 (fun _ => (0 : ℝ)) 0,
      exampleTrack 256 0 (fun _ => 0) 0]).fNTracks < 3 ∧
    PropagateTracksToDCA 3 (exampleEnv : Env ℝ Unit) () none = some none ∧
    ∃ ev1, PropagateTracksToDCA 3 (exampleEnv : Env ℝ Unit) ()
        (some (exampleEvent [exampleTrack 16 0 (fun _ => (0 : ℝ)) 0,
          exampleTrack 256 0 (fun _ => 0) 0])) = some (some ev1) ∧
      ev1.fNTracks = 2 ∧
      ev1.fTracks 0 = some (exampleTrack 16 0 (fun _ => (0 : ℝ)) (28 / 10)) ∧
      ev1.fTracks 1 = some (exampleTrack 256 0 (fun _ => (0 : ℝ)) (28 / 10)) := by
  obtain ⟨h0, ev1, h1, h2, -, -, h3⟩ := PropagateTracksToDCA_per_track 3
    (exampleEnv : Env ℝ Unit) ()
    (exampleEvent [exampleTrack 16 0 (fun _ => (0 : ℝ)) 0, exampleTrack 256 0 (fun _ => 0) 0])
    (by decide)
  refine ⟨by decide, h0, ev1, h1, h2, ?_, ?_⟩
  · rw [((h3 0 (by decide)).2 (exampleTrack 16 0 (fun _ => (0 : ℝ)) 0) rfl).1 rfl]
    exact congrArg some (exampleTrack_withExt 16 0 (fun _ => (0 : ℝ)) 0 (28 / 10) _ 10 false)
  · rw [((h3 1 (by decide)).2 (exampleTrack 256 0 (fun _ => (0 : ℝ)) 0) rfl).1 rfl]
    exact congrArg some (exampleTrack_withExt 256 0 (fun _ => (0 : ℝ)) 0 (28 / 10) _ 10 false)

/-! ## Success of `InvertS` and positive definiteness -/

/-- When all pivots are positive, an array that holds the specified Cholesky factor `L`
of the packed matrix `a` satisfies `a = L x L^T`. -/
theorem toMatrix_eq_lower_mul_transpose (N : Nat) (sqrt : F → F)
    (hsq : ∀ x : F, 0 ≤ x → sqrt x * sqrt x = x) (a L : Nat → F)
    (hall : ∀ c, c < N → 0 < cholPivot sqrt a c)
    (hL : ∀ i k, k ≤ i → i < N → L (tri i + k) = cholCols sqrt a (k + 1) i k) :
    toMatrix N a = toLower N L * (toLower N L).transpose := by
  have key : ∀ i k : Fin N, (k : Nat) ≤ (i : Nat) →
      (toLower N L * (toLower N L).transpose) i k = a (tri i + k) := by
    intro i k hk
    rw [toLower_mul_transpose_apply N L i k hk, ← cholCols_equation sqrt hsq a i k hk
      (hall k k.2)]
    refine Finset.sum_congr rfl fun t ht => ?_
    have ht' : t < (k : Nat) + 1 := Finset.mem_range.mp ht
    rw [hL i t (by omega) i.2, hL k t (by omega) k.2]
  ext i k
  rw [toMatrix_apply]
  by_cases hk : (k : Nat) ≤ (i : Nat)
  · rw [key i k hk, IndexS_of_le hk]
  · have hk' : (i : Nat) ≤ (k : Nat) := by omega
    have hsymm : (toLower N L * (toLower N L).transpose) i k
        = (toLower N L * (toLower N L).transpose) k i := by
      rw [Matrix.mul_apply, Matrix.mul_apply]
      refine Finset.sum_congr rfl fun t _ => ?_
      rw [Matrix.transpose_apply, Matrix.transpose_apply, mul_comm]
    rw [hsymm, key k i hk', IndexS_comm, IndexS_of_le hk']

/-- The quadratic form of `B x B^T` is a sum of squares. -/
theorem dotProduct_mul_transpose_mulVec {n : Type} [Fintype n] (B : Matrix n n ℝ) (x : n → ℝ) :
    Matrix.dotProduct x (Matrix.mulVec (B * B.transpose) x)
      = Matrix.dotProduct (Matrix.mulVec B.transpose x) (Matrix.mulVec B.transpose x) := by
  rw [← Matrix.mulVec_mulVec, Matrix.dotProduct_mulVec, ← Matrix.mulVec_transpose]

/-- A real matrix `B x B^T` with a right inverse is positive definite. -/
theorem posDef_of_mul_transpose {n : Type} [Fintype n] [DecidableEq n] (A B R : Matrix n n ℝ)
    (hA : A = B * B.transpose) (hR : A * R = 1) : A.PosDef := by
  refine ⟨?_, fun x hx => ?_⟩
  · rw [hA]
    show (B * B.transpose).conjTranspose = B * B.transpose
    rw [Matrix.conjTranspose_eq_transpose_of_trivial, Matrix.transpose_mul,
      Matrix.transpose_transpose]
  · rw [star_trivial, hA, dotProduct_mul_transpose_mulVec]
    have hnn : 0 ≤ Matrix.dotProduct (Matrix.mulVec B.transpose x) (Matrix.mulVec B.transpose x) :=
      Finset.sum_nonneg fun i _ => mul_self_nonneg _
    rcases hnn.lt_or_eq with h | h
    · exact h
    · exfalso
      have h0 : Matrix.mulVec B.transpose x = 0 := Matrix.dotProduct_self_eq_zero.mp h.symm
      have hAx : Matrix.mulVec A x = 0 := by
        rw [hA, ← Matrix.mulVec_mulVec, h0, Matrix.mulVec_zero]
      have hRA : R * A = 1 := Matrix.mul_eq_one_comm.mp hR
      have : x = 0 := by
        rw [← Matrix.one_mulVec x, ← hRA, ← Matrix.mulVec_mulVec, hAx, Matrix.mulVec_zero]
      exact hx this

/-- What the flag 0 of `InvertS` means (exact real arithmetic): all pivots of the input
exceed `ZERO`, the output is a right inverse of the input, and the input is positive
definite. -/
theorem InvertS_success (fuel N : Nat) (a R : Nat → ℝ) (hf : N < fuel)
    (h : InvertS fuel Real.sqrt a N = some (false, R)) :
    (∀ c, c < N → cholPivot Real.sqrt a c > ZERO) ∧
    toMatrix N a * toMatrix N R = 1 ∧ (toMatrix N a).PosDef := by
  obtain ⟨ret, R1, hcall, hret, hinv⟩ :=
    InvertS_spec fuel N Real.sqrt (fun _ hx => Real.mul_self_sqrt hx) Real.sqrt_nonneg a hf
  rw [hcall] at h
  simp only [Option.some.injEq, Prod.mk.injEq] at h
  obtain ⟨hr, hR⟩ := h
  subst hr hR
  have hall : ∀ c, c < N → cholPivot Real.sqrt a c > ZERO := by
    intro c hc
    by_contra hbad
    exact absurd (hret.mpr ⟨c, hc, hbad⟩) (by simp)
  obtain ⟨L, ret1, -, -, hL⟩ := factor_spec fuel N Real.sqrt a false hf
  have hA := toMatrix_eq_lower_mul_transpose N Real.sqrt (fun _ hx => Real.mul_self_sqrt hx) a L
    (fun c hc => lt_trans ZERO_pos (hall c hc)) (hL hall)
  exact ⟨hall, hinv rfl, posDef_of_mul_transpose _ _ _ hA (hinv rfl)⟩

/-- C23 as amended: in exact real arithmetic, for every `n` and every packed input,
`InvertS` returns (fuel above `n`), and it returns 0 exactly when every pivot `x_j = a_jj - sum_{k<j} L_jk^2` of the Cholesky
recurrence exceeds `1e-20`; in that case the factorisation block alone leaves the flag
at 0 and the square roots of the pivots exceed `1e-20`, so that the inversion block
does not raise it; and a return value of 0 implies that the input matrix is positive
definite. -/
theorem InvertS_success_iff_pivots (n : Nat) (_hn : 1 ≤ n) (A : Nat → ℝ) (fuel : Nat)
    (hf : n < fuel) :
    ∃ flag R, InvertS fuel Real.sqrt A n = some (flag, R) ∧
      (flag = false ↔ ∀ c, c < n → cholPivot Real.sqrt A c > ZERO) ∧
      (flag = false →
        (∃ L, InvertS.factor fuel Real.sqrt n A false = some (L, false)) ∧
        (∀ c, c < n → Real.sqrt (cholPivot Real.sqrt A c) > ZERO) ∧
        (toMatrix n A).PosDef) := by
  obtain ⟨ret, R, hcall, hret, -⟩ :=
    InvertS_spec fuel n Real.sqrt (fun _ hx => Real.mul_self_sqrt hx) Real.sqrt_nonneg A hf
  refine ⟨ret, R, hcall, ⟨fun h c hc => ?_, fun h => ?_⟩, fun h => ?_⟩
  · by_contra hbad
    rw [hret.mpr ⟨c, hc, hbad⟩] at h
    exact absurd h (by simp)
  · cases hr : ret
    · rfl
    · obtain ⟨c, hc, hbad⟩ := hret.mp hr
      exact absurd (h c hc) hbad
  · subst h
    obtain ⟨hall, -, hpd⟩ := InvertS_success fuel n A R hf hcall
    obtain ⟨L, ret1, hfac, hret1, -⟩ := factor_spec fuel n Real.sqrt A false hf
    have hr1 : ret1 = false := by
      cases hr : ret1
      · rfl
      · rcases hret1.mp hr with h | ⟨c, hc, hbad⟩
        · exact absurd h (by simp)
        · exact absurd (hall c hc) hbad
    subst hr1
    exact ⟨⟨L, hfac⟩, fun c hc => sqrt_gt_ZERO Real.sqrt (fun _ hx => Real.mul_self_sqrt hx)
      Real.sqrt_nonneg _ (hall c hc), hpd⟩

/-- Instance of C23: the matrix `[[4, 2], [2, 5]]` has pivots 4 and 4, and `InvertS`
returns 0 on it. -/
theorem InvertS_success_iff_pivots_witness :
    (1 ≤ 2 ∧ 2 < 3) ∧
    ∃ R, InvertS 3 Real.sqrt (ofList [(4 : ℝ), 2, 5]) 2 = some (false, R) ∧
      (toMatrix 2 (ofList [(4 : ℝ), 2, 5])).PosDef := by
  obtain ⟨flag, R, h1, h2, h3⟩ := InvertS_success_iff_pivots 2 (by decide)
    (ofList [(4 : ℝ), 2, 5]) 3 (by decide)
  have hf : flag = false := h2.mpr example_pivots
  subst hf
  exact ⟨⟨by decide, by decide⟩, R, h1, (h3 rfl).2.2⟩

/-! ## The gate is symmetric -/

/-- C28: for all tracks `a`, `b` (null or not) and all thresholds, `MatchTracks(a, b)`
and `MatchTracks(b, a)` return the same value. -/
theorem MatchTracks_symmetric (m : Merger ℝ) (a b : Option (AliESDtrack ℝ)) :
    MatchTracks m a b = MatchTracks m b a := by
  cases a with
  | none => cases b <;> rfl
  | some a =>
    cases b with
    | none => rfl
    | some b =>
      rw [Bool.eq_iff_iff, MatchTracks_some_iff, MatchTracks_some_iff]
      simp only [abs_sub_comm]

/-! ## Further claims on `SmoothTracks` (exact real arithmetic) -/

/-- C26: with fuel above `N*(N+1)/2` the call of `SmoothTracks` returns, and whenever it
succeeds on states that agree (`T1[k] = T2[k]` for all `k < N`), the merged state is
`T1`: `T[k] = T1[k]` for all `k < N`. -/
theorem SmoothTracks_agreeing_states_unchanged (N fuel : Nat) (hN : 1 ≤ N) (T1 C1 : Nat → ℝ)
    (Chi21 : ℝ) (NDF1 : Int) (T2 C2 : Nat → ℝ) (Chi22 : ℝ) (NDF2 : Int) (T C : Nat → ℝ)
    (Chi2 : ℝ) (NDF : Int) (hf : N * (N + 1) / 2 < fuel) (hT : ∀ k, k < N → T1 k = T2 k) :
    ∃ err T' C' Chi2' NDF',
      SmoothTracks fuel Real.sqrt T1 C1 Chi21 NDF1 T2 C2 Chi22 NDF2 T C Chi2 NDF N
        = some (err, T', C', Chi2', NDF') ∧
      (err = false → ∀ k, k < N → T' k = T1 k) := by
  obtain ⟨err, Ainv, hinv, -, -⟩ := InvertS_sumPacked fuel N C1 C2 hf
  obtain ⟨⟨e, T', C', Chi2', NDF'⟩, hrun, h1, h2⟩ :=
    SmoothTracks_spec fuel N Real.sqrt T1 C1 Chi21 NDF1 T2 C2 Chi22 NDF2 T C Chi2 NDF hf err Ainv hinv
  refine ⟨e, T', C', Chi2', NDF', hrun, fun he k hk => ?_⟩
  cases herr : err
  · obtain ⟨-, h3, -⟩ := h2 herr
    dsimp only at h3
    rw [h3 k hk, hT (N - 1) (by omega), sub_self, mul_zero, sub_zero]
  · have := congrArg Prod.fst (h1 herr)
    dsimp only at this
    rw [this] at he
    exact absurd he (by simp)

/-- Instance of C26: `T1 = T2 = {2, 0}`, `C1 = C2 = {2, 1, 5/2}`; the call succeeds and
returns `T = {2, 0}`. -/
theorem SmoothTracks_agreeing_states_unchanged_witness :
    (1 ≤ 2 ∧ 2 * (2 + 1) / 2 < 4) ∧
    ∃ T' C' Chi2' NDF',
      SmoothTracks 4 Real.sqrt (ofList [2, 0]) (ofList [2, 1, 5 / 2]) 0 0
        (ofList [2, 0]) (ofList [2, 1, 5 / 2]) 0 0 (ofList []) (ofList []) 0 0 2
        = some (false, T', C', Chi2', NDF') ∧
      T' 0 = 2 ∧ T' 1 = 0 := by
  obtain ⟨err, T', C', Chi2', NDF', hrun, h⟩ := SmoothTracks_agreeing_states_unchanged 2 4
    (by decide) (ofList [2, 0]) (ofList [2, 1, 5 / 2]) 0 0 (ofList [2, 0]) (ofList [2, 1, 5 / 2])
    0 0 (ofList []) (ofList []) 0 0 (by decide) (fun _ _ => rfl)
  obtain ⟨Ainv, out, hout, he, -⟩ := SmoothTracks_equal_cov 4 2 (ofList [2, 0])
    (ofList [2, 1, 5 / 2]) 0 0 (ofList [2, 0]) 0 0 (ofList []) (ofList []) 0 0 (by decide)
    example_sum_pivots
  rw [hrun] at hout
  have herr : err = false := by
    rw [← Option.some.inj hout] at he
    exact he
  subst herr
  refine ⟨⟨by decide, by decide⟩, T', C', Chi2', NDF', hrun, ?_, ?_⟩
  · rw [h rfl 0 (by decide)]; simp [ofList]
  · rw [h rfl 1 (by decide)]; simp [ofList]

/-- C24 as amended: in exact real arithmetic, with fuel above `N*(N+1)/2` the call of
`SmoothTracks` returns, and whenever it succeeds the residual term `r^T * inverse(C1+C2) * r` (with `r = T1 - T2`) is
non-negative, the output `Chi2` is at least `Chi21 + Chi22`, and it is equal to
`Chi21 + Chi22` when `T1[k] = T2[k]` for all `k < N`. -/
theorem SmoothTracks_chi2_not_decreased (N fuel : Nat) (_hN : 1 ≤ N) (T1 C1 : Nat → ℝ)
    (Chi21 : ℝ) (NDF1 : Int) (T2 C2 : Nat → ℝ) (Chi22 : ℝ) (NDF2 : Int) (T C : Nat → ℝ)
    (Chi2 : ℝ) (NDF : Int) (hf : N * (N + 1) / 2 < fuel) :
    ∃ err T' C' Chi2' NDF',
      SmoothTracks fuel Real.sqrt T1 C1 Chi21 NDF1 T2 C2 Chi22 NDF2 T C Chi2 NDF N
        = some (err, T', C', Chi2', NDF') ∧
      (err = false →
        0 ≤ Matrix.dotProduct (fun i : Fin N => T1 i - T2 i)
              (Matrix.mulVec (toMatrix N C1 + toMatrix N C2)⁻¹ (fun i : Fin N => T1 i - T2 i)) ∧
        Chi21 + Chi22 ≤ Chi2' ∧
        ((∀ k, k < N → T1 k = T2 k) → Chi2' = Chi21 + Chi22)) := by
  obtain ⟨err, Ainv, hinv, -, hmat⟩ := InvertS_sumPacked fuel N C1 C2 hf
  obtain ⟨⟨e, T', C', Chi2', NDF'⟩, hrun, h1, h2⟩ :=
    SmoothTracks_spec fuel N Real.sqrt T1 C1 Chi21 NDF1 T2 C2 Chi22 NDF2 T C Chi2 NDF hf err Ainv hinv
  refine ⟨e, T', C', Chi2', NDF', hrun, fun he => ?_⟩
  cases herr : err
  · subst herr
    obtain ⟨-, -, -, -, -, h6, -⟩ := h2 rfl
    dsimp only at h6
    obtain ⟨-, -, hpd⟩ := InvertS_success fuel N (sumPacked N C1 C2) Ainv
      (lt_of_le_of_lt (le_tri N) hf) hinv
    rw [toMatrix_sumPacked] at hpd
    have hnn : 0 ≤ Matrix.dotProduct (fun i : Fin N => T1 i - T2 i)
        (Matrix.mulVec (toMatrix N C1 + toMatrix N C2)⁻¹ (fun i : Fin N => T1 i - T2 i)) :=
      hpd.inv.posSemidef.2 _
    have hchi : Chi2' = Chi21 + Chi22 + Matrix.dotProduct (fun i : Fin N => T1 i - T2 i)
        (Matrix.mulVec (toMatrix N C1 + toMatrix N C2)⁻¹ (fun i : Fin N => T1 i - T2 i)) := by
      rw [h6, chi2Packed_eq_dotProduct, (hmat rfl).2]
    refine ⟨hnn, by rw [hchi]; linarith, fun hT => ?_⟩
    have hr : (fun i : Fin N => T1 i - T2 i) = 0 := by
      funext i
      exact sub_eq_zero.mpr (hT i i.2)
    rw [hchi, hr, Matrix.zero_dotProduct, add_zero]
  · have := congrArg Prod.fst (h1 herr)
    dsimp only at this
    rw [this] at he
    exact absurd he (by simp)

/-- Instance of C24: `T1 = {2, 0}`, `T2 = {0, 0}`, `C1 = C2 = {2, 1, 5/2}`; the call
succeeds with `Chi2 >= 0 + 0`. -/
theorem SmoothTracks_chi2_not_decreased_witness :
    (1 ≤ 2 ∧ 2 * (2 + 1) / 2 < 4) ∧
    ∃ T' C' Chi2' NDF',
      SmoothTracks 4 Real.sqrt (ofList [2, 0]) (ofList [2, 1, 5 / 2]) 0 0
        (ofList [0, 0]) (ofList [2, 1, 5 / 2]) 0 0 (ofList []) (ofList []) 0 0 2
        = some (false, T', C', Chi2', NDF') ∧
      (0 : ℝ) + 0 ≤ Chi2' := by
  obtain ⟨err, T', C', Chi2', NDF', hrun, h⟩ := SmoothTracks_chi2_not_decreased 2 4
    (by decide) (ofList [2, 0]) (ofList [2, 1, 5 / 2]) 0 0 (ofList [0, 0]) (ofList [2, 1, 5 / 2])
    0 0 (ofList []) (ofList []) 0 0 (by decide)
  obtain ⟨T1', C1', chi1, hex, -⟩ := SmoothTracks_example
  rw [hrun] at hex
  have herr : err = false := congrArg Prod.fst (Option.some.inj hex)
  subst herr
  exact ⟨⟨by decide, by decide⟩, T', C', Chi2', NDF', hrun, (h rfl).2.1⟩

/-! ## `Merge` works on the tracks present on entry -/

theorem usableTPC_iff_hasStatus {V : Type} (env : Env F V) (ev : ESDEvent F) (i : Nat) :
    usableTPC env ev i ↔ ev.hasStatus env.kTPCin i = true := by
  unfold usableTPC ESDEvent.hasStatus
  cases ev.fTracks i with
  | none => simp
  | some t => simp

theorem usableTRD_iff_hasStatus {V : Type} (env : Env F V) (ev : ESDEvent F) (j : Nat) :
    usableTRD env ev j ↔ ev.hasStatus env.kTRDin j = true := by
  unfold usableTRD ESDEvent.hasStatus
  cases ev.fTracks j with
  | none => simp
  | some t => simp

/-- C27: `Merge` works on the tracks present on entry only.  For every event, propagator
and gate (fuel above 15 and above the number of tracks) `Merge` returns `kTRUE` and:
every call of the record (propagation, gate, fusion) is for track indices below the
count read on entry, so an appended track is never propagated, gated or fused; no track
is removed (every entry below the count is still there, changed at most in its
`AliExternalTrackParam` part, a null entry stays null); the count grows by the number of
fused pairs and every appended track has status exactly `kGlobalMerge`; and the number
of appended tracks is at most (number of tracks with `kTPCin`) times (number of tracks
with `kTRDin`). -/
theorem Merge_never_consumes_its_output {V : Type} (fuel : Nat) (hf : 15 < fuel)
    (env : Env ℝ V) (m : Merger ℝ) (loc : MergeLocals ℝ) (ev : ESDEvent ℝ)
    (hn : ev.fNTracks < fuel) :
    ∃ ev1 log, Merge fuel Real.sqrt env m loc (some ev) = some (true, some ev1, log) ∧
      (∀ c ∈ log, c.tpcIndex < ev.fNTracks ∧ ∀ p, c.pair = some p → p.2 < ev.fNTracks) ∧
      (∀ idx, idx < ev.fNTracks →
        (ev.fTracks idx = none → ev1.fTracks idx = none) ∧
        ∀ t, ev.fTracks idx = some t → ∃ e, ev1.fTracks idx = some (t.withExt e)) ∧
      ev1.fNTracks = ev.fNTracks + (fusedPairs log).length ∧
      (∀ k, k < (fusedPairs log).length →
        ∃ tk, ev1.fTracks (ev.fNTracks + k) = some tk ∧ tk.fFlags = env.kGlobalMerge) ∧
      (fusedPairs log).length ≤ ev.countStatus env.kTPCin * ev.countStatus env.kTRDin := by
  obtain ⟨ev1, log, hrun, hInv, hlog⟩ := Merge_spec fuel hf env m loc ev hn
  refine ⟨ev1, log, hrun, fun c hc => ⟨TrackLog.tpcIndex_lt _ log hlog c hc, fun p hp => ?_⟩,
    fun idx hidx => ⟨fun h0 => ?_, fun t ht => ?_⟩, hInv.2.2.1, fun k hk => ?_, ?_⟩
  · obtain ⟨i, j⟩ := p
    exact (hlog.pair_seg ⟨c, hc, hp⟩).2.1
  · have := hInv.2.1 idx hidx
    rw [h0] at this
    exact this.none_right
  · have := hInv.2.1 idx hidx
    rw [ht] at this
    exact this.some_right
  · obtain ⟨tk, htk, tpc, trd, P, C, chi, ndf, -, -, -, rfl⟩ :=
      hInv.2.2.2 k ((fusedPairs log)[k]) (List.getElem?_eq_getElem hk)
    exact ⟨_, htk, (MergeTracks.newTrack_fields env tpc trd P C chi).1⟩
  · have hnodup : (fusedPairs log).Nodup :=
      (TrackLog.fusedPairs_sorted _ log hlog).2.imp (fun {p q} h heq => by
        subst heq
        rcases h with h | ⟨-, h⟩ <;> exact lt_irrefl _ h)
    have hsub : fusedPairs log ⊆
        ((List.range ev.fNTracks).filter (ev.hasStatus env.kTPCin)) ×ˢ
          ((List.range ev.fNTracks).filter (ev.hasStatus env.kTRDin)) := by
      rintro ⟨i, j⟩ hp
      obtain ⟨hi, hj, huA, huB, -⟩ := hlog.pair_seg ⟨_, mem_fusedPairs.mp hp, rfl⟩
      refine List.pair_mem_product.mpr ⟨List.mem_filter.mpr ⟨List.mem_range.mpr hi, (usableTPC_iff_hasStatus env ev i).mp huA⟩,
        List.mem_filter.mpr ⟨List.mem_range.mpr hj, (usableTRD_iff_hasStatus env ev j).mp huB⟩⟩
    have hle := (List.subperm_of_subset hnodup hsub).length_le
    rw [List.length_product] at hle
    exact hle

/-- Instance of C27: on the example event of one TPC and two TRD tracks two tracks are
appended, `2 <= 1 * 2`. -/
theorem Merge_never_consumes_its_output_witness :
    (15 < 16 ∧ (exampleEvent [exampleTrack 16 0 (diagPacked5 (2 : ℝ)) 0,
        exampleTrack 256 0 (diagPacked5 2) 0, exampleTrack 256 0 (diagPacked5 2) 0]).fNTracks < 16) ∧
    ∃ ev1 log, Merge 16 Real.sqrt (exampleEnv : Env ℝ Unit) Merger.default exampleLocals
        (some (exampleEvent [exampleTrack 16 0 (diagPacked5 (2 : ℝ)) 0,
          exampleTrack 256 0 (diagPacked5 2) 0, exampleTrack 256 0 (diagPacked5 2) 0]))
          = some (true, some ev1, log) ∧
      (fusedPairs log).length = 2 ∧ ev1.fNTracks = 3 + 2 ∧
      (exampleEvent [exampleTrack 16 0 (diagPacked5 (2 : ℝ)) 0,
        exampleTrack 256 0 (diagPacked5 2) 0, exampleTrack 256 0 (diagPacked5 2) 0]).countStatus
          (exampleEnv : Env ℝ Unit).kTPCin = 1 ∧
      (exampleEvent [exampleTrack 16 0 (diagPacked5 (2 : ℝ)) 0,
        exampleTrack 256 0 (diagPacked5 2) 0, exampleTrack 256 0 (diagPacked5 2) 0]).countStatus
          (exampleEnv : Env ℝ Unit).kTRDin = 2 := by
  refine ⟨⟨by decide, by decide⟩, ?_⟩
  obtain ⟨ev1, log, h1, -, -, h2, -, -⟩ := Merge_never_consumes_its_output 16 (by decide)
    (exampleEnv : Env ℝ Unit) Merger.default exampleLocals
    (exampleEvent [exampleTrack 16 0 (diagPacked5 (2 : ℝ)) 0,
      exampleTrack 256 0 (diagPacked5 2) 0, exampleTrack 256 0 (diagPacked5 2) 0]) (by decide)
  obtain ⟨P, C, chi, ndf, hs⟩ := example_diag_cov_fusion_succeeds 0 85
  obtain ⟨ev2, hrun, -⟩ := (example_run_three Real.sqrt 0 (diagPacked5 (2 : ℝ)) P C chi ndf hs).2 rfl
  have hlog := congrArg (fun r => r.2.2) (Option.some.inj (h1.symm.trans hrun))
  dsimp only at hlog
  have hfp : fusedPairs log = [(0, 1), (0, 2)] := by rw [hlog]; rfl
  rw [hfp] at h2
  exact ⟨ev1, log, h1, by rw [hfp]; rfl, h2, by decide, by decide⟩

/-! ## The degenerate pivot: `InvertS` on `{1, 1, 1}`, `N = 2` -/

/-- The factorisation block on `[[1, 1], [1, 1]]`: the second pivot `1 - 1*1` is zero, the
flag is raised and the array is left as `{1, 1, 1}` (the zeroing loop of the degenerate
branch has no row below the last one to work on, and does not touch the diagonal). -/
theorem factor_example (A : Nat → ℝ) (h0 : A 0 = 1) (h1 : A 1 = 1) (h2 : A 2 = 1) :
    ∃ L, InvertS.factor 3 Real.sqrt 2 A false = some (L, true) ∧ L 0 = 1 ∧ L 1 = 1 ∧ L 2 = 1 := by
  have hZ : ¬ ((ZERO : ℝ) < 0) := not_lt.mpr (le_of_lt ZERO_pos)
  have hZ1 : (ZERO : ℝ) < 1 := ZERO_lt_one
  simp [InvertS.factor, InvertS.factorStep, InvertS.scaleStep, whileLoop, h0, h1, h2, hZ, hZ1]

/-- The inversion block on the array `{1, 1, 1}` left by the factorisation block: both
diagonal entries exceed `ZERO`, so row 1 is treated as a regular row. -/
theorem invertFactor_example (L : Nat → ℝ) (h0 : L 0 = 1) (h1 : L 1 = 1) (h2 : L 2 = 1) :
    ∃ M, InvertS.invertFactor 3 2 L true = some (M, true) ∧ M 0 = 1 ∧ M 1 = -1 ∧ M 2 = 1 := by
  have hZ1 : (ZERO : ℝ) < 1 := ZERO_lt_one
  simp [InvertS.invertFactor, InvertS.invertStep, InvertS.invertEntry, whileLoop, h0, h1, h2, hZ1]

/-- The product block on `{1, -1, 1}`. -/
theorem transposeTimesSelf_example (M : Nat → ℝ) (h0 : M 0 = 1) (h1 : M 1 = -1) (h2 : M 2 = 1) :
    ∃ R, InvertS.transposeTimesSelf 3 2 M = some R ∧ R 0 = 2 ∧ R 1 = -1 ∧ R 2 = 1 := by
  simp [InvertS.transposeTimesSelf, InvertS.productStep, InvertS.productEntry, whileLoop,
    doWhileLoop, h0, h1, h2]
  norm_num

/-- C21 fails in the code: on the packed input `{1, 1, 1}` (the matrix `[[1, 1], [1, 1]]`,
`N = 2`) the pivot of the second column is `1 - 1*1 = 0`, at or below `1e-20`; `InvertS`
returns 1, but the returned array is `{2, -1, 1}`: the entries of row 1 and column 1
(offsets 1 and 2) are `-1` and `1`, not zero.  The degenerate branch of the first block
zeroes only the entries of the column below the diagonal and leaves the diagonal entry
`a_11 = 1`, so the second block finds a diagonal entry above `1e-20` and treats the row
as regular. -/
theorem InvertS_degenerate_pivot_not_zeroed :
    cholPivot Real.sqrt (ofList [(1 : ℝ), 1, 1]) 1 ≤ ZERO ∧
    ∃ R, InvertS 3 Real.sqrt (ofList [(1 : ℝ), 1, 1]) 2 = some (true, R) ∧
      R 0 = 2 ∧ R 1 = -1 ∧ R 2 = 1 := by
  constructor
  · have : cholPivot Real.sqrt (ofList [(1 : ℝ), 1, 1]) 1 = 0 := by
      simp [cholPivot, cholCols, tri, ofList, Finset.sum_range_one]
    rw [this]
    exact le_of_lt ZERO_pos
  · obtain ⟨L, hL, l0, l1, l2⟩ := factor_example (ofList [(1 : ℝ), 1, 1]) (by simp [ofList])
      (by simp [ofList]) (by simp [ofList])
    obtain ⟨M, hM, m0, m1, m2⟩ := invertFactor_example L l0 l1 l2
    obtain ⟨R, hR, r0, r1, r2⟩ := transposeTimesSelf_example M m0 m1 m2
    exact ⟨R, by simp only [InvertS, hL, hM, hR, Option.some_bind], r0, r1, r2⟩

/-! ## `SmoothTracks` called in place -/

/-- What `SmoothTracksInPlace` computes, given the result `(err, Ainv)` of its call of
`InvertS` on `C1 + C2` (fuel above `N*(N+1)/2`).  If `err` is set the arrays are returned
as they were.  Otherwise `T[k]` is `T1[k] - sum_l K[k][l] * r[l]` for `k < N` (the loop of
line 379 accumulates, since it reads the array it writes); `Chi2`, `NDF` and the
entries `l < N` of `C` are as in a call with separate output buffers. -/
theorem SmoothTracksInPlace_spec (fuel N : Nat) (sqrt : F → F)
    (T1 C1 : Nat → F) (Chi21 : F) (NDF1 : Int) (T2 C2 : Nat → F) (Chi22 : F) (NDF2 : Int)
    (Chi2 : F) (NDF : Int) (hf : tri N < fuel)
    (err : Bool) (Ainv : Nat → F)
    (hinv : InvertS fuel sqrt (sumPacked N C1 C2) N = some (err, Ainv)) :
    Returns (SmoothTracksInPlace fuel sqrt T1 C1 Chi21 NDF1 T2 C2 Chi22 NDF2 Chi2 NDF N)
      (fun out =>
        (err = true → out = (true, T1, C1, Chi2, NDF)) ∧
        (err = false →
          out.1 = false ∧
          (∀ k, k < N → out.2.1 k
            = T1 k - ∑ l in Finset.range N, gain N C1 Ainv k l * (T1 l - T2 l)) ∧
          (∀ k, N ≤ k → out.2.1 k = T1 k) ∧
          (∀ i j, j ≤ i → i < N → tri i + j < N →
            out.2.2.1 (tri i + j) = covEntry N C1 Ainv i j) ∧
          (∀ l, N ≤ l → out.2.2.1 l = C1 l) ∧
          out.2.2.2.1 = Chi21 + Chi22 + chi2Packed N (fun k => T1 k - T2 k) Ainv ∧
          out.2.2.2.2 = wrapInt_t (wrapInt_t (NDF1 + NDF2) + (N : Int)))) := by
  have hN : N < fuel := lt_of_le_of_lt (le_tri N) hf
  unfold SmoothTracksInPlace
  dsimp only
  -- A[k] = C1[k] + C2[k]
  refine Returns.bind (Returns.forLoop (N * (N + 1) / 2)
    (fun k A => ∀ idx, A idx = if idx < k then C1 idx + C2 idx else 0)
    (fun _ _ => rfl) (fun k A hk hI => ?_) (fun idx => by simp) hf) ?_
  · refine Returns.some ⟨rfl, fun idx => ?_⟩
    dsimp only
    by_cases h : idx = k
    · subst h; rw [Function.update_same, if_pos (Nat.lt_succ_self _)]
    · rw [Function.update_noteq h, hI idx]
      by_cases h2 : idx < k
      · rw [if_pos h2, if_pos (by omega)]
      · rw [if_neg h2, if_neg (by omega)]
  rintro ⟨k, A⟩ ⟨-, hA⟩
  dsimp only at hA ⊢
  have hAeq : A = sumPacked N C1 C2 := funext fun idx => hA idx
  subst hAeq
  rw [hinv, Option.some_bind]
  dsimp only
  cases err
  swap
  · exact Returns.some ⟨fun _ => rfl, fun h => absurd h (by simp)⟩
  simp only [Bool.false_eq_true, if_false]
  -- MultSSQ( C1, A, K, N )
  refine Returns.bind (MultSSQ_spec fuel N C1 Ainv _ hN) fun K hK => ?_
  -- r[k] = T1[k] - T2[k]
  refine Returns.bind (Returns.forLoop N
    (fun k r => ∀ idx, r idx = if idx < k then T1 idx - T2 idx else 0)
    (fun _ _ => rfl) (fun k r hk hI => ?_) (fun idx => by simp) hN) ?_
  · refine Returns.some ⟨rfl, fun idx => ?_⟩
    dsimp only
    by_cases h : idx = k
    · subst h; rw [Function.update_same, if_pos (Nat.lt_succ_self _)]
    · rw [Function.update_noteq h, hI idx]
      by_cases h2 : idx < k
      · rw [if_pos h2, if_pos (by omega)]
      · rw [if_neg h2, if_neg (by omega)]
  rintro ⟨k, r⟩ ⟨-, hr⟩
  dsimp only at hr ⊢
  have hrN : ∀ idx, idx < N → r idx = T1 idx - T2 idx := fun idx h => by rw [hr idx, if_pos h]
  -- T[k] = T[k] - K[k*N+l]*r[l]
  refine Returns.bind (Returns.forLoop N
    (fun k T' => (∀ k', k' < k → T' k' = T1 k' - ∑ l in Finset.range N, K (k' * N + l) * r l) ∧
      (∀ k', k ≤ k' → T' k' = T1 k'))
    (fun _ _ => rfl) (fun k T' hk hI => ?_) ⟨fun k' h => by omega, fun k' _ => rfl⟩ hN) ?_
  · obtain ⟨hI1, hI2⟩ := hI
    dsimp only
    refine Returns.bind (Returns.forLoop N
      (fun l T'' => T'' k = T' k - ∑ m in Finset.range l, K (k * N + m) * r m ∧
        ∀ k', k' ≠ k → T'' k' = T' k')
      (fun _ _ => rfl) (fun l T'' hl hI3 => ?_) ⟨by simp, fun _ _ => rfl⟩ hN) ?_
    · obtain ⟨h1, h2⟩ := hI3
      refine Returns.some ⟨rfl, ?_, fun k' hk' => ?_⟩
      · dsimp only
        rw [Function.update_same, h1, Finset.sum_range_succ, sub_sub]
      · dsimp only
        rw [Function.update_noteq hk']
        exact h2 k' hk'
    · rintro ⟨l, T''⟩ ⟨hl, h1, h2⟩
      dsimp only at hl h1 h2 ⊢
      subst hl
      refine Returns.some ⟨rfl, fun k' hk' => ?_, fun k' hk' => ?_⟩
      · dsimp only
        by_cases e : k' = k
        · subst e; rw [h1, hI2 k' (le_refl _)]
        · rw [h2 k' e]; exact hI1 k' (by omega)
      · dsimp only
        rw [h2 k' (by omega)]; exact hI2 k' (by omega)
  rintro ⟨k, T'⟩ ⟨-, hT1, hT2⟩
  dsimp only at hT1 hT2 ⊢
  -- Chi2 += ...
  refine Returns.bind (Returns.forLoop2 N
    (fun i ind X => ind = tri i ∧ X = Chi21 + Chi22 + ∑ i' in Finset.range i,
      (∑ j in Finset.range i', 2 * r i' * r j * Ainv (tri i' + j)
        + r i' * r i' * Ainv (tri i' + i')))
    (fun _ _ _ => rfl) (fun ind i X hi hI => ?_) ⟨rfl, by simp⟩ hN) ?_
  · obtain ⟨hind, hX⟩ := hI
    subst hind
    dsimp only
    refine Returns.bind (Returns.forLoop2 i
      (fun j ind' X' => ind' = tri i + j ∧
        X' = X + ∑ j' in Finset.range j, 2 * r i * r j' * Ainv (tri i + j'))
      (fun _ _ _ => rfl) (fun ind' j X' hj hI2 => ?_) ⟨rfl, by simp⟩ (by omega)) ?_
    · obtain ⟨h1, h2⟩ := hI2
      subst h1
      refine Returns.some ⟨rfl, Nat.add_assoc _ _ _, ?_⟩
      dsimp only
      rw [h2, Finset.sum_range_succ]; ring
    · rintro ⟨ind', j, X'⟩ ⟨hj, h1, h2⟩
      dsimp only at hj h1 h2 ⊢
      subst hj h1
      refine Returns.some ⟨rfl, ?_, ?_⟩
      · dsimp only; rw [tri_succ]
      · dsimp only; rw [h2, hX, Finset.sum_range_succ]; ring
  rintro ⟨ind, i, X⟩ ⟨-, -, hChi⟩
  dsimp only at hChi ⊢
  -- K[(N+1)*l] -= 1
  refine Returns.bind (Returns.forLoop N
    (fun l K' => (∀ l', l' < l → K' ((N + 1) * l') = K ((N + 1) * l') - 1) ∧
      (∀ idx, (∀ l', l' < l → idx ≠ (N + 1) * l') → K' idx = K idx))
    (fun _ _ => rfl) (fun l K' hl hI => ?_) ⟨fun l' h => by omega, fun idx _ => rfl⟩ hN) ?_
  · obtain ⟨h1, h2⟩ := hI
    refine Returns.some ⟨rfl, fun l' hl' => ?_, fun idx hidx => ?_⟩
    · dsimp only
      by_cases e : l' = l
      · subst e
        rw [Function.update_same, h2 _ (fun l'' hl'' he => by
          have := Nat.eq_of_mul_eq_mul_left (Nat.succ_pos N) he; omega)]
      · rw [Function.update_noteq (fun he => e
          (Nat.eq_of_mul_eq_mul_left (Nat.succ_pos N) he)), h1 l' (by omega)]
    · dsimp only
      rw [Function.update_noteq (hidx l (by omega)), h2 idx (fun l' hl' => hidx l' (by omega))]
  rintro ⟨l, K'⟩ ⟨-, hK1, hK2⟩
  dsimp only at hK1 hK2 ⊢
  have hK' : ∀ i k, i < N → k < N →
      K' (i * N + k) = gain N C1 Ainv i k - if i = k then 1 else 0 := by
    intro i k hi hk
    by_cases e : i = k
    · subst e
      have e2 : i * N + i = (N + 1) * i := by ring
      rw [if_pos rfl, e2, hK1 i hi, ← e2, hK i i hi hi]; rfl
    · rw [if_neg e, sub_zero, hK2 _ (fun l' hl' he => by
        have e2 : (N + 1) * l' = l' * N + l' := by ring
        rw [e2] at he
        have := rowMajor_inj hk hl' he
        omega), hK i k hi hk]; rfl
  -- A[ind] = - sum_k K[l*N+k] * C1[IndexS(j,k)]
  refine Returns.bind (Returns.forLoop2 N
    (fun l ind A' => ind = tri l ∧
      ∀ i j, j ≤ i → i < l → A' (tri i + j) = covEntry N C1 Ainv i j)
    (fun _ _ _ => rfl) (fun ind l A' hl hI => ?_) ⟨rfl, fun i j _ h => by omega⟩ hN) ?_
  · obtain ⟨hind, hdone⟩ := hI
    subst hind
    dsimp only
    refine Returns.bind (Returns.forLoop2 (l + 1)
      (fun j ind' A'' => ind' = tri l + j ∧
        (∀ i j', j' ≤ i → i < l → A'' (tri i + j') = covEntry N C1 Ainv i j') ∧
        (∀ j', j' < j → A'' (tri l + j') = covEntry N C1 Ainv l j'))
      (fun _ j _ => by simp [Nat.lt_succ_iff]) (fun ind' j A'' hj hI2 => ?_)
      ⟨rfl, hdone, fun j' h => by omega⟩ (by omega)) ?_
    · obtain ⟨h1, h2, h3⟩ := hI2
      subst h1
      dsimp only
      refine Returns.bind (Returns.forLoop N
        (fun k A3 => A3 = Function.update A'' (tri l + j)
          (0 - ∑ m in Finset.range k, K' (l * N + m) * C1 (IndexS j m)))
        (fun _ _ => rfl) (fun k A3 hk hI3 => ?_) (by simp) hN) ?_
      · subst hI3
        refine Returns.some ⟨rfl, ?_⟩
        dsimp only
        rw [Function.update_idem, Function.update_same, Finset.sum_range_succ, sub_sub]
      · rintro ⟨k, A3⟩ ⟨hk, hA3⟩
        dsimp only at hk hA3 ⊢
        subst hA3 hk
        refine Returns.some ⟨rfl, Nat.add_assoc _ _ _, fun i j' hj' hi => ?_, fun j' hj' => ?_⟩
        · dsimp only
          rw [Function.update_noteq (fun he => by
            have := tri_inj hj' (by omega) he; omega)]
          exact h2 i j' hj' hi
        · dsimp only
          by_cases e : j' = j
          · subst e
            rw [Function.update_same]
            unfold covEntry
            congr 1
            refine Finset.sum_congr rfl fun m hm => ?_
            rw [hK' l m hl (Finset.mem_range.mp hm)]
          · rw [Function.update_noteq (fun he => by omega)]
            exact h3 j' (by omega)
    · rintro ⟨ind', j, A''⟩ ⟨hj, h1, h2, h3⟩
      dsimp only at hj h1 h2 h3 ⊢
      subst hj h1
      refine Returns.some ⟨rfl, ?_, fun i j hj hi => ?_⟩
      · dsimp only; rw [tri_succ]; omega
      · dsimp only
        by_cases e : i = l
        · subst e; exact h3 j (by omega)
        · exact h2 i j hj (by omega)
  rintro ⟨ind', l', A'⟩ ⟨-, -, hcov⟩
  dsimp only at hcov ⊢
  -- C[l] = A[l]
  refine Returns.bind (Returns.forLoop N
    (fun l C' => ∀ idx, C' idx = if idx < l then A' idx else C1 idx)
    (fun _ _ => rfl) (fun l C' hl hI => ?_) (fun idx => by simp) hN) ?_
  · refine Returns.some ⟨rfl, fun idx => ?_⟩
    dsimp only
    by_cases h : idx = l
    · subst h; rw [Function.update_same, if_pos (Nat.lt_succ_self _)]
    · rw [Function.update_noteq h, hI idx]
      by_cases h2 : idx < l
      · rw [if_pos h2, if_pos (by omega)]
      · rw [if_neg h2, if_neg (by omega)]
  rintro ⟨l'', C'⟩ ⟨-, hC⟩
  dsimp only at hC ⊢
  refine Returns.some ⟨fun h => absurd h (by simp), fun _ => ⟨rfl, fun k hk => ?_,
    fun k hk => hT2 k hk, fun i j hj hi hlt => ?_, fun l hl => ?_, ?_, rfl⟩⟩
  · dsimp only
    rw [hT1 k hk]
    congr 1
    refine Finset.sum_congr rfl fun l hl => ?_
    have hl' : l < N := Finset.mem_range.mp hl
    rw [hK k l hk hl', hrN l hl']; rfl
  · dsimp only
    rw [hC, if_pos hlt, hcov i j hj hi]
  · dsimp only
    rw [hC, if_neg (by omega)]
  · dsimp only
    rw [hChi]
    unfold chi2Packed
    congr 1
    refine Finset.sum_congr rfl fun i hi => ?_
    have hi' : i < N := Finset.mem_range.mp hi
    rw [hrN i hi']
    congr 1
    refine Finset.sum_congr rfl fun j hj => ?_
    rw [hrN j (by have := Finset.mem_range.mp hj; omega)]

/-- In-place fusion of two estimates with the same covariance `C1`, when the inversion
of `C1 + C1` succeeds: the gain is half the identity and the state written into `T1` is
the mean of `T1` and `T2`. -/
theorem SmoothTracksInPlace_equal_cov (fuel N : Nat) (T1 C1 : Nat → ℝ) (Chi21 : ℝ) (NDF1 : Int)
    (T2 : Nat → ℝ) (Chi22 : ℝ) (NDF2 : Int) (Chi2 : ℝ) (NDF : Int)
    (hf : tri N < fuel)
    (hpiv : ∀ c, c < N → cholPivot Real.sqrt (sumPacked N C1 C1) c > ZERO) :
    Returns (SmoothTracksInPlace fuel Real.sqrt T1 C1 Chi21 NDF1 T2 C1 Chi22 NDF2 Chi2 NDF N)
      (fun out => out.1 = false ∧
        ∀ k, k < N → out.2.1 k = T1 k - 1 / 2 * (T1 k - T2 k)) := by
  obtain ⟨err, Ainv, hinv, herr, hmat⟩ := InvertS_sumPacked fuel N C1 C1 hf
  have he : err = false := by
    cases h : err
    · rfl
    · obtain ⟨c, hc, hbad⟩ := herr.mp h
      exact absurd (hpiv c hc) hbad
  subst he
  obtain ⟨hAR, -⟩ := hmat rfl
  have hhalf : toMatrix N C1 * toMatrix N Ainv = (1 / 2 : ℝ) • (1 : Matrix (Fin N) (Fin N) ℝ) := by
    rw [Matrix.add_mul] at hAR
    ext i j
    have := congrFun (congrFun hAR i) j
    rw [Matrix.add_apply] at this
    rw [Matrix.smul_apply, smul_eq_mul]
    linarith
  have hgain : ∀ i j, i < N → j < N → gain N C1 Ainv i j = if i = j then 1 / 2 else 0 := by
    intro i j hi hj
    have := gain_eq_mul N C1 Ainv ⟨i, hi⟩ ⟨j, hj⟩
    rw [hhalf, Matrix.smul_apply, Matrix.one_apply, smul_eq_mul] at this
    rw [this]
    by_cases h : i = j
    · subst h; simp
    · rw [if_neg h, if_neg (fun he => h (by simpa using he)), mul_zero]
  refine (SmoothTracksInPlace_spec fuel N Real.sqrt T1 C1 Chi21 NDF1 T2 C1 Chi22 NDF2 Chi2 NDF
    hf false Ainv hinv).mono fun out h => ?_
  obtain ⟨h1, h2, -⟩ := h.2 rfl
  refine ⟨h1, fun k hk => ?_⟩
  rw [h2 k hk]
  congr 1
  rw [Finset.sum_eq_single k]
  · rw [hgain k k hk hk, if_pos rfl]
  · intro l hl hne
    rw [hgain k l hk (Finset.mem_range.mp hl), if_neg (Ne.symm hne), zero_mul]
  · intro hk'
    exact absurd (Finset.mem_range.mpr hk) hk'

/-- C22 fails in the code: on the input `N = 2`, `T1 = {2, 0}`, `T2 = {0, 0}`,
`C1 = C2 = {2, 1, 5/2}` both calls succeed, but the call with output buffers of its own
returns `T[0] = 2` while the call in place (`T` is `T1`, `C` is `C1`) leaves `T1[0] = 1`.
The inner loop of line 379, `T[k] = T1[k] - K[k*N+l]*r[l]`, keeps only the last term when
`T` is a buffer of its own and accumulates all terms when `T` is `T1`. -/
theorem SmoothTracks_in_place_differs :
    (∃ T' C' chi ndf, SmoothTracks 4 Real.sqrt (ofList [2, 0]) (ofList [2, 1, 5 / 2]) 0 0
        (ofList [0, 0]) (ofList [2, 1, 5 / 2]) 0 0 (ofList []) (ofList []) 0 0 2
        = some (false, T', C', chi, ndf) ∧ T' 0 = 2) ∧
    (∃ T' C' chi ndf, SmoothTracksInPlace 4 Real.sqrt (ofList [2, 0]) (ofList [2, 1, 5 / 2]) 0 0
        (ofList [0, 0]) (ofList [2, 1, 5 / 2]) 0 0 0 0 2
        = some (false, T', C', chi, ndf) ∧ T' 0 = 1) := by
  constructor
  · obtain ⟨T', C', chi, hrun, h0, -⟩ := SmoothTracks_example
    exact ⟨T', C', chi, 2, hrun, h0⟩
  · obtain ⟨⟨e, T', C', chi, ndf⟩, hrun, he, hT⟩ := SmoothTracksInPlace_equal_cov 4 2
      (ofList [2, 0]) (ofList [2, 1, 5 / 2]) 0 0 (ofList [0, 0]) 0 0 0 0 (by decide)
      example_sum_pivots
    dsimp only at he hT
    subst he
    refine ⟨T', C', chi, ndf, hrun, ?_⟩
    rw [hT 0 (by decide)]
    simp [ofList]
    norm_num

/-! ## `InvertS` stays inside its array -/

/-- Two loops with the same test run alike when their bodies agree on the states of an
invariant of the second one. -/
theorem whileLoop_congr {σ : Type} (cond : σ → Bool) (body body1 : σ → Option σ)
    (Inv : σ → Prop)
    (hstep : ∀ s, Inv s → cond s = true →
      body1 s = body s ∧ ∀ s1, body s = some s1 → Inv s1) :
    ∀ (fuel : Nat) (s : σ), Inv s →
      whileLoop cond body1 fuel s = whileLoop cond body fuel s := by
  intro fuel
  induction fuel with
  | zero => intro s _; rfl
  | succ n ih =>
    intro s hI
    by_cases hc : cond s = true
    · obtain ⟨he, hp⟩ := hstep s hI hc
      simp only [whileLoop, hc, if_true, he]
      cases hb : body s with
      | none => rfl
      | some s1 => exact ih s1 (hp s1 hb)
    · simp [whileLoop, hc]

/-- The same for `doWhileLoop`. -/
theorem doWhileLoop_congr {σ : Type} (body body1 : σ → Option σ) (test : σ → Bool × σ)
    (Inv : σ → Prop)
    (hstep : ∀ s, Inv s →
      body1 s = body s ∧ ∀ s1, body s = some s1 → (test s1).1 = true → Inv (test s1).2) :
    ∀ (fuel : Nat) (s : σ), Inv s →
      doWhileLoop body1 test fuel s = doWhileLoop body test fuel s := by
  intro fuel
  induction fuel with
  | zero => intro s _; rfl
  | succ n ih =>
    intro s hI
    obtain ⟨he, hp⟩ := hstep s hI
    simp only [doWhileLoop, he]
    cases hb : body s with
    | none => rfl
    | some s1 =>
      simp only [Option.some_bind]
      by_cases ht : (test s1).1 = true
      · rw [if_pos ht, if_pos ht]
        exact ih _ (hp s1 hb ht)
      · rw [if_neg ht, if_neg ht]

theorem rd_of_lt {M i : Nat} (A : Nat → F) (h : i < M) : rd M A i = some (A i) := by
  unfold rd; rw [if_pos h]

theorem wr_of_lt {M i : Nat} (A : Nat → F) (v : F) (h : i < M) :
    wr M A i v = some (Function.update A i v) := by
  unfold wr; rw [if_pos h]

/-- Row `i < N` of the packed triangle lies inside the array of `tri N` entries. -/
theorem tri_add_lt {N i k : Nat} (hi : i < N) (hk : k ≤ i) : tri i + k < tri N := by
  have h1 := tri_lt hi
  omega

theorem sqLoop_checked (M : Nat) (A : Nat → F) (fuel lo jj : Nat) (x0 : F) (h : lo ≤ jj)
    (hM : jj ≤ M) :
    whileLoop (fun ((ik, _) : Nat × F) => ik != jj)
      (fun (ik, x) => (rd M A ik).bind fun a => some (ik + 1, x - a * a)) fuel (lo, x0)
    = whileLoop (fun ((ik, _) : Nat × F) => ik != jj)
      (fun (ik, x) => some (ik + 1, x - A ik * A ik)) fuel (lo, x0) := by
  refine whileLoop_congr _ _ _ (fun s => lo ≤ s.1 ∧ s.1 ≤ jj) ?_ fuel (lo, x0) ⟨le_refl _, h⟩
  rintro ⟨ik, x⟩ ⟨h1, h2⟩ hc
  have hne : ik ≠ jj := by simpa using hc
  dsimp only at h1 h2 ⊢
  refine ⟨by rw [rd_of_lt A (by omega)]; rfl, fun s1 hs => ?_⟩
  cases hs
  exact ⟨by dsimp only; omega, by dsimp only; omega⟩

theorem dotLoop_checked (M : Nat) (A : Nat → F) (fuel lo jj p : Nat) (h : lo ≤ jj)
    (hjj : jj ≤ M) (hp : p + (jj - lo) ≤ M) :
    whileLoop (fun ((jk, _, _) : Nat × Nat × F) => jk != jj)
      (fun (jk, ik, sum) =>
        (rd M A jk).bind fun a => (rd M A ik).bind fun b => some (jk + 1, ik + 1, sum + a * b))
      fuel (lo, p, 0)
    = whileLoop (fun ((jk, _, _) : Nat × Nat × F) => jk != jj)
      (fun (jk, ik, sum) => some (jk + 1, ik + 1, sum + A jk * A ik)) fuel (lo, p, 0) := by
  refine whileLoop_congr _ _ _ (fun s => lo ≤ s.1 ∧ s.1 ≤ jj ∧ s.2.1 = p + (s.1 - lo)) ?_
    fuel (lo, p, 0) ⟨le_refl _, h, by simp⟩
  rintro ⟨jk, ik, sum⟩ ⟨h1, h2, h3⟩ hc
  have hne : jk ≠ jj := by simpa using hc
  dsimp only at h1 h2 h3 ⊢
  refine ⟨by rw [rd_of_lt A (show jk < M by omega), rd_of_lt A (show ik < M by omega)]; rfl,
    fun s1 hs => ?_⟩
  cases hs
  exact ⟨by dsimp only; omega, by dsimp only; omega, by dsimp only; omega⟩

theorem scaleStep_checked (fuel N c step : Nat) (x : F) (A : Nat → F) (hs : c + step < N)
    (hf : N < fuel) :
    InvertSChecked.scaleStep fuel (tri N) (tri c) (tri c + c) x (step, tri (c + step), A)
      = InvertS.scaleStep fuel (tri c) (tri c + c) x (step, tri (c + step), A) := by
  have hb1 : tri c + c < tri N := tri_add_lt (by omega) (le_refl _)
  have hb2 : tri (c + step) + c < tri N := tri_add_lt hs (by omega)
  simp only [InvertSChecked.scaleStep, InvertS.scaleStep]
  rw [dotLoop_checked (tri N) A fuel (tri c) (tri c + c) (tri (c + step)) (by omega) (by omega)
    (by omega), dotLoop_eq A fuel (tri c) (tri c + c) (tri (c + step)) (by omega) (by omega)]
  simp only [Option.some_bind, Nat.add_sub_cancel_left]
  rw [rd_of_lt A hb2, Option.some_bind, wr_of_lt A _ hb2, Option.some_bind]

/-- The result of the unchecked `scaleStep`, as far as the pointers go. -/
theorem scaleStep_next (fuel N c step : Nat) (x : F) (A : Nat → F) (hs : c + step < N)
    (hf : N < fuel) (s1 : Nat × Nat × (Nat → F))
    (h : InvertS.scaleStep fuel (tri c) (tri c + c) x (step, tri (c + step), A) = some s1) :
    s1.1 = step + 1 ∧ s1.2.1 = tri (c + (step + 1)) := by
  simp only [InvertS.scaleStep] at h
  rw [dotLoop_eq A fuel (tri c) (tri c + c) (tri (c + step)) (by omega) (by omega)] at h
  simp only [Option.some_bind, Nat.add_sub_cancel_left, Option.some.injEq] at h
  subst h
  refine ⟨rfl, ?_⟩
  dsimp only
  have e := tri_succ (c + step)
  rw [Nat.add_assoc] at e
  omega

theorem scaleLoop_checked (fuel N c : Nat) (x : F) (A0 : Nat → F) (hc : c < N) (hf : N < fuel) :
    whileLoop (fun ((step, _, _) : Nat × Nat × (Nat → F)) => decide (step ≤ N - (c + 1)))
      (InvertSChecked.scaleStep fuel (tri N) (tri c) (tri c + c) x) fuel (1, tri (c + 1), A0)
    = whileLoop (fun ((step, _, _) : Nat × Nat × (Nat → F)) => decide (step ≤ N - (c + 1)))
      (InvertS.scaleStep fuel (tri c) (tri c + c) x) fuel (1, tri (c + 1), A0) := by
  refine whileLoop_congr _ _ _ (fun s => 1 ≤ s.1 ∧ s.2.1 = tri (c + s.1)) ?_
    fuel (1, tri (c + 1), A0) ⟨le_refl _, rfl⟩
  rintro ⟨step, ik, A⟩ ⟨h1, h2⟩ hcond
  have hle : step ≤ N - (c + 1) := by simpa using hcond
  dsimp only at h1 h2 ⊢
  subst h2
  refine ⟨scaleStep_checked fuel N c step x A (by omega) hf, fun s1 hs => ?_⟩
  obtain ⟨e1, e2⟩ := scaleStep_next fuel N c step x A (by omega) hf s1 hs
  exact ⟨by omega, by rw [e2, e1]⟩

theorem zeroColumnLoop_checked (fuel N c : Nat) (A0 : Nat → F) :
    whileLoop (fun ((i, _, _) : Nat × Nat × (Nat → F)) => decide (i < N))
      (fun (i, ji, A) => (wr (tri N) A (ji + i) 0).bind fun A => some (i + 1, ji + i, A))
      fuel (c + 1, tri c + c, A0)
    = whileLoop (fun ((i, _, _) : Nat × Nat × (Nat → F)) => decide (i < N))
      (fun (i, ji, A) => some (i + 1, ji + i, Function.update A (ji + i) 0))
      fuel (c + 1, tri c + c, A0) := by
  refine whileLoop_congr _ _ _ (fun s => ∃ t, s.1 = t + 1 ∧ c ≤ t ∧ s.2.1 = tri t + c) ?_
    fuel (c + 1, tri c + c, A0) ⟨c, rfl, le_refl _, rfl⟩
  rintro ⟨i, ji, A⟩ ⟨t, h1, h2, h3⟩ hcond
  have hlt : i < N := by simpa using hcond
  dsimp only at h1 h2 h3 ⊢
  subst h1 h3
  have e : tri t + c + (t + 1) = tri (t + 1) + c := by rw [tri_succ]; omega
  have hb : tri t + c + (t + 1) < tri N := by
    rw [e]; exact tri_add_lt hlt (by omega)
  refine ⟨by rw [wr_of_lt A 0 hb]; rfl, fun s1 hs => ?_⟩
  cases hs
  exact ⟨t + 1, rfl, by omega, e⟩

theorem factorStep_checked (fuel N c : Nat) (sqrt : F → F) (A : Nat → F) (ret : Bool)
    (hc : c < N) (hf : N < fuel) :
    InvertSChecked.factorStep fuel (tri N) sqrt N (c + 1, tri c, tri c + c, A, ret)
      = InvertS.factorStep fuel sqrt N (c + 1, tri c, tri c + c, A, ret) := by
  have hb : tri c + c < tri N := tri_add_lt hc (le_refl _)
  have e1 : tri c + c + 1 = tri (c + 1) := (tri_succ c).symm
  simp only [InvertSChecked.factorStep, InvertS.factorStep]
  rw [sqLoop_checked (tri N) A fuel (tri c) (tri c + c) 0 (by omega) (by omega),
    sqLoop_eq A fuel (tri c) (tri c + c) 0 (by omega) (by omega)]
  simp only [Option.some_bind]
  rw [rd_of_lt A hb, Option.some_bind]
  by_cases hx : 0 - ∑ m in Finset.Ico (tri c) (tri c + c), A m * A m + A (tri c + c) > ZERO
  · rw [if_pos hx, if_pos hx, wr_of_lt A _ hb, Option.some_bind, e1,
      scaleLoop_checked fuel N c _ _ hc hf]
  · rw [if_neg hx, if_neg hx, zeroColumnLoop_checked fuel N c A]

theorem factor_checked (fuel N : Nat) (sqrt : F → F) (A0 : Nat → F) (ret0 : Bool)
    (hf : N < fuel) :
    InvertSChecked.factor fuel (tri N) sqrt N A0 ret0 = InvertS.factor fuel sqrt N A0 ret0 := by
  unfold InvertSChecked.factor InvertS.factor
  rw [whileLoop_congr _ (InvertS.factorStep fuel sqrt N) (InvertSChecked.factorStep fuel (tri N) sqrt N)
    (fun s => ∃ c, s.1 = c + 1 ∧ s.2.1 = tri c ∧ s.2.2.1 = tri c + c) ?_
    fuel (1, 0, 0, A0, ret0) ⟨0, rfl, rfl, rfl⟩]
  rintro ⟨j, j1, jj, A, ret⟩ ⟨c, h1, h2, h3⟩ hcond
  have hle : j ≤ N := by simpa using hcond
  dsimp only at h1 h2 h3 ⊢
  subst h1 h2 h3
  refine ⟨factorStep_checked fuel N c sqrt A ret (by omega) hf, fun s1 hs => ?_⟩
  obtain ⟨A', ret', hstep, -⟩ := factorStep_spec fuel N c sqrt A A ret (by omega) hf
  rw [hstep] at hs
  cases hs
  exact ⟨c + 1, rfl, rfl, rfl⟩

theorem rowColLoop_checked (fuel N q r : Nat) (A : Nat → F) (hq : q ≤ r) (hr : r < N) :
    whileLoop (fun ((_, ik, _, _) : Nat × Nat × Nat × F) => ik != tri r + r)
      (fun (k, ik, kj, sum) =>
        (rd (tri N) A ik).bind fun a => (rd (tri N) A kj).bind fun b =>
        some (k + 1, ik + 1, kj + k, sum + a * b))
      fuel (q + 1, tri r + q, tri q + q, 0)
    = whileLoop (fun ((_, ik, _, _) : Nat × Nat × Nat × F) => ik != tri r + r)
      (fun (k, ik, kj, sum) => some (k + 1, ik + 1, kj + k, sum + A ik * A kj))
      fuel (q + 1, tri r + q, tri q + q, 0) := by
  refine whileLoop_congr _ _ _
    (fun s => ∃ t, q ≤ t ∧ t ≤ r ∧ s.1 = t + 1 ∧ s.2.1 = tri r + t ∧ s.2.2.1 = tri t + q) ?_
    fuel (q + 1, tri r + q, tri q + q, 0) ⟨q, le_refl _, hq, rfl, rfl, rfl⟩
  rintro ⟨k, ik, kj, sum⟩ ⟨t, h1, h2, h3, h4, h5⟩ hcond
  dsimp only at h3 h4 h5 hcond ⊢
  subst h3 h4 h5
  have hne : tri r + t ≠ tri r + r := by simpa using hcond
  have ht : t < r := by omega
  have hb1 : tri r + t < tri N := tri_add_lt hr h2
  have hb2 : tri t + q < tri N := tri_add_lt (by omega) h1
  refine ⟨by rw [rd_of_lt A hb1, rd_of_lt A hb2]; rfl, fun s1 hs => ?_⟩
  cases hs
  refine ⟨t + 1, by omega, by omega, rfl, rfl, ?_⟩
  dsimp only
  rw [tri_succ]
  omega

theorem invertEntry_checked (fuel N q r : Nat) (x : F) (A : Nat → F) (hq : q < r) (hr : r < N)
    (hf : N < fuel) :
    InvertSChecked.invertEntry fuel (tri N) (tri r + r) x (q + 1, tri q + q, tri r + q, A)
      = InvertS.invertEntry fuel (tri r + r) x (q + 1, tri q + q, tri r + q, A) := by
  have hb : tri r + q < tri N := tri_add_lt hr (by omega)
  simp only [InvertSChecked.invertEntry, InvertS.invertEntry]
  rw [rowColLoop_checked fuel N q r A (by omega) hr,
    rowColLoop_eq A fuel q r (by omega) (by omega)]
  simp only [Option.some_bind]
  rw [wr_of_lt A _ hb, Option.some_bind]

/-- The result of the unchecked `invertEntry`, as far as the pointers go. -/
theorem invertEntry_next (fuel N q r : Nat) (x : F) (A : Nat → F) (hq : q < r) (hr : r < N)
    (hf : N < fuel) (s1 : Nat × Nat × Nat × (Nat → F))
    (h : InvertS.invertEntry fuel (tri r + r) x (q + 1, tri q + q, tri r + q, A) = some s1) :
    s1.1 = q + 2 ∧ s1.2.1 = tri (q + 1) + (q + 1) ∧ s1.2.2.1 = tri r + (q + 1) := by
  simp only [InvertS.invertEntry] at h
  rw [rowColLoop_eq A fuel q r (by omega) (by omega)] at h
  simp only [Option.some_bind, Option.some.injEq] at h
  subst h
  refine ⟨rfl, ?_, rfl⟩
  dsimp only
  rw [tri_succ]
  omega

theorem invertRowLoop_checked (fuel N r : Nat) (x : F) (A0 : Nat → F) (hr : r < N)
    (hf : N < fuel) :
    whileLoop (fun ((j, _, _, _) : Nat × Nat × Nat × (Nat → F)) => decide (j < r + 1))
      (InvertSChecked.invertEntry fuel (tri N) (tri r + r) x) fuel (1, 0, tri r, A0)
    = whileLoop (fun ((j, _, _, _) : Nat × Nat × Nat × (Nat → F)) => decide (j < r + 1))
      (InvertS.invertEntry fuel (tri r + r) x) fuel (1, 0, tri r, A0) := by
  refine whileLoop_congr _ _ _
    (fun s => ∃ q, s.1 = q + 1 ∧ s.2.1 = tri q + q ∧ s.2.2.1 = tri r + q) ?_
    fuel (1, 0, tri r, A0) ⟨0, rfl, by simp [tri], rfl⟩
  rintro ⟨j, jj, ij, A⟩ ⟨q, h1, h2, h3⟩ hcond
  dsimp only at h1 h2 h3 hcond ⊢
  subst h1 h2 h3
  have hlt : q + 1 < r + 1 := by simpa using hcond
  refine ⟨invertEntry_checked fuel N q r x A (by omega) hr hf, fun s1 hs => ?_⟩
  obtain ⟨e1, e2, e3⟩ := invertEntry_next fuel N q r x A (by omega) hr hf s1 hs
  exact ⟨q + 1, e1, e2, e3⟩

theorem zeroRowLoop_checked (M fuel lo hi : Nat) (A0 : Nat → F) (h : lo ≤ hi) (hM : hi ≤ M) :
    whileLoop (fun ((ik, _) : Nat × (Nat → F)) => ik != hi)
      (fun (ik, A) => (wr M A ik 0).bind fun A => some (ik + 1, A)) fuel (lo, A0)
    = whileLoop (fun ((ik, _) : Nat × (Nat → F)) => ik != hi)
      (fun (ik, A) => some (ik + 1, Function.update A ik 0)) fuel (lo, A0) := by
  refine whileLoop_congr _ _ _ (fun s => s.1 ≤ hi) ?_ fuel (lo, A0) h
  rintro ⟨ik, A⟩ h1 hcond
  dsimp only at h1 hcond ⊢
  have hne : ik ≠ hi := by simpa using hcond
  refine ⟨by rw [wr_of_lt A 0 (show ik < M by omega)]; rfl, fun s1 hs => ?_⟩
  cases hs
  dsimp only
  omega

theorem invertStep_checked (fuel N r : Nat) (A : Nat → F) (ret : Bool) (hr : r < N)
    (hf : N < fuel) :
    InvertSChecked.invertStep fuel (tri N) (r + 1, tri r + r, tri r, A, ret)
      = InvertS.invertStep fuel (r + 1, tri r + r, tri r, A, ret) := by
  have hb : tri r + r < tri N := tri_add_lt hr (le_refl _)
  simp only [InvertSChecked.invertStep, InvertS.invertStep]
  rw [rd_of_lt A hb, Option.some_bind]
  by_cases hx : A (tri r + r) > ZERO
  · rw [if_pos hx, if_pos hx, wr_of_lt A _ hb, Option.some_bind, Function.update_same,
      invertRowLoop_checked fuel N r _ _ hr hf]
  · rw [if_neg hx, if_neg hx,
      zeroRowLoop_checked (tri N) fuel (tri r) (tri r + r + 1) A (by omega) (by omega)]

theorem invertFactor_checked (fuel N : Nat) (A0 : Nat → F) (ret0 : Bool) (hf : N < fuel) :
    InvertSChecked.invertFactor fuel (tri N) N A0 ret0 = InvertS.invertFactor fuel N A0 ret0 := by
  unfold InvertSChecked.invertFactor InvertS.invertFactor
  rw [whileLoop_congr _ (InvertS.invertStep fuel) (InvertSChecked.invertStep fuel (tri N))
    (fun s => ∃ r, s.1 = r + 1 ∧ s.2.1 = tri r + r ∧ s.2.2.1 = tri r) ?_
    fuel (1, 0, 0, A0, ret0) ⟨0, rfl, rfl, rfl⟩]
  rintro ⟨i, ii, ij, A, ret⟩ ⟨r, h1, h2, h3⟩ hcond
  have hle : i ≤ N := by simpa using hcond
  dsimp only at h1 h2 h3 ⊢
  subst h1 h2 h3
  refine ⟨invertStep_checked fuel N r A ret (by omega) hf, fun s1 hs => ?_⟩
  obtain ⟨A', ret', hstep, -⟩ := invertStep_spec fuel N r A ret (by omega) hf
  rw [hstep] at hs
  cases hs
  exact ⟨r + 1, rfl, rfl, rfl⟩

theorem colColLoop_checked (fuel N q r : Nat) (A : Nat → F) (hq : q ≤ r) :
    whileLoop (fun ((k, _, _, _) : Nat × Nat × Nat × F) => decide (k ≤ N))
      (fun (k, ki, kj, sum) =>
        (rd (tri N) A ki).bind fun a => (rd (tri N) A kj).bind fun b =>
        some (k + 1, ki + k, kj + k, sum + a * b))
      fuel (r + 1, tri r + r, tri r + q, 0)
    = whileLoop (fun ((k, _, _, _) : Nat × Nat × Nat × F) => decide (k ≤ N))
      (fun (k, ki, kj, sum) => some (k + 1, ki + k, kj + k, sum + A ki * A kj))
      fuel (r + 1, tri r + r, tri r + q, 0) := by
  refine whileLoop_congr _ _ _
    (fun s => ∃ t, r ≤ t ∧ s.1 = t + 1 ∧ s.2.1 = tri t + r ∧ s.2.2.1 = tri t + q) ?_
    fuel (r + 1, tri r + r, tri r + q, 0) ⟨r, le_refl _, rfl, rfl, rfl⟩
  rintro ⟨k, ki, kj, sum⟩ ⟨t, h1, h3, h4, h5⟩ hcond
  dsimp only at h3 h4 h5 hcond ⊢
  subst h3 h4 h5
  have ht : t + 1 ≤ N := by simpa using hcond
  have hb1 : tri t + r < tri N := tri_add_lt (by omega) h1
  have hb2 : tri t + q < tri N := tri_add_lt (by omega) (by omega)
  refine ⟨by rw [rd_of_lt A hb1, rd_of_lt A hb2]; rfl, fun s1 hs => ?_⟩
  cases hs
  have e := tri_succ t
  exact ⟨t + 1, by omega, rfl, by dsimp only; omega, by dsimp only; omega⟩

theorem productEntry_checked (fuel N q r : Nat) (A : Nat → F) (hq : q ≤ r) (hr : r < N)
    (hf : N < fuel) :
    InvertSChecked.productEntry fuel (tri N) N (r + 1) (tri r + r) (tri r + q, A)
      = InvertS.productEntry fuel N (r + 1) (tri r + r) (tri r + q, A) := by
  have hb : tri r + q < tri N := tri_add_lt hr hq
  simp only [InvertSChecked.productEntry, InvertS.productEntry]
  rw [colColLoop_checked fuel N q r A hq, colColLoop_eq A fuel q r N (by omega) (by omega)]
  simp only [Option.some_bind]
  rw [wr_of_lt A _ hb, Option.some_bind]

/-- The unchecked `productEntry` leaves the entry pointer where it was. -/
theorem productEntry_next (fuel N q r : Nat) (A : Nat → F) (hr : r < N)
    (hf : N < fuel) (s1 : Nat × (Nat → F))
    (h : InvertS.productEntry fuel N (r + 1) (tri r + r) (tri r + q, A) = some s1) :
    s1.1 = tri r + q := by
  simp only [InvertS.productEntry] at h
  rw [colColLoop_eq A fuel q r N (by omega) (by omega)] at h
  simp only [Option.some_bind, Option.some.injEq] at h
  subst h
  rfl

theorem productRowLoop_checked (fuel N r : Nat) (A0 : Nat → F) (hr : r < N) (hf : N < fuel) :
    doWhileLoop (InvertSChecked.productEntry fuel (tri N) N (r + 1) (tri r + r))
      (fun ((ij, A) : Nat × (Nat → F)) => (ij != tri r + r, (ij + 1, A))) fuel (tri r, A0)
    = doWhileLoop (InvertS.productEntry fuel N (r + 1) (tri r + r))
      (fun ((ij, A) : Nat × (Nat → F)) => (ij != tri r + r, (ij + 1, A))) fuel (tri r, A0) := by
  refine doWhileLoop_congr _ _ _ (fun s => ∃ q, q ≤ r ∧ s.1 = tri r + q) ?_
    fuel (tri r, A0) ⟨0, Nat.zero_le _, rfl⟩
  rintro ⟨ij, A⟩ ⟨q, h1, h2⟩
  dsimp only at h2 ⊢
  subst h2
  refine ⟨productEntry_checked fuel N q r A h1 hr hf, fun s1 hs ht => ?_⟩
  have e := productEntry_next fuel N q r A hr hf s1 hs
  obtain ⟨ij1, A1⟩ := s1
  dsimp only at e ht ⊢
  subst e
  have hne : tri r + q ≠ tri r + r := by simpa using ht
  exact ⟨q + 1, by omega, rfl⟩

theorem productStep_checked (fuel N r : Nat) (A : Nat → F) (hr : r < N) (hf : N < fuel) :
    InvertSChecked.productStep fuel (tri N) N (r + 1, tri r + r, tri r, A)
      = InvertS.productStep fuel N (r + 1, tri r + r, tri r, A) := by
  simp only [InvertSChecked.productStep, InvertS.productStep]
  rw [productRowLoop_checked fuel N r A hr hf]

theorem transposeTimesSelf_checked (fuel N : Nat) (A0 : Nat → F) (hf : N < fuel) :
    InvertSChecked.transposeTimesSelf fuel (tri N) N A0 = InvertS.transposeTimesSelf fuel N A0 := by
  unfold InvertSChecked.transposeTimesSelf InvertS.transposeTimesSelf
  rw [whileLoop_congr _ (InvertS.productStep fuel N) (InvertSChecked.productStep fuel (tri N) N)
    (fun s => ∃ r, s.1 = r + 1 ∧ s.2.1 = tri r + r ∧ s.2.2.1 = tri r) ?_
    fuel (1, 0, 0, A0) ⟨0, rfl, rfl, rfl⟩]
  rintro ⟨i, ii, ij, A⟩ ⟨r, h1, h2, h3⟩ hcond
  have hle : i ≤ N := by simpa using hcond
  dsimp only at h1 h2 h3 ⊢
  subst h1 h2 h3
  refine ⟨productStep_checked fuel N r A (by omega) hf, fun s1 hs => ?_⟩
  obtain ⟨A', hb, -⟩ := productRowLoop_spec fuel N r A (by omega) hf
  simp only [InvertS.productStep] at hs
  rw [hb] at hs
  simp only [Option.some_bind, Option.some.injEq] at hs
  subst hs
  have e := tri_succ r
  exact ⟨r + 1, rfl, by dsimp only; omega, by dsimp only; omega⟩

/-- On an array of `N(N+1)/2` entries the checked `InvertS` is the unchecked one: no
access of the call falls outside the array. -/
theorem InvertSChecked_eq (fuel N : Nat) (sqrt : F → F) (A : Nat → F) (hf : N < fuel) :
    InvertSChecked fuel (tri N) sqrt A N = InvertS fuel sqrt A N := by
  unfold InvertSChecked InvertS
  rw [factor_checked fuel N sqrt A false hf]
  cases h1 : InvertS.factor fuel sqrt N A false with
  | none => rfl
  | some p =>
    obtain ⟨L, ret1⟩ := p
    simp only [Option.some_bind]
    rw [invertFactor_checked fuel N L ret1 hf]
    cases h2 : InvertS.invertFactor fuel N L ret1 with
    | none => rfl
    | some p2 =>
      obtain ⟨M, ret2⟩ := p2
      simp only [Option.some_bind]
      rw [transposeTimesSelf_checked fuel N M hf]

/-- With more fuel than rows the unchecked `InvertS` returns, whatever the array holds. -/
theorem InvertS_returns (fuel N : Nat) (sqrt : F → F) (A : Nat → F) (hf : N < fuel) :
    ∃ flag R, InvertS fuel sqrt A N = some (flag, R) := by
  obtain ⟨L, ret1, h1, -⟩ := factor_spec fuel N sqrt A false hf
  obtain ⟨M, ret2, h2, -⟩ := invertFactor_spec fuel N L ret1 hf
  obtain ⟨R, h3, -⟩ := transposeTimesSelf_spec fuel N M hf
  exact ⟨ret2, R, by simp only [InvertS, h1, Option.some_bind, h2, h3]⟩

/-- The checked model does refuse an access outside the array: on an array one entry
short for `N = 1` the first read of the pivot fails. -/
theorem InvertSChecked_short_array (sqrt : F → F) (A : Nat → F) :
    InvertSChecked 2 0 sqrt A 1 = none := by
  simp [InvertSChecked, InvertSChecked.factor, InvertSChecked.factorStep, whileLoop, rd]

/-- C25: for every `N ≥ 0` and every content of an array of exactly `N(N+1)/2` entries,
each of the three phases of `InvertS` (factorisation, triangular inversion,
transpose-times-self), run with every read and write checked against `0 .. N(N+1)/2 - 1`
and on whatever branch the pivots select, returns; so the call terminates, no access
falls outside the array, and it returns what the unchecked function returns. -/
theorem InvertS_total_in_bounds (N : Nat) (A : Nat → ℝ) (fuel : Nat) (hf : N < fuel) :
    ∃ L ret1 M ret2 R,
      InvertSChecked.factor fuel (N * (N + 1) / 2) Real.sqrt N A false = some (L, ret1) ∧
      InvertSChecked.invertFactor fuel (N * (N + 1) / 2) N L ret1 = some (M, ret2) ∧
      InvertSChecked.transposeTimesSelf fuel (N * (N + 1) / 2) N M = some R ∧
      InvertSChecked fuel (N * (N + 1) / 2) Real.sqrt A N = some (ret2, R) ∧
      InvertS fuel Real.sqrt A N = some (ret2, R) := by
  obtain ⟨L, ret1, h1, -⟩ := factor_spec fuel N Real.sqrt A false hf
  obtain ⟨M, ret2, h2, -⟩ := invertFactor_spec fuel N L ret1 hf
  obtain ⟨R, h3, -⟩ := transposeTimesSelf_spec fuel N M hf
  have hcall : InvertS fuel Real.sqrt A N = some (ret2, R) := by
    simp only [InvertS, h1, Option.some_bind, h2, h3]
  have e1 := factor_checked fuel N Real.sqrt A false hf
  have e2 := invertFactor_checked fuel N L ret1 hf
  have e3 := transposeTimesSelf_checked fuel N M hf
  have e4 := InvertSChecked_eq fuel N Real.sqrt A hf
  rw [h1] at e1
  rw [h2] at e2
  rw [h3] at e3
  rw [hcall] at e4
  exact ⟨L, ret1, M, ret2, R, e1, e2, e3, e4, hcall⟩

/-- Instance of C25: the degenerate matrix `[[1, 1], [1, 1]]` in an array of three
entries; the checked call returns. -/
theorem InvertS_total_in_bounds_witness :
    2 < 3 ∧ ∃ flag R,
      InvertSChecked 3 (2 * (2 + 1) / 2) Real.sqrt (ofList [(1 : ℝ), 1, 1]) 2
        = some (flag, R) := by
  obtain ⟨L, ret1, M, ret2, R, -, -, -, h, -⟩ :=
    InvertS_total_in_bounds 2 (ofList [(1 : ℝ), 1, 1]) 3 (by decide)
  exact ⟨by decide, ret2, R, h⟩

/-! ## The gate in machine arithmetic -/

theorem Double.ilog2_le : ∀ (fuel n : Nat), 1 ≤ n → 2 ^ Double.ilog2 fuel n ≤ n := by
  intro fuel
  induction fuel with
  | zero => intro n hn; simpa [Double.ilog2] using hn
  | succ f ih =>
    intro n hn
    unfold Double.ilog2
    by_cases h : n < 2
    · rw [if_pos h]; simpa using hn
    · rw [if_neg h]
      by_cases h64 : n < 2 ^ 64
      · rw [if_pos h64, pow_succ]
        have h1 := ih (n / 2) (by omega)
        omega
      · rw [if_neg h64, pow_add]
        have h0 : 1 ≤ n / 2 ^ 64 := Nat.div_pos (by omega) (Nat.two_pow_pos _)
        have h1 := ih (n / 2 ^ 64) h0
        calc 2 ^ Double.ilog2 f (n / 2 ^ 64) * 2 ^ 64 ≤ n / 2 ^ 64 * 2 ^ 64 :=
              Nat.mul_le_mul_right _ h1
          _ ≤ n := Nat.div_mul_le_self n (2 ^ 64)

/-- Rounding a positive integer number of units never gives a zero. -/
theorem Double.round_pos (neg : Bool) (p : Nat) (hp : 0 < p) :
    (∃ m, 0 < m ∧ Double.round neg p 1 = .fin neg m) ∨ Double.round neg p 1 = .inf neg := by
  unfold Double.round
  simp only [Nat.div_one, Nat.mul_one]
  have hs : 2 ^ (Double.ilog2 p p - 52) ≤ p :=
    le_trans (Nat.pow_le_pow_right (by norm_num) (Nat.sub_le _ _)) (Double.ilog2_le p p hp)
  have h2 : 0 < 2 ^ (Double.ilog2 p p - 52) := Nat.two_pow_pos _
  have hm : 0 < p / 2 ^ (Double.ilog2 p p - 52) := Nat.div_pos hs h2
  split_ifs
  all_goals first
    | exact Or.inr rfl
    | exact Or.inl ⟨_, Nat.mul_pos (by omega) h2, rfl⟩

theorem Double.zero_eq : (0 : Double) = .fin false 0 := by decide!

theorem Double.zero_lt_abs_round (neg : Bool) (p : Nat) (hp : 0 < p) :
    Double.lt (.fin false 0) (Double.abs (Double.round neg p 1)) = true := by
  rcases Double.round_pos neg p hp with ⟨m, hm, h⟩ | h
  · rw [h]
    simpa [Double.abs, Double.lt] using hm
  · rw [h]
    simp [Double.abs, Double.lt]

/-- The test `TMath::Abs(x - y) > 0.0`: it holds exactly for two numbers (neither a
NaN) that do not compare equal. -/
theorem Double.zero_lt_abs_sub (x y : Double) :
    (0 : Double) < Double.abs (x - y) ↔
      (x.isNaN = false ∧ y.isNaN = false ∧ Double.eq x y = false) := by
  show Double.lt (0 : Double) (Double.abs (Double.sub x y)) = true ↔ _
  rw [Double.zero_eq]
  unfold Double.sub
  cases x with
  | nan => simp [Double.add, Double.abs, Double.lt, Double.isNaN]
  | inf na =>
    cases y with
    | nan => simp [Double.neg, Double.add, Double.abs, Double.lt, Double.isNaN]
    | inf nb => cases na <;> cases nb <;> simp [Double.neg, Double.add, Double.abs, Double.lt, Double.isNaN, Double.eq]
    | fin nb b => simp [Double.neg, Double.add, Double.abs, Double.lt, Double.isNaN, Double.eq]
  | fin na a =>
    cases y with
    | nan => simp [Double.neg, Double.add, Double.abs, Double.lt, Double.isNaN]
    | inf nb => simp [Double.neg, Double.add, Double.abs, Double.lt, Double.isNaN, Double.eq]
    | fin nb b =>
      simp only [Double.neg, Double.add, Double.isNaN, Double.eq, true_and]
      by_cases hs : na = !nb
      · rw [if_pos hs]
        have hne : (na == nb) = false := by cases na <;> cases nb <;> simp_all
        by_cases h0 : a + b = 0
        · have ha : a = 0 := by omega
          have hb : b = 0 := by omega
          subst ha hb
          have : Double.round na 0 1 = .fin na 0 := by
            cases na <;> decide!
          simp [this, Double.abs, Double.lt]
        · rw [Double.zero_lt_abs_round na (a + b) (by omega)]
          have : ¬ (a = 0 ∧ b = 0) := by omega
          simp [hne]
          omega
      · rw [if_neg hs]
        have he : (na == nb) = true := by cases na <;> cases nb <;> simp_all
        by_cases h1 : b < a
        · rw [if_pos h1, Double.zero_lt_abs_round na (a - b) (by omega)]
          simp [he]
          omega
        · rw [if_neg h1]
          by_cases h2 : a < b
          · rw [if_pos h2, Double.zero_lt_abs_round (!nb) (b - a) (by omega)]
            simp [he]
            omega
          · rw [if_neg h2]
            have hab : a = b := by omega
            simp [Double.abs, Double.lt, he, hab]

/-- The gate on two non-null tracks in machine arithmetic, for any thresholds: it
accepts exactly when none of the five tests of lines 329-333 holds. -/
theorem IEEE.MatchTracks_iff_no_test (m : Merger Double) (a b : AliESDtrack Double) :
    IEEE.MatchTracks m (some a) (some b) = true ↔
      ¬ (Double.abs (a.fP 0 - b.fP 0) > m.fMaxY) ∧ ¬ (Double.abs (a.fP 1 - b.fP 1) > m.fMaxZ) ∧
      ¬ (Double.abs (a.fP 2 - b.fP 2) > m.fMaxSnp) ∧
      ¬ (Double.abs (a.fP 3 - b.fP 3) > m.fMaxTgl) ∧
      ¬ (Double.abs (a.fP 4 - b.fP 4) > m.fMaxSigned1Pt) := by
  unfold IEEE.MatchTracks
  dsimp only
  by_cases h1 : Double.abs (a.fP 0 - b.fP 0) > m.fMaxY
  · rw [if_pos h1]
    exact ⟨fun h => absurd h (by simp), fun h => absurd h1 h.1⟩
  rw [if_neg h1]
  by_cases h2 : Double.abs (a.fP 1 - b.fP 1) > m.fMaxZ
  · rw [if_pos h2]
    exact ⟨fun h => absurd h (by simp), fun h => absurd h2 h.2.1⟩
  rw [if_neg h2]
  by_cases h3 : Double.abs (a.fP 2 - b.fP 2) > m.fMaxSnp
  · rw [if_pos h3]
    exact ⟨fun h => absurd h (by simp), fun h => absurd h3 h.2.2.1⟩
  rw [if_neg h3]
  by_cases h4 : Double.abs (a.fP 3 - b.fP 3) > m.fMaxTgl
  · rw [if_pos h4]
    exact ⟨fun h => absurd h (by simp), fun h => absurd h4 h.2.2.2.1⟩
  rw [if_neg h4]
  by_cases h5 : Double.abs (a.fP 4 - b.fP 4) > m.fMaxSigned1Pt
  · rw [if_pos h5]
    exact ⟨fun h => absurd h (by simp), fun h => absurd h5 h.2.2.2.2⟩
  rw [if_neg h5]
  exact ⟨fun _ => ⟨h1, h2, h3, h4, h5⟩, fun _ => rfl⟩

/-- The default gate in machine arithmetic: a pair of non-null tracks is accepted
exactly when each of the five parameters compares equal on the two tracks or is a NaN
on one of them. -/
theorem IEEE.MatchTracks_default_iff (a b : AliESDtrack Double) :
    IEEE.MatchTracks IEEE.defaultMerger (some a) (some b) = true ↔
      ∀ k, k < 5 → ((a.fP k).isNaN = true ∨ (b.fP k).isNaN = true ∨
        Double.eq (a.fP k) (b.fP k) = true) := by
  have key : ∀ x y : Double, ¬ (Double.abs (x - y) > (0 : Double)) ↔
      (x.isNaN = true ∨ y.isNaN = true ∨ Double.eq x y = true) := by
    intro x y
    show ¬ ((0 : Double) < Double.abs (x - y)) ↔ _
    rw [Double.zero_lt_abs_sub]
    cases x.isNaN <;> cases y.isNaN <;> cases Double.eq x y <;> simp
  rw [IEEE.MatchTracks_iff_no_test]
  simp only [IEEE.defaultMerger, key]
  constructor
  · rintro ⟨h0, h1, h2, h3, h4⟩ k hk
    interval_cases k
    · exact h0
    · exact h1
    · exact h2
    · exact h3
    · exact h4
  · intro h
    exact ⟨h 0 (by decide), h 1 (by decide), h 2 (by decide), h 3 (by decide), h 4 (by decide)⟩

/-! ## Machine arithmetic against the claims stated in exact arithmetic -/

/-- On binary64 numbers, a successful call of `SmoothTracks` returns
`NDF = NDF1 + NDF2 + N` in `Int_t` arithmetic. -/
theorem IEEE.SmoothTracks_ndf (fuel N : Nat) (T1 C1 : Nat → Double) (Chi21 : Double) (NDF1 : Int)
    (T2 C2 : Nat → Double) (Chi22 : Double) (NDF2 : Int) (T C : Nat → Double) (Chi2 : Double)
    (NDF : Int) (T' C' : Nat → Double) (Chi2' : Double) (NDF' : Int)
    (h : IEEE.SmoothTracks fuel T1 C1 Chi21 NDF1 T2 C2 Chi22 NDF2 T C Chi2 NDF N
      = some (false, T', C', Chi2', NDF')) :
    NDF' = wrapInt_t (wrapInt_t (NDF1 + NDF2) + (N : Int)) := by
  unfold IEEE.SmoothTracks at h
  simp only [Option.bind_eq_some] at h
  obtain ⟨⟨k, A⟩, -, ⟨err, A1⟩, -, h⟩ := h
  cases err with
  | true => simp at h
  | false =>
    simp only [Bool.false_eq_true, if_false, Option.bind_eq_some] at h
    obtain ⟨K, -, ⟨k1, r⟩, -, ⟨k2, T2'⟩, -, ⟨i3, j3, chi⟩, -, ⟨l4, K4⟩, -, ⟨i5, l5, A5⟩, -,
      ⟨l6, C6⟩, -, h⟩ := h
    simp only [Option.some.injEq, Prod.mk.injEq] at h
    exact h.2.2.2.2.symm

/-- C2 as stated fails in machine arithmetic: the matrix `[[2401, 49], [49, 1]]` is
singular (its determinant is `2401 * 1 - 49 * 49 = 0`), yet on binary64 numbers
`InvertS` returns 0 on it.  The first column gives `L_10 = 49 * (1/49)`, which rounds
to the number just below 1, so the second pivot `1 - L_10^2` comes out as `2^-52`,
above `1e-20`; the entry returned at offset 2 is `2^52`. -/
theorem InvertS_accepts_singular_matrix :
    (toMatrix 2 (ofList [(2401 : ℝ), 49, 1])).det = 0 ∧
    ∃ R, IEEE.InvertS 3 (Double.ofList [2401, 49, 1]) 2 = some (false, R) ∧
      R 2 = 4503599627370496 := by
  constructor
  · rw [Matrix.det_fin_two]
    simp [toMatrix, IndexS, ofList]
    norm_num
  · obtain ⟨⟨flag, R⟩, hrun, hv⟩ := Option.map_eq_some'.mp
      (by decide! : (IEEE.InvertS 3 (Double.ofList [2401, 49, 1]) 2).map (fun p => (p.1, p.2 2))
        = some (false, 4503599627370496))
    simp only [Prod.mk.injEq] at hv
    obtain ⟨rfl, h2⟩ := hv
    exact ⟨R, hrun, h2⟩

/-- C23 as stated fails in machine arithmetic: for the packed matrix
`{1, 1 + 3/2^28, 1 + 3/2^27 + 1/2^52}` (three binary64 numbers) both exact pivots,
`1` and `7/2^56`, exceed `1e-20`, yet on binary64 numbers `InvertS` returns 1: the
square of `1 + 3/2^28` rounds up to the third entry, and the second pivot comes
out as 0. -/
theorem InvertS_rejects_matrix_with_good_pivots :
    (∀ c, c < 2 →
      cholPivot Real.sqrt (ofList [(1 : ℝ), 1 + 3 / 2 ^ 28, 1 + 3 / 2 ^ 27 + 1 / 2 ^ 52]) c
        > ZERO) ∧
    Double.ofRatio (2 ^ 28 + 3) (2 ^ 28) = .fin false ((2 ^ 28 + 3) * 2 ^ 1046) ∧
    Double.ofRatio (2 ^ 52 + 3 * 2 ^ 25 + 1) (2 ^ 52)
      = .fin false ((2 ^ 52 + 3 * 2 ^ 25 + 1) * 2 ^ 1022) ∧
    ∃ R, IEEE.InvertS 3 (Double.ofList [1, Double.ofRatio (2 ^ 28 + 3) (2 ^ 28),
      Double.ofRatio (2 ^ 52 + 3 * 2 ^ 25 + 1) (2 ^ 52)]) 2 = some (true, R) := by
  refine ⟨fun c hc => ?_, by decide!, by decide!, ?_⟩
  · have hZ : (ZERO : ℝ) < 7 / 2 ^ 56 := by unfold ZERO; norm_num
    interval_cases c
    · have : cholPivot Real.sqrt
          (ofList [(1 : ℝ), 1 + 3 / 2 ^ 28, 1 + 3 / 2 ^ 27 + 1 / 2 ^ 52]) 0 = 1 := by
        simp [cholPivot, cholCols, tri, ofList]
      rw [this]
      exact ZERO_lt_one
    · have : cholPivot Real.sqrt
          (ofList [(1 : ℝ), 1 + 3 / 2 ^ 28, 1 + 3 / 2 ^ 27 + 1 / 2 ^ 52]) 1 = 7 / 2 ^ 56 := by
        simp [cholPivot, cholCols, tri, ofList, Finset.sum_range_one]
        norm_num
      rw [this]
      exact hZ
  · obtain ⟨⟨flag, R⟩, hrun, hv⟩ := Option.map_eq_some'.mp
      (by decide! : (IEEE.InvertS 3 (Double.ofList [1, Double.ofRatio (2 ^ 28 + 3) (2 ^ 28),
        Double.ofRatio (2 ^ 52 + 3 * 2 ^ 25 + 1) (2 ^ 52)]) 2).map Prod.fst = some true)
    dsimp only at hv
    subst hv
    exact ⟨R, hrun⟩

/-- C24 as stated fails in machine arithmetic: with `N = 2`,
`C1 = C2 = {1200.5, 24.5, 0.5}`, `T1 = {20.09, 0.41}`, `T2 = {0, 0}` and
`Chi21 = Chi22 = 0`, on binary64 numbers `SmoothTracks` returns 0 with
`Chi2 = -0.125`, below `Chi21 + Chi22 = 0`.  The sum `C1 + C2 = {2401, 49, 1}` is
singular, `InvertS` lets it pass, and the returned array is no inverse. -/
theorem SmoothTracks_chi2_decreases :
    ∃ T' C' Chi2' NDF',
      IEEE.SmoothTracks 4 (Double.ofList [20.09, 0.41]) (Double.ofList [1200.5, 24.5, 0.5]) 0 0
        (Double.ofList [0, 0]) (Double.ofList [1200.5, 24.5, 0.5]) 0 0
        (fun _ => 0) (fun _ => 0) 0 0 2 = some (false, T', C', Chi2', NDF') ∧
      Chi2' = -0.125 ∧ Chi2' < 0 + 0 := by
  obtain ⟨⟨flag, T', C', Chi2', NDF'⟩, hrun, hv⟩ := Option.map_eq_some'.mp
    (by decide! : (IEEE.SmoothTracks 4 (Double.ofList [20.09, 0.41])
        (Double.ofList [1200.5, 24.5, 0.5]) 0 0
        (Double.ofList [0, 0]) (Double.ofList [1200.5, 24.5, 0.5]) 0 0
        (fun _ => 0) (fun _ => 0) 0 0 2).map (fun p => (p.1, p.2.2.2.1)) = some (false, -0.125))
  simp only [Prod.mk.injEq] at hv
  obtain ⟨rfl, h2⟩ := hv
  refine ⟨T', C', Chi2', NDF', hrun, h2, ?_⟩
  rw [h2]
  decide!

/-- C5 as stated fails in machine arithmetic: with `NDF1 = 2147483647`, `NDF2 = 0` and
`N = 2` (and `C1 = C2 = {2, 1, 2.5}`, `T1 = {2, 0}`, `T2 = {0, 0}`) `SmoothTracks`
returns 0 with `NDF = -2147483647`: the `Int_t` sum `NDF1 + NDF2 + N` wraps around. -/
theorem SmoothTracks_ndf_wraps :
    ∃ T' C' Chi2' NDF',
      IEEE.SmoothTracks 4 (Double.ofList [2, 0]) (Double.ofList [2, 1, 2.5]) 0 2147483647
        (Double.ofList [0, 0]) (Double.ofList [2, 1, 2.5]) 0 0
        (fun _ => 0) (fun _ => 0) 0 0 2 = some (false, T', C', Chi2', NDF') ∧
      NDF' = -2147483647 ∧ NDF' ≠ 2147483647 + 0 + 2 := by
  obtain ⟨⟨flag, T', C', Chi2', NDF'⟩, hrun, hv⟩ := Option.map_eq_some'.mp
    (by decide! : (IEEE.SmoothTracks 4 (Double.ofList [2, 0]) (Double.ofList [2, 1, 2.5]) 0
        2147483647 (Double.ofList [0, 0]) (Double.ofList [2, 1, 2.5]) 0 0
        (fun _ => 0) (fun _ => 0) 0 0 2).map (fun p => (p.1, p.2.2.2.2))
      = some (false, -2147483647))
  simp only [Prod.mk.injEq] at hv
  obtain ⟨rfl, h2⟩ := hv
  exact ⟨T', C', Chi2', NDF', hrun, h2, by rw [h2]; decide⟩

/-- C9 as stated fails in machine arithmetic: with `maxy = 2^53` the tracks with
`Y = 2^53` and `Y = -1` (all other parameters and thresholds 0) deviate by `2^53 + 1`,
above the threshold, yet `MatchTracks` accepts them, because the difference
`2^53 - (-1)` rounds to `2^53`; and a track whose `Y` is a NaN passes every test,
whatever the thresholds (here all `1.0`). -/
theorem MatchTracks_accepts_deviation_above_threshold :
    |(9007199254740992 : ℝ) - (-1)| > 9007199254740992 ∧
    IEEE.MatchTracks (IEEE.SetParameter IEEE.defaultMerger 9007199254740992 0 0 0 0)
      (some ⟨Double.ofList [9007199254740992]⟩) (some ⟨Double.ofList [-1]⟩) = true ∧
    IEEE.MatchTracks (IEEE.SetParameter IEEE.defaultMerger 1 1 1 1 1)
      (some ⟨Double.ofList [Double.nan]⟩) (some ⟨Double.ofList [5]⟩) = true := by
  refine ⟨by norm_num, by decide!, by decide!⟩

theorem Double.one_eq : (1 : Double) = .fin false (2 ^ 1074) := by decide!

/-- A parameter equal on the two tracks passes the test with threshold `1.0`. -/
theorem Double.abs_sub_self_not_gt_one (x : Double) : ¬ (Double.abs (x - x) > 1) := by
  show ¬ (Double.lt (1 : Double) (Double.abs (Double.sub x x)) = true)
  rw [Double.one_eq]
  generalize (2 ^ 1074 : Nat) = c
  unfold Double.sub
  cases x with
  | nan => simp [Double.neg, Double.add, Double.abs, Double.lt]
  | inf n => cases n <;> simp [Double.neg, Double.add, Double.abs, Double.lt]
  | fin n a => cases n <;> simp [Double.neg, Double.add, Double.abs, Double.lt]

/-- C9 as amended.  In machine arithmetic, for all non-null tracks and all thresholds
set by `SetParameter`, `MatchTracks(a, b)` is true if and only if none of the five
tests `TMath::Abs(p_a - p_b) > max_p` holds; with all thresholds `1.0`, two states with
the same parameters 1 to 4 whose first offsets differ by `0.5` match and two that differ
by `1.5` do not; a null track gives false.  In exact real arithmetic (differences
without rounding, no NaN) the five tests fail exactly when each absolute deviation is
at most its threshold, equality accepted. -/
theorem MatchTracks_five_tests :
    (∀ (m0 : Merger Double) (maxy maxz maxsnp maxtgl max1pt : Double) (a b : AliESDtrack Double),
      IEEE.MatchTracks (IEEE.SetParameter m0 maxy maxz maxsnp maxtgl max1pt) (some a) (some b)
          = true ↔
        ¬ (Double.abs (a.fP 0 - b.fP 0) > maxy) ∧ ¬ (Double.abs (a.fP 1 - b.fP 1) > maxz) ∧
        ¬ (Double.abs (a.fP 2 - b.fP 2) > maxsnp) ∧ ¬ (Double.abs (a.fP 3 - b.fP 3) > maxtgl) ∧
        ¬ (Double.abs (a.fP 4 - b.fP 4) > max1pt)) ∧
    (∀ (m0 : Merger Double) (a b : AliESDtrack Double), (∀ k, 1 ≤ k → a.fP k = b.fP k) →
      (a.fP 0 - b.fP 0 = 0.5 →
        IEEE.MatchTracks (IEEE.SetParameter m0 1 1 1 1 1) (some a) (some b) = true) ∧
      (a.fP 0 - b.fP 0 = 1.5 →
        IEEE.MatchTracks (IEEE.SetParameter m0 1 1 1 1 1) (some a) (some b) = false)) ∧
    (∀ (m : Merger Double) (t : Option (AliESDtrack Double)),
      IEEE.MatchTracks m none t = false ∧ IEEE.MatchTracks m t none = false) ∧
    (∀ (m0 : Merger ℝ) (maxy maxz maxsnp maxtgl max1pt : ℝ) (a b : AliESDtrack ℝ),
      MatchTracks (SetParameter m0 maxy maxz maxsnp maxtgl max1pt) (some a) (some b) = true ↔
        |a.GetY - b.GetY| ≤ maxy ∧ |a.GetZ - b.GetZ| ≤ maxz ∧
        |a.GetSnp - b.GetSnp| ≤ maxsnp ∧ |a.GetTgl - b.GetTgl| ≤ maxtgl ∧
        |a.GetSigned1Pt - b.GetSigned1Pt| ≤ max1pt) := by
  refine ⟨fun m0 maxy maxz maxsnp maxtgl max1pt a b => IEEE.MatchTracks_iff_no_test _ a b,
    fun m0 a b hk => ⟨fun h0 => ?_, fun h0 => ?_⟩, fun m t => ⟨rfl, by cases t <;> rfl⟩,
    fun m0 maxy maxz maxsnp maxtgl max1pt a b => MatchTracks_some_iff _ a b⟩
  · rw [IEEE.MatchTracks_iff_no_test]
    simp only [IEEE.SetParameter]
    rw [h0, hk 1 (le_refl _), hk 2 (by decide), hk 3 (by decide), hk 4 (by decide)]
    exact ⟨by decide!, Double.abs_sub_self_not_gt_one _, Double.abs_sub_self_not_gt_one _,
      Double.abs_sub_self_not_gt_one _, Double.abs_sub_self_not_gt_one _⟩
  · cases h : IEEE.MatchTracks (IEEE.SetParameter m0 1 1 1 1 1) (some a) (some b)
    · rfl
    · have h1 := ((IEEE.MatchTracks_iff_no_test _ a b).mp h).1
      simp only [IEEE.SetParameter] at h1
      rw [h0] at h1
      exact absurd (by decide! : Double.abs (1.5 : Double) > 1) h1

/-- C10 as amended.  On a default-constructed merger (all five thresholds `0.0`), in
machine arithmetic, `MatchTracks` returns true exactly when both tracks are non-null
and each of the five parameters either compares equal on the two tracks or is a NaN on
one of them; every other pair is rejected.  In exact real arithmetic (no NaN) it
returns true exactly when both tracks are non-null and the five parameters are pairwise
equal. -/
theorem MatchTracks_default_gate :
    (∀ a b : Option (AliESDtrack Double),
      IEEE.MatchTracks IEEE.defaultMerger a b = true ↔
        ∃ ta tb, a = some ta ∧ b = some tb ∧
          ∀ k, k < 5 → ((ta.fP k).isNaN = true ∨ (tb.fP k).isNaN = true ∨
            Double.eq (ta.fP k) (tb.fP k) = true)) ∧
    (∀ a b : Option (AliESDtrack ℝ),
      MatchTracks (Merger.default : Merger ℝ) a b = true ↔
        ∃ ta tb, a = some ta ∧ b = some tb ∧
          ta.GetY = tb.GetY ∧ ta.GetZ = tb.GetZ ∧ ta.GetSnp = tb.GetSnp ∧
          ta.GetTgl = tb.GetTgl ∧ ta.GetSigned1Pt = tb.GetSigned1Pt) := by
  refine ⟨fun a b => ?_, MatchTracks_default_iff_equal⟩
  cases a with
  | none =>
    exact ⟨fun h => absurd h (by simp [IEEE.MatchTracks]), fun ⟨_, _, h, _⟩ => by simp at h⟩
  | some ta =>
    cases b with
    | none =>
      exact ⟨fun h => absurd h (by simp [IEEE.MatchTracks]),
        fun ⟨_, _, _, h, _⟩ => by simp at h⟩
    | some tb =>
      rw [IEEE.MatchTracks_default_iff]
      constructor
      · intro h
        exact ⟨ta, tb, rfl, rfl, h⟩
      · rintro ⟨ta', tb', h1, h2, h⟩
        cases h1; cases h2
        exact h

/-- C5 as amended.  In exact real arithmetic the call of `SmoothTracks` returns (fuel
above `N*(N+1)/2`), and whenever it succeeds (flag 0) the output `Chi2` is
`Chi21 + Chi22 + r^T * A * r` with `r = T1 - T2` and `A = inverse(C1 + C2)`.  The output
`NDF` of a successful call is `NDF1 + NDF2 + N` in `Int_t` arithmetic, in exact real
arithmetic and on binary64 numbers alike; it is the integer `NDF1 + NDF2 + N` when
`NDF1 + NDF2` and `NDF1 + NDF2 + N` lie in the range of `Int_t`. -/
theorem SmoothTracks_chi2_ndf (N fuel : Nat) (NDF1 NDF2 : Int) (hf : N * (N + 1) / 2 < fuel) :
    (∀ (T1 C1 : Nat → ℝ) (Chi21 : ℝ) (T2 C2 : Nat → ℝ) (Chi22 : ℝ) (T C : Nat → ℝ) (Chi2 : ℝ)
      (NDF : Int),
      ∃ err T' C' Chi2' NDF',
        SmoothTracks fuel Real.sqrt T1 C1 Chi21 NDF1 T2 C2 Chi22 NDF2 T C Chi2 NDF N
          = some (err, T', C', Chi2', NDF') ∧
        (err = false →
          Chi2' = Chi21 + Chi22
            + Matrix.dotProduct (fun i : Fin N => T1 i - T2 i)
                (Matrix.mulVec (toMatrix N C1 + toMatrix N C2)⁻¹
                  (fun i : Fin N => T1 i - T2 i)) ∧
          NDF' = wrapInt_t (wrapInt_t (NDF1 + NDF2) + (N : Int)))) ∧
    (∀ (T1 C1 : Nat → Double) (Chi21 : Double) (T2 C2 : Nat → Double) (Chi22 : Double)
      (T C : Nat → Double) (Chi2 : Double) (NDF : Int) (T' C' : Nat → Double) (Chi2' : Double)
      (NDF' : Int),
      IEEE.SmoothTracks fuel T1 C1 Chi21 NDF1 T2 C2 Chi22 NDF2 T C Chi2 NDF N
          = some (false, T', C', Chi2', NDF') →
        NDF' = wrapInt_t (wrapInt_t (NDF1 + NDF2) + (N : Int))) ∧
    (-2147483648 ≤ NDF1 + NDF2 → NDF1 + NDF2 + (N : Int) ≤ 2147483647 →
      wrapInt_t (wrapInt_t (NDF1 + NDF2) + (N : Int)) = NDF1 + NDF2 + (N : Int)) := by
  refine ⟨fun T1 C1 Chi21 T2 C2 Chi22 T C Chi2 NDF => ?_,
    fun T1 C1 Chi21 T2 C2 Chi22 T C Chi2 NDF T' C' Chi2' NDF' h =>
      IEEE.SmoothTracks_ndf fuel N T1 C1 Chi21 NDF1 T2 C2 Chi22 NDF2 T C Chi2 NDF T' C' Chi2' NDF' h,
    fun h1 h2 => ?_⟩
  · obtain ⟨err, Ainv, hinv, -, hmat⟩ := InvertS_sumPacked fuel N C1 C2 hf
    obtain ⟨⟨e, T', C', Chi2', NDF'⟩, hrun, h1, h2⟩ :=
      SmoothTracks_spec fuel N Real.sqrt T1 C1 Chi21 NDF1 T2 C2 Chi22 NDF2 T C Chi2 NDF hf err
        Ainv hinv
    refine ⟨e, T', C', Chi2', NDF', hrun, fun he => ?_⟩
    cases herr : err
    · obtain ⟨-, -, -, -, -, h6, h7⟩ := h2 herr
      dsimp only at h6 h7
      rw [h6, h7, chi2Packed_eq_dotProduct, (hmat herr).2]
      exact ⟨rfl, rfl⟩
    · have := congrArg Prod.fst (h1 herr)
      dsimp only at this
      rw [this] at he
      exact absurd he (by simp)
  · unfold wrapInt_t
    omega

/-- Instance of C5 as amended: the fusion with `N = 2`, `T1 = {2, 0}`, `T2 = {0, 0}`,
`C1 = C2 = {2, 1, 5/2}`, `Chi21 = 3`, `Chi22 = 4`, `NDF1 = 7`, `NDF2 = 8` succeeds in
exact real arithmetic with `Chi2 = 3 + 4 + 5/4` and `NDF = 7 + 8 + 2`. -/
theorem SmoothTracks_chi2_ndf_witness :
    2 * (2 + 1) / 2 < 4 ∧
    ∃ T' C', SmoothTracks 4 Real.sqrt (ofList [2, 0]) (ofList [2, 1, 5 / 2]) 3 7
        (ofList [0, 0]) (ofList [2, 1, 5 / 2]) 4 8 (ofList []) (ofList []) 0 0 2
      = some (false, T', C', 3 + 4 + 5 / 4, 7 + 8 + 2) := by
  refine ⟨by decide, ?_⟩
  obtain ⟨err, T', C', Chi2', NDF', hrun, h⟩ := (SmoothTracks_chi2_ndf 2 4 7 8 (by decide)).1
    (ofList [2, 0]) (ofList [2, 1, 5 / 2]) 3 (ofList [0, 0]) (ofList [2, 1, 5 / 2]) 4
    (ofList []) (ofList []) 0 0
  obtain ⟨Ainv, ⟨err2, T2', C2', chi2, ndf2⟩, hrun2, he2, -⟩ := SmoothTracks_equal_cov 4 2
    (ofList [2, 0]) (ofList [2, 1, 5 / 2]) 3 7 (ofList [0, 0]) 4 8 (ofList []) (ofList []) 0 0
    (by decide) example_sum_pivots
  dsimp only at he2
  rw [hrun] at hrun2
  have herr : err = false := by
    have := congrArg Prod.fst (Option.some.inj hrun2)
    dsimp only at this
    rw [this, he2]
  obtain ⟨hchi, hndf⟩ := h herr
  subst herr
  refine ⟨T', C', ?_⟩
  rw [hrun, hchi, hndf]
  have hinv : (toMatrix 2 (ofList [(2 : ℝ), 1, 5 / 2]) + toMatrix 2 (ofList [(2 : ℝ), 1, 5 / 2]))⁻¹
      = !![5 / 16, -(1 / 8); -(1 / 8), 1 / 4] := by
    apply Matrix.inv_eq_right_inv
    ext i j
    fin_cases i <;> fin_cases j <;>
      simp [Matrix.mul_apply, Fin.sum_univ_two, toMatrix, IndexS, ofList] <;> norm_num
  rw [hinv]
  have hw : wrapInt_t (wrapInt_t (7 + 8) + ((2 : Nat) : Int)) = 7 + 8 + 2 := by decide
  rw [hw]
  congr 4
  simp [Matrix.dotProduct, Matrix.mulVec, Fin.sum_univ_two, ofList]
  norm_num

/-- Instance of C2 as amended: in exact real arithmetic `InvertS` returns 1 on the
singular matrix `[[2401, 49], [49, 1]]` (which it lets pass on binary64 numbers), and on
the all-zero `2 x 2` matrix, which it leaves all-zero. -/
theorem InvertS_detects_singular_witness :
    ((1 ≤ 2 ∧ (toMatrix 2 (ofList [(2401 : ℝ), 49, 1])).det = 0 ∧ 2 < 3) ∧
      ∃ R, InvertS 3 Real.sqrt (ofList [(2401 : ℝ), 49, 1]) 2 = some (true, R)) ∧
    (∃ R, InvertS 3 Real.sqrt (ofList ([] : List ℝ)) 2 = some (true, R) ∧
        ∀ k, k < 2 * (2 + 1) / 2 → R k = 0) := by
  have hdet : (toMatrix 2 (ofList [(2401 : ℝ), 49, 1])).det = 0 := by
    rw [Matrix.det_fin_two]
    simp [toMatrix, IndexS, ofList]
    norm_num
  have hzero : (toMatrix 2 (ofList ([] : List ℝ))).det = 0 := by
    have : toMatrix 2 (ofList ([] : List ℝ)) = 0 := by
      ext i j
      simp [toMatrix, ofList]
    rw [this, Matrix.det_zero ⟨0⟩]
  exact ⟨⟨⟨by decide, hdet, by decide⟩,
      (InvertS_detects_singular 2 (by decide) (ofList [2401, 49, 1]) hdet 3 (by decide)).1⟩,
    (InvertS_detects_singular 2 (by decide) (ofList []) hzero 3 (by decide)).2
      fun k _ => by simp [ofList]⟩

theorem Double.ofList_singleton_succ (x : Double) (k : Nat) (hk : 1 ≤ k) :
    Double.ofList [x] k = Double.ofList [] k := by
  cases k with
  | zero => exact absurd hk (by decide)
  | succ k => simp [Double.ofList]

/-- Instance of C9 as amended, in machine arithmetic: with all thresholds `1.0` the
states `(0.5, 0, 0, 0, 0)` and `(0, 0, 0, 0, 0)` match, and the states
`(1.5, 0, 0, 0, 0)` and `(0, 0, 0, 0, 0)` do not. -/
theorem MatchTracks_five_tests_witness :
    IEEE.MatchTracks (IEEE.SetParameter IEEE.defaultMerger 1 1 1 1 1)
      (some ⟨Double.ofList [0.5]⟩) (some ⟨Double.ofList []⟩) = true ∧
    IEEE.MatchTracks (IEEE.SetParameter IEEE.defaultMerger 1 1 1 1 1)
      (some ⟨Double.ofList [1.5]⟩) (some ⟨Double.ofList []⟩) = false :=
  ⟨(MatchTracks_five_tests.2.1 IEEE.defaultMerger ⟨Double.ofList [0.5]⟩ ⟨Double.ofList []⟩
      (Double.ofList_singleton_succ _)).1 (by decide!),
    (MatchTracks_five_tests.2.1 IEEE.defaultMerger ⟨Double.ofList [1.5]⟩ ⟨Double.ofList []⟩
      (Double.ofList_singleton_succ _)).2 (by decide!)⟩

/-- Instance of C10 as amended, in machine arithmetic: the default gate accepts a
track matched against itself, accepts a track whose `Y` is a NaN against a track with
`Y = 5`, and rejects the tracks with `Y = 5` and `Y = 6`. -/
theorem MatchTracks_default_gate_witness :
    IEEE.MatchTracks IEEE.defaultMerger (some ⟨Double.ofList [5]⟩) (some ⟨Double.ofList [5]⟩)
      = true ∧
    IEEE.MatchTracks IEEE.defaultMerger (some ⟨Double.ofList [Double.nan]⟩)
      (some ⟨Double.ofList [5]⟩) = true ∧
    IEEE.MatchTracks IEEE.defaultMerger (some ⟨Double.ofList [5]⟩) (some ⟨Double.ofList [6]⟩)
      = false := by
  refine ⟨(MatchTracks_default_gate.1 _ _).mpr ⟨_, _, rfl, rfl, fun k hk => ?_⟩,
    (MatchTracks_default_gate.1 _ _).mpr ⟨_, _, rfl, rfl, fun k hk => ?_⟩, ?_⟩
  · interval_cases k <;> exact Or.inr (Or.inr (by decide!))
  · interval_cases k
    · exact Or.inl rfl
    all_goals exact Or.inr (Or.inr (by decide!))
  · cases h : IEEE.MatchTracks IEEE.defaultMerger (some ⟨Double.ofList [5]⟩)
      (some ⟨Double.ofList [6]⟩)
    · rfl
    · obtain ⟨ta, tb, h1, h2, hk⟩ := (MatchTracks_default_gate.1 _ _).mp h
      cases h1; cases h2
      have h0 := hk 0 (by decide)
      exact absurd h0 (by decide!)

/-- With fuel `n` or more, `Double.ilog2` is the integer binary logarithm: together with
`Double.ilog2_le`, `2^k ≤ n < 2^(k+1)`. -/
theorem Double.ilog2_lt : ∀ (fuel n : Nat), n ≤ fuel → n < 2 ^ (Double.ilog2 fuel n + 1) := by
  intro fuel
  induction fuel with
  | zero => intro n hn; simp [Double.ilog2]; omega
  | succ f ih =>
    intro n hn
    unfold Double.ilog2
    by_cases h : n < 2
    · rw [if_pos h]; simpa using h
    · rw [if_neg h]
      by_cases h64 : n < 2 ^ 64
      · rw [if_pos h64, pow_succ]
        have h1 := ih (n / 2) (by omega)
        omega
      · rw [if_neg h64]
        have hle : n / 2 ^ 64 ≤ f := by
          have : n / 2 ^ 64 ≤ n / 2 := Nat.div_le_div_left (by norm_num) (by norm_num)
          omega
        have h1 := ih (n / 2 ^ 64) hle
        have h2 : n < (n / 2 ^ 64 + 1) * 2 ^ 64 := by
          have := Nat.div_add_mod n (2 ^ 64)
          have := Nat.mod_lt n (Nat.two_pow_pos 64)
          nlinarith
        calc n < (n / 2 ^ 64 + 1) * 2 ^ 64 := h2
          _ ≤ 2 ^ (Double.ilog2 f (n / 2 ^ 64) + 1) * 2 ^ 64 := Nat.mul_le_mul_right _ h1
          _ = 2 ^ (Double.ilog2 f (n / 2 ^ 64) + 64 + 1) := by
            rw [← pow_add]

/-- The bisection keeps `r^2 ≤ y < (r + 2^b)^2` and ends with the integer part of the
root. -/
theorem Double.isqrtAux_spec (y : Nat) : ∀ (b r : Nat), r * r ≤ y →
    y < (r + 2 ^ b) * (r + 2 ^ b) →
    Double.isqrtAux y b r * Double.isqrtAux y b r ≤ y ∧
      y < (Double.isqrtAux y b r + 1) * (Double.isqrtAux y b r + 1) := by
  intro b
  induction b with
  | zero => intro r h1 h2; exact ⟨h1, by simpa using h2⟩
  | succ b ih =>
    intro r h1 h2
    unfold Double.isqrtAux
    by_cases h : (r + 2 ^ b) * (r + 2 ^ b) ≤ y
    · rw [if_pos h]
      refine ih _ h ?_
      have e : r + 2 ^ b + 2 ^ b = r + 2 ^ (b + 1) := by rw [pow_succ]; omega
      rw [e]
      exact h2
    · rw [if_neg h]
      exact ih r h1 (by omega)

/-- The number `Double.isqrt y` is the integer part of the square root of `y`. -/
theorem Double.isqrt_spec (y : Nat) :
    Double.isqrt y * Double.isqrt y ≤ y ∧ y < (Double.isqrt y + 1) * (Double.isqrt y + 1) := by
  unfold Double.isqrt
  dsimp only
  split_ifs with h
  · exact h
  · refine Double.isqrtAux_spec y _ 0 (Nat.zero_le _) ?_
    have h1 := Double.ilog2_lt y y (le_refl _)
    have h2 : 2 ^ (Double.ilog2 y y + 1) ≤ 2 ^ (Double.ilog2 y y / 2 + 1 + (Double.ilog2 y y / 2 + 1)) :=
      Nat.pow_le_pow_right (by norm_num) (by omega)
    have h3 : 2 ^ (Double.ilog2 y y / 2 + 1 + (Double.ilog2 y y / 2 + 1))
        = 2 ^ (Double.ilog2 y y / 2 + 1) * 2 ^ (Double.ilog2 y y / 2 + 1) := pow_add _ _ _
    rw [Nat.zero_add, ← h3]
    exact lt_of_lt_of_le h1 h2

end AliHLTGlobalTrackMerger
